import Mathlib

/-!
# Analytics enclave: shallow embedding

Embedding of `task-enclaves/src/analytics_enclave`: the record types of
`Entities.h`, the merge of H into S, Module C and Module D of
`FullAnalysis.cpp`, the generator of `Xoroshiro.h`, the persistent state
machine of `Enclave.cpp`, the indicators of `Indicators.h` with the
destructor of the class Indicators, `squash` of `StreamAdditions.h` and
`decrypt_pseudonym` of `Pseudonymisation.cpp`, followed by the properties
proved about them.

Conventions.
* Machine integers are natural numbers; where the source relies on unsigned
  wrap-around the reduction modulo `2 ^ 32` or `2 ^ 64` is written out.
* `float` is kept abstract: the record types are parametric in the value type
  `F`, whose operations come from the classes `FloatOps` and `FloatArith`.
  `double` is a type `D`; where the source calculates with it, `D` is an
  ordered field and the arithmetic is exact.
* A C++ exception is a value of `Exception`; a function that can throw returns
  `Except Exception _`.  A precondition that the source only asserts is an
  `Option` (`none` when the assertion would fail).
* The stream combinators `sort`, `groupBy`, `flatMap`, `smap` and `outerJoin`
  belong to the Sharemind HI library and are not part of the repository; they
  are modelled from their contract in section 4.D of the specification.  The
  variants `flatMap_st` and `smap_st` thread the variable that a lambda
  captures.
* `std::unordered_map` is an association list, `std::bitset` is the natural
  number with these binary digits.
* The text that the indicators append to the application log is a list of
  pieces, `LogItem`: the decimal representation of an indicator count is kept
  as the number, everything else as its string.  The constant
  `indicators_k_anonymity`, which depends on the build type, and the library
  call `snprintf` are parameters.
* The functions of the SGX SDK that `decrypt_pseudonym` calls are the fields
  of the record `SgxCrypto`; the collaborators of the state machine are the
  fields of the record `Env`.
-/

namespace Eurostat

/-! ## Entities.h -/

/-- TileIndex of `Entities.h`: two `uint16_t` coordinates. -/
structure TileIndex where
  easting : Fin 65536
  northing : Fin 65536
deriving DecidableEq, Repr

/-- The operator `<` of TileIndex, `CMP_FUN(<, TileIndex, e.easting, e.northing)`:
the comparison of the tuples `(easting, northing)`. -/
def TileIndex.lt (left right : TileIndex) : Bool :=
  decide (left.easting < right.easting)
    || (!decide (right.easting < left.easting) && decide (left.northing < right.northing))

/-- Constant `hash_bytes` of `Parameters.h`. -/
abbrev hash_bytes : Nat := 12

/-- UserIdentifier is `std::array<uint8_t, hash_bytes>`. -/
abbrev UserIdentifier : Type := { l : List (Fin 256) // l.length = hash_bytes }

/-- FootprintKey of `Entities.h`; the struct has no padding (static assertion). -/
structure FootprintKey where
  id : UserIdentifier
  tile : TileIndex
deriving DecidableEq

/-- The two bytes of a `uint16_t` in memory (the enclave runs on x86-64, which
is little-endian). -/
def uint16_bytes (x : Fin 65536) : List Nat := [x.val % 256, x.val / 256]

/-- The 16 bytes of a FootprintKey in memory: the identifier, then the tile. -/
def FootprintKey.bytes (k : FootprintKey) : List Nat :=
  k.id.val.map Fin.val ++ (uint16_bytes k.tile.easting ++ uint16_bytes k.tile.northing)

/-- The library function `memcmp` on two buffers of the same length: the sign
of the first difference, `0` when there is none. -/
def memcmp : List Nat → List Nat → Int
  | a :: as, b :: bs => if a < b then -1 else if b < a then 1 else memcmp as bs
  | _, _ => 0

/-- The operator `<` of FootprintKey:
`std::memcmp(&a, &b, sizeof(FootprintKey)) < 0`. -/
def FootprintKey.lt (a b : FootprintKey) : Bool :=
  decide (memcmp a.bytes b.bytes < 0)

/-- The operations of `float` that the pipeline uses. -/
class FloatOps (F : Type) where
  /-- The literal `0`. -/
  zero : F
  /-- Addition, `a + b`. -/
  add : F → F → F
  /-- Comparison, `a < b`. -/
  lt : F → F → Bool
  /-- The library function `std::isfinite`. -/
  isfinite : F → Bool

/-- IColumn is `std::array<float, num_subperiods>` with `num_subperiods = 4`. -/
structure IColumn (F : Type) where
  v0 : F
  v1 : F
  v2 : F
  v3 : F
deriving DecidableEq, Repr

/-- The elements of an IColumn in index order. -/
def IColumn.toList {F : Type} (c : IColumn F) : List F := [c.v0, c.v1, c.v2, c.v3]

/-- A loop `for i: result[i] = f(result[i], other[i])` over the four indices. -/
def IColumn.zipWith {F : Type} (f : F → F → F) (a b : IColumn F) : IColumn F :=
  ⟨f a.v0 b.v0, f a.v1 b.v1, f a.v2 b.v2, f a.v3 b.v3⟩

/-- The column of four zeros. -/
def IColumn.zero {F : Type} [FloatOps F] : IColumn F :=
  ⟨FloatOps.zero, FloatOps.zero, FloatOps.zero, FloatOps.zero⟩

/-- UserFootprintUpdates of `Entities.h`, the type `H` of the pipeline. -/
structure UserFootprintUpdates (F : Type) where
  key : FootprintKey
  i_column : IColumn F
deriving DecidableEq

/-- AccumulatedUserFootprint of `Entities.h`, the type `S` of the pipeline. -/
structure AccumulatedUserFootprint (F : Type) where
  key : FootprintKey
  i_column : IColumn F
deriving DecidableEq

/-! ## Stream combinators (Sharemind HI library) -/

/-- Modelled from the spec: the combinator `sort(cmp, run_bytes)` of the stream
library, which is not in the repository. It yields the input ordered by the
strict comparison `cmp`; the run size does not affect the result. -/
def sort {α : Type} (cmp : α → α → Bool) (xs : List α) : List α :=
  List.insertionSort (fun a b => cmp b a = false) xs

/-- Modelled from the spec: the combinator `groupBy(eq)` of the stream library,
which is not in the repository. It gathers every maximal run of consecutive
elements related by `eq` into one vector. -/
def groupBy {α : Type} (eq : α → α → Bool) : List α → List (List α)
  | [] => []
  | a :: as =>
    match groupBy eq as with
    | (b :: g) :: gs => if eq a b then (a :: b :: g) :: gs else [a] :: (b :: g) :: gs
    | _ => [[a]]

/-- Modelled from the spec: the combinator `flatMap(f)` of the stream library,
which is not in the repository. The outputs that `f` appends for the successive
inputs are concatenated; `none` when an assertion inside `f` fails. -/
def flatMap {α β : Type} (f : α → Option (List β)) : List α → Option (List β)
  | [] => some []
  | a :: as =>
    match f a, flatMap f as with
    | some bs, some rest => some (bs ++ rest)
    | _, _ => none

/-- Modelled from the spec: the combinator `smap(f)` of the stream library,
which is not in the repository. It applies `f` to every element; `none` when an
assertion inside `f` fails. -/
def smap {α β : Type} (f : α → Option β) : List α → Option (List β)
  | [] => some []
  | a :: as =>
    match f a, smap f as with
    | some b, some rest => some (b :: rest)
    | _, _ => none

/-- The recursion behind `outerJoin`; the first argument bounds the number of
emitted pairs and is never exhausted when it is at least the total number of
input records. -/
def outerJoinAux {L R K : Type} (lt : K → K → Bool) (keyL : L → K) (keyR : R → K) :
    Nat → List L → List R → List (List L × List R)
  | 0, _, _ => []
  | _ + 1, [], [] => []
  | n + 1, l :: ls, [] =>
    (l :: ls.takeWhile (fun x => !lt (keyL l) (keyL x) && !lt (keyL x) (keyL l)), [])
      :: outerJoinAux lt keyL keyR n
          (ls.dropWhile (fun x => !lt (keyL l) (keyL x) && !lt (keyL x) (keyL l))) []
  | n + 1, [], r :: rs =>
    ([], r :: rs.takeWhile (fun x => !lt (keyR r) (keyR x) && !lt (keyR x) (keyR r)))
      :: outerJoinAux lt keyL keyR n []
          (rs.dropWhile (fun x => !lt (keyR r) (keyR x) && !lt (keyR x) (keyR r)))
  | n + 1, l :: ls, r :: rs =>
    if lt (keyL l) (keyR r) then
      (l :: ls.takeWhile (fun x => !lt (keyL l) (keyL x) && !lt (keyL x) (keyL l)), [])
        :: outerJoinAux lt keyL keyR n
            (ls.dropWhile (fun x => !lt (keyL l) (keyL x) && !lt (keyL x) (keyL l))) (r :: rs)
    else if lt (keyR r) (keyL l) then
      ([], r :: rs.takeWhile (fun x => !lt (keyR r) (keyR x) && !lt (keyR x) (keyR r)))
        :: outerJoinAux lt keyL keyR n (l :: ls)
            (rs.dropWhile (fun x => !lt (keyR r) (keyR x) && !lt (keyR x) (keyR r)))
    else
      (l :: ls.takeWhile (fun x => !lt (keyL l) (keyL x) && !lt (keyL x) (keyL l)),
       r :: rs.takeWhile (fun x => !lt (keyR r) (keyR x) && !lt (keyR x) (keyR r)))
        :: outerJoinAux lt keyL keyR n
            (ls.dropWhile (fun x => !lt (keyL l) (keyL x) && !lt (keyL x) (keyL l)))
            (rs.dropWhile (fun x => !lt (keyR r) (keyR x) && !lt (keyR x) (keyR r)))

/-- Modelled from the spec: the combinator `outerJoin(left, right, keyL, keyR)`
of the stream library, which is not in the repository. Both inputs are read in
step; for each distinct key, in ascending order of the key type's `<`, it emits
the pair of the vector of left records and the vector of right records that
carry this key. -/
def outerJoin {L R K : Type} (lt : K → K → Bool) (left : List L) (right : List R)
    (keyL : L → K) (keyR : R → K) : List (List L × List R) :=
  outerJoinAux lt keyL keyR (left.length + right.length) left right

/-! ## FullAnalysis.cpp: Module B and the merge of H into S -/

section Merge

variable {F : Type} [FloatOps F]

/-- The library function `std::max(a, b)`: `(a < b) ? b : a`. -/
def fmax (a b : F) : F := if FloatOps.lt a b then b else a

/-- The loop of the cleaning filter over the values of one record, with the
flag `positive_found`. -/
def filter_loop : List F → Bool → Bool
  | [], positive_found => positive_found
  | value :: rest, positive_found =>
    if !FloatOps.isfinite value then false
    else if FloatOps.lt value FloatOps.zero then false
    else if FloatOps.lt FloatOps.zero value then filter_loop rest true
    else filter_loop rest positive_found

/-- The predicate of the `filter` stage of `run`. -/
def h_filter (e : UserFootprintUpdates F) : Bool :=
  filter_loop e.i_column.toList false

/-- The body of the `flatMap` stage that removes duplicate H records: the
first record of the group, with every value replaced by the maximum over the
group. The source asserts that the group is not empty. -/
def dedup_flatMap : List (UserFootprintUpdates F) → Option (List (UserFootprintUpdates F))
  | [] => none
  | [front] => some [front]
  | front :: rest =>
    some [(front :: rest).foldl
      (fun result e => { result with i_column := IColumn.zipWith fmax result.i_column e.i_column })
      front]

/-- The stream `sorted_h_file` of `run`, from the H records that the
de-pseudonymising `smap` produced. -/
def sorted_h_file (h_file : List (UserFootprintUpdates F)) : List (UserFootprintUpdates F) :=
  sort (fun left right => FootprintKey.lt left.key right.key) h_file

/-- The stream `cleaned_deduped_sorted_h_file` of `run`. -/
def cleaned_deduped_sorted_h_file (h_file : List (UserFootprintUpdates F)) :
    Option (List (UserFootprintUpdates F)) :=
  flatMap dedup_flatMap
    (groupBy (fun left right => left.key == right.key)
      ((sorted_h_file h_file).filter h_filter))

/-- The body of the `smap` stage after `outerJoin`. The source asserts that
both vectors have at most one element and reads `front()` of a vector that the
join left non-empty. -/
def merge_smap : List (UserFootprintUpdates F) × List (AccumulatedUserFootprint F) →
    Option (AccumulatedUserFootprint F)
  | ([], [s]) => some s
  | ([h], []) => some ⟨h.key, h.i_column⟩
  | ([h], [s]) => some { s with i_column := IColumn.zipWith FloatOps.add s.i_column h.i_column }
  | _ => none

/-- The stream `updated_s` of `run`: the new S. In a state update it is
written to the S file as it is. -/
def updated_s (h_file : List (UserFootprintUpdates F))
    (s_file_in : List (AccumulatedUserFootprint F)) :
    Option (List (AccumulatedUserFootprint F)) :=
  match cleaned_deduped_sorted_h_file h_file with
  | none => none
  | some h =>
    smap merge_smap
      (outerJoin FootprintKey.lt h s_file_in (fun e => e.key) (fun e => e.key))

end Merge

/-- The values of the record of an H stream that carries the key, if any. -/
def h_find {F : Type} (h : List (UserFootprintUpdates F)) (k : FootprintKey) :
    Option (IColumn F) :=
  (h.find? (fun e => e.key = k)).map (fun e => e.i_column)

/-- The values of the record of an S stream that carries the key, if any. -/
def s_find {F : Type} (s : List (AccumulatedUserFootprint F)) (k : FootprintKey) :
    Option (IColumn F) :=
  (s.find? (fun e => e.key = k)).map (fun e => e.i_column)

/-- The values that the H stream contributes to a key: the values of its
record with this key, zero when it has none. -/
def h_contribution {F : Type} [FloatOps F] (h : List (UserFootprintUpdates F))
    (k : FootprintKey) : IColumn F :=
  (h_find h k).getD IColumn.zero

/-- The values that the old S stream contributes to a key: the values of its
record with this key, zero when it has none. -/
def s_contribution {F : Type} [FloatOps F] (s : List (AccumulatedUserFootprint F))
    (k : FootprintKey) : IColumn F :=
  (s_find s k).getD IColumn.zero

/-- The values of the merged record for a key from what the old S and H hold
for it: the sum when both hold a record, the record's values when one does. -/
def merged_values {F : Type} [FloatOps F] : Option (IColumn F) → Option (IColumn F) → IColumn F
  | some s, some h => IColumn.zipWith FloatOps.add s h
  | some s, none => s
  | none, some h => h
  | none, none => IColumn.zero

/-- Invariant I-S1 of an S stream: the keys increase strictly under the
operator `<` of FootprintKey, so the stream is sorted and every key is unique. -/
def s_invariant {F : Type} (s : List (AccumulatedUserFootprint F)) : Prop :=
  s.Pairwise (fun a b => FootprintKey.lt a.key b.key = true)

/-- The relation between a merged stream and its two inputs: no key is
invented, the keys increase strictly, and every key of an input is present
with the merged values. -/
structure MergeResult {F : Type} [FloatOps F] (lt : FootprintKey → FootprintKey → Bool)
    (ls : List (UserFootprintUpdates F)) (rs out : List (AccumulatedUserFootprint F)) :
    Prop where
  sub : ∀ r ∈ out, r.key ∈ ls.map (fun e => e.key) ∨ r.key ∈ rs.map (fun e => e.key)
  sorted : out.Pairwise (fun a b => lt a.key b.key = true)
  sup : ∀ k, (k ∈ ls.map (fun e => e.key) ∨ k ∈ rs.map (fun e => e.key)) →
    ∃ r ∈ out, r.key = k ∧ r.i_column = merged_values (s_find rs k) (h_find ls k)

/-- The laws of a strict total order for a Boolean comparison. -/
structure StrictTotalLt {K : Type} (lt : K → K → Bool) : Prop where
  irrefl : ∀ a, lt a a = false
  trans : ∀ a b c, lt a b = true → lt b c = true → lt a c = true
  tri : ∀ a b, lt a b = false → lt b a = false → a = b

/-- Exact integer arithmetic as an instance of the value operations; it serves
to evaluate the pipeline on concrete records. Every integer is finite. -/
instance intFloatOps : FloatOps Int where
  zero := 0
  add := fun a b => a + b
  lt := fun a b => decide (a < b)
  isfinite := fun _ => true

/-- A user identifier whose last byte is given and whose other bytes are 0. -/
def user_id (b : Fin 256) : UserIdentifier := ⟨[0, 0, 0, 0, 0, 0, 0, 0, 0, 0, 0, b], rfl⟩

/-- An H record over the integers. -/
def h_record (u : Fin 256) (e n : Fin 65536) (a b c d : Int) : UserFootprintUpdates Int :=
  ⟨⟨user_id u, ⟨e, n⟩⟩, ⟨a, b, c, d⟩⟩

/-- An S record over the integers. -/
def s_record (u : Fin 256) (e n : Fin 65536) (a b c d : Int) : AccumulatedUserFootprint Int :=
  ⟨⟨user_id u, ⟨e, n⟩⟩, ⟨a, b, c, d⟩⟩

/-! ## Enclave.cpp: the persistent state machine -/

/-- An exception that leaves `Enclave.cpp`. `InvalidRequest` and
`EnclaveException` are the classes of these names, `out_of_range` is
`std::out_of_range`; each carries the string given to its constructor.
`external` is any exception raised inside a callee that is not part of
`Enclave.cpp` (file access, the SGX SDK, `std::stoul`, `full_analysis::run`),
with its message. -/
inductive Exception where
  | InvalidRequest (what : String)
  | EnclaveException (what : String)
  | out_of_range (what : String)
  | external (what : String)
deriving DecidableEq, Repr

/-- The message `what()` of an exception. The constructor of InvalidRequest
passes `":AE01: " + what` to its base class. -/
def Exception.message : Exception → String
  | .InvalidRequest what => ":AE01: " ++ what
  | .EnclaveException what => what
  | .out_of_range what => what
  | .external what => what

/-- The result of a callee outside `Enclave.cpp`: a value, or the message of
the exception it raised. -/
def external {α : Type} : Except String α → Except Exception α
  | .ok a => .ok a
  | .error what => .error (.external what)

/-- The largest value of Period, which is `uint32_t`. -/
def Period_max : Nat := 4294967295

/-- ReferenceArea of `Entities.h`; `id` is a `uint8_t`. -/
structure ReferenceArea where
  id : Fin 256
  tile_index : TileIndex
deriving DecidableEq, Repr

/-- Constant `ReferenceArea::MAX_REFERENCE_AREAS`, the width of the bitset
`QuantisedFootprint::reference_area_indices`. -/
def MAX_REFERENCE_AREAS : Nat := 128

/-- Constant `MAX_ELEMENTS_PER_NSI_REPORT_REQUEST` of ReferenceArea and of
CensusResident. -/
def MAX_ELEMENTS_PER_NSI_REPORT_REQUEST : Nat := 1000000

/-- CensusResident of `Entities.h`; `value` is the bit pattern of the `double`,
which the state machine only stores. -/
structure CensusResident where
  index : TileIndex
  value : Nat
deriving DecidableEq, Repr

/-- ReferenceAreas is `std::vector<std::unordered_set<TileIndex>>`; a set is
represented by the list of its elements. -/
abbrev ReferenceAreas : Type := List (List TileIndex)

/-- The member `emplace` of `std::unordered_set`: the element is added unless
it is present. -/
def emplace (s : List TileIndex) (t : TileIndex) : List TileIndex :=
  if t ∈ s then s else s ++ [t]

/-- ReportRequest of `Enclave.cpp`. The two arrays have
`MAX_ELEMENTS_PER_NSI_REPORT_REQUEST` elements each; the list holds the leading
elements and every element after them is zero. -/
structure ReportRequest where
  first_period : Nat
  last_period : Nat
  with_calibration : Nat
  num_of_reference_areas : Nat
  reference_areas : List ReferenceArea
  num_of_census_residents : Nat
  census_residents : List CensusResident
deriving DecidableEq, Repr

/-- The range `PRANGE(array.begin(), len)`: the first `len` elements of an
array whose leading elements are `array` and whose other elements are `zero`. -/
def PRANGE {α : Type} (array : List α) (len : Nat) (zero : α) : List α :=
  (List.range len).map (fun i => array.getD i zero)

/-- The zero-initialised ReportRequest. -/
def ReportRequest.zero : ReportRequest := ⟨0, 0, 0, 0, [], 0, []⟩

/-- The enumeration `State::STATE_MACHINE`. -/
inductive STATE_MACHINE where
  | AWAITING_NEW_NSI_REPORT_REQUESTS
  | AWAITING_NEW_H_FILES
deriving DecidableEq, Repr

/-- The member `State::AwaitingNewHFiles` of the union. -/
structure AwaitingNewHFiles where
  report_request : ReportRequest
  next_expected_period : Nat
deriving DecidableEq, Repr

/-- SgxFileKey: the 16 bytes of a file key. -/
abbrev SgxFileKey : Type := List Nat

/-- State of `Enclave.cpp`. The union of the empty `AwaitingNewRequests` and of
`AwaitingNewHFiles` is its larger member: the bytes of `awaiting_new_h_files`
stay in the record also while `state` awaits a request. -/
structure State where
  state : STATE_MACHINE
  awaiting_new_h_files : AwaitingNewHFiles
  last_seen_nsi_inputs_topic_size : Nat
  s_file_key : SgxFileKey
  s_file_name_index : Bool
deriving DecidableEq, Repr

/-- The value-initialised `State{}` that `load_state` returns when there is no
state file. -/
def State.zero : State :=
  ⟨.AWAITING_NEW_NSI_REPORT_REQUESTS, ⟨ReportRequest.zero, 0⟩, 0, List.replicate 16 0, false⟩

/-- The method `State::go_into_request_await_state`; assigning the empty
`AwaitingNewRequests` writes no byte of the union. -/
def State.go_into_request_await_state (s : State) : State :=
  { s with state := .AWAITING_NEW_NSI_REPORT_REQUESTS, s_file_name_index := false }

/-- The method `State::go_into_h_processing_state`. -/
def State.go_into_h_processing_state (s : State) (report_request : ReportRequest) : State :=
  { s with
    state := .AWAITING_NEW_H_FILES
    awaiting_new_h_files := ⟨report_request, report_request.first_period⟩
    s_file_name_index := false }

/-- PeriodicPseudonymisationKey, declared in a header of the key enclave that
is not among the sources: a period and the 16 bytes of its key. -/
structure PeriodicPseudonymisationKey where
  period : Nat
  pseudonymisation_key : List Nat
deriving DecidableEq, Repr

/-- One entry of a topic, by what `read_scalar_from_input` finds in it: data of
the size of a ReportRequest with its decoding, data of the size of a
PeriodicPseudonymisationKey with its decoding, or data of another size. -/
inductive EnclaveDataInfo where
  | report_request (r : ReportRequest)
  | periodic_key (k : PeriodicPseudonymisationKey)
  | other (size : Nat)
deriving DecidableEq, Repr

/-- A topic of the task inputs: its name and its entries in upload order. -/
structure Topic where
  name : String
  data : List EnclaveDataInfo
deriving DecidableEq, Repr

/-- TaskInputs of the Sharemind HI library: the topics and the argument map of
the invocation as a list of (name, value) pairs. -/
structure TaskInputs where
  inputs : List Topic
  arguments : List (String × String)
deriving DecidableEq, Repr

/-- The member `TaskInputs::argument`: the value of the argument of this name,
if it was supplied. -/
def TaskInputs.argument (inputs : TaskInputs) (name : String) : Option String :=
  inputs.arguments.lookup name

/-- Names of `Parameters.h`: the topic `input_names::nsi_input`. -/
def input_names.nsi_input : String := "nsi_input"

/-- Names of `Parameters.h`: the topic `input_names::periodic_pseudonymisation_key`. -/
def input_names.periodic_pseudonymisation_key : String := "periodic_pseudonymisation_key"

/-- Names of `Parameters.h`: the argument `arguments::cancel`. -/
def arguments.cancel : String := "cancel"

/-- Names of `Parameters.h`: the argument `arguments::finish_report`. -/
def arguments.finish_report : String := "finish-report"

/-- Names of `Parameters.h`: the argument `arguments::file`. -/
def arguments.file : String := "file"

/-- Names of `Parameters.h`: the argument `arguments::period`. -/
def arguments.period : String := "period"

/-- The function `find_topic`. -/
def find_topic (inputs : TaskInputs) (name : String) : Except Exception (List EnclaveDataInfo) :=
  match inputs.inputs.find? (fun topic => topic.name == name) with
  | some topic => .ok topic.data
  | none => .error (.EnclaveException ("Input <" ++ name ++ "> not found"))

/-- The function `read_scalar_from_input<ReportRequest>`. -/
def read_report_request (data : EnclaveDataInfo) (input_name : String) :
    Except Exception ReportRequest :=
  match data with
  | .report_request r => .ok r
  | _ => .error (.EnclaveException ("Input <" ++ input_name ++ "> has invalid size."))

/-- The function `read_scalar_from_input<PeriodicPseudonymisationKey>`. -/
def read_periodic_key (data : EnclaveDataInfo) (input_name : String) :
    Except Exception PeriodicPseudonymisationKey :=
  match data with
  | .periodic_key k => .ok k
  | _ => .error (.EnclaveException ("Input <" ++ input_name ++ "> has invalid size."))

/-- The loop of `deserialize` for reference areas, from the areas built so
far. -/
def deserialize_loop : ReferenceAreas → List ReferenceArea → Except Exception ReferenceAreas
  | result, [] => .ok result
  | result, cur :: rest =>
    if cur.id.val > result.length ∨ result.length - cur.id.val > 1 then
      .error (.EnclaveException "The reference area indices are invalid.")
    else if cur.id.val = result.length then
      deserialize_loop (result ++ [[cur.tile_index]]) rest
    else
      deserialize_loop
        (result.set (result.length - 1)
          (emplace (result.getD (result.length - 1) []) cur.tile_index))
        rest

/-- The function `deserialize(ReferenceArea const *, ReferenceArea const *)`. -/
def deserialize (range : List ReferenceArea) : Except Exception ReferenceAreas :=
  deserialize_loop [] range

/-- The function `deserialize(CensusResident const *, CensusResident const *)`:
the map keeps the first value given for a tile. -/
def deserialize_census : List (TileIndex × Nat) → List CensusResident → List (TileIndex × Nat)
  | result, [] => result
  | result, cur :: rest =>
    if result.any (fun kv => kv.1 = cur.index) then deserialize_census result rest
    else deserialize_census (result ++ [(cur.index, cur.value)]) rest

/-- The enumeration `full_analysis::Perform`. -/
inductive Perform where
  | OnlyStateUpdate
  | FullAnalysis
deriving DecidableEq, Repr

/-- The arguments with which the state machine calls `full_analysis::run`. -/
structure RunArguments where
  h_file : String
  s_file_in : String
  s_file_in_key : SgxFileKey
  s_file_out : String
  s_file_out_key : SgxFileKey
  pseudonymisation_key : List Nat
  what_to_do : Perform
  reference_areas : ReferenceAreas
  residents : List (TileIndex × Nat)
  with_calibration : Bool
deriving DecidableEq, Repr

/-- TaskOutputs of the Sharemind HI library: the emitted (topic, data) pairs. -/
abbrev TaskOutputs : Type := List (String × String)

/-- What `full_analysis::run` leaves behind when it returns: the text appended
to the application log and the outputs it has put. -/
structure RunEffect where
  application_log : String
  outputs : TaskOutputs
deriving DecidableEq, Repr

/-- The collaborators of the state machine outside `Enclave.cpp`. A field of
type `Except String _` is a callee that can raise an exception. -/
structure Env where
  /-- The global `persistent_path` that `init` sets. -/
  persistent_path : String
  /-- The content of the file at a path, read through `File`. -/
  read_file : String → Except String String
  /-- The library function `std::stoul`. -/
  stoul : String → Except String Nat
  /-- The call `SgxEncryptedFile::create_empty_if_not_exists`. -/
  create_empty_if_not_exists : String → SgxFileKey → Except String Unit
  /-- The call `sgx_read_rand` for a new S file key, checked by `throwOnError`. -/
  sgx_read_rand : Except String SgxFileKey
  /-- The clock `enclave_untrusted_steady_clock_millis` before the analysis. -/
  start_time : Nat
  /-- The clock `enclave_untrusted_steady_clock_millis` after the analysis. -/
  end_time : Nat
  /-- Creating the empty dummy H file; the error is the value of `errno`. -/
  create_dummy_h_file : String → Except Nat Unit
  /-- The number of records of the H file at a path (constructor of HFileSource). -/
  h_file_source : String → Except String Nat
  /-- The number of records of the S file at a path under a key (constructor of
  SFileSource). -/
  s_file_source : String → SgxFileKey → Except String Nat
  /-- The function `full_analysis::run`. -/
  full_analysis_run : RunArguments → Except String RunEffect

/-- The reference parameters that the `process_*` functions update, with the
state they return. -/
structure Result where
  state : State
  outputs : TaskOutputs
  old_s_files_to_delete : List String
  application_log : String
deriving DecidableEq, Repr

/-- The function `s_file_path`. -/
def s_file_path (env : Env) (index : Bool) : String :=
  env.persistent_path ++ "s_file" ++ (if index then "1" else "0")

/-- The function `read_h_metadata_file`. -/
def read_h_metadata_file (env : Env) (h_file_path : String) (application_log : String) :
    Except Exception String :=
  match external (env.read_file (h_file_path ++ ".meta")) with
  | .error e => .error e
  | .ok metadata => .ok (application_log ++ "\nH metadata:\n" ++ metadata ++ "\n")

/-- The function `log_request_arguments`. -/
def log_request_arguments (report_request : ReportRequest) (application_log : String) : String :=
  application_log ++ "With calibration: "
    ++ (if report_request.with_calibration ≠ 0 then "true\n" else "false\n")
    ++ "First period: " ++ toString report_request.first_period
    ++ ", last period: " ++ toString report_request.last_period ++ "\n"

/-- The function `log_skipped_periods`; the loop variable is a `uint64_t`. -/
def log_skipped_periods (first_skipped_inclusive last_skipped_exclusive : Nat)
    (application_log : String) : String :=
  (List.range' first_skipped_inclusive (last_skipped_exclusive - first_skipped_inclusive)).foldl
    (fun log skipped => log ++ "Skipped period " ++ toString skipped ++ "\n") application_log

/-- The text about the run time that `process_h_file` and
`process_manually_finish_report` append to the log. -/
def log_runtime (start_time end_time : Nat) (application_log : String) : String :=
  application_log ++ "\nRuntime of enclave (not trustworthy): "
    ++ (if start_time > end_time then "-" ++ toString ((start_time - end_time) / 1000)
        else toString ((end_time - start_time) / 1000))
    ++ "s\n"

/-- The checks that the digestion loop applies to one entry of the NSI topic
inside its `try` block. -/
def look_at_report_request (data : EnclaveDataInfo) : Except Exception ReportRequest :=
  match read_report_request data input_names.nsi_input with
  | .error e => .error e
  | .ok report_request =>
    if ¬ (report_request.first_period ≤ report_request.last_period) then
      .error (.EnclaveException
        ("Requested period is invalid, because the first period <"
          ++ toString report_request.first_period ++ "> is larger than the last period <"
          ++ toString report_request.last_period ++ ">"))
    else if ¬ (report_request.num_of_census_residents ≤ MAX_ELEMENTS_PER_NSI_REPORT_REQUEST) then
      .error (.EnclaveException
        ("Number of census residents <" ++ toString report_request.num_of_census_residents
          ++ "> is larger than allowed <" ++ toString MAX_ELEMENTS_PER_NSI_REPORT_REQUEST ++ ">"))
    else if ¬ (report_request.num_of_reference_areas ≤ MAX_ELEMENTS_PER_NSI_REPORT_REQUEST) then
      .error (.EnclaveException
        ("Number of reference areas <" ++ toString report_request.num_of_reference_areas
          ++ "> is larger than allowed <" ++ toString MAX_ELEMENTS_PER_NSI_REPORT_REQUEST ++ ">"))
    else
      match deserialize (PRANGE report_request.reference_areas
          report_request.num_of_reference_areas ⟨0, ⟨0, 0⟩⟩) with
      | .error e => .error e
      | .ok _ => .ok report_request

/-- The `for` loop of `process_nsi_report_request_digestion` from data id `id`
over the entries not yet looked at: the request it commits (if any), the value
of `id` after the loop and the log. -/
def digestion_loop : Nat → List EnclaveDataInfo → String → Option ReportRequest × Nat × String
  | id, [], application_log => (none, id, application_log)
  | id, data :: rest, application_log =>
    match look_at_report_request data with
    | .ok report_request => (some report_request, id, application_log)
    | .error e =>
      digestion_loop (id + 1) rest
        (application_log ++ "Failed to look at NSI report request with data id " ++ toString id
          ++ ", skipping.\n\tError message: " ++ e.message)

/-- The function `process_nsi_report_request_digestion`; it does not throw. -/
def process_nsi_report_request_digestion (state : State) (inputs : TaskInputs)
    (application_log : String) : State × String :=
  match find_topic inputs input_names.nsi_input with
  | .error _ =>
    (state, application_log ++ "Waited for new NSI request, nothing came, going back to sleep.\n")
  | .ok nsi_input =>
    if ¬ (state.last_seen_nsi_inputs_topic_size < nsi_input.length) then
      (state,
        application_log ++ "Waited for new NSI request, nothing came, going back to sleep.\n")
    else
      match digestion_loop state.last_seen_nsi_inputs_topic_size
          (nsi_input.drop state.last_seen_nsi_inputs_topic_size) application_log with
      | (none, _, log) =>
        ({ state with last_seen_nsi_inputs_topic_size := nsi_input.length },
          log ++ "No new valid NSI request found.\n")
      | (some report_request, id, log) =>
        ({ state.go_into_h_processing_state report_request with
            last_seen_nsi_inputs_topic_size := id + 1 },
          log_request_arguments report_request (log ++ "New NSI request arrived.\n"))

/-- The search of `process_h_file` through the key topic for the key of the
given period. -/
def find_periodic_key (given_period : Nat) : List EnclaveDataInfo → Except Exception (List Nat)
  | [] =>
    .error (.EnclaveException
      ("Could not find pseudonymisation key for requested period <"
        ++ toString given_period ++ ">"))
  | data :: rest =>
    match read_periodic_key data input_names.periodic_pseudonymisation_key with
    | .error e => .error e
    | .ok ppk =>
      if ppk.period = given_period then .ok ppk.pseudonymisation_key
      else find_periodic_key given_period rest

/-- The choice of `what_to_do` in `process_h_file`. -/
def select_what_to_do (given_period max_expected_period : Nat) : Perform :=
  if given_period < max_expected_period then .OnlyStateUpdate else .FullAnalysis

/-- The function `process_h_file`. -/
def process_h_file (env : Env) (state : State) (inputs : TaskInputs) (outputs : TaskOutputs)
    (old_s_files_to_delete : List String) (application_log : String) (h_file : String)
    (given_period : Nat) : Except Exception Result := do
  let report_request := state.awaiting_new_h_files.report_request
  let next_expected_period := state.awaiting_new_h_files.next_expected_period
  let max_expected_period := report_request.last_period
  let application_log ← read_h_metadata_file env h_file application_log
  if given_period < next_expected_period ∨ given_period > max_expected_period then
    throw (.InvalidRequest
      ("The received period (" ++ toString given_period
        ++ ") is not within the range of expected periods ( ["
        ++ toString next_expected_period ++ " - " ++ toString max_expected_period ++ "] )"))
  let application_log := log_request_arguments report_request application_log
  let application_log :=
    application_log ++ "Expected next period: " ++ toString next_expected_period ++ "\n"
  let application_log := log_skipped_periods next_expected_period given_period application_log
  let state := { state with awaiting_new_h_files :=
    { state.awaiting_new_h_files with
      next_expected_period := (state.awaiting_new_h_files.next_expected_period + 1) % 2 ^ 32 } }
  let topic ← find_topic inputs input_names.periodic_pseudonymisation_key
  let pseudonymisation_key ← find_periodic_key given_period topic
  let s_file_in_path := s_file_path env state.s_file_name_index
  let s_file_out_path := s_file_path env (!state.s_file_name_index)
  let state := { state with s_file_name_index := !state.s_file_name_index }
  let old_s_files_to_delete := old_s_files_to_delete ++ [s_file_in_path]
  external (env.create_empty_if_not_exists s_file_in_path state.s_file_key)
  let new_s_file_key ← external env.sgx_read_rand
  let what_to_do := select_what_to_do given_period max_expected_period
  let _ ← external (env.h_file_source h_file)
  let _ ← external (env.s_file_source s_file_in_path state.s_file_key)
  let reference_areas ← deserialize (PRANGE report_request.reference_areas
      report_request.num_of_reference_areas ⟨0, ⟨0, 0⟩⟩)
  let residents := deserialize_census [] (PRANGE report_request.census_residents
      report_request.num_of_census_residents ⟨⟨0, 0⟩, 0⟩)
  let effect ← external (env.full_analysis_run
    { h_file := h_file
      s_file_in := s_file_in_path
      s_file_in_key := state.s_file_key
      s_file_out := s_file_out_path
      s_file_out_key := new_s_file_key
      pseudonymisation_key := pseudonymisation_key
      what_to_do := what_to_do
      reference_areas := reference_areas
      residents := residents
      with_calibration := report_request.with_calibration ≠ 0 })
  let state := { state with s_file_key := new_s_file_key }
  let application_log :=
    log_runtime env.start_time env.end_time (application_log ++ effect.application_log)
  let state := if what_to_do = .FullAnalysis then state.go_into_request_await_state else state
  return ⟨state, outputs ++ effect.outputs, old_s_files_to_delete, application_log⟩

/-- The function `process_cancel`. -/
def process_cancel (env : Env) (state : State) (outputs : TaskOutputs)
    (old_s_files_to_delete : List String) (application_log : String) : Result :=
  ⟨state.go_into_request_await_state, outputs,
    old_s_files_to_delete ++ [s_file_path env state.s_file_name_index,
      s_file_path env (!state.s_file_name_index)],
    log_request_arguments state.awaiting_new_h_files.report_request
      (application_log ++ "The report generation process was canceled manually.")⟩

/-- The function `process_manually_finish_report`. -/
def process_manually_finish_report (env : Env) (state : State) (outputs : TaskOutputs)
    (old_s_files_to_delete : List String) (application_log : String) :
    Except Exception Result := do
  let report_request := state.awaiting_new_h_files.report_request
  let next_expected_period := state.awaiting_new_h_files.next_expected_period
  let max_expected_period := report_request.last_period
  let application_log :=
    application_log ++ "The report generation process was started manually."
  let application_log := log_request_arguments report_request application_log
  let application_log :=
    application_log ++ "Expected next period: " ++ toString next_expected_period ++ "\n"
  let application_log :=
    log_skipped_periods next_expected_period (max_expected_period + 1) application_log
  let pseudonymisation_key := List.replicate 16 0
  let h_file := env.persistent_path ++ "dummy_h_file"
  match env.create_dummy_h_file h_file with
  | .error errno =>
    throw (.EnclaveException ("Failed to create a dummy H file, errno: " ++ toString errno))
  | .ok _ => pure ()
  let s_file_in_path := s_file_path env state.s_file_name_index
  let s_file_out_path := s_file_path env (!state.s_file_name_index)
  let state := { state with s_file_name_index := !state.s_file_name_index }
  let old_s_files_to_delete := old_s_files_to_delete ++ [s_file_in_path]
  external (env.create_empty_if_not_exists s_file_in_path state.s_file_key)
  let new_s_file_key ← external env.sgx_read_rand
  let h_records ← external (env.h_file_source h_file)
  let s_records ← external (env.s_file_source s_file_in_path state.s_file_key)
  if ¬ (h_records = 0) then
    throw (.EnclaveException "Data was found in the empty H dummy file")
  if s_records = 0 then
    throw (.EnclaveException
      ("No data was found in the S file (if you want to cancel the "
        ++ "processing, use the <" ++ arguments.cancel ++ "> argument)"))
  let reference_areas ← deserialize (PRANGE report_request.reference_areas
      report_request.num_of_reference_areas ⟨0, ⟨0, 0⟩⟩)
  let residents := deserialize_census [] (PRANGE report_request.census_residents
      report_request.num_of_census_residents ⟨⟨0, 0⟩, 0⟩)
  let effect ← external (env.full_analysis_run
    { h_file := h_file
      s_file_in := s_file_in_path
      s_file_in_key := state.s_file_key
      s_file_out := s_file_out_path
      s_file_out_key := new_s_file_key
      pseudonymisation_key := pseudonymisation_key
      what_to_do := .FullAnalysis
      reference_areas := reference_areas
      residents := residents
      with_calibration := report_request.with_calibration ≠ 0 })
  let application_log :=
    log_runtime env.start_time env.end_time (application_log ++ effect.application_log)
  return ⟨state.go_into_request_await_state, outputs ++ effect.outputs, old_s_files_to_delete,
    application_log⟩

/-- The function `process_state`. -/
def process_state (env : Env) (state : State) (inputs : TaskInputs) (outputs : TaskOutputs)
    (old_s_files_to_delete : List String) (application_log : String) :
    Except Exception Result :=
  match state.state with
  | .AWAITING_NEW_NSI_REPORT_REQUESTS =>
    if ¬ inputs.arguments.isEmpty then
      .error (.InvalidRequest
        ("No arguments are expected when awaiting a new NSI report "
          ++ "request, but arguments were supplied"))
    else
      let r := process_nsi_report_request_digestion state inputs application_log
      .ok ⟨r.1, outputs, old_s_files_to_delete, r.2⟩
  | .AWAITING_NEW_H_FILES =>
    if (inputs.argument arguments.cancel).isSome then
      if inputs.arguments.length ≠ 1 then
        .error (.InvalidRequest
          ("Found the <" ++ arguments.cancel ++ "> "
            ++ "argument - when this argument is supplied, no other "
            ++ "arguments shall be supplied, yet other arguments were "
            ++ "found"))
      else .ok (process_cancel env state outputs old_s_files_to_delete application_log)
    else if (inputs.argument arguments.finish_report).isSome then
      if inputs.arguments.length ≠ 1 then
        .error (.InvalidRequest
          ("Found the <" ++ arguments.finish_report ++ "> "
            ++ "argument - when this argument is supplied, no other "
            ++ "arguments shall be supplied, yet other arguments were "
            ++ "found"))
      else
        process_manually_finish_report env state outputs old_s_files_to_delete application_log
    else
      match inputs.argument arguments.file, inputs.argument arguments.period with
      | none, _ =>
        .error (.InvalidRequest
          ("Expected argument <" ++ arguments.file ++ ">, but it is missing"))
      | some _, none =>
        .error (.InvalidRequest
          ("Expected argument <" ++ arguments.period ++ ">, but it is missing"))
      | some h_file, some period_string =>
        if inputs.arguments.length ≠ 2 then
          .error (.InvalidRequest
            ("Found the <" ++ arguments.file ++ "> and <" ++ arguments.period
              ++ "> arguments - when these"
              ++ " arguments are supplied, no other arguments shall be supplied,"
              ++ " yet other arguments were found"))
        else
          match external (env.stoul period_string) with
          | .error e => .error e
          | .ok period_ulong =>
            if period_ulong > Period_max then
              .error (.out_of_range "period number too large")
            else
              process_h_file env state inputs outputs old_s_files_to_delete application_log
                h_file period_ulong

/-- The function `load_state` on the state file, `none` when there is no file. -/
def load_state (state_file : Option State) : State :=
  match state_file with
  | none => State.zero
  | some state => state

/-- What one invocation leaves behind: the state file, and either the outputs
and the S files removed after the state was stored, or the exception that the
invocation died of. -/
structure Invocation where
  state_file : Option State
  outcome : Except Exception (TaskOutputs × List String)

/-- The task entry point `run`: the state is loaded, processed and stored; an
exception of `process_state` leaves the function before `store_state`. -/
def run (env : Env) (state_file : Option State) (inputs : TaskInputs) : Invocation :=
  match process_state env (load_state state_file) inputs [] [] "" with
  | .error e => ⟨state_file, .error e⟩
  | .ok r =>
    ⟨some r.state,
      .ok (r.outputs ++ [("application_log", r.application_log)], r.old_s_files_to_delete)⟩

/-- Every id of the list equals the id before it or that id plus one, where
the first argument is the id before the head of the list. -/
def ids_chain : Nat → List Nat → Prop
  | _, [] => True
  | previous, id :: rest => (id = previous ∨ id = previous + 1) ∧ ids_chain id rest

/-- A well-formed sequence of reference-area ids: it is empty, or it starts at
`0` and every id equals the previous id or the previous id plus one. -/
def ids_well_formed : List Nat → Prop
  | [] => True
  | id :: rest => id = 0 ∧ ids_chain id rest

/-- The chain condition can be computed. -/
instance ids_chain_decidable : (previous : Nat) → (ids : List Nat) →
    Decidable (ids_chain previous ids)
  | _, [] => isTrue trivial
  | previous, id :: rest =>
    have := ids_chain_decidable id rest
    inferInstanceAs (Decidable ((id = previous ∨ id = previous + 1) ∧ ids_chain id rest))


/-- Well-formedness of an id sequence can be computed. -/
instance ids_well_formed_decidable (ids : List Nat) : Decidable (ids_well_formed ids) :=
  match ids with
  | [] => isTrue trivial
  | id :: rest =>
    inferInstanceAs (Decidable (id = 0 ∧ ids_chain id rest))

/-- A valid report request, as the digestion checks it: the period range is not
empty, both table sizes are within the capacity of the arrays, and the ids of
the reference-area table are well formed. -/
def valid_report_request (r : ReportRequest) : Prop :=
  r.first_period ≤ r.last_period
    ∧ r.num_of_census_residents ≤ 1000000
    ∧ r.num_of_reference_areas ≤ 1000000
    ∧ ids_well_formed
        ((PRANGE r.reference_areas r.num_of_reference_areas ⟨0, ⟨0, 0⟩⟩).map (fun e => e.id.val))

/-- Validity of a report request can be computed. -/
instance valid_report_request_decidable (r : ReportRequest) : Decidable (valid_report_request r) :=
  inferInstanceAs (Decidable (_ ∧ _ ∧ _ ∧ _))

/-- A valid entry of the NSI topic: it has the size of a report request and
decodes to a valid one. -/
def valid_entry : EnclaveDataInfo → Prop
  | .report_request r => valid_report_request r
  | _ => False


/-- Scenario 6, entry A: a request with `first_period = 7` and `last_period = 3`. -/
def request_A : ReportRequest := ⟨7, 3, 0, 1, [⟨0, ⟨10, 10⟩⟩], 1, [⟨⟨10, 10⟩, 100⟩]⟩

/-- Scenario 6, entry B: a request for the periods 1 to 5 with one reference
area of one tile. -/
def request_B : ReportRequest := ⟨1, 5, 0, 1, [⟨0, ⟨10, 10⟩⟩], 1, [⟨⟨10, 10⟩, 100⟩]⟩

/-- Scenario 6: the NSI topic holds entry A, then entry B; no arguments. -/
def inputs_AB : TaskInputs := ⟨[⟨"nsi_input", [.report_request request_A, .report_request request_B]⟩], []⟩

/-- An environment in which every collaborator succeeds: the metadata file
holds `meta`, `std::stoul` is given by a table, the random source yields the
key of sixteen bytes `7`, and the analysis returns without output. -/
def env_ok : Env where
  persistent_path := "/data/"
  read_file := fun _ => .ok "meta"
  stoul := fun s =>
    if s = "1" then .ok 1 else if s = "4" then .ok 4 else if s = "5" then .ok 5
    else if s = "9" then .ok 9 else .error "stoul"
  create_empty_if_not_exists := fun _ _ => .ok ()
  sgx_read_rand := .ok (List.replicate 16 7)
  start_time := 0
  end_time := 0
  create_dummy_h_file := fun _ => .ok ()
  h_file_source := fun _ => .ok 1
  s_file_source := fun _ _ => .ok 0
  full_analysis_run := fun _ => .ok ⟨"", []⟩

/-- The state that awaits H files for request B (periods 1 to 5) with the given
next expected period. -/
def state_B (next_expected_period : Nat) : State :=
  { State.zero with
    state := .AWAITING_NEW_H_FILES
    awaiting_new_h_files := ⟨request_B, next_expected_period⟩
    last_seen_nsi_inputs_topic_size := 2 }

/-- Task inputs with the keys of the periods 1 to 5 in the key topic and the
arguments `file` and `period`. -/
def inputs_period (period : String) : TaskInputs :=
  ⟨[⟨"periodic_pseudonymisation_key",
      [.periodic_key ⟨1, List.replicate 16 1⟩, .periodic_key ⟨2, List.replicate 16 2⟩,
       .periodic_key ⟨3, List.replicate 16 3⟩, .periodic_key ⟨4, List.replicate 16 4⟩,
       .periodic_key ⟨5, List.replicate 16 5⟩]⟩],
    [("file", "h"), ("period", period)]⟩


/-- Scenario 3: from no state file, the request for the periods 1 to 5 is
digested, then period 1 is processed, then period 4. -/
def scenario_gap : Invocation :=
  run env_ok (run env_ok (run env_ok none inputs_AB).state_file (inputs_period "1")).state_file
    (inputs_period "4")

/-- The argument lists that `process_state` hands on to a handler while it
awaits H files: `cancel` alone, `finish-report` alone, or `file` and `period`
and nothing else. -/
def accepted_arguments (args : List (String × String)) : Prop :=
  (∃ v, args = [("cancel", v)]) ∨ (∃ v, args = [("finish-report", v)])
    ∨ (∃ f p, args = [("file", f), ("period", p)] ∨ args = [("period", p), ("file", f)])

/-- A request with 129 reference areas: the ids 0, 1, ..., 128, one tile each. -/
def request_129 : ReportRequest :=
  ⟨1, 5, 0, 129,
    (List.range 129).map (fun i => ⟨⟨i % 256, Nat.mod_lt i (by decide)⟩, ⟨0, 0⟩⟩), 0, []⟩

/-- Task inputs whose NSI topic holds the request with 129 reference areas. -/
def inputs_129 : TaskInputs := ⟨[⟨"nsi_input", [.report_request request_129]⟩], []⟩

/-- Task inputs whose key topic holds the keys of the periods 2 and 3 only. -/
def inputs_no_key : TaskInputs :=
  ⟨[⟨"periodic_pseudonymisation_key",
      [.periodic_key ⟨2, List.replicate 16 2⟩, .periodic_key ⟨3, List.replicate 16 3⟩]⟩],
    [("file", "h"), ("period", "1")]⟩

/-- A state that awaits H files for the single period `2 ^ 32 - 1`. -/
def state_last : State :=
  { State.zero with
    state := .AWAITING_NEW_H_FILES
    awaiting_new_h_files := ⟨⟨4294967295, 4294967295, 0, 0, [], 0, []⟩, 4294967295⟩ }

/-- Task inputs with the key of the period `2 ^ 32 - 1`. -/
def inputs_last : TaskInputs :=
  ⟨[⟨"periodic_pseudonymisation_key", [.periodic_key ⟨4294967295, List.replicate 16 1⟩]⟩],
    [("file", "h"), ("period", "4294967295")]⟩

/-- The report requests of the task inputs are well typed: their periods are
values of the 32-bit type Period. -/
def TaskInputs.periods_in_range (inputs : TaskInputs) : Prop :=
  ∀ topic ∈ inputs.inputs, ∀ r, EnclaveDataInfo.report_request r ∈ topic.data →
    r.first_period ≤ Period_max ∧ r.last_period ≤ Period_max

/-- The state files that successful invocations of `run` can leave behind,
starting without a state file (`load_state` then yields the zero-initialised
state). The collaborators and the inputs may differ from one invocation to the
next. -/
inductive ReachableStateFile : Option State → Prop where
  | initial : ReachableStateFile none
  | invoke (env : Env) (state_file : Option State) (inputs : TaskInputs)
      (out : TaskOutputs × List String) :
      ReachableStateFile state_file → inputs.periods_in_range →
      (run env state_file inputs).outcome = .ok out →
      ReachableStateFile (run env state_file inputs).state_file

/-- Invariant I-State1 of a state that awaits H files, in natural numbers
(without wrap-around). -/
def state_invariant (state : State) : Prop :=
  state.state = .AWAITING_NEW_H_FILES →
    state.awaiting_new_h_files.report_request.first_period
        ≤ state.awaiting_new_h_files.report_request.last_period
      ∧ state.awaiting_new_h_files.report_request.first_period
        ≤ state.awaiting_new_h_files.next_expected_period
      ∧ state.awaiting_new_h_files.next_expected_period
        ≤ state.awaiting_new_h_files.report_request.last_period + 1

/-! ## FullAnalysis.cpp: Module C and Module D -/

/-- The further operations on `float` that Module C uses, with the two
quantisation thresholds of `Parameters.h`. -/
class FloatArith (F : Type) extends FloatOps F where
  /-- Division, `a / b`. -/
  div : F → F → F
  /-- Comparison, `a >= b`. -/
  ge : F → F → Bool
  /-- The constant `day_quantisation_threshold = 10`. -/
  day_quantisation_threshold : F
  /-- The constant `sub_period_quantisation_threshold = 0.5`. -/
  sub_period_quantisation_threshold : F

/-- Exact rational arithmetic as an instance of the value operations; it serves
to evaluate Module C on concrete records. Every rational number is finite. -/
instance ratFloatArith : FloatArith ℚ where
  zero := 0
  add := fun a b => a + b
  lt := fun a b => decide (a < b)
  isfinite := fun _ => true
  div := fun a b => a / b
  ge := fun a b => decide (b ≤ a)
  day_quantisation_threshold := 10
  sub_period_quantisation_threshold := 1 / 2

/-- The part of the class Indicators of `FullAnalysis.cpp` that the
deduplication writes: the counter of indicator 6.4.2, a `uint64_t`. -/
structure Indicators where
  m_number_of_duplicate_H_records : Nat
deriving DecidableEq, Repr

/-- Indicators::report_additional_H_duplicates: `+=` on a `uint64_t`. -/
def Indicators.report_additional_H_duplicates (indicators : Indicators)
    (additional_duplicates : Nat) : Indicators :=
  { indicators with
    m_number_of_duplicate_H_records :=
      (indicators.m_number_of_duplicate_H_records + additional_duplicates) % 2 ^ 64 }

/-- Modelled from the spec: the combinator `flatMap(f)` of the stream library,
which is not in the repository, for a function `f` that writes to a captured
variable. The groups are handed to `f` in stream order and the captured
variable is threaded through the calls. -/
def flatMap_st {α β σ : Type} (f : α → σ → Option (List β × σ)) :
    List α → σ → Option (List β × σ)
  | [], s => some ([], s)
  | a :: as, s =>
    match f a s with
    | none => none
    | some (bs, s1) =>
      match flatMap_st f as s1 with
      | none => none
      | some (rest, s2) => some (bs ++ rest, s2)

/-- The deduplication lambda of `run` (the argument of `flatMap` after
`groupBy`), with the captured `indicators`: the front element is pushed, a
vector of size 1 returns at once, otherwise `v.size() - 1` is reported and the
result takes the maximum with every element of the vector, index by index.
`none` is the failed `assert(!v.empty())`. -/
def dedup_flatMap_indicators {F : Type} [FloatOps F] (v : List (UserFootprintUpdates F))
    (indicators : Indicators) : Option (List (UserFootprintUpdates F) × Indicators) :=
  match v with
  | [] => none
  | front :: _ =>
    if v.length = 1 then some ([front], indicators)
    else
      some ([v.foldl (fun result e =>
              { result with i_column := IColumn.zipWith fmax result.i_column e.i_column }) front],
            indicators.report_additional_H_duplicates ((v.length - 1) % 2 ^ 64))

/-- Element `i` of an IColumn, `c[i]`. -/
def IColumn.get {F : Type} (c : IColumn F) : Fin 4 → F
  | 0 => c.v0
  | 1 => c.v1
  | 2 => c.v2
  | 3 => c.v3

/-- The record `r` is the reduction of the run `g`: it has the key of every
record of the run, and each of its values is attained in the run at that index
and is not smaller than any value of the run at that index. -/
def is_run_maximum {F : Type} [FloatOps F] (g : List (UserFootprintUpdates F))
    (r : UserFootprintUpdates F) : Prop :=
  (∀ e ∈ g, r.key = e.key) ∧
    ∀ i : Fin 4, (∃ e ∈ g, r.i_column.get i = e.i_column.get i) ∧
      ∀ e ∈ g, FloatOps.lt (r.i_column.get i) (e.i_column.get i) = false

/-- QuantisedFootprint of `Entities.h`, the type `Y` of the pipeline. `values`
is `std::array<bool, 4>`, `rank` is a `uint32_t`, `reference_area_indices` is
`std::bitset<MAX_REFERENCE_AREAS>`, kept as the number whose binary digits are
the bits, and `calibration_weight` is a `double`. -/
structure QuantisedFootprint (D : Type) where
  key : FootprintKey
  values : IColumn Bool
  rank : Nat
  reference_area_indices : Nat
  calibration_weight : D
deriving DecidableEq

/-- Constant `QuantisedFootprint::FirstRank`. -/
def QuantisedFootprint.FirstRank : Nat := 0

/-- Statistics of `Entities.h`: two `uint32_t` counters and a `double`. -/
structure Statistics (D : Type) where
  highly_nomadic_users : Nat
  observed_total_users : Nat
  adjusted_total_users : D
deriving DecidableEq

/-! ### Xoroshiro.h -/

/-- Xoshiro256Plus of `Xoroshiro.h`: four `uint64_t` words of state, filled by
`sgx_read_rand` in the constructor. -/
structure Xoshiro256Plus where
  state0 : Nat
  state1 : Nat
  state2 : Nat
  state3 : Nat
deriving DecidableEq, Repr

/-- The lambda `rotl` of Xoshiro256Plus on 64-bit words. -/
def Xoshiro256Plus.rotl (x k : Nat) : Nat :=
  ((x <<< k) % 2 ^ 64) ||| (x >>> (64 - k))

/-- Xoshiro256Plus::operator(): the next 64-bit output and the new state. -/
def Xoshiro256Plus.operator_call (rng : Xoshiro256Plus) : Nat × Xoshiro256Plus :=
  let result := (rng.state0 + rng.state3) % 2 ^ 64
  let t := (rng.state1 <<< 17) % 2 ^ 64
  let state2 := rng.state2 ^^^ rng.state0
  let state3 := rng.state3 ^^^ rng.state1
  let state1 := rng.state1 ^^^ state2
  let state0 := rng.state0 ^^^ state3
  let state2 := state2 ^^^ t
  let state3 := Xoshiro256Plus.rotl state3 45
  (result, ⟨state0, state1, state2, state3⟩)

/-! ### Module C: SingleHumanAnalysis -/

/-- The eight bytes of a `uint64_t` in memory (little-endian). -/
def uint64_bytes (x : Nat) : List (Fin 256) :=
  (List.range 8).map (fun i => Fin.ofNat (x / 256 ^ i))

/-- The identifier that `memcpy(footprint.key.id.data(), tmp_random.data(),
sizeof(footprint.key.id))` leaves behind: the first `hash_bytes` bytes of the
two random words. -/
def random_id (tmp_random : Nat × Nat) : UserIdentifier :=
  ⟨(uint64_bytes tmp_random.1 ++ uint64_bytes tmp_random.2).take hash_bytes,
    by simp [uint64_bytes, hash_bytes]⟩

/-- The operator `<` of `std::array<uint8_t, N>`, which is
`std::lexicographical_compare` over the bytes. -/
def array_lt : List (Fin 256) → List (Fin 256) → Bool
  | a :: as, b :: bs => if a < b then true else if b < a then false else array_lt as bs
  | [], _ :: _ => true
  | _, [] => false

/-- The operator `<` of `std::tuple`, one step of the lexicographic comparison:
`left.first < right.first || (!(right.first < left.first) && left.rest < right.rest)`. -/
def tuple_lt {α β : Type} (lt1 : α → α → Bool) (lt2 : β → β → Bool) (left right : α × β) :
    Bool :=
  lt1 left.1 right.1 || (!lt1 right.1 left.1 && lt2 left.2 right.2)

/-- The tuple that the ranking comparator of SingleHumanAnalysis builds from a
record: `make_tuple(e.i_column[0], std::max(std::max(e.i_column[1],
e.i_column[2]), e.i_column[3]), e.i_column[1], e.key.id)`. -/
def rank_make_tuple {F : Type} [FloatOps F] (e : AccumulatedUserFootprint F) :
    F × F × F × UserIdentifier :=
  (e.i_column.v0, fmax (fmax e.i_column.v1 e.i_column.v2) e.i_column.v3, e.i_column.v1, e.key.id)

/-- The operator `<` on the tuples of the ranking comparator. -/
def rank_tuple_lt {F : Type} [FloatOps F] (left right : F × F × F × UserIdentifier) : Bool :=
  tuple_lt FloatOps.lt
    (tuple_lt FloatOps.lt
      (tuple_lt FloatOps.lt (fun a b : UserIdentifier => array_lt a.val b.val))) left right

/-- The ranking comparator `CMP_LAMBDA(>, S, ...)` of SingleHumanAnalysis:
`make_tuple(left) > make_tuple(right)`, which `std::tuple` defines as
`make_tuple(right) < make_tuple(left)`. -/
def rank_cmp {F : Type} [FloatOps F] (left right : AccumulatedUserFootprint F) : Bool :=
  rank_tuple_lt (rank_make_tuple right) (rank_make_tuple left)

/-- The library function `std::sort(first, last, comp)`: the elements are
reordered so that no element is `comp`-before an earlier one. The order it
gives to elements that `comp` does not separate is unspecified; this model
keeps their input order. -/
def std_sort {α : Type} (comp : α → α → Bool) (xs : List α) : List α :=
  List.insertionSort (fun a b => comp b a = false) xs

/-- The class SingleHumanAnalysis of Module C: the statistics it refers to and
its random number generator. -/
structure SingleHumanAnalysis (D : Type) where
  m_statistics : Statistics D
  m_rng : Xoshiro256Plus

/-- The loop of SingleHumanAnalysis that overwrites the identifier of every
remaining footprint with random bytes, two generator outputs per footprint. -/
def SingleHumanAnalysis.randomise {F : Type} :
    List (AccumulatedUserFootprint F) → Xoshiro256Plus →
      List (AccumulatedUserFootprint F) × Xoshiro256Plus
  | [], m_rng => ([], m_rng)
  | footprint :: rest, m_rng =>
    let r0 := m_rng.operator_call
    let r1 := r0.2.operator_call
    let tail := SingleHumanAnalysis.randomise rest r1.2
    ({ footprint with key := { footprint.key with id := random_id (r0.1, r1.1) } } :: tail.1,
      tail.2)

/-- The body of the output loop of SingleHumanAnalysis for index `i`: a fresh
QuantisedFootprint receives the saved identifier, the tile, the rank
`i + FirstRank` (stored in a `uint32_t`) and the quantised values. The values
are `float`, the threshold is the `double` 0.5, which `float` represents
exactly. -/
def SingleHumanAnalysis.quantise {F D : Type} [FloatArith F] [Zero D]
    (id_backup : UserIdentifier) (i : Nat) (footprint : AccumulatedUserFootprint F) :
    QuantisedFootprint D :=
  { key := ⟨id_backup, footprint.key.tile⟩
    values :=
      ⟨true,
       FloatArith.ge (FloatArith.div footprint.i_column.v1 footprint.i_column.v0)
         FloatArith.sub_period_quantisation_threshold,
       FloatArith.ge (FloatArith.div footprint.i_column.v2 footprint.i_column.v0)
         FloatArith.sub_period_quantisation_threshold,
       FloatArith.ge (FloatArith.div footprint.i_column.v3 footprint.i_column.v0)
         FloatArith.sub_period_quantisation_threshold⟩
    rank := (i + QuantisedFootprint.FirstRank) % 2 ^ 32
    reference_area_indices := 0
    calibration_weight := 0 }

/-- The output loop of SingleHumanAnalysis from index `i` on. -/
def SingleHumanAnalysis.quantise_loop {F D : Type} [FloatArith F] [Zero D]
    (id_backup : UserIdentifier) : Nat → List (AccumulatedUserFootprint F) →
      List (QuantisedFootprint D)
  | _, [] => []
  | i, footprint :: rest =>
    SingleHumanAnalysis.quantise id_backup i footprint
      :: SingleHumanAnalysis.quantise_loop id_backup (i + 1) rest

/-- SingleHumanAnalysis::operator(): the records it appends to `result` for the
footprints of one user, and the object afterwards. The footprints with
`i_column[0] < day_quantisation_threshold` are erased; with none left the
counter `highly_nomadic_users` (a `uint32_t`) is incremented; otherwise the
identifiers are randomised, the footprints are sorted by the ranking comparator
and one record is written per footprint. -/
def SingleHumanAnalysis.operator_call {F D : Type} [FloatArith F] [Zero D]
    (self : SingleHumanAnalysis D) (footprints : List (AccumulatedUserFootprint F)) :
    List (QuantisedFootprint D) × SingleHumanAnalysis D :=
  match footprints.filter
      (fun e => !FloatOps.lt e.i_column.v0 FloatArith.day_quantisation_threshold) with
  | [] =>
    ([], { self with
            m_statistics := { self.m_statistics with
              highly_nomadic_users := (self.m_statistics.highly_nomadic_users + 1) % 2 ^ 32 } })
  | front :: rest =>
    let id_backup := front.key.id
    let randomised := SingleHumanAnalysis.randomise (front :: rest) self.m_rng
    (SingleHumanAnalysis.quantise_loop id_backup 0 (std_sort rank_cmp randomised.1),
      { self with m_rng := randomised.2 })

/-! ### Module D: reference areas -/

/-- The function `module_d::is_inside`: the tile is found in the set. -/
def is_inside (tile_index : TileIndex) (reference_area : List TileIndex) : Bool :=
  reference_area.contains tile_index

/-- The library function `std::bitset<MAX_REFERENCE_AREAS>::set(pos)`, which
throws `std::out_of_range` when `pos` is not a valid position. -/
def bitset_set (bits pos : Nat) : Except Exception Nat :=
  if pos < MAX_REFERENCE_AREAS then .ok (bits ||| (1 <<< pos))
  else .error (.out_of_range "bitset set argument out of range")

/-- The loop "Add Reference Areas" of the Module D lambda from index `i` on:
bit `i` is set when some record of `result` has its tile inside reference
area `i`. -/
def add_reference_areas_loop {D : Type} (result : List (QuantisedFootprint D)) :
    List (List TileIndex) → Nat → Nat → Except Exception Nat
  | [], _, group_ra_indices => .ok group_ra_indices
  | reference_area :: rest, i, group_ra_indices =>
    if result.any (fun q => is_inside q.key.tile reference_area) then
      match bitset_set group_ra_indices i with
      | .ok bits => add_reference_areas_loop result rest (i + 1) bits
      | .error e => .error e
    else add_reference_areas_loop result rest (i + 1) group_ra_indices

/-- The lambda of `run` given to `flatMap` after the grouping by user: Module C
on the footprints of one user, then the reference-area bits of the group,
written to every record of the group. -/
def module_c_d_flatMap {F D : Type} [FloatArith F] [Zero D]
    (reference_areas : ReferenceAreas) (single_human_analysis : SingleHumanAnalysis D)
    (footprints : List (AccumulatedUserFootprint F)) :
    Except Exception (List (QuantisedFootprint D) × SingleHumanAnalysis D) :=
  let c := single_human_analysis.operator_call footprints
  match add_reference_areas_loop c.1 reference_areas 0 0 with
  | .ok group_ra_indices =>
    .ok (c.1.map (fun q => { q with reference_area_indices := group_ra_indices }), c.2)
  | .error e => .error e

/-- The bitmap of a footprint as the specification states it: `bitmap[0] = true`
and `bitmap[j] = (values[j] / values[0] >= 0.5)` for `j = 1..3`. -/
def bitmap {F : Type} [FloatArith F] (values : IColumn F) : IColumn Bool :=
  ⟨true,
   FloatArith.ge (FloatArith.div values.v1 values.v0) FloatArith.sub_period_quantisation_threshold,
   FloatArith.ge (FloatArith.div values.v2 values.v0) FloatArith.sub_period_quantisation_threshold,
   FloatArith.ge (FloatArith.div values.v3 values.v0) FloatArith.sub_period_quantisation_threshold⟩

/-- An S record over the rationals. -/
def s_record_rat (u : Fin 256) (e n : Fin 65536) (a b c d : ℚ) : AccumulatedUserFootprint ℚ :=
  ⟨⟨user_id u, ⟨e, n⟩⟩, ⟨a, b, c, d⟩⟩

/-- Three footprints of user 1; the second one is below the day threshold. -/
def user_1_footprints : List (AccumulatedUserFootprint ℚ) :=
  [s_record_rat 1 10 10 20 10 5 5, s_record_rat 1 11 10 5 1 1 1, s_record_rat 1 12 10 30 20 3 3]

/-- A SingleHumanAnalysis object with zeroed statistics and the generator state
(1, 2, 3, 4). -/
def single_human_analysis_1234 : SingleHumanAnalysis ℚ :=
  ⟨⟨0, 0, 0⟩, ⟨1, 2, 3, 4⟩⟩

/-! ### Module D: calibration weights -/

/-- The library function `find` of `std::unordered_map`, with an association
list in the place of the hash table: the value stored under the key, if any. -/
def unordered_map_find {K V : Type} [DecidableEq K] (m : List (K × V)) (k : K) : Option V :=
  m.lookup k

/-- The library function `insert` of `std::unordered_map`: the pair is added
unless the key is already present. -/
def unordered_map_insert {K V : Type} [DecidableEq K] (m : List (K × V)) (kv : K × V) :
    List (K × V) :=
  if (unordered_map_find m kv.1).isSome then m else m ++ [kv]

/-- The lambda of `build_calibration_weights_map` that computes `weight`,
together with `max_count = std::max(resident_count, anchor_count)` and
`ratio = resident_count / anchor_count` before it. `double` is modelled by an
ordered field, so the arithmetic is exact. -/
def calibration_weight {D : Type} [LinearOrderedField D] (resident_count anchor_count : D) : D :=
  let max_count := if resident_count < anchor_count then anchor_count else resident_count
  let ratio := resident_count / anchor_count
  if max_count < 10 then 1
  else if max_count ≥ 10 ∧ ratio ≤ 0.2 then 0.2
  else if max_count ≥ 10 ∧ ratio ≥ 10 then 10
  else ratio

/-- The loop of `build_calibration_weights_map` over `top_anchor_dist`, in the
iteration order of the map: the weight of the tile is inserted into `result`
and the two statistics are updated. `none` is the failed
`assert(anchor_count > 0)`. The `uint32_t` counter `observed_total_users` is
the conversion of a `double` sum, which is exact below 2^32. -/
def build_calibration_weights_loop {D : Type} [LinearOrderedField D]
    (residents : List (TileIndex × D)) :
    List (TileIndex × Nat) → List (TileIndex × D) × Statistics D →
      Option (List (TileIndex × D) × Statistics D)
  | [], acc => some acc
  | kv :: rest, acc =>
    let anchor_count : D := (kv.2 : D)
    let resident_count : D :=
      match unordered_map_find residents kv.1 with
      | none => 0
      | some value => value
    let weight := calibration_weight resident_count anchor_count
    if anchor_count > 0 then
      build_calibration_weights_loop residents rest
        (unordered_map_insert acc.1 (kv.1, weight),
          { acc.2 with
            observed_total_users := (acc.2.observed_total_users + kv.2) % 2 ^ 32
            adjusted_total_users := acc.2.adjusted_total_users + weight * anchor_count })
    else none

/-- The function `module_d::build_calibration_weights_map`: the map of weights
and the statistics afterwards. Without calibration the empty map is returned
at once. -/
def build_calibration_weights_map {D : Type} [LinearOrderedField D] (statistics : Statistics D)
    (residents : List (TileIndex × D)) (top_anchor_dist : List (TileIndex × Nat))
    (with_calibration : Bool) : Option (List (TileIndex × D) × Statistics D) :=
  if !with_calibration then some ([], statistics)
  else build_calibration_weights_loop residents top_anchor_dist ([], statistics)

/-- The calibration weight as the specification states it, for anchor count `a`
and resident count `r`: 1 if `max(a, r) < 10`, else 0.2 if `r/a <= 0.2`, else
10 if `r/a >= 10`, else `r/a`. -/
def calibration_weight_spec {D : Type} [LinearOrderedField D] (a r : D) : D :=
  if max a r < 10 then 1
  else if r / a ≤ 0.2 then 0.2
  else if r / a ≥ 10 then 10
  else r / a

/-- Modelled from the spec: the combinator `smap(f)` of the stream library,
which is not in the repository, for a `mutable` lambda `f` with a variable
captured by value. The elements are handed to `f` in stream order and the
captured variable keeps its value from one call to the next. -/
def smap_st {α β σ : Type} (f : σ → α → β × σ) : List α → σ → List β × σ
  | [], s => ([], s)
  | a :: as, s => ((f s a).1 :: (smap_st f as (f s a).2).1, (smap_st f as (f s a).2).2)

/-- The lambda of `run` given to `smap` under "Add calibration weights", with
its captured `group_calibration_weight`: without calibration the weight is
`1.0`; otherwise a record of rank `FirstRank` looks its tile up in `weights`
(`0.0` if absent) and stores the value in the captured variable, and every
record receives the captured value. -/
def add_calibration_weights {D : Type} [Zero D] [One D] (weights : List (TileIndex × D))
    (with_calibration : Bool) (group_calibration_weight : D) (e : QuantisedFootprint D) :
    QuantisedFootprint D × D :=
  if !with_calibration then ({ e with calibration_weight := 1 }, group_calibration_weight)
  else
    let group_calibration_weight :=
      if e.rank = QuantisedFootprint.FirstRank then
        match unordered_map_find weights e.key.tile with
        | none => 0
        | some second => second
      else group_calibration_weight
    ({ e with calibration_weight := group_calibration_weight }, group_calibration_weight)

/-- The weight of a user group as the specification states it: the entry of the
weights map for the tile of the group's rank-0 record, which is the first
record of the group, or 0 if the map has no entry for it. -/
def group_weight {D : Type} [Zero D] (weights : List (TileIndex × D))
    (group : List (QuantisedFootprint D)) : D :=
  match group.head? with
  | some first => (unordered_map_find weights first.key.tile).getD 0
  | none => 0

/-- A Y record over the rationals with empty bitset and weight 0. -/
def y_record (u : Fin 256) (e n : Fin 65536) (rank : Nat) : QuantisedFootprint ℚ :=
  ⟨⟨user_id u, ⟨e, n⟩⟩, ⟨true, false, false, false⟩, rank, 0, 0⟩

/-! ### Module D: reports -/

/-- The library function `operator[]` of `std::unordered_map` followed by an
update in place of the value it refers to; the value is value-initialised
(`init`) when the key was absent. -/
def unordered_map_update {K V : Type} [DecidableEq K] (m : List (K × V)) (k : K) (init : V)
    (f : V → V) : List (K × V) :=
  if (unordered_map_find m k).isSome then
    m.map (fun kv => if kv.1 = k then (kv.1, f kv.2) else kv)
  else m ++ [(k, f init)]

/-- The lambda of `run` given to `inspect` under "Calculate Top Anchor
Distribution": `++top_anchor_dist[e.key.tile]` (a `uint32_t`) for a record of
rank `FirstRank`. -/
def top_anchor_inspect {D : Type} (top_anchor_dist : List (TileIndex × Nat))
    (e : QuantisedFootprint D) : List (TileIndex × Nat) :=
  if e.rank = QuantisedFootprint.FirstRank then
    unordered_map_update top_anchor_dist e.key.tile 0 (fun count => (count + 1) % 2 ^ 32)
  else top_anchor_dist

/-- Constant `sdc_threshold` of `Parameters.h`. -/
def sdc_threshold {D : Type} [LinearOrderedField D] : D := 1

/-- ConnectionStrengthKey of `Entities.h`; the index is a `uint8_t`. -/
structure ConnectionStrengthKey where
  reference_area_index : Nat
  tile_index : TileIndex
deriving DecidableEq, Repr

/-- The struct `ConnectionOperand` of `module_d::ConnectionStrengths`. -/
structure ConnectionOperand (D : Type) where
  numerator : D
  denominator : D
deriving DecidableEq

/-- FunctionalUrbanFingerprintReport of `Entities.h`. -/
structure FunctionalUrbanFingerprintReport (D : Type) where
  key : ConnectionStrengthKey
  strength : D
deriving DecidableEq

/-- The struct `module_d::ConnectionStrengths`, without the reference to the
task outputs. -/
structure ConnectionStrengths (D : Type) where
  m_reference_areas : ReferenceAreas
  connection_operands : List (ConnectionStrengthKey × ConnectionOperand D)

/-- The library function `std::bitset<MAX_REFERENCE_AREAS>::test(pos)`, which
throws `std::out_of_range` when `pos` is not a valid position. -/
def bitset_test (bits pos : Nat) : Except Exception Bool :=
  if pos < MAX_REFERENCE_AREAS then .ok (bits.testBit pos)
  else .error (.out_of_range "bitset test argument out of range")

/-- One pass of the loop of `ConnectionStrengths::operator()` over the
reference areas from index `ra_index` on: a tile inside the area is skipped,
otherwise the operand of `(ra_index, tile)` is created if need be and both of
its sums grow. -/
def ConnectionStrengths.loop {D : Type} [LinearOrderedField D] (e : QuantisedFootprint D) :
    List (List TileIndex) → Nat → List (ConnectionStrengthKey × ConnectionOperand D) →
      Except Exception (List (ConnectionStrengthKey × ConnectionOperand D))
  | [], _, connection_operands => .ok connection_operands
  | reference_area :: rest, ra_index, connection_operands =>
    if is_inside e.key.tile reference_area then
      ConnectionStrengths.loop e rest (ra_index + 1) connection_operands
    else
      match bitset_test e.reference_area_indices ra_index with
      | .error ex => .error ex
      | .ok bit =>
        ConnectionStrengths.loop e rest (ra_index + 1)
          (unordered_map_update connection_operands ⟨ra_index, e.key.tile⟩ ⟨0, 0⟩
            (fun connection_operand =>
              ⟨connection_operand.numerator + (if bit then 1 else 0) * e.calibration_weight,
               connection_operand.denominator + e.calibration_weight⟩))

/-- ConnectionStrengths::operator(). The loop counter is a `uint8_t`: with
fewer than 256 reference areas the loop is one pass over them; with 256 or
more the counter wraps to 0 before the loop condition can fail, so the passes
over the first 256 areas repeat until an exception is thrown, and `none`
stands for the loop that never ends. -/
def ConnectionStrengths.operator_call {D : Type} [LinearOrderedField D]
    (self : ConnectionStrengths D) (e : QuantisedFootprint D) :
    Option (Except Exception (ConnectionStrengths D)) :=
  match ConnectionStrengths.loop e (self.m_reference_areas.take 256) 0
      self.connection_operands with
  | .error ex => some (.error ex)
  | .ok connection_operands =>
    if self.m_reference_areas.length < 256 then
      some (.ok { self with connection_operands := connection_operands })
    else none

/-- Modelled from the spec: the combinator `inspect(f)` of the stream library,
which is not in the repository, for the function object ConnectionStrengths:
it is called on every element in stream order. -/
def ConnectionStrengths.inspect {D : Type} [LinearOrderedField D] :
    ConnectionStrengths D → List (QuantisedFootprint D) →
      Option (Except Exception (ConnectionStrengths D))
  | self, [] => some (.ok self)
  | self, e :: rest =>
    match self.operator_call e with
    | some (.ok next) => ConnectionStrengths.inspect next rest
    | some (.error ex) => some (.error ex)
    | none => none

/-- The destructor of ConnectionStrengths: the vector it puts under
`functional_urban_fingerprint_report`, in the iteration order of the map;
`none` when the map is empty and nothing is put. -/
def ConnectionStrengths.destructor {D : Type} [LinearOrderedField D]
    (self : ConnectionStrengths D) : Option (List (FunctionalUrbanFingerprintReport D)) :=
  if self.connection_operands.isEmpty then none
  else
    some (self.connection_operands.filterMap (fun kv =>
      if kv.2.numerator ≥ sdc_threshold ∧ kv.2.numerator / kv.2.denominator > 1e-20 then
        some ⟨kv.1, kv.2.numerator / kv.2.denominator⟩
      else none))

/-! ### StreamAdditions.h: squash -/

/-- One call of `SquashBuilder::Impl::sink`. The state is `none` while
`m_first` is true and holds `(m_in, m_mid)` afterwards; the second component
of the result is what has been handed to the downstream sink. -/
def squash_sink {In Mid : Type} (m_eq : In → In → Bool) (m_init : In → Mid)
    (m_squash : Mid → In → Mid) (state : Option (In × Mid) × List Mid) (argument : In) :
    Option (In × Mid) × List Mid :=
  match state.1 with
  | none => (some (argument, m_squash (m_init argument) argument), state.2)
  | some (m_in, m_mid) =>
    if !m_eq m_in argument then
      (some (argument, m_squash (m_init argument) argument), state.2 ++ [m_mid])
    else (some (m_in, m_squash m_mid argument), state.2)

/-- The call `SquashBuilder::Impl::finalize`. -/
def squash_finalize {In Mid : Type} (state : Option (In × Mid) × List Mid) : List Mid :=
  match state.1 with
  | none => state.2
  | some (_, m_mid) => state.2 ++ [m_mid]

/-- The pipe `squash(eq, init, squash)` of `StreamAdditions.h` on a whole
stream: `sink` for every element, then `finalize`. -/
def squash {In Mid : Type} (eq : In → In → Bool) (init : In → Mid) (sq : Mid → In → Mid)
    (stream : List In) : List Mid :=
  squash_finalize (stream.foldl (squash_sink eq init sq) (none, []))

/-! ### FullAnalysis.cpp: the reports of a full analysis -/

/-- TotalFootprint of `Entities.h`. -/
structure TotalFootprint (D : Type) where
  tile_index : TileIndex
  values : IColumn D
deriving DecidableEq

/-- FingerprintReport of `Entities.h`. -/
structure FingerprintReport (D : Type) where
  tile_index : TileIndex
  values : IColumn D
deriving DecidableEq

/-- TopAnchorDistributionReport of `Entities.h`; the count is a `uint32_t`. -/
structure TopAnchorDistributionReport where
  tile_index : TileIndex
  count : Nat
deriving DecidableEq, Repr

/-- The conversion `static_cast<double>(bool)`. -/
def bool_to_double {D : Type} [LinearOrderedField D] (b : Bool) : D := if b then 1 else 0

/-- The `init` lambda of the squash in `run`: a value-initialised
TotalFootprint with the tile of the record. -/
def total_footprint_init {D : Type} [LinearOrderedField D] (e : QuantisedFootprint D) :
    TotalFootprint D :=
  ⟨e.key.tile, ⟨0, 0, 0, 0⟩⟩

/-- The `squash` lambda of the squash in `run`:
`result.values[i] += e.calibration_weight * static_cast<double>(e.values[i])`. -/
def total_footprint_squash {D : Type} [LinearOrderedField D] (result : TotalFootprint D)
    (e : QuantisedFootprint D) : TotalFootprint D :=
  { result with
    values :=
      ⟨result.values.v0 + e.calibration_weight * bool_to_double e.values.v0,
       result.values.v1 + e.calibration_weight * bool_to_double e.values.v1,
       result.values.v2 + e.calibration_weight * bool_to_double e.values.v2,
       result.values.v3 + e.calibration_weight * bool_to_double e.values.v3⟩ }

/-- The statement `if (v < sdc_threshold) { v = 0; }` of the report lambda. -/
def sdc_value {D : Type} [LinearOrderedField D] (v : D) : D :=
  if v < sdc_threshold then 0 else v

/-- The lambda of `run` given to `smap` under "Total footprint report". -/
def total_footprint_report {D : Type} [LinearOrderedField D] (result : TotalFootprint D) :
    FingerprintReport D :=
  ⟨result.tile_index,
    ⟨sdc_value result.values.v0, sdc_value result.values.v1, sdc_value result.values.v2,
      sdc_value result.values.v3⟩⟩

/-- The stream that `run` hands to `encryptedOutput` under `fingerprint_report`,
from the Y stream with its calibration weights: sorted by tile, squashed by
tile, with the disclosure control applied. -/
def fingerprint_report {D : Type} [LinearOrderedField D] (y : List (QuantisedFootprint D)) :
    List (FingerprintReport D) :=
  (squash (fun left right : QuantisedFootprint D => left.key.tile == right.key.tile)
    total_footprint_init total_footprint_squash
    (sort (fun left right : QuantisedFootprint D => TileIndex.lt left.key.tile right.key.tile)
      y)).map total_footprint_report

/-- The block "Top anchor distribution report" of `run`: the entries of
`top_anchor_dist` with `count >= sdc_threshold`, in the iteration order of the
map. -/
def top_anchor_distribution_report {D : Type} [LinearOrderedField D]
    (top_anchor_dist : List (TileIndex × Nat)) : List TopAnchorDistributionReport :=
  (top_anchor_dist.filter (fun p => decide ((p.2 : D) ≥ sdc_threshold))).map
    (fun p => ⟨p.1, p.2⟩)

/-- Modelled from the spec: the combinator `flatMap(f)` of the stream library,
which is not in the repository, for a function `f` that can throw and that
writes to a captured object. The groups are handed to `f` in stream order. -/
def flatMap_ex {α β σ : Type} (f : σ → α → Except Exception (List β × σ)) :
    List α → σ → Except Exception (List β × σ)
  | [], s => .ok ([], s)
  | a :: as, s =>
    match f s a with
    | .error ex => .error ex
    | .ok (bs, s1) =>
      match flatMap_ex f as s1 with
      | .error ex => .error ex
      | .ok (rest, s2) => .ok (bs ++ rest, s2)

/-- What a full analysis puts into the task outputs: the three reports and the
statistics. The connection strengths are `none` when the destructor of
ConnectionStrengths puts nothing. -/
structure AnalysisOutputs (D : Type) where
  fingerprint_report : List (FingerprintReport D)
  functional_urban_fingerprint_report : Option (List (FunctionalUrbanFingerprintReport D))
  top_anchor_distribution_report : List TopAnchorDistributionReport
  statistics : Statistics D

/-- The function `full_analysis::run` for `Perform::FullAnalysis`, from the H
records that the de-pseudonymising `smap` produced, the old S, the parameters
of the report request and the state of the random number generator that
`sgx_read_rand` gave: the new S, Module C and Module D on every user group,
the top anchor distribution, the calibration weights, the connection strengths
and the reports. `none` is a failed assertion or a loop that never ends,
`some (.error _)` an exception. The stages are evaluated one after the other;
the source interleaves them element by element, which gives the same outputs.
The indicators only write to the application log and are left out here. -/
def run_full_analysis {F D : Type} [FloatArith F] [LinearOrderedField D]
    (h_file : List (UserFootprintUpdates F)) (s_file_in : List (AccumulatedUserFootprint F))
    (reference_areas : ReferenceAreas) (residents : List (TileIndex × D))
    (with_calibration : Bool) (m_rng : Xoshiro256Plus) :
    Option (Except Exception (AnalysisOutputs D)) :=
  match updated_s h_file s_file_in with
  | none => none
  | some s =>
    match flatMap_ex (fun single_human_analysis footprints =>
        module_c_d_flatMap reference_areas single_human_analysis footprints)
        (groupBy (fun left right : AccumulatedUserFootprint F => left.key.id == right.key.id) s)
        (⟨⟨0, 0, 0⟩, m_rng⟩ : SingleHumanAnalysis D) with
    | .error ex => some (.error ex)
    | .ok (materialized_y, single_human_analysis) =>
      match build_calibration_weights_map single_human_analysis.m_statistics residents
          (materialized_y.foldl top_anchor_inspect []) with_calibration with
      | none => none
      | some (weights, statistics) =>
        match ConnectionStrengths.inspect ⟨reference_areas, []⟩
            (smap_st (add_calibration_weights weights with_calibration) materialized_y 0).1 with
        | none => none
        | some (.error ex) => some (.error ex)
        | some (.ok connection_strengths) =>
          some (.ok
            { fingerprint_report :=
                fingerprint_report
                  (smap_st (add_calibration_weights weights with_calibration)
                    materialized_y 0).1
              functional_urban_fingerprint_report := connection_strengths.destructor
              top_anchor_distribution_report :=
                top_anchor_distribution_report (D := D)
                  (materialized_y.foldl top_anchor_inspect [])
              statistics := statistics })

/-- An H record over the rationals. -/
def h_record_rat (u : Fin 256) (e n : Fin 65536) (a b c d : ℚ) : UserFootprintUpdates ℚ :=
  ⟨⟨user_id u, ⟨e, n⟩⟩, ⟨a, b, c, d⟩⟩

/-- Scenario 1: the full analysis of one H record of a user `id` on tile
(10, 10) with the values [20, 10, 5, 5], an empty old S, one reference area
that holds the tile (10, 10), the census entry (10, 10) -> 100 and calibration
disabled, for a state `m_rng` of the random number generator. -/
def scenario_1 (id : UserIdentifier) (m_rng : Xoshiro256Plus) :
    Option (Except Exception (AnalysisOutputs ℚ)) :=
  run_full_analysis [(⟨⟨id, ⟨10, 10⟩⟩, ⟨20, 10, 5, 5⟩⟩ : UserFootprintUpdates ℚ)] []
    [[⟨10, 10⟩]] [(⟨10, 10⟩, 100)] false m_rng

/-- The contribution of a Y record to the sum of index `j` of its tile:
`calibration_weight * (bitmap[j] ? 1 : 0)`. -/
def contribution {D : Type} [LinearOrderedField D] (j : Fin 4) (e : QuantisedFootprint D) : D :=
  e.calibration_weight * (if e.values.get j then 1 else 0)

/-- The sum over the Y records with the tile `t` of
`calibration_weight * (bitmap[j] ? 1 : 0)`. -/
def tile_sum {D : Type} [LinearOrderedField D] (y : List (QuantisedFootprint D)) (t : TileIndex)
    (j : Fin 4) : D :=
  ((y.filter (fun e => e.key.tile = t)).map (contribution j)).sum

/-- The numerator of the connection strength of reference area `k` and tile
`t` as the specification states it: the sum of `calibration_weight` over the Y
records with tile `t` whose bit `k` is set. -/
def numerator_spec {D : Type} [LinearOrderedField D] (y : List (QuantisedFootprint D)) (k : Nat)
    (t : TileIndex) : D :=
  ((y.filter (fun e => e.key.tile = t ∧ e.reference_area_indices.testBit k = true)).map
    (fun e => e.calibration_weight)).sum

/-- The denominator of the connection strength of tile `t` as the specification
states it: the sum of `calibration_weight` over all Y records with tile `t`. -/
def denominator_spec {D : Type} [LinearOrderedField D] (y : List (QuantisedFootprint D))
    (t : TileIndex) : D :=
  ((y.filter (fun e => e.key.tile = t)).map (fun e => e.calibration_weight)).sum

/-- A Y record over the rationals with the given bitset and calibration
weight and the bitmap [true, true, false, false]. -/
def y_weighted (u : Fin 256) (e n : Fin 65536) (rank bits : Nat) (w : ℚ) :
    QuantisedFootprint ℚ :=
  ⟨⟨user_id u, ⟨e, n⟩⟩, ⟨true, true, false, false⟩, rank, bits, w⟩

/-- A Y stream of two users with weight 1: user 1 has the tiles (10, 10), inside
the reference area 0, and (11, 10); user 2 has the tile (11, 10) only and is
in no reference area. -/
def y_two_users : List (QuantisedFootprint ℚ) :=
  [y_weighted 1 10 10 0 1 1, y_weighted 1 11 10 1 1 1, y_weighted 2 11 10 0 0 1]

/-! ## Indicators.h -/

/-- The function `constexpr_ldexp(num, exp)`; `exp` is a `uint8_t`. -/
def constexpr_ldexp {D : Type} [LinearOrderedField D] (num : D) : Nat → D
  | 0 => num
  | exp + 1 => 2 * constexpr_ldexp num exp

/-- The function `is_power_of_2(num)`. -/
def is_power_of_2 (num : Nat) : Bool :=
  num != 0 && (num &&& (num - 1)) == 0

/-- A piece of text appended to a log string. The decimal representation of an
indicator count, `std::to_string(count)`, is kept apart from all other text. -/
inductive LogItem where
  | text (s : String)
  | number (count : Nat)
deriving DecidableEq, Repr

/-- The characters of a piece. -/
def LogItem.render : LogItem → String
  | .text s => s
  | .number count => toString count

/-- The string that a sequence of `append` calls builds. -/
def render (items : List LogItem) : String :=
  items.foldl (fun output item => output ++ item.render) ""

/-- Constant `indicators_k_anonymity_replacement` of `Parameters.h`. -/
def indicators_k_anonymity_replacement : String := "NA"

/-- The function `k_anonymize(value, output)`. The constant
`indicators_k_anonymity` depends on the build type (1 or 20) and is the
parameter `k`. -/
def k_anonymize (k value : Nat) (output : List LogItem) : List LogItem :=
  if value < k then output ++ [.text indicators_k_anonymity_replacement]
  else output ++ [.number value]

/-- The function `k_anonymize_percentage(value, percentage, output)`. The
library call `snprintf(buf, buf_size, "%.1f %%", percentage)` is the parameter
`snprintf`. -/
def k_anonymize_percentage {D : Type} (k : Nat) (snprintf : D → String) (value : Nat)
    (percentage : D) (output : List LogItem) : List LogItem :=
  if value < k then output ++ [.text indicators_k_anonymity_replacement] ++ [.text " %"]
  else output ++ [.text (snprintf percentage)]

/-- The class template `Log2Histogram<Bins, LowestBinValue_Ratio>`: the template
arguments `Bins`, `num` and `den` and the counters `m_data`, an array of `Bins`
values of type `uint64_t`. -/
structure Log2Histogram where
  Bins : Nat
  num : Nat
  den : Nat
  m_data : List Nat
deriving DecidableEq, Repr

/-- A value-initialised histogram. -/
def Log2Histogram.empty (Bins num den : Nat) : Log2Histogram :=
  ⟨Bins, num, den, List.replicate Bins 0⟩

/-- The static assertions of Log2Histogram ("Only a power of 2 is allowed",
`Bins > 1`) and the size of its array. -/
def Log2Histogram.well_formed (h : Log2Histogram) : Prop :=
  ((h.num = 1 ∧ is_power_of_2 h.den = true) ∨ (is_power_of_2 h.num = true ∧ h.den = 1))
    ∧ 1 < h.Bins ∧ h.m_data.length = h.Bins

instance (h : Log2Histogram) : Decidable h.well_formed := by
  unfold Log2Histogram.well_formed; infer_instance

/-- The constant `lowest_bin_value`. -/
def Log2Histogram.lowest_bin_value {D : Type} [LinearOrderedField D] (h : Log2Histogram) : D :=
  (h.num : D) / (h.den : D)

/-- The constant `normalized_highest_bin_value`,
`constexpr_ldexp(1.0, Bins - 2)` with the exponent converted to `uint8_t`. -/
def Log2Histogram.normalized_highest_bin_value {D : Type} [LinearOrderedField D]
    (h : Log2Histogram) : D :=
  constexpr_ldexp 1 ((h.Bins - 2) % 256)

/-- The builtin `__builtin_clzl(number)` for `0 < number < 2 ^ 64`: the number
of leading zero bits of a 64-bit word. -/
def builtin_clzl (number : Nat) : Nat := 63 - Nat.log 2 number

/-- The statement `++m_data[bin]` on a `uint64_t` counter. -/
def Log2Histogram.increment (h : Log2Histogram) (bin : Nat) : Log2Histogram :=
  { h with m_data := h.m_data.set bin ((h.m_data.getD bin 0 + 1) % 2 ^ 64) }

/-- A `double` argument: a finite value, which is modelled exactly, or a value
that `std::isfinite` rejects. -/
inductive DoubleArg (D : Type) where
  | finite (x : D)
  | not_finite

/-- Log2Histogram::operator(). `none` is `std::abort` on a value that is not
finite, or a failed assertion. The conversion of the `double` to
`std::uint64_t` is exact for values below 2^64. -/
def Log2Histogram.operator_call {D : Type} [LinearOrderedField D] [FloorRing D]
    (h : Log2Histogram) (non_normalized_number : DoubleArg D) : Option Log2Histogram :=
  match non_normalized_number with
  | .not_finite => none
  | .finite x =>
    if x < h.lowest_bin_value then some (h.increment 0)
    else
      let number : Nat :=
        Nat.floor (min ((Int.floor (x / h.lowest_bin_value) : ℤ) : D)
          h.normalized_highest_bin_value)
      if number > 0 then
        let bin := 64 - builtin_clzl number
        if bin < h.m_data.length then some (h.increment bin) else none
      else none

/-- The bin of a finite value as the specification states it: bin 0 if `x < v`,
bin `N - 1` if `x >= v * 2^(N-2)`, and bin `1 + floor(log2(x / v))`
otherwise. -/
def bin_spec {D : Type} [LinearOrderedField D] [FloorRing D] (N : Nat) (v x : D) : Nat :=
  if x < v then 0
  else if x ≥ v * 2 ^ (N - 2) then N - 1
  else 1 + (Int.log 2 (x / v)).toNat

/-- Values inserted one after the other into a histogram. -/
def Log2Histogram.insert_all {D : Type} [LinearOrderedField D] [FloorRing D] :
    Log2Histogram → List D → Option Log2Histogram
  | h, [] => some h
  | h, x :: rest =>
    match h.operator_call (.finite x) with
    | some next => Log2Histogram.insert_all next rest
    | none => none

/-- The enumeration IterateArg::BinType. -/
inductive BinType where
  | RegularBin
  | LastCatchAllBin
deriving DecidableEq, Repr

/-- The struct IterateArg, the argument of the Log2Histogram::iterate callback.
The percentage is computed exactly; the narrowing to `float` is not
modelled. -/
structure IterateArg (D : Type) where
  numerator : Nat
  denominator : Nat
  count : Nat
  cumulative_percentage : D
  bin_type : BinType

/-- The second loop of Log2Histogram::iterate, from bin `bin` on, with the
local variables `num`, `den`, `previous_num`, `previous_den`, `rolling_sum`
(all `uint64_t`) and the state `s` that the callback works on. The first
argument counts the iterations left. `none` is a failed assertion. -/
def Log2Histogram.iterate_loop {D σ : Type} [LinearOrderedField D] (h : Log2Histogram)
    (total : Nat) (callback : IterateArg D → σ → σ) :
    Nat → Nat → Nat → Nat → Nat → Nat → Nat → σ → Option σ
  | 0, _, _, _, _, _, _, s => some s
  | left + 1, bin, num, den, previous_num, previous_den, rolling_sum, s =>
    let rolling_sum : Nat := (rolling_sum + h.m_data.getD bin 0) % 2 ^ 64
    let rolling_percentage : D := (rolling_sum : D) / (total : D) * 100
    let s :=
      if bin < h.Bins - 1 then
        callback ⟨num, den, h.m_data.getD bin 0, rolling_percentage, .RegularBin⟩ s
      else
        callback ⟨previous_num, previous_den, h.m_data.getD bin 0, rolling_percentage,
          .LastCatchAllBin⟩ s
    if den > 1 then
      Log2Histogram.iterate_loop h total callback left (bin + 1) num (den / 2) num den
        rolling_sum s
    else if den = 1 ∧ num ≥ 1 then
      Log2Histogram.iterate_loop h total callback left (bin + 1) (num * 2 % 2 ^ 64) den num den
        rolling_sum s
    else none

/-- Log2Histogram::iterate. -/
def Log2Histogram.iterate {D σ : Type} [LinearOrderedField D] (h : Log2Histogram)
    (callback : IterateArg D → σ → σ) (s : σ) : Option σ :=
  let total := h.m_data.foldl (fun total d => (total + d) % 2 ^ 64) 0
  let total := if total = 0 then 1 else total
  h.iterate_loop total callback h.Bins 0 h.num h.den 0 0 0 s

/-- Log2HistogramStandardFormatter::operator(), with the members `m_prefix` and
`m_output`. -/
def Log2HistogramStandardFormatter.operator_call {D : Type} (k : Nat) (snprintf : D → String)
    ( m_prefix : String) (arg : IterateArg D) (m_output : List LogItem) : List LogItem :=
  let m_output := m_output ++ [.text m_prefix]
  let m_output :=
    match arg.bin_type with
    | .RegularBin => m_output ++ [.text " < "]
    | .LastCatchAllBin => m_output ++ [.text ">= "]
  let m_output := m_output ++ [.text (toString arg.numerator)]
  let m_output :=
    if arg.denominator > 1 then m_output ++ [.text "/"] ++ [.text (toString arg.denominator)]
    else m_output
  let m_output := m_output ++ [.text ": "]
  let m_output := k_anonymize k arg.count m_output
  let m_output := m_output ++ [.text " ("]
  let m_output := k_anonymize_percentage k snprintf arg.count arg.cumulative_percentage m_output
  let m_output := m_output ++ [.text ")"]
  m_output ++ [.text "\n"]

/-- The call `hist.iterate(Log2HistogramStandardFormatter{prefix, output})`. -/
def Log2Histogram.iterate_format {D : Type} [LinearOrderedField D] (k : Nat)
    (snprintf : D → String) (h : Log2Histogram) ( m_prefix : String) (output : List LogItem) :
    Option (List LogItem) :=
  h.iterate (Log2HistogramStandardFormatter.operator_call k snprintf m_prefix) output

/-- The numerator of the label of bin `i` for a histogram with numerator `num`
and denominator `2 ^ a`. -/
def label_num (num a i : Nat) : Nat := num * 2 ^ (i - a)

/-- The denominator of the label of bin `i`. -/
def label_den (a i : Nat) : Nat := 2 ^ (a - i)

/-- The argument with which the callback is called for bin `i`. -/
def iterate_arg {D : Type} [LinearOrderedField D] (h : Log2Histogram) (a total i : Nat) :
    IterateArg D :=
  ⟨label_num h.num a (min i (h.Bins - 2)), label_den a (min i (h.Bins - 2)), h.m_data.getD i 0,
    (((h.m_data.take (i + 1)).sum : ℕ) : D) / (total : D) * 100,
    if i < h.Bins - 1 then .RegularBin else .LastCatchAllBin⟩

/-- The pieces that the standard formatter appends for one bin. -/
def format_line {D : Type} (k : Nat) (snprintf : D → String) (pre : String)
    (arg : IterateArg D) : List LogItem :=
  [.text pre, .text (match arg.bin_type with | .RegularBin => " < " | .LastCatchAllBin => ">= "),
      .text (toString arg.numerator)]
    ++ (if arg.denominator > 1 then [.text "/", .text (toString arg.denominator)] else [])
    ++ [.text ": ", if arg.count < k then .text "NA" else .number arg.count, .text " ("]
    ++ (if arg.count < k then [.text "NA", .text " %"]
        else [.text (snprintf arg.cumulative_percentage)])
    ++ [.text ")", .text "\n"]

/-- A stand-in for `snprintf(buf, buf_size, "%.1f %%", percentage)` on exact
non-negative values: one digit after the decimal point, a tie rounded to the
even digit. -/
def snprintf_rat (percentage : ℚ) : String :=
  let scaled := percentage * 10
  let low := Nat.floor scaled
  let rest := scaled - low
  let tenths := if rest < 1 / 2 then low else if rest > 1 / 2 then low + 1
    else if low % 2 = 0 then low else low + 1
  toString (tenths / 10) ++ "." ++ toString (tenths % 10) ++ " %"

/-- The bound `v * 2^i` as the specification prints it: the numerator, and
"/" and the denominator when the denominator is larger than 1. -/
def bin_bound_spec (v : ℚ) (i : Nat) : List LogItem :=
  [.text (toString (v * 2 ^ i).num.toNat)]
    ++ (if (v * 2 ^ i).den > 1 then [.text "/", .text (toString (v * 2 ^ i).den)] else [])

/-- Line `i` of a printed histogram as the specification states it: the
label, the count or "NA", and the cumulative percentage
`100 * (sum of bins 0..i) / total` or "NA %". -/
def histogram_line_spec {D : Type} [LinearOrderedField D] (k : Nat) (snprintf : D → String)
    (h : Log2Histogram) (pre : String) (i : Nat) : List LogItem :=
  [.text pre, .text (if i < h.Bins - 1 then " < " else ">= ")]
    ++ bin_bound_spec ((h.num : ℚ) / (h.den : ℚ)) (if i < h.Bins - 1 then i else h.Bins - 2)
    ++ [.text ": ",
        if h.m_data.getD i 0 < k then .text "NA" else .number (h.m_data.getD i 0),
        .text " ("]
    ++ (if h.m_data.getD i 0 < k then [.text "NA", .text " %"]
        else [.text (snprintf (100 * (((h.m_data.take (i + 1)).sum : ℕ) : D)
          / ((h.m_data.sum : ℕ) : D)))])
    ++ [.text ")", .text "\n"]

/-- The three histograms of the unit test `log2histogram` after its inserts. -/
def unit_test_hist1 : Option Log2Histogram :=
  Log2Histogram.insert_all (Log2Histogram.empty 5 1 1)
    ((List.range 35).map (fun n : Nat => (n : ℚ)))

/-- Histogram `hist3` of the unit test, `Log2Histogram<5, std::ratio<8>>`, after
its inserts: 0, 0.001 and `i - 0.01`, `i`, `i + 0.01` for `i` from 1 to 32.5 in
steps of 0.5. -/
def unit_test_hist3 : Option Log2Histogram :=
  Log2Histogram.insert_all (Log2Histogram.empty 5 8 1)
    ([0, 1 / 1000] ++ (List.range 64).flatMap (fun j : Nat =>
      [1 + (j : ℚ) / 2 - 1 / 100, 1 + (j : ℚ) / 2, 1 + (j : ℚ) / 2 + 1 / 100]))

/-- The struct Count::Data. -/
structure CountData where
  num_records : Nat
  num_unique_users : Nat
  histogram_records_per_user : Log2Histogram
deriving DecidableEq, Repr

/-- The class Count (6.4.3): the fields `m_data`, `m_group_representative` and
`m_group_size`. -/
structure Count where
  m_data : CountData
  m_group_representative : UserIdentifier
  m_group_size : Nat

/-- A default-initialised Count; its histogram is a `Log2Histogram<10>`. -/
def Count.init : Count := ⟨⟨0, 0, Log2Histogram.empty 10 1 1⟩, user_id 0, 0⟩

/-- Count::start_group. -/
def Count.start_group (self : Count) (id : UserIdentifier) : Count :=
  { m_data := { self.m_data with
      num_unique_users := (self.m_data.num_unique_users + 1) % 2 ^ 64 },
    m_group_representative := id,
    m_group_size := 1 }

/-- Count::finish_group. The group size is converted to `double` for the
histogram; `none` is a failed assertion. -/
def Count.finish_group (self : Count) : Option Count :=
  if self.m_group_size > 0 then
    match self.m_data.histogram_records_per_user.operator_call
        (.finite (self.m_group_size : ℚ)) with
    | some hist => some { self with
        m_data := { self.m_data with histogram_records_per_user := hist } }
    | none => none
  else none

/-- Count::operator(). -/
def Count.operator_call (self : Count) (id : UserIdentifier) : Option Count :=
  let self : Count := { self with
    m_data := { self.m_data with num_records := (self.m_data.num_records + 1) % 2 ^ 64 } }
  if self.m_group_size = 0 then some (self.start_group id)
  else if id = self.m_group_representative then
    some { self with m_group_size := (self.m_group_size + 1) % 2 ^ 64 }
  else
    match self.finish_group with
    | some self => some (self.start_group id)
    | none => none

/-- Count::finish. -/
def Count.finish (self : Count) : Option CountData :=
  if self.m_group_size > 0 then self.finish_group.map (fun self => self.m_data)
  else some self.m_data

/-- A Count that is called with the identifier of every record of a file, in
the order of the file, and then finished. -/
def Count.run : Count → List UserIdentifier → Option CountData
  | self, [] => self.finish
  | self, id :: rest =>
    match self.operator_call id with
    | some self => Count.run self rest
    | none => none

/-- The struct BoundingBoxMeasure::Result. -/
structure BoundingBoxMeasureResult where
  h_diagonal_length_histogram : Log2Histogram
  old_s_diagonal_length_histogram : Log2Histogram
  old_s_vs_new_s_diagonal_length_histogram : Log2Histogram

/-- The values that the destructor of Indicators reads: the field
`m_number_of_duplicate_H_records`, the field `result` of
`m_spatiotemporal_distribution` and what `finish()` returns for the other
collectors. An `std::array` of `n` elements is a function on `Fin n`. -/
structure IndicatorResults where
  m_number_of_duplicate_H_records : Nat
  h_count : CountData
  s_old_count : CountData
  s_new_count : CountData
  spatiotemporal_distribution : Fin 16 → Nat
  h_unique_tiles_per_user_with_presence : Fin 4 → Log2Histogram
  h_weight_values : Fin 4 → Log2Histogram
  s_old_weight_values : Fin 4 → Log2Histogram
  average_distances : Fin 4 → Log2Histogram
  bounding_box_measure : Fin 4 → BoundingBoxMeasureResult

/-- The string `std::bitset<4>{i}.to_string()`, the highest bit first. -/
def bitset4_to_string (i : Nat) : String :=
  String.mk ([3, 2, 1, 0].map (fun pos => if i.testBit pos then '1' else '0'))

/-- The loop of the destructor over `{"H", h_count}`, `{"Old S", s_old_count}`,
`{"New S", s_new_count}`. -/
def Indicators.log_counts {D : Type} [LinearOrderedField D] (k : Nat) (snprintf : D → String) :
    List (String × CountData) → List LogItem → Option (List LogItem)
  | [], log => some log
  | (what, r) :: rest, log =>
    let log := log ++ [.text what]
    let log := log ++ [.text ":"]
    let log := log ++ [.text "\n\tNumber of unique users in file: "]
    let log := log ++ [.number r.num_unique_users]
    let log := log ++ [.text "\n\tNumber of records in file: "]
    let log := log ++ [.number r.num_records]
    let log := log ++ [.text "\n\tHistogram of Number of records per user:\n"]
    match r.histogram_records_per_user.iterate_format k snprintf "\t\t" log with
    | some log => Indicators.log_counts k snprintf rest log
    | none => none

/-- The loop of the destructor over the 16 subperiod patterns. -/
def Indicators.log_patterns (k : Nat) (r : Fin 16 → Nat) :
    List (Fin 16) → List LogItem → List LogItem
  | [], log => log
  | i :: rest, log =>
    let log := log ++ [.text "\t"]
    let log := log ++ [.text (bitset4_to_string i.val)]
    let log := log ++ [.text ": "]
    let log := k_anonymize k (r i) log
    let log := log ++ [.text "\n"]
    Indicators.log_patterns k r rest log

/-- A loop of the destructor over the subperiods that prints one histogram per
subperiod; `heading` is what the loop body appends before the number of the
subperiod. -/
def Indicators.log_histograms {D : Type} [LinearOrderedField D] (k : Nat)
    (snprintf : D → String) (heading : List LogItem) (r : Fin 4 → Log2Histogram) :
    List (Fin 4) → List LogItem → Option (List LogItem)
  | [], log => some log
  | subperiod :: rest, log =>
    let log := log ++ heading
    let log := log ++ [.text (toString subperiod.val)]
    let log := log ++ [.text ":\n"]
    match (r subperiod).iterate_format k snprintf "\t" log with
    | some log => Indicators.log_histograms k snprintf heading r rest log
    | none => none

/-- The loop of the destructor over the two weight value collectors. -/
def Indicators.log_weight_values {D : Type} [LinearOrderedField D] (k : Nat)
    (snprintf : D → String) :
    List (String × (Fin 4 → Log2Histogram)) → List LogItem → Option (List LogItem)
  | [], log => some log
  | (what, r) :: rest, log =>
    match Indicators.log_histograms k snprintf
        [.text what, .text " histogram of weight values in subperiod "] r (List.finRange 4)
        log with
    | some log => Indicators.log_weight_values k snprintf rest log
    | none => none

/-- The loop of the destructor over the three bounding box histograms. -/
def Indicators.log_bounding_boxes {D : Type} [LinearOrderedField D] (k : Nat)
    (snprintf : D → String) :
    List (String × (Fin 4 → Log2Histogram)) → List LogItem → Option (List LogItem)
  | [], log => some log
  | (what, r) :: rest, log =>
    let log := log ++ [.text "\n"]
    match Indicators.log_histograms k snprintf [.text what, .text " in subperiod "] r
        (List.finRange 4) log with
    | some log => Indicators.log_bounding_boxes k snprintf rest log
    | none => none

/-- The notice that the destructor writes when the guard holds. -/
def indicators_omitted : String :=
  "The indicators are omitted because the user count is too small.\n"

/-- The destructor of Indicators: what it appends to `m_application_log`.
`none` is a failed assertion. -/
def Indicators.destructor {D : Type} [LinearOrderedField D] (k : Nat) (snprintf : D → String)
    (r : IndicatorResults) (m_application_log : List LogItem) : Option (List LogItem) :=
  let log := m_application_log ++ [.text "\n"]
  if min r.h_count.num_unique_users r.s_new_count.num_unique_users < k * 1000 then
    some (log ++ [.text indicators_omitted])
  else
    let log := log ++ [.text "Number of duplicate records in the H file: "]
    let log := log ++ [.number r.m_number_of_duplicate_H_records]
    let log := log ++ [.text "\n"]
    let log := log ++ [.text "\n"]
    (Indicators.log_counts k snprintf
      [("H", r.h_count), ("Old S", r.s_old_count), ("New S", r.s_new_count)] log).bind
    fun log =>
    let log := log ++ [.text "\n"]
    let log := log ++ [.text ("Histogram: count of H records with given subperiod pattern "
      ++ "(subperiod order in pattern 0,1,2,3). 0 in pattern position i means given "
      ++ "subperiod i had weight 0 in given record, 1 means weight >0. :\n")]
    let log := Indicators.log_patterns k r.spatiotemporal_distribution (List.finRange 16) log
    let log := log ++ [.text "\n"]
    (Indicators.log_histograms k snprintf
      [.text ("H histogram of number of unique tiles per user (with presence > 0) "
        ++ "for subperiod ")]
      r.h_unique_tiles_per_user_with_presence (List.finRange 4) log).bind
    fun log =>
    let log := log ++ [.text "\n"]
    (Indicators.log_weight_values k snprintf
      [("H", r.h_weight_values), ("Old S", r.s_old_weight_values)] log).bind
    fun log =>
    let log := log ++ [.text "\n"]
    (Indicators.log_histograms k snprintf
      [.text "Histogram of distance between user H and old S average position in subperiod "]
      r.average_distances (List.finRange 4) log).bind
    fun log =>
    Indicators.log_bounding_boxes k snprintf
      [("Histogram of user tiles bounding box diagonal length in H",
          fun subperiod => (r.bounding_box_measure subperiod).h_diagonal_length_histogram),
        ("Histogram of user tiles bounding box diagonal length in old S",
          fun subperiod => (r.bounding_box_measure subperiod).old_s_diagonal_length_histogram),
        ("Histogram of user tiles bounding box diagonal length difference between old S "
          ++ "and new S",
          fun subperiod =>
            (r.bounding_box_measure subperiod).old_s_vs_new_s_diagonal_length_histogram)]
      log

/-- The log `out` continues the log `log`, and every count that the
continuation shows as a number is at least `k`. -/
def appends_anonymized (k : Nat) (log out : List LogItem) : Prop :=
  ∃ t, out = log ++ t ∧ ∀ n, LogItem.number n ∈ t → k ≤ n

/-- What the destructor writes for one file before the histogram of the number
of records per user. -/
def count_heading (what : String) (r : CountData) : List LogItem :=
  [.text what, .text ":", .text "\n\tNumber of unique users in file: ",
    .number r.num_unique_users, .text "\n\tNumber of records in file: ",
    .number r.num_records, .text "\n\tHistogram of Number of records per user:\n"]

/-- A user identifier whose last two bytes hold `n`. -/
def user_of_nat (n : Nat) : UserIdentifier :=
  ⟨[0, 0, 0, 0, 0, 0, 0, 0, 0, 0, Fin.ofNat (n / 256), Fin.ofNat n], rfl⟩

/-- A `Log2Histogram` with `count` in bin `bin` and 0 in the other bins. -/
def histogram_with (Bins num den bin count : Nat) : Log2Histogram :=
  ⟨Bins, num, den, (List.replicate Bins 0).set bin count⟩

/-- The indicators of a first period (no old S) whose H file holds one record
for each of 20000 users, with a weight above 0 in the subperiods 0 and 1 and
the weight 0 in the subperiods 2 and 3, and no duplicate record. -/
def first_period_results : IndicatorResults where
  m_number_of_duplicate_H_records := 0
  h_count := ⟨20000, 20000, histogram_with 10 1 1 1 20000⟩
  s_old_count := ⟨0, 0, Log2Histogram.empty 10 1 1⟩
  s_new_count := ⟨20000, 20000, histogram_with 10 1 1 1 20000⟩
  spatiotemporal_distribution := fun i => if i.val = 12 then 20000 else 0
  h_unique_tiles_per_user_with_presence := fun subperiod =>
    if subperiod.val < 2 then histogram_with 10 1 1 1 20000 else Log2Histogram.empty 10 1 1
  h_weight_values := fun subperiod =>
    if subperiod.val < 2 then histogram_with 17 1 256 9 20000
    else histogram_with 17 1 256 0 20000
  s_old_weight_values := fun _ => Log2Histogram.empty 17 1 256
  average_distances := fun _ => Log2Histogram.empty 10 256 1
  bounding_box_measure := fun subperiod =>
    ⟨if subperiod.val < 2 then histogram_with 8 1024 1 0 20000
      else Log2Histogram.empty 8 1024 1,
     Log2Histogram.empty 8 1024 1, Log2Histogram.empty 8 1024 1⟩

/-- What holds for a Count after `n` calls of its operator(). -/
def Count.invariant (self : Count) (n : Nat) : Prop :=
  self.m_data.num_records = n ∧ self.m_data.num_unique_users ≤ n ∧ self.m_group_size ≤ n
    ∧ (0 < n → 0 < self.m_group_size)
    ∧ self.m_data.histogram_records_per_user.well_formed
    ∧ self.m_data.histogram_records_per_user.Bins ≤ 65

/-- The identifiers of a file with one record for each of 20000 users. -/
def one_record_per_user : List UserIdentifier := (List.range 20000).map user_of_nat

/-- A histogram that meets the static assertions of its class, whose bin
bounds fit in a `uint64_t` and whose counters add up to less than 2^64. -/
def Log2Histogram.printable (h : Log2Histogram) : Prop :=
  h.well_formed ∧ h.num * 2 ^ h.Bins < 2 ^ 64 ∧ h.m_data.sum < 2 ^ 64

instance (h : Log2Histogram) : Decidable h.printable := by
  unfold Log2Histogram.printable; infer_instance

/-- Every histogram of the indicators is printable. -/
def IndicatorResults.well_formed (r : IndicatorResults) : Prop :=
  r.h_count.histogram_records_per_user.printable
    ∧ r.s_old_count.histogram_records_per_user.printable
    ∧ r.s_new_count.histogram_records_per_user.printable
    ∧ (∀ subperiod, (r.h_unique_tiles_per_user_with_presence subperiod).printable)
    ∧ (∀ subperiod, (r.h_weight_values subperiod).printable)
    ∧ (∀ subperiod, (r.s_old_weight_values subperiod).printable)
    ∧ (∀ subperiod, (r.average_distances subperiod).printable)
    ∧ (∀ subperiod, (r.bounding_box_measure subperiod).h_diagonal_length_histogram.printable)
    ∧ (∀ subperiod,
        (r.bounding_box_measure subperiod).old_s_diagonal_length_histogram.printable)
    ∧ (∀ subperiod,
        (r.bounding_box_measure subperiod).old_s_vs_new_s_diagonal_length_histogram.printable)

instance (r : IndicatorResults) : Decidable r.well_formed := by
  unfold IndicatorResults.well_formed; infer_instance

/-! ## The order of the keys as the specification states it -/

/-- The order on keys that the specification states: `(id, tile)` compared
lexicographically, the identifiers as byte arrays and the tiles by the operator
`<` of TileIndex. This is `CMP_FUN(<, FootprintKey, e.id, e.tile)`, which
`Entities.h` keeps as a comment. -/
def FootprintKey.lt_spec (a b : FootprintKey) : Bool :=
  tuple_lt (fun x y : UserIdentifier => array_lt x.val y.val) TileIndex.lt
    (a.id, a.tile) (b.id, b.tile)

/-- The four bytes of a TileIndex in memory. -/
def TileIndex.bytes (t : TileIndex) : List Nat :=
  uint16_bytes t.easting ++ uint16_bytes t.northing

/-- The order of two tiles by their bytes in memory: the low byte of the
easting, its high byte, the low byte of the northing, its high byte. -/
def TileIndex.bytes_lt (a b : TileIndex) : Bool :=
  decide (memcmp a.bytes b.bytes < 0)

/-! ## The runs of a stream as the specification states them -/

/-- The maximal runs of consecutive elements that are related by `eq` to the
first element of their run, each as the pair of its first element and the rest
of the run. The first argument bounds the number of runs. -/
def maximal_runs_aux {α : Type} (eq : α → α → Bool) : Nat → List α → List (α × List α)
  | 0, _ => []
  | _, [] => []
  | n + 1, x :: xs =>
    (x, xs.takeWhile (fun a => eq x a))
      :: maximal_runs_aux eq n (xs.dropWhile (fun a => eq x a))

/-- The maximal runs of a stream: a run starts at the first element that is not
related by `eq` to the first element of the run before it. -/
def maximal_runs {α : Type} (eq : α → α → Bool) (xs : List α) : List (α × List α) :=
  maximal_runs_aux eq xs.length xs

/-- The per-group fold of the specification: all elements of the run, the first
one included, are folded into `init first` in the order of the run. -/
def fold_run {In Mid : Type} (init : In → Mid) (fold : Mid → In → Mid) (run : In × List In) :
    Mid :=
  (run.1 :: run.2).foldl fold (init run.1)

/-! ## Pseudonymisation.cpp -/

/-- Constant `aes_block_size` of `Parameters.h`. -/
abbrev aes_block_size : Nat := 16

/-- Constant `sha256_size` of `Parameters.h`. -/
abbrev sha256_size : Nat := 32

/-- Constant `hmac_bytes` of `Parameters.h`. -/
abbrev hmac_bytes : Nat := 4

/-- PseudonymisedUserIdentifier is `std::array<uint8_t, aes_block_size>`. -/
abbrev PseudonymisedUserIdentifier : Type := { l : List (Fin 256) // l.length = aes_block_size }

/-- The two functions of the SGX SDK that `decrypt_pseudonym` calls, each
checked by `SgxException::throwOnError`: the bytes that the call writes, or the
message of the exception that `throwOnError` raises for its status. -/
structure SgxCrypto where
  /-- The call `sgx_aes_ctr_decrypt(&key, in.data(), in.size(), counter, 12,
  &decrypted)` with the counter of sixteen zero bytes. -/
  sgx_aes_ctr_decrypt : List Nat → PseudonymisedUserIdentifier →
    Except String { l : List (Fin 256) // l.length = aes_block_size }
  /-- The call `sgx_hmac_sha256_msg(id.data(), id.size(), key, 16, &calculated,
  sizeof(calculated))`. -/
  sgx_hmac_sha256_msg : UserIdentifier → List Nat →
    Except String { l : List (Fin 256) // l.length = sha256_size }

/-- The function `decrypt_pseudonym`. The sixteen decrypted bytes are the
identifier (`hash_bytes` bytes) followed by the tag (`hmac_bytes` bytes); the
tag is compared with the first `hmac_bytes` bytes of the calculated HMAC. -/
def decrypt_pseudonym (sgx : SgxCrypto) (pseudonymisation_key : List Nat)
    (input : PseudonymisedUserIdentifier) : Except Exception UserIdentifier :=
  match external (sgx.sgx_aes_ctr_decrypt pseudonymisation_key input) with
  | .error ex => .error ex
  | .ok decrypted =>
    let id : UserIdentifier :=
      ⟨decrypted.val.take hash_bytes, by rw [List.length_take, decrypted.property]; rfl⟩
    let hmac := decrypted.val.drop hash_bytes
    match external (sgx.sgx_hmac_sha256_msg id pseudonymisation_key) with
    | .error ex => .error ex
    | .ok calculated =>
      if hmac ≠ calculated.val.take hmac_bytes then
        .error (.EnclaveException "HMAC check failed when reversing pseudonymisation")
      else .ok id

/-- Counter mode on one block of sixteen bytes: the XOR of the data with the
key stream block (the image of the counter under the block cipher). It is what
`EVP_aes_128_ctr` computes in `generate_pseudonyms.c`. -/
def aes_ctr (key_stream data : PseudonymisedUserIdentifier) : PseudonymisedUserIdentifier :=
  ⟨List.zipWith (fun a b => a ^^^ b) data.val key_stream.val, by
    rw [List.length_zipWith, data.property, key_stream.property]; rfl⟩

/-- The plaintext of a pseudonym: the identifier followed by the first
`hmac_bytes` bytes of its HMAC (the struct `pseudonym_and_mac_t` of
`generate_pseudonyms.c`). -/
def pseudonym_and_mac (id : UserIdentifier)
    (mac : { l : List (Fin 256) // l.length = sha256_size }) : PseudonymisedUserIdentifier :=
  ⟨id.val ++ mac.val.take hmac_bytes, by
    rw [List.length_append, List.length_take, id.property, mac.property]; rfl⟩

/-! ## FullAnalysis.cpp: Module B -/

/-- PseudonymisedUserFootprintUpdates of `Entities.h`, a record of the H file. -/
structure PseudonymisedUserFootprintUpdates (F : Type) where
  id : PseudonymisedUserIdentifier
  tile : TileIndex
  i_column : IColumn F

/-- The struct `LastSeen` of `run`. -/
structure LastSeen where
  pseud_id : PseudonymisedUserIdentifier
  id : UserIdentifier

/-- The constructor of LastSeen: the first record of the H file is peeked and
its pseudonym decrypted; for an empty H file the members stay as they are,
`uninitialized`. -/
def LastSeen.init {F : Type} (sgx : SgxCrypto) (pseudonymisation_key : List Nat)
    (h_file : List (PseudonymisedUserFootprintUpdates F)) (uninitialized : LastSeen) :
    Except Exception LastSeen :=
  match h_file with
  | first :: _ =>
    match decrypt_pseudonym sgx pseudonymisation_key first.id with
    | .error ex => .error ex
    | .ok id => .ok ⟨first.id, id⟩
  | [] => .ok uninitialized

/-- The lambda of `run` given to `smap` in Module B, with the captured
`last_seen`: the pseudonym is decrypted only when it differs from the one seen
last. -/
def depseudonymise {F : Type} (sgx : SgxCrypto) (pseudonymisation_key : List Nat)
    (last_seen : LastSeen) (e : PseudonymisedUserFootprintUpdates F) :
    Except Exception (UserFootprintUpdates F × LastSeen) :=
  let pseud_id := e.id
  if pseud_id ≠ last_seen.pseud_id then
    match decrypt_pseudonym sgx pseudonymisation_key pseud_id with
    | .error ex => .error ex
    | .ok id => .ok (⟨⟨id, e.tile⟩, e.i_column⟩, ⟨pseud_id, id⟩)
  else .ok (⟨⟨last_seen.id, e.tile⟩, e.i_column⟩, last_seen)

/-- Modelled from the spec: the combinator `smap(f)` of the stream library,
which is not in the repository, for a function `f` that can throw and that
writes to a captured object. The elements are handed to `f` in stream order. -/
def smap_ex {α β σ : Type} (f : σ → α → Except Exception (β × σ)) :
    List α → σ → Except Exception (List β × σ)
  | [], s => .ok ([], s)
  | a :: as, s =>
    match f s a with
    | .error ex => .error ex
    | .ok (b, s1) =>
      match smap_ex f as s1 with
      | .error ex => .error ex
      | .ok (rest, s2) => .ok (b :: rest, s2)

/-- Module B of `run` up to its `sort`: the construction of `last_seen` and the
de-pseudonymising `smap` over the H file. -/
def module_b_smap {F : Type} (sgx : SgxCrypto) (pseudonymisation_key : List Nat)
    (h_file : List (PseudonymisedUserFootprintUpdates F)) (uninitialized : LastSeen) :
    Except Exception (List (UserFootprintUpdates F)) :=
  match LastSeen.init sgx pseudonymisation_key h_file uninitialized with
  | .error ex => .error ex
  | .ok last_seen =>
    match smap_ex (depseudonymise sgx pseudonymisation_key) h_file last_seen with
    | .error ex => .error ex
    | .ok (h, _) => .ok h

/-- The de-pseudonymisation as the specification states it: `decrypt_pseudonym`
is called on every record, in stream order. -/
def decrypt_every_record {F : Type} (sgx : SgxCrypto) (pseudonymisation_key : List Nat) :
    List (PseudonymisedUserFootprintUpdates F) → Except Exception (List (UserFootprintUpdates F))
  | [] => .ok []
  | e :: rest =>
    match decrypt_pseudonym sgx pseudonymisation_key e.id with
    | .error ex => .error ex
    | .ok id =>
      match decrypt_every_record sgx pseudonymisation_key rest with
      | .error ex => .error ex
      | .ok h => .ok (⟨⟨id, e.tile⟩, e.i_column⟩ :: h)

/-- A stand-in for the SGX SDK in examples: the key stream block of every key
is sixteen bytes `0x5a`, the HMAC of an identifier is its first byte, 32
times. -/
def sgx_example : SgxCrypto where
  sgx_aes_ctr_decrypt := fun _ data => .ok (aes_ctr ⟨List.replicate 16 90, rfl⟩ data)
  sgx_hmac_sha256_msg := fun id _ => .ok ⟨List.replicate 32 (id.val.headD 0), by simp⟩

/-- A pseudonym from sixteen bytes. -/
def pseud_id_of (b : Fin 256) : PseudonymisedUserIdentifier := ⟨List.replicate 16 b, by simp⟩

/-- An S stream of two users: the three footprints of user 1 and one footprint
of user 2 that is below the day threshold, so that user 2 is highly nomadic. -/
def s_two_users : List (AccumulatedUserFootprint ℚ) :=
  user_1_footprints ++ [s_record_rat 2 11 10 5 1 1 1]

/-- The loop of `log_skipped_periods`, iteration by iteration, with the
arithmetic of its `uint64_t` loop variable written out: `skipped` is the loop
variable, and `none` is returned when the fuel is used up before the loop
condition fails. -/
def log_skipped_periods_loop : Nat → Nat → Nat → String → Option String
  | 0, _, _, _ => none
  | fuel + 1, skipped, last_skipped_exclusive, application_log =>
    if skipped < last_skipped_exclusive then
      log_skipped_periods_loop fuel ((skipped + 1) % 2 ^ 64) last_skipped_exclusive
        (application_log ++ "Skipped period " ++ toString skipped ++ "\n")
    else some application_log

/-- The line that `log_skipped_periods` appends for the period `p`. -/
def skipped_period_line (p : Nat) : String := "Skipped period " ++ toString p ++ "\n"

/-- An environment in which every collaborator succeeds, the dummy H file is
empty and the current S file holds three records. -/
def env_finish : Env :=
  { env_ok with h_file_source := fun _ => .ok 0, s_file_source := fun _ _ => .ok 3 }

/-- An environment in which every collaborator succeeds, the dummy H file is
empty and the current S file holds no record. -/
def env_empty_s : Env :=
  { env_ok with h_file_source := fun _ => .ok 0 }

/-- Task inputs with the argument `finish-report` alone. -/
def inputs_finish : TaskInputs := ⟨[], [("finish-report", "")]⟩

/-- Scenario 3 continued: after the request for the periods 1 to 5 is digested
and the periods 1 and 4 are processed, period 4 is handed in once more. -/
def scenario_repeat : Invocation :=
  run env_ok scenario_gap.state_file (inputs_period "4")

/-- The periods that the loop of `log_skipped_periods` visits, in the order of
the visits. -/
def skipped_periods (first_skipped_inclusive last_skipped_exclusive : Nat) : List Nat :=
  List.range' first_skipped_inclusive (last_skipped_exclusive - first_skipped_inclusive)

/-- An environment like `env_ok` in which the metadata file of the H file
cannot be opened. -/
def env_no_meta : Env :=
  { env_ok with read_file := fun _ => .error "No such file or directory" }

/-! # Theorems -/

theorem memcmp_self (x : List Nat) : memcmp x x = 0 := by
  induction x with
  | nil => rfl
  | cons a as ih => simp [memcmp, ih]

theorem memcmp_trans : ∀ (x y z : List Nat), memcmp x y < 0 → memcmp y z < 0 → memcmp x z < 0
  | [], _, _, h, _ => by simp [memcmp] at h
  | _ :: _, [], _, h, _ => by simp [memcmp] at h
  | _ :: _, _ :: _, [], _, h => by simp [memcmp] at h
  | a :: as, b :: bs, c :: cs, h1, h2 => by
    simp only [memcmp] at h1 h2 ⊢
    split_ifs at h1 h2 ⊢ <;> first | omega | exact memcmp_trans as bs cs h1 h2

theorem memcmp_eq_of_not_lt : ∀ (x y : List Nat), x.length = y.length →
    ¬ memcmp x y < 0 → ¬ memcmp y x < 0 → x = y
  | [], [], _, _, _ => rfl
  | [], _ :: _, h, _, _ => by simp at h
  | _ :: _, [], h, _, _ => by simp at h
  | a :: as, b :: bs, h, h1, h2 => by
    simp only [memcmp] at h1 h2
    simp only [List.length_cons, Nat.succ.injEq] at h
    split_ifs at h1 h2 <;> first | omega | skip
    have hab : a = b := by omega
    rw [hab, memcmp_eq_of_not_lt as bs h h1 h2]

theorem uint16_bytes_inj (x y : Fin 65536) (h : uint16_bytes x = uint16_bytes y) : x = y := by
  simp only [uint16_bytes, List.cons.injEq, and_true] at h
  apply Fin.ext
  omega

theorem FootprintKey.bytes_length (k : FootprintKey) : k.bytes.length = 16 := by
  simp [FootprintKey.bytes, uint16_bytes, k.id.property]

theorem FootprintKey.bytes_inj (a b : FootprintKey) (h : a.bytes = b.bytes) : a = b := by
  obtain ⟨⟨ia, ha⟩, ⟨ea, na⟩⟩ := a
  obtain ⟨⟨ib, hb⟩, ⟨eb, nb⟩⟩ := b
  simp only [FootprintKey.bytes] at h
  have hl : (ia.map Fin.val).length = (ib.map Fin.val).length := by simp [ha, hb]
  obtain ⟨h1, h2⟩ := List.append_inj h hl
  have hl2 : (uint16_bytes ea).length = (uint16_bytes eb).length := by simp [uint16_bytes]
  obtain ⟨h3, h4⟩ := List.append_inj h2 hl2
  have hi : ia = ib := List.map_injective_iff.mpr Fin.val_injective h1
  have he := uint16_bytes_inj _ _ h3
  have hn := uint16_bytes_inj _ _ h4
  subst hi he hn
  rfl

theorem FootprintKey.lt_strictTotal : StrictTotalLt FootprintKey.lt where
  irrefl a := by simp [FootprintKey.lt, memcmp_self]
  trans a b c h1 h2 := by
    simp only [FootprintKey.lt, decide_eq_true_eq] at h1 h2 ⊢
    exact memcmp_trans _ _ _ h1 h2
  tri a b h1 h2 := by
    simp only [FootprintKey.lt, decide_eq_false_iff_not] at h1 h2
    exact FootprintKey.bytes_inj a b
      (memcmp_eq_of_not_lt _ _ (by rw [a.bytes_length, b.bytes_length]) h1 h2)

theorem StrictTotalLt.asymm {K : Type} {lt : K → K → Bool} (h : StrictTotalLt lt) {a b : K}
    (hab : lt a b = true) : lt b a = false := by
  cases hba : lt b a with
  | false => rfl
  | true =>
    have := h.trans a b a hab hba
    rw [h.irrefl a] at this
    exact absurd this (by decide)

theorem StrictTotalLt.le_trans {K : Type} {lt : K → K → Bool} (h : StrictTotalLt lt) {a b c : K}
    (hab : lt b a = false) (hbc : lt c b = false) : lt c a = false := by
  cases hca : lt c a with
  | false => rfl
  | true =>
    cases hab2 : lt a b with
    | true => rw [h.trans c a b hca hab2] at hbc; exact absurd hbc (by decide)
    | false =>
      have := h.tri a b hab2 hab
      subst this
      rw [hca] at hbc; exact absurd hbc (by decide)

theorem StrictTotalLt.lt_of_le_of_ne {K : Type} {lt : K → K → Bool} (h : StrictTotalLt lt)
    {a b : K} (hab : lt b a = false) (hne : a ≠ b) : lt a b = true := by
  cases h2 : lt a b with
  | true => rfl
  | false => exact absurd (h.tri a b h2 hab) hne

theorem sort_pairwise {α K : Type} {lt : K → K → Bool} (h : StrictTotalLt lt) (key : α → K)
    (xs : List α) :
    List.Pairwise (fun a b => lt (key b) (key a) = false)
      (sort (fun left right => lt (key left) (key right)) xs) := by
  haveI : IsTotal α (fun a b => lt (key b) (key a) = false) :=
    ⟨fun a b => by
      cases hba : lt (key b) (key a) with
      | false => exact Or.inl rfl
      | true => exact Or.inr (h.asymm hba)⟩
  haveI : IsTrans α (fun a b => lt (key b) (key a) = false) :=
    ⟨fun a b c hab hbc => h.le_trans hab hbc⟩
  exact List.sorted_insertionSort (fun a b => lt (key b) (key a) = false) xs

theorem dedup_foldl_key {F : Type} [FloatOps F] (g : List (UserFootprintUpdates F)) (front : UserFootprintUpdates F) :
    (g.foldl (fun result e =>
      { result with i_column := IColumn.zipWith fmax result.i_column e.i_column }) front).key
      = front.key := by
  induction g generalizing front with
  | nil => rfl
  | cons a as ih => simp only [List.foldl_cons]; rw [ih]

theorem dedup_flatMap_cons {F : Type} [FloatOps F] (a : UserFootprintUpdates F) (g : List (UserFootprintUpdates F)) :
    ∃ r, dedup_flatMap (a :: g) = some [r] ∧ r.key = a.key := by
  cases g with
  | nil => exact ⟨a, rfl, rfl⟩
  | cons b g => exact ⟨_, rfl, dedup_foldl_key _ _⟩

theorem groupBy_cons {α : Type} (eq : α → α → Bool) (a : α) (as : List α) :
    ∃ g gs, groupBy eq (a :: as) = (a :: g) :: gs := by
  simp only [groupBy]
  split
  · split
    · exact ⟨_, _, rfl⟩
    · exact ⟨_, _, rfl⟩
  · exact ⟨_, _, rfl⟩

theorem groupBy_cons_of_eq {α : Type} (eq : α → α → Bool) (a b : α) (as g : List α)
    (gs : List (List α)) (h : groupBy eq as = (b :: g) :: gs) :
    groupBy eq (a :: as) = if eq a b then (a :: b :: g) :: gs else [a] :: (b :: g) :: gs := by
  rw [groupBy, h]

theorem dedup_groupBy_sorted {F : Type} [FloatOps F] {lt : FootprintKey → FootprintKey → Bool} (hlt : StrictTotalLt lt)
    (xs : List (UserFootprintUpdates F))
    (hs : List.Pairwise (fun a b => lt b.key a.key = false) xs) :
    ∃ d, flatMap dedup_flatMap (groupBy (fun left right => left.key == right.key) xs) = some d
      ∧ List.Pairwise (fun a b => lt a.key b.key = true) d
      ∧ (∀ r ∈ d, ∃ x ∈ xs, x.key = r.key)
      ∧ (∀ x ∈ xs, ∃ r ∈ d, r.key = x.key)
      ∧ (∀ a as, xs = a :: as → ∃ r d', d = r :: d' ∧ r.key = a.key) := by
  induction xs with
  | nil => exact ⟨[], rfl, List.Pairwise.nil, by simp, by simp, by simp⟩
  | cons a as ih =>
    obtain ⟨ha, has⟩ := List.pairwise_cons.mp hs
    obtain ⟨d, hd, hp, hsub, hsup, hhead⟩ := ih has
    cases as with
    | nil =>
      refine ⟨[a], rfl, List.pairwise_singleton _ _, by simp, by simp, ?_⟩
      intro a' as' h
      simp only [List.cons.injEq] at h
      exact ⟨a, [], rfl, by rw [h.1]⟩
    | cons b bs =>
      obtain ⟨g, gs, hg⟩ := groupBy_cons (fun left right : UserFootprintUpdates F => left.key == right.key) b bs
      obtain ⟨r0, d', hd0, hr0⟩ := hhead b bs rfl
      subst hd0
      rw [hg] at hd
      obtain ⟨rb, hrb, hrbk⟩ := dedup_flatMap_cons b g
      simp only [flatMap, hrb] at hd
      cases hgs : flatMap dedup_flatMap gs with
      | none => simp [hgs] at hd
      | some dgs =>
        simp only [hgs, List.singleton_append, Option.some.injEq, List.cons.injEq] at hd
        obtain ⟨hrb0, hdgs⟩ := hd
        subst hrb0 hdgs
        obtain ⟨hp0, hp'⟩ := List.pairwise_cons.mp hp
        have hba : lt b.key a.key = false := ha b (List.mem_cons_self _ _)
        by_cases hk : a.key = b.key
        · -- the record joins the first group
          obtain ⟨ra, hra, hrak⟩ := dedup_flatMap_cons a (b :: g)
          refine ⟨ra :: dgs, ?_, ?_, ?_, ?_, ?_⟩
          · rw [groupBy_cons_of_eq _ a b _ g gs hg]
            simp only [hk, beq_self_eq_true, if_true, flatMap, hra, hgs, List.singleton_append]
          · refine List.pairwise_cons.mpr ⟨fun x hx => ?_, hp'⟩
            rw [hrak, hk, ← hrbk]; exact hp0 x hx
          · intro r hr
            rcases List.mem_cons.mp hr with h | h
            · exact ⟨a, List.mem_cons_self _ _, by rw [h, hrak]⟩
            · obtain ⟨x, hx, hxk⟩ := hsub r (List.mem_cons_of_mem _ h)
              exact ⟨x, List.mem_cons_of_mem _ hx, hxk⟩
          · intro x hx
            rcases List.mem_cons.mp hx with h | h
            · exact ⟨ra, List.mem_cons_self _ _, by rw [h, hrak]⟩
            · obtain ⟨r, hr, hrk⟩ := hsup x h
              rcases List.mem_cons.mp hr with h' | h'
              · exact ⟨ra, List.mem_cons_self _ _, by rw [hrak, hk, ← hrbk, ← h', hrk]⟩
              · exact ⟨r, List.mem_cons_of_mem _ h', hrk⟩
          · intro a' as' h
            simp only [List.cons.injEq] at h
            exact ⟨ra, dgs, rfl, by rw [hrak, h.1]⟩
        · -- the record starts a group of its own
          have hab : lt a.key b.key = true := hlt.lt_of_le_of_ne hba hk
          refine ⟨a :: rb :: dgs, ?_, ?_, ?_, ?_, ?_⟩
          · have hk' : (a.key == b.key) = false := by simpa using hk
            rw [groupBy_cons_of_eq _ a b _ g gs hg]
            have hsingle : dedup_flatMap [a] = some [a] := rfl
            simp only [hk', flatMap, hrb, hgs, hsingle, List.singleton_append]
          · refine List.pairwise_cons.mpr ⟨fun x hx => ?_, hp⟩
            rcases List.mem_cons.mp hx with h | h
            · rw [h, hrbk]; exact hab
            · exact hlt.trans _ _ _ (by rw [← hrbk] at hab; exact hab) (hp0 x h)
          · intro r hr
            rcases List.mem_cons.mp hr with h | h
            · exact ⟨a, List.mem_cons_self _ _, by rw [h]⟩
            · obtain ⟨x, hx, hxk⟩ := hsub r h
              exact ⟨x, List.mem_cons_of_mem _ hx, hxk⟩
          · intro x hx
            rcases List.mem_cons.mp hx with h | h
            · exact ⟨a, List.mem_cons_self _ _, by rw [h]⟩
            · obtain ⟨r, hr, hrk⟩ := hsup x h
              exact ⟨r, List.mem_cons_of_mem _ hr, hrk⟩
          · intro a' as' h
            simp only [List.cons.injEq] at h
            exact ⟨a, rb :: dgs, rfl, by rw [h.1]⟩

theorem takeWhile_dropWhile_strict {α K : Type} (lt : K → K → Bool) (key : α → K) (k : K)
    (ls : List α) (h : ∀ x ∈ ls, lt k (key x) = true) :
    ls.takeWhile (fun x => !lt k (key x) && !lt (key x) k) = []
      ∧ ls.dropWhile (fun x => !lt k (key x) && !lt (key x) k) = ls := by
  cases ls with
  | nil => exact ⟨rfl, rfl⟩
  | cons x xs =>
    have hx := h x (List.mem_cons_self _ _)
    simp [List.takeWhile, List.dropWhile, hx]

theorem h_find_cons {F : Type} (l : UserFootprintUpdates F) (ls : List (UserFootprintUpdates F))
    (k : FootprintKey) :
    h_find (l :: ls) k = if l.key = k then some l.i_column else h_find ls k := by
  by_cases h : l.key = k <;> simp [h_find, List.find?_cons, h]

theorem s_find_cons {F : Type} (r : AccumulatedUserFootprint F)
    (rs : List (AccumulatedUserFootprint F)) (k : FootprintKey) :
    s_find (r :: rs) k = if r.key = k then some r.i_column else s_find rs k := by
  by_cases h : r.key = k <;> simp [s_find, List.find?_cons, h]

theorem h_find_absent {F : Type} (ls : List (UserFootprintUpdates F)) (k : FootprintKey)
    (h : k ∉ ls.map (fun e => e.key)) : h_find ls k = none := by
  induction ls with
  | nil => rfl
  | cons l ls ih =>
    simp only [List.map_cons, List.mem_cons, not_or] at h
    rw [h_find_cons, if_neg (fun e => h.1 e.symm), ih h.2]

theorem s_find_absent {F : Type} (rs : List (AccumulatedUserFootprint F)) (k : FootprintKey)
    (h : k ∉ rs.map (fun e => e.key)) : s_find rs k = none := by
  induction rs with
  | nil => rfl
  | cons r rs ih =>
    simp only [List.map_cons, List.mem_cons, not_or] at h
    rw [s_find_cons, if_neg (fun e => h.1 e.symm), ih h.2]

theorem merged_values_eq_sum {F : Type} [FloatOps F] (h0add : ∀ x : F, FloatOps.add FloatOps.zero x = x)
    (hadd0 : ∀ x : F, FloatOps.add x FloatOps.zero = x) (s h : Option (IColumn F)) :
    merged_values s h
      = IColumn.zipWith FloatOps.add (s.getD IColumn.zero) (h.getD IColumn.zero) := by
  cases s with
  | none =>
    cases h with
    | none => simp [merged_values, IColumn.zipWith, IColumn.zero, h0add]
    | some h => cases h; simp [merged_values, IColumn.zipWith, IColumn.zero, h0add]
  | some s =>
    cases h with
    | none => cases s; simp [merged_values, IColumn.zipWith, IColumn.zero, hadd0]
    | some h => rfl

theorem MergeResult.emit {F : Type} [FloatOps F] {lt : FootprintKey → FootprintKey → Bool}
    {ls ls' : List (UserFootprintUpdates F)} {rs rs' out' : List (AccumulatedUserFootprint F)}
    (x : AccumulatedUserFootprint F) (h' : MergeResult lt ls' rs' out')
    (hlow : ∀ k, (k ∈ ls'.map (fun e => e.key) ∨ k ∈ rs'.map (fun e => e.key)) →
      lt x.key k = true)
    (hK : ∀ k, (k ∈ ls.map (fun e => e.key) ∨ k ∈ rs.map (fun e => e.key)) ↔
      (k = x.key ∨ (k ∈ ls'.map (fun e => e.key) ∨ k ∈ rs'.map (fun e => e.key))))
    (hx : x.i_column = merged_values (s_find rs x.key) (h_find ls x.key))
    (hsame : ∀ k, k ≠ x.key → s_find rs k = s_find rs' k ∧ h_find ls k = h_find ls' k) :
    MergeResult lt ls rs (x :: out') where
  sub r hr := by
    rcases List.mem_cons.mp hr with h | h
    · exact (hK r.key).mpr (Or.inl (by rw [h]))
    · exact (hK r.key).mpr (Or.inr (h'.sub r h))
  sorted := List.pairwise_cons.mpr ⟨fun r hr => hlow r.key (h'.sub r hr), h'.sorted⟩
  sup k hk := by
    by_cases hkx : k = x.key
    · exact ⟨x, List.mem_cons_self _ _, hkx.symm, by rw [hkx]; exact hx⟩
    · rcases (hK k).mp hk with h | h
      · exact absurd h hkx
      · obtain ⟨r, hr, hrk, hrc⟩ := h'.sup k h
        obtain ⟨e1, e2⟩ := hsame k hkx
        exact ⟨r, List.mem_cons_of_mem _ hr, hrk, by rw [hrc, e1, e2]⟩

theorem smap_cons_some {α β : Type} (f : α → Option β) (a : α) (as : List α) (b : β)
    (bs : List β) (ha : f a = some b) (has : smap f as = some bs) :
    smap f (a :: as) = some (b :: bs) := by
  simp only [smap, ha, has]

theorem merge_aux {F : Type} [FloatOps F] {lt : FootprintKey → FootprintKey → Bool} (hlt : StrictTotalLt lt) :
    ∀ (n : Nat) (ls : List (UserFootprintUpdates F)) (rs : List (AccumulatedUserFootprint F)),
      ls.length + rs.length ≤ n →
      ls.Pairwise (fun a b => lt a.key b.key = true) →
      rs.Pairwise (fun a b => lt a.key b.key = true) →
      ∃ out, smap merge_smap
          (outerJoinAux lt (fun e : UserFootprintUpdates F => e.key)
            (fun e : AccumulatedUserFootprint F => e.key) n ls rs) = some out
        ∧ MergeResult lt ls rs out := by
  intro n
  induction n with
  | zero =>
    intro ls rs hlen _ _
    have h1 : ls = [] := List.length_eq_zero.mp (by omega)
    have h2 : rs = [] := List.length_eq_zero.mp (by omega)
    subst h1 h2
    exact ⟨[], rfl, ⟨by simp, List.Pairwise.nil, by simp⟩⟩
  | succ n ih =>
    intro ls rs hlen hL hR
    match ls, rs, hlen, hL, hR with
    | [], [], _, _, _ => exact ⟨[], rfl, ⟨by simp, List.Pairwise.nil, by simp⟩⟩
    | l :: ls, [], hlen, hL, _ =>
      obtain ⟨hl, hls⟩ := List.pairwise_cons.mp hL
      obtain ⟨ht, hd⟩ := takeWhile_dropWhile_strict lt (fun e : UserFootprintUpdates F => e.key)
        l.key ls hl
      obtain ⟨out', ho, hm⟩ := ih ls [] (by simp at hlen ⊢; omega) hls List.Pairwise.nil
      refine ⟨⟨l.key, l.i_column⟩ :: out', ?_, hm.emit _ ?_ ?_ ?_ ?_⟩
      · simp only [outerJoinAux, ht, hd]
        exact smap_cons_some _ _ _ _ _ rfl ho
      · intro k hk
        simp only [List.map_nil, List.not_mem_nil, or_false, List.mem_map] at hk
        obtain ⟨x, hx, rfl⟩ := hk
        exact hl x hx
      · intro k
        simp only [List.map_cons, List.mem_cons, List.map_nil, List.not_mem_nil, or_false]
      · simp only [h_find_cons, if_true]
        rw [s_find_absent _ _ (by simp)]; rfl
      · intro k hk
        refine ⟨rfl, ?_⟩
        rw [h_find_cons, if_neg (fun e => hk e.symm)]
    | [], r :: rs, hlen, _, hR =>
      obtain ⟨hr, hrs⟩ := List.pairwise_cons.mp hR
      obtain ⟨ht, hd⟩ := takeWhile_dropWhile_strict lt
        (fun e : AccumulatedUserFootprint F => e.key) r.key rs hr
      obtain ⟨out', ho, hm⟩ := ih [] rs (by simp at hlen ⊢; omega) List.Pairwise.nil hrs
      refine ⟨r :: out', ?_, hm.emit _ ?_ ?_ ?_ ?_⟩
      · simp only [outerJoinAux, ht, hd]
        exact smap_cons_some _ _ _ _ _ rfl ho
      · intro k hk
        simp only [List.map_nil, List.not_mem_nil, false_or, List.mem_map] at hk
        obtain ⟨x, hx, rfl⟩ := hk
        exact hr x hx
      · intro k
        simp only [List.map_cons, List.mem_cons, List.map_nil, List.not_mem_nil, false_or]
      · simp only [s_find_cons, if_true]
        rw [h_find_absent _ _ (by simp)]; rfl
      · intro k hk
        refine ⟨?_, rfl⟩
        rw [s_find_cons, if_neg (fun e => hk e.symm)]
    | l :: ls, r :: rs, hlen, hL, hR =>
      obtain ⟨hl, hls⟩ := List.pairwise_cons.mp hL
      obtain ⟨hr, hrs⟩ := List.pairwise_cons.mp hR
      obtain ⟨htl, hdl⟩ := takeWhile_dropWhile_strict lt (fun e : UserFootprintUpdates F => e.key)
        l.key ls hl
      obtain ⟨htr, hdr⟩ := takeWhile_dropWhile_strict lt
        (fun e : AccumulatedUserFootprint F => e.key) r.key rs hr
      have hlmem : ∀ k, k ∈ ls.map (fun e => e.key) → lt l.key k = true := by
        intro k hk
        obtain ⟨x, hx, rfl⟩ := List.mem_map.mp hk
        exact hl x hx
      have hrmem : ∀ k, k ∈ rs.map (fun e => e.key) → lt r.key k = true := by
        intro k hk
        obtain ⟨x, hx, rfl⟩ := List.mem_map.mp hk
        exact hr x hx
      have hlt_ne : ∀ a b : FootprintKey, lt a b = true → a ≠ b := by
        intro a b hab e
        rw [e, hlt.irrefl] at hab
        exact absurd hab (by decide)
      by_cases c1 : lt l.key r.key = true
      · -- only H has the smallest key
        obtain ⟨out', ho, hm⟩ := ih ls (r :: rs) (by simp at hlen ⊢; omega) hls hR
        refine ⟨⟨l.key, l.i_column⟩ :: out', ?_, hm.emit _ ?_ ?_ ?_ ?_⟩
        · simp only [outerJoinAux, c1, if_true, htl, hdl]
          exact smap_cons_some _ _ _ _ _ rfl ho
        · intro k hk
          rcases hk with hk | hk
          · exact hlmem k hk
          · rcases List.mem_cons.mp hk with hk | hk
            · rw [hk]; exact c1
            · exact hlt.trans _ _ _ c1 (hrmem k hk)
        · intro k
          simp only [List.map_cons, List.mem_cons]
          tauto
        · have habs : l.key ∉ (r :: rs).map (fun e => e.key) := by
            intro hk
            rcases List.mem_cons.mp hk with hk | hk
            · exact hlt_ne _ _ c1 hk
            · exact hlt_ne _ _ (hlt.trans _ _ _ c1 (hrmem _ hk)) rfl
          simp only [h_find_cons, if_true]
          rw [s_find_absent _ _ habs]; rfl
        · intro k hk
          refine ⟨rfl, ?_⟩
          rw [h_find_cons, if_neg (fun e => hk e.symm)]
      · by_cases c2 : lt r.key l.key = true
        · -- only S has the smallest key
          obtain ⟨out', ho, hm⟩ := ih (l :: ls) rs (by simp at hlen ⊢; omega) hL hrs
          refine ⟨r :: out', ?_, hm.emit _ ?_ ?_ ?_ ?_⟩
          · simp only [outerJoinAux, c1, c2, if_true, if_false, htr, hdr]
            exact smap_cons_some _ _ _ _ _ rfl ho
          · intro k hk
            rcases hk with hk | hk
            · rcases List.mem_cons.mp hk with hk | hk
              · rw [hk]; exact c2
              · exact hlt.trans _ _ _ c2 (hlmem k hk)
            · exact hrmem k hk
          · intro k
            simp only [List.map_cons, List.mem_cons]
            tauto
          · have habs : r.key ∉ (l :: ls).map (fun e => e.key) := by
              intro hk
              rcases List.mem_cons.mp hk with hk | hk
              · exact hlt_ne _ _ c2 hk
              · exact hlt_ne _ _ (hlt.trans _ _ _ c2 (hlmem _ hk)) rfl
            simp only [s_find_cons, if_true]
            rw [h_find_absent _ _ habs]; rfl
          · intro k hk
            refine ⟨?_, rfl⟩
            rw [s_find_cons, if_neg (fun e => hk e.symm)]
        · -- both streams have the smallest key
          have c1' : lt l.key r.key = false := by simpa using c1
          have c2' : lt r.key l.key = false := by simpa using c2
          have hkey : l.key = r.key := hlt.tri _ _ c1' c2'
          obtain ⟨out', ho, hm⟩ := ih ls rs (by simp at hlen ⊢; omega) hls hrs
          refine ⟨{ r with i_column := IColumn.zipWith FloatOps.add r.i_column l.i_column }
            :: out', ?_, hm.emit _ ?_ ?_ ?_ ?_⟩
          · simp only [outerJoinAux, c1, c2, if_false, htl, hdl, htr, hdr]
            exact smap_cons_some _ _ _ _ _ rfl ho
          · intro k hk
            rcases hk with hk | hk
            · show lt r.key k = true
              rw [← hkey]; exact hlmem k hk
            · exact hrmem k hk
          · intro k
            simp only [List.map_cons, List.mem_cons, hkey]
            tauto
          · simp only [s_find_cons, h_find_cons, hkey, if_true]; rfl
          · intro k hk
            have hk' : ¬ r.key = k := fun e => hk e.symm
            constructor
            · rw [s_find_cons, if_neg hk']
            · rw [h_find_cons, if_neg (by rw [hkey]; exact hk')]

theorem cleaned_deduped_sorted {F : Type} [FloatOps F] (h_file : List (UserFootprintUpdates F)) :
    ∃ h, cleaned_deduped_sorted_h_file h_file = some h
      ∧ h.Pairwise (fun a b => FootprintKey.lt a.key b.key = true) := by
  have h1 := sort_pairwise FootprintKey.lt_strictTotal
    (fun e : UserFootprintUpdates F => e.key) h_file
  have h2 := List.Pairwise.filter h_filter h1
  obtain ⟨d, hd, hp, _⟩ := dedup_groupBy_sorted FootprintKey.lt_strictTotal _ h2
  exact ⟨d, hd, hp⟩

theorem updated_s_result {F : Type} [FloatOps F] (h_file : List (UserFootprintUpdates F))
    (s_file_in : List (AccumulatedUserFootprint F)) (hS : s_invariant s_file_in) :
    ∃ h new_s, cleaned_deduped_sorted_h_file h_file = some h
      ∧ updated_s h_file s_file_in = some new_s
      ∧ MergeResult FootprintKey.lt h s_file_in new_s := by
  obtain ⟨h, hh, hp⟩ := cleaned_deduped_sorted h_file
  obtain ⟨out, ho, hm⟩ := merge_aux FootprintKey.lt_strictTotal
    (h.length + s_file_in.length) h s_file_in (Nat.le_refl _) hp hS
  refine ⟨h, out, hh, ?_, hm⟩
  simp only [updated_s, hh, outerJoin]
  exact ho

theorem filter_key_singleton {F : Type} {lt : FootprintKey → FootprintKey → Bool}
    (hlt : StrictTotalLt lt) (out : List (AccumulatedUserFootprint F))
    (hp : out.Pairwise (fun a b => lt a.key b.key = true)) (r : AccumulatedUserFootprint F)
    (hr : r ∈ out) : out.filter (fun e => e.key = r.key) = [r] := by
  have hne : ∀ a b : FootprintKey, lt a b = true → a ≠ b := by
    intro a b hab e
    rw [e, hlt.irrefl] at hab
    exact absurd hab (by decide)
  induction out with
  | nil => simp at hr
  | cons a as ih =>
    obtain ⟨ha, has⟩ := List.pairwise_cons.mp hp
    rcases List.mem_cons.mp hr with h | h
    · subst h
      have : as.filter (fun e => e.key = r.key) = [] := by
        rw [List.filter_eq_nil_iff]
        intro x hx
        simpa using (hne _ _ (ha x hx)).symm
      simp [List.filter_cons, this]
    · have hak : ¬ a.key = r.key := hne _ _ (ha r h)
      simp [List.filter_cons, hak, ih has h]

/-- C1. Join correctness of the merge step of `full_analysis::run`. Let the old
S stream satisfy I-S1 and let `0` be neutral for the addition of values. Then
the pipeline yields a new S stream in which every key of the deduplicated H
stream or of the old S stream occurs in exactly one record, whose values are the
component-wise sum of the old S values for this key (0 if there are none) and
the H values for this key (0 if there are none); no other key occurs in the
new S. -/
theorem merge_join_correct {F : Type} [FloatOps F]
    (h0add : ∀ x : F, FloatOps.add FloatOps.zero x = x)
    (hadd0 : ∀ x : F, FloatOps.add x FloatOps.zero = x)
    (h_file : List (UserFootprintUpdates F)) (s_file_in : List (AccumulatedUserFootprint F))
    (hS : s_invariant s_file_in) :
    ∃ h new_s, cleaned_deduped_sorted_h_file h_file = some h
      ∧ updated_s h_file s_file_in = some new_s
      ∧ (∀ k, (k ∈ h.map (fun e => e.key) ∨ k ∈ s_file_in.map (fun e => e.key)) →
          ∃ r, new_s.filter (fun e => e.key = k) = [r]
            ∧ r.i_column
              = IColumn.zipWith FloatOps.add (s_contribution s_file_in k) (h_contribution h k))
      ∧ (∀ r ∈ new_s,
          r.key ∈ h.map (fun e => e.key) ∨ r.key ∈ s_file_in.map (fun e => e.key)) := by
  obtain ⟨h, new_s, hh, hn, hm⟩ := updated_s_result h_file s_file_in hS
  refine ⟨h, new_s, hh, hn, ?_, hm.sub⟩
  intro k hk
  obtain ⟨r, hr, hrk, hrc⟩ := hm.sup k hk
  refine ⟨r, ?_, ?_⟩
  · rw [← hrk]
    exact filter_key_singleton FootprintKey.lt_strictTotal new_s hm.sorted r hr
  · rw [hrc, merged_values_eq_sum h0add hadd0]
    rfl

/-- Witness of C1: an H input with a duplicate and an all-zero record, merged
into an old S of two records. -/
theorem merge_join_correct_witness :
    (∀ x : Int, FloatOps.add FloatOps.zero x = x)
      ∧ (∀ x : Int, FloatOps.add x FloatOps.zero = x)
      ∧ s_invariant [s_record 1 1 0 10 10 10 10, s_record 3 3 3 1 1 1 1]
      ∧ ∃ h new_s,
          cleaned_deduped_sorted_h_file
              [h_record 2 1 1 1 2 3 4, h_record 1 1 0 1 0 0 0, h_record 1 1 0 0 7 0 0,
               h_record 3 0 0 0 0 0 0] = some h
          ∧ updated_s
              [h_record 2 1 1 1 2 3 4, h_record 1 1 0 1 0 0 0, h_record 1 1 0 0 7 0 0,
               h_record 3 0 0 0 0 0 0]
              [s_record 1 1 0 10 10 10 10, s_record 3 3 3 1 1 1 1] = some new_s
          ∧ (∀ k, (k ∈ h.map (fun e => e.key)
                ∨ k ∈ [s_record 1 1 0 10 10 10 10, s_record 3 3 3 1 1 1 1].map (fun e => e.key)) →
              ∃ r, new_s.filter (fun e => e.key = k) = [r]
                ∧ r.i_column = IColumn.zipWith FloatOps.add
                    (s_contribution [s_record 1 1 0 10 10 10 10, s_record 3 3 3 1 1 1 1] k)
                    (h_contribution h k))
          ∧ (∀ r ∈ new_s, r.key ∈ h.map (fun e => e.key)
                ∨ r.key ∈ [s_record 1 1 0 10 10 10 10, s_record 3 3 3 1 1 1 1].map
                    (fun e => e.key)) :=
  ⟨fun x => Int.zero_add x, fun x => Int.add_zero x, by unfold s_invariant; decide,
    merge_join_correct (fun x => Int.zero_add x) (fun x => Int.add_zero x) _ _
      (by unfold s_invariant; decide)⟩

/-- C2. The merge preserves I-S1: when the keys of the old S stream increase
strictly, then for every H input the pipeline yields a new S stream, and its
keys increase strictly again (sorted by FootprintKey, every key unique). -/
theorem merge_preserves_s_invariant {F : Type} [FloatOps F]
    (h_file : List (UserFootprintUpdates F)) (s_file_in : List (AccumulatedUserFootprint F))
    (hS : s_invariant s_file_in) :
    ∃ new_s, updated_s h_file s_file_in = some new_s ∧ s_invariant new_s := by
  obtain ⟨_, new_s, _, hn, hm⟩ := updated_s_result h_file s_file_in hS
  exact ⟨new_s, hn, hm.sorted⟩

/-- Witness of C2: an unsorted H input with a duplicate key, merged into an old
S of two records. -/
theorem merge_preserves_s_invariant_witness :
    s_invariant [s_record 1 1 0 10 10 10 10, s_record 3 3 3 1 1 1 1]
      ∧ ∃ new_s,
          updated_s [h_record 2 1 1 1 2 3 4, h_record 1 256 0 5 5 5 5, h_record 1 1 0 1 0 0 0,
              h_record 1 1 0 0 7 0 0]
            [s_record 1 1 0 10 10 10 10, s_record 3 3 3 1 1 1 1] = some new_s
          ∧ s_invariant new_s :=
  ⟨by unfold s_invariant; decide,
    merge_preserves_s_invariant _ _ (by unfold s_invariant; decide)⟩

theorem mem_emplace (s : List TileIndex) (t x : TileIndex) :
    x ∈ emplace s t ↔ x ∈ s ∨ x = t := by
  unfold emplace
  split
  · constructor
    · exact Or.inl
    · rintro (h | h)
      · exact h
      · rw [h]; assumption
  · simp

theorem getD_append_singleton (result : ReferenceAreas) (a : List TileIndex) (k : Nat)
    (x : TileIndex) :
    x ∈ (result ++ [a]).getD k [] ↔ x ∈ result.getD k [] ∨ (k = result.length ∧ x ∈ a) := by
  rcases Nat.lt_trichotomy k result.length with h | h | h
  · rw [List.getD_append _ _ _ _ h]
    constructor
    · exact Or.inl
    · rintro (h' | ⟨h', _⟩)
      · exact h'
      · omega
  · subst h
    rw [List.getD_append_right _ _ _ _ (Nat.le_refl _)]
    simp
  · rw [List.getD_eq_default _ _ (by simp; omega), List.getD_eq_default _ _ (by omega)]
    simp
    omega

theorem getD_set_back (result : ReferenceAreas) (a : List TileIndex) (k : Nat) (x : TileIndex)
    (hpos : 0 < result.length) :
    x ∈ (result.set (result.length - 1) a).getD k []
      ↔ (k ≠ result.length - 1 ∧ x ∈ result.getD k []) ∨ (k = result.length - 1 ∧ x ∈ a) := by
  by_cases h : k = result.length - 1
  · subst h
    simp [List.getD_eq_getElem?_getD, List.getElem?_set, hpos]
  · have h' : ¬ result.length - 1 = k := fun e => h e.symm
    simp [List.getD_eq_getElem?_getD, List.getElem?_set, h, h']

theorem deserialize_loop_ok_iff (rest : List ReferenceArea) :
    ∀ result : ReferenceAreas,
      (∃ r, deserialize_loop result rest = .ok r) ↔
        match rest with
        | [] => True
        | cur :: rest' =>
          (cur.id.val = result.length ∨ cur.id.val + 1 = result.length)
            ∧ ids_chain cur.id.val (rest'.map (fun e => e.id.val)) := by
  induction rest with
  | nil => intro result; simp [deserialize_loop]
  | cons cur rest ih =>
    intro result
    simp only [deserialize_loop]
    by_cases h1 : cur.id.val > result.length ∨ result.length - cur.id.val > 1
    · rw [if_pos h1]
      constructor
      · rintro ⟨r, hr⟩; cases hr
      · rintro ⟨h, _⟩; omega
    · rw [if_neg h1]
      by_cases h2 : cur.id.val = result.length
      · rw [if_pos h2, ih]
        cases rest with
        | nil => simp [h2, ids_chain]
        | cons nxt rest' =>
          simp only [List.length_append, List.length_singleton, List.map_cons, ids_chain]
          constructor
          · rintro ⟨h, hc⟩; exact ⟨Or.inl h2, by omega, hc⟩
          · rintro ⟨_, h, hc⟩; exact ⟨by omega, hc⟩
      · rw [if_neg h2, ih]
        cases rest with
        | nil => simp [ids_chain]; omega
        | cons nxt rest' =>
          simp only [List.length_set, List.map_cons, ids_chain]
          constructor
          · rintro ⟨h, hc⟩; exact ⟨by omega, by omega, hc⟩
          · rintro ⟨_, h, hc⟩; exact ⟨by omega, hc⟩

theorem deserialize_loop_result (rest : List ReferenceArea) :
    ∀ (result r : ReferenceAreas), deserialize_loop result rest = .ok r →
      r.length = (match rest.getLast? with
        | none => result.length
        | some e => e.id.val + 1)
      ∧ ∀ k t, t ∈ r.getD k [] ↔
          (t ∈ result.getD k [] ∨ ∃ e ∈ rest, e.id.val = k ∧ e.tile_index = t) := by
  induction rest with
  | nil =>
    intro result r h
    simp only [deserialize_loop, Except.ok.injEq] at h
    subst h
    simp
  | cons cur rest ih =>
    intro result r h
    simp only [deserialize_loop] at h
    by_cases h1 : cur.id.val > result.length ∨ result.length - cur.id.val > 1
    · rw [if_pos h1] at h; cases h
    · rw [if_neg h1] at h
      by_cases h2 : cur.id.val = result.length
      · rw [if_pos h2] at h
        obtain ⟨hlen, hmem⟩ := ih _ _ h
        constructor
        · cases rest with
          | nil => simpa [h2] using hlen
          | cons nxt rest' => simpa [List.getLast?_cons_cons] using hlen
        · intro k t
          have hs : t ∈ [cur.tile_index] ↔ cur.tile_index = t := by
            rw [List.mem_singleton]; exact eq_comm
          rw [hmem, getD_append_singleton, hs]
          simp only [List.mem_cons, exists_eq_or_imp]
          constructor
          · rintro ((h | ⟨hk, ht⟩) | h)
            · exact Or.inl h
            · exact Or.inr (Or.inl ⟨by omega, ht⟩)
            · exact Or.inr (Or.inr h)
          · rintro (h | ⟨hk, ht⟩ | h)
            · exact Or.inl (Or.inl h)
            · exact Or.inl (Or.inr ⟨by omega, ht⟩)
            · exact Or.inr h
      · rw [if_neg h2] at h
        have hpos : 0 < result.length := by omega
        obtain ⟨hlen, hmem⟩ := ih _ _ h
        constructor
        · cases rest with
          | nil => simp at hlen ⊢; omega
          | cons nxt rest' => simpa [List.getLast?_cons_cons] using hlen
        · intro k t
          rw [hmem, getD_set_back _ _ _ _ hpos, mem_emplace]
          simp only [List.mem_cons, exists_eq_or_imp]
          by_cases hk : k = result.length - 1
          · subst hk
            constructor
            · rintro ((⟨h, _⟩ | ⟨_, h | h⟩) | h)
              · exact absurd rfl h
              · exact Or.inl h
              · exact Or.inr (Or.inl ⟨by omega, h.symm⟩)
              · exact Or.inr (Or.inr h)
            · rintro (h | ⟨_, h⟩ | h)
              · exact Or.inl (Or.inr ⟨rfl, Or.inl h⟩)
              · exact Or.inl (Or.inr ⟨rfl, Or.inr h.symm⟩)
              · exact Or.inr h
          · constructor
            · rintro ((⟨_, h⟩ | ⟨h, _⟩) | h)
              · exact Or.inl h
              · exact absurd h hk
              · exact Or.inr (Or.inr h)
            · rintro (h | ⟨h, _⟩ | h)
              · exact Or.inl (Or.inl ⟨hk, h⟩)
              · omega
              · exact Or.inr h

theorem deserialize_ok_iff (range : List ReferenceArea) :
    (∃ result, deserialize range = .ok result)
      ↔ ids_well_formed (range.map (fun e => e.id.val)) := by
  unfold deserialize
  rw [deserialize_loop_ok_iff]
  cases range with
  | nil => simp [ids_well_formed]
  | cons cur rest => simp [ids_well_formed]

/-- C8. `deserialize` for reference areas succeeds exactly on the well-formed id
sequences (empty, or starting at 0 with every id equal to the previous id or to
the previous id plus one). On success the result has (last id + 1) areas, none
for the empty table, and area `k` holds exactly the tiles of the entries with
id `k`. The sequence 0,0,1,1,1,2,3 is accepted and 1,3 is rejected. -/
theorem deserialize_reference_areas (range : List ReferenceArea) :
    ((∃ result, deserialize range = .ok result)
        ↔ ids_well_formed (range.map (fun e => e.id.val)))
      ∧ (∀ result, deserialize range = .ok result →
          result.length = (match range.getLast? with
            | none => 0
            | some e => e.id.val + 1)
          ∧ ∀ k t, t ∈ result.getD k [] ↔ ∃ e ∈ range, e.id.val = k ∧ e.tile_index = t)
      ∧ (range.map (fun e => e.id.val) = [0, 0, 1, 1, 1, 2, 3] →
          ∃ result, deserialize range = .ok result)
      ∧ (range.map (fun e => e.id.val) = [1, 3] → ¬ ∃ result, deserialize range = .ok result) := by
  refine ⟨deserialize_ok_iff range, ?_, ?_, ?_⟩
  · intro result h
    obtain ⟨hlen, hmem⟩ := deserialize_loop_result range [] result h
    refine ⟨hlen, fun k t => ?_⟩
    rw [hmem]
    simp
  · intro h
    rw [deserialize_ok_iff, h]
    decide
  · intro h
    rw [deserialize_ok_iff, h]
    decide

/-- Witness of C8: a table of three entries in two areas. -/
theorem deserialize_reference_areas_witness :
    deserialize [⟨0, ⟨1, 2⟩⟩, ⟨0, ⟨3, 4⟩⟩, ⟨1, ⟨5, 6⟩⟩] = .ok [[⟨1, 2⟩, ⟨3, 4⟩], [⟨5, 6⟩]]
      ∧ ([[⟨1, 2⟩, ⟨3, 4⟩], [⟨5, 6⟩]] : ReferenceAreas).length = 1 + 1
      ∧ ∀ k t, t ∈ ([[⟨1, 2⟩, ⟨3, 4⟩], [⟨5, 6⟩]] : ReferenceAreas).getD k [] ↔
          ∃ e ∈ ([⟨0, ⟨1, 2⟩⟩, ⟨0, ⟨3, 4⟩⟩, ⟨1, ⟨5, 6⟩⟩] : List ReferenceArea),
            e.id.val = k ∧ e.tile_index = t :=
  ⟨rfl, (deserialize_reference_areas [⟨0, ⟨1, 2⟩⟩, ⟨0, ⟨3, 4⟩⟩, ⟨1, ⟨5, 6⟩⟩]).2.1
    [[⟨1, 2⟩, ⟨3, 4⟩], [⟨5, 6⟩]] rfl⟩

theorem look_at_report_request_ok_iff (data : EnclaveDataInfo) (r : ReportRequest) :
    look_at_report_request data = .ok r ↔ data = .report_request r ∧ valid_report_request r := by
  cases data with
  | report_request q =>
    simp only [look_at_report_request, read_report_request, valid_report_request,
      MAX_ELEMENTS_PER_NSI_REPORT_REQUEST, EnclaveDataInfo.report_request.injEq]
    by_cases h1 : q.first_period ≤ q.last_period
    · by_cases h2 : q.num_of_census_residents ≤ 1000000
      · by_cases h3 : q.num_of_reference_areas ≤ 1000000
        · simp only [h1, h2, h3, not_true_eq_false, if_false, true_and]
          cases hd : deserialize (PRANGE q.reference_areas q.num_of_reference_areas ⟨0, ⟨0, 0⟩⟩) with
          | error e =>
            have : ¬ ids_well_formed ((PRANGE q.reference_areas q.num_of_reference_areas
                ⟨0, ⟨0, 0⟩⟩).map (fun e => e.id.val)) := by
              rw [← deserialize_ok_iff, hd]; simp
            constructor
            · intro h; cases h
            · rintro ⟨rfl, h⟩; exact absurd h.2.2.2 this
          | ok res =>
            have : ids_well_formed ((PRANGE q.reference_areas q.num_of_reference_areas
                ⟨0, ⟨0, 0⟩⟩).map (fun e => e.id.val)) := by
              rw [← deserialize_ok_iff, hd]; exact ⟨res, rfl⟩
            constructor
            · intro h
              simp only [Except.ok.injEq] at h
              subst h
              exact ⟨rfl, h1, h2, h3, this⟩
            · rintro ⟨rfl, _⟩; rfl
        · simp only [h1, h2, h3, not_true_eq_false, not_false_eq_true, if_false, if_true]
          constructor
          · intro h; cases h
          · rintro ⟨rfl, h⟩; exact absurd h.2.2.1 h3
      · simp only [h1, h2, not_true_eq_false, not_false_eq_true, if_false, if_true]
        constructor
        · intro h; cases h
        · rintro ⟨rfl, h⟩; exact absurd h.2.1 h2
    · simp only [h1, not_false_eq_true, if_true]
      constructor
      · intro h; cases h
      · rintro ⟨rfl, h⟩; exact absurd h.1 h1
  | periodic_key k => simp [look_at_report_request, read_report_request]
  | other n => simp [look_at_report_request, read_report_request]

theorem look_at_report_request_error (data : EnclaveDataInfo) (h : ¬ valid_entry data) :
    ∃ e, look_at_report_request data = .error e := by
  cases hl : look_at_report_request data with
  | error e => exact ⟨e, rfl⟩
  | ok r =>
    obtain ⟨rfl, hv⟩ := (look_at_report_request_ok_iff data r).mp hl
    exact absurd hv h

theorem digestion_loop_found (entries : List EnclaveDataInfo) :
    ∀ (id : Nat) (log : String) (i : Nat) (r : ReportRequest),
      entries[i]? = some (.report_request r) → valid_report_request r →
      (∀ j, j < i → ∀ e, entries[j]? = some e → ¬ valid_entry e) →
      ∃ log', digestion_loop id entries log = (some r, id + i, log') := by
  induction entries with
  | nil => intro id log i r h; simp at h
  | cons e rest ih =>
    intro id log i r h hv hpre
    cases i with
    | zero =>
      simp only [List.getElem?_cons_zero, Option.some.injEq] at h
      subst h
      have := (look_at_report_request_ok_iff (.report_request r) r).mpr ⟨rfl, hv⟩
      exact ⟨log, by simp only [digestion_loop, this, Nat.add_zero]⟩
    | succ i =>
      obtain ⟨ex, hex⟩ := look_at_report_request_error e (hpre 0 (Nat.succ_pos _) e (List.getElem?_cons_zero ..))
      simp only [List.getElem?_cons_succ] at h
      obtain ⟨log', hl⟩ := ih (id + 1) _ i r h hv
        (fun j hj e' he' => hpre (j + 1) (Nat.succ_lt_succ hj) e' (by simpa using he'))
      refine ⟨log', ?_⟩
      simp only [digestion_loop, hex]
      rw [hl]
      congr 2
      omega

theorem digestion_loop_none (entries : List EnclaveDataInfo) :
    ∀ (id : Nat) (log : String), (∀ e ∈ entries, ¬ valid_entry e) →
      ∃ log', digestion_loop id entries log = (none, id + entries.length, log') := by
  induction entries with
  | nil => intro id log _; exact ⟨log, rfl⟩
  | cons e rest ih =>
    intro id log h
    obtain ⟨ex, hex⟩ := look_at_report_request_error e (h e (List.mem_cons_self _ _))
    obtain ⟨log', hl⟩ := ih (id + 1) _ (fun e' he' => h e' (List.mem_cons_of_mem _ he'))
    refine ⟨log', ?_⟩
    simp only [digestion_loop, hex]
    rw [hl]
    congr 2
    simp only [List.length_cons]
    omega

/-- C6. Request digestion on an NSI topic whose entries from
`last_seen_nsi_inputs_topic_size` on have not been looked at. If entry `i` is
the first valid one among them, the new state awaits H files with the request of
entry `i`, `next_expected_period = first_period`, slot index 0 and
`last_seen_nsi_inputs_topic_size = i + 1`, and nothing else changes. If none of
them is valid, only `last_seen_nsi_inputs_topic_size` changes, to the topic
size, so the state machine stays where it was. -/
theorem digestion_commits_first_valid (state : State) (inputs : TaskInputs)
    (application_log : String) (entries : List EnclaveDataInfo)
    (htopic : find_topic inputs input_names.nsi_input = .ok entries)
    (hseen : state.last_seen_nsi_inputs_topic_size ≤ entries.length) :
    (∀ i r, state.last_seen_nsi_inputs_topic_size ≤ i →
        entries[i]? = some (.report_request r) → valid_report_request r →
        (∀ j, state.last_seen_nsi_inputs_topic_size ≤ j → j < i →
          ∀ e, entries[j]? = some e → ¬ valid_entry e) →
        (process_nsi_report_request_digestion state inputs application_log).1
          = { state with
              state := .AWAITING_NEW_H_FILES
              awaiting_new_h_files := ⟨r, r.first_period⟩
              s_file_name_index := false
              last_seen_nsi_inputs_topic_size := i + 1 })
      ∧ ((∀ j, state.last_seen_nsi_inputs_topic_size ≤ j →
            ∀ e, entries[j]? = some e → ¬ valid_entry e) →
          (process_nsi_report_request_digestion state inputs application_log).1
              = { state with last_seen_nsi_inputs_topic_size := entries.length }
            ∧ (process_nsi_report_request_digestion state inputs application_log).1.state
              = state.state) := by
  constructor
  · intro i r hi hget hv hpre
    have hilt : i < entries.length := by
      by_contra hge
      rw [List.getElem?_eq_none (by omega)] at hget
      cases hget
    have hlt : state.last_seen_nsi_inputs_topic_size < entries.length := by omega
    obtain ⟨log', hl⟩ := digestion_loop_found
      (entries.drop state.last_seen_nsi_inputs_topic_size)
      state.last_seen_nsi_inputs_topic_size application_log
      (i - state.last_seen_nsi_inputs_topic_size) r
      (by rw [List.getElem?_drop, ← hget]; congr 1; omega) hv
      (fun j hj e he => hpre (state.last_seen_nsi_inputs_topic_size + j) (by omega) (by omega) e
        (by rw [← he, List.getElem?_drop]))
    simp only [process_nsi_report_request_digestion, htopic, hlt, not_true_eq_false, if_false, hl,
      State.go_into_h_processing_state]
    congr 1
    omega
  · intro hnone
    by_cases hlt : state.last_seen_nsi_inputs_topic_size < entries.length
    · obtain ⟨log', hl⟩ := digestion_loop_none
        (entries.drop state.last_seen_nsi_inputs_topic_size)
        state.last_seen_nsi_inputs_topic_size application_log
        (fun e he => by
          obtain ⟨j, hj, hje⟩ := List.getElem_of_mem he
          have hj' : (entries.drop state.last_seen_nsi_inputs_topic_size)[j]? = some e := by
            rw [List.getElem?_eq_getElem hj, hje]
          rw [List.getElem?_drop] at hj'
          exact hnone _ (by omega) e hj')
      simp only [process_nsi_report_request_digestion, htopic, hlt, not_true_eq_false, if_false,
        hl, and_self]
    · have heq : state.last_seen_nsi_inputs_topic_size = entries.length := by omega
      simp only [process_nsi_report_request_digestion, htopic, hlt, not_false_eq_true, if_true,
        and_true]
      rw [← heq]

/-- Witness of C6, scenario 6: from the zero state, the topic with the invalid
entry A and the valid entry B leads to the state that awaits H files for B. -/
theorem digestion_commits_first_valid_witness :
    find_topic inputs_AB input_names.nsi_input
        = .ok [.report_request request_A, .report_request request_B]
      ∧ State.zero.last_seen_nsi_inputs_topic_size ≤ 2
      ∧ (process_nsi_report_request_digestion State.zero inputs_AB "").1
          = { State.zero with
              state := .AWAITING_NEW_H_FILES
              awaiting_new_h_files := ⟨request_B, 1⟩
              s_file_name_index := false
              last_seen_nsi_inputs_topic_size := 2 } :=
  ⟨rfl, by decide,
    (digestion_commits_first_valid State.zero inputs_AB ""
      [.report_request request_A, .report_request request_B] rfl (by decide)).1 1 request_B
      (by decide) rfl
      (by decide)
      (fun j h0 h1 e he => by
        have hj : j = 0 := by omega
        subst hj
        simp only [List.getElem?_cons_zero, Option.some.injEq] at he
        subst he
        show ¬ valid_report_request request_A
        decide)⟩

theorem external_ok {α : Type} (x : Except String α) (a : α) (h : external x = .ok a) :
    x = .ok a := by
  cases x with
  | error e => cases h
  | ok b => simpa [external] using h

theorem read_h_metadata_file_ok (env : Env) (h_file log log' : String)
    (h : read_h_metadata_file env h_file log = .ok log') :
    ∃ metadata, env.read_file (h_file ++ ".meta") = .ok metadata := by
  unfold read_h_metadata_file at h
  cases hr : env.read_file (h_file ++ ".meta") with
  | error e => rw [hr] at h; cases h
  | ok m => exact ⟨m, rfl⟩

/-- What a successful call of `process_h_file` has done. -/
theorem process_h_file_ok (env : Env) (state : State) (inputs : TaskInputs)
    (outputs : TaskOutputs) (old_s_files_to_delete : List String) (application_log : String)
    (h_file : String) (given_period : Nat) (r : Result)
    (h : process_h_file env state inputs outputs old_s_files_to_delete application_log h_file
      given_period = .ok r) :
    ∃ (topic : List EnclaveDataInfo) (new_s_file_key : SgxFileKey) (arguments : RunArguments)
        (effect : RunEffect),
      (∃ metadata, env.read_file (h_file ++ ".meta") = .ok metadata)
        ∧ state.awaiting_new_h_files.next_expected_period ≤ given_period
        ∧ given_period ≤ state.awaiting_new_h_files.report_request.last_period
        ∧ find_topic inputs input_names.periodic_pseudonymisation_key = .ok topic
        ∧ find_periodic_key given_period topic = .ok arguments.pseudonymisation_key
        ∧ env.sgx_read_rand = .ok new_s_file_key
        ∧ env.full_analysis_run arguments = .ok effect
        ∧ arguments.what_to_do
            = select_what_to_do given_period state.awaiting_new_h_files.report_request.last_period
        ∧ arguments.h_file = h_file
        ∧ arguments.s_file_in = s_file_path env state.s_file_name_index
        ∧ arguments.s_file_out = s_file_path env (!state.s_file_name_index)
        ∧ arguments.s_file_in_key = state.s_file_key
        ∧ arguments.s_file_out_key = new_s_file_key
        ∧ r.state
            = (if select_what_to_do given_period
                  state.awaiting_new_h_files.report_request.last_period = .FullAnalysis then
                State.go_into_request_await_state
                  { state with
                    awaiting_new_h_files :=
                      { state.awaiting_new_h_files with
                        next_expected_period :=
                          (state.awaiting_new_h_files.next_expected_period + 1) % 2 ^ 32 }
                    s_file_key := new_s_file_key
                    s_file_name_index := !state.s_file_name_index }
              else
                { state with
                  awaiting_new_h_files :=
                    { state.awaiting_new_h_files with
                      next_expected_period :=
                        (state.awaiting_new_h_files.next_expected_period + 1) % 2 ^ 32 }
                  s_file_key := new_s_file_key
                  s_file_name_index := !state.s_file_name_index })
        ∧ r.outputs = outputs ++ effect.outputs
        ∧ r.old_s_files_to_delete
            = old_s_files_to_delete ++ [s_file_path env state.s_file_name_index] := by
  unfold process_h_file at h
  simp only [bind, Except.bind, pure, Except.pure, throw, throwThe, MonadExceptOf.throw] at h
  split at h
  · cases h
  · rename_i log' hmeta
    split at h
    · cases h
    · rename_i hrange
      split at h
      · cases h
      · rename_i topic htopic
        split at h
        · cases h
        · rename_i key hkey
          split at h
          · cases h
          · split at h
            · cases h
            · rename_i new_key hrand
              split at h
              · cases h
              · split at h
                · cases h
                · split at h
                  · cases h
                  · split at h
                    · cases h
                    · rename_i effect hrun
                      simp only [Except.ok.injEq] at h
                      subst h
                      refine ⟨topic, new_key, _, effect, read_h_metadata_file_ok _ _ _ _ hmeta,
                        by omega, by omega, htopic, hkey, external_ok _ _ hrand,
                        external_ok _ _ hrun, rfl, rfl, rfl, rfl, rfl, rfl, rfl, rfl, rfl⟩

/-- C3, evaluated on scenario 3. After the request for the periods 1 to 5 is
digested and the periods 1 and 4 are processed, the stored state still awaits H
files and its `next_expected_period` is 3: the increment adds one to the stored
value and does not take the processed period 4 into account. -/
theorem scenario_gap_next_expected_period :
    scenario_gap.state_file.map
        (fun s => (s.state, s.awaiting_new_h_files.next_expected_period))
      = some (.AWAITING_NEW_H_FILES, 3)
      ∧ (3 : Nat) ≠ 4 + 1 :=
  ⟨rfl, by decide⟩

set_option maxRecDepth 100000 in
/-- C7, evaluated on a request with 129 reference areas. The digestion accepts
the request, whose table deserialises to 129 areas, more than the
`MAX_REFERENCE_AREAS = 128` bits of the bitset. -/
theorem digestion_accepts_129_reference_areas :
    (process_nsi_report_request_digestion State.zero inputs_129 "").1.state
        = .AWAITING_NEW_H_FILES
      ∧ (process_nsi_report_request_digestion State.zero inputs_129 "").1.awaiting_new_h_files.report_request
        = request_129
      ∧ (deserialize (PRANGE request_129.reference_areas request_129.num_of_reference_areas
          ⟨0, ⟨0, 0⟩⟩)).map List.length = .ok 129
      ∧ ¬ (129 ≤ MAX_REFERENCE_AREAS) :=
  ⟨rfl, rfl, rfl, by decide⟩

theorem external_error {α : Type} (x : Except String α) (e : Exception)
    (h : external x = .error e) : ∃ w, e = .external w := by
  cases x with
  | error w => exact ⟨w, by simpa [external] using h.symm⟩
  | ok a => cases h

theorem find_topic_error (inputs : TaskInputs) (name : String) (e : Exception)
    (h : find_topic inputs name = .error e) : ∃ w, e = .EnclaveException w := by
  unfold find_topic at h
  split at h
  · cases h
  · exact ⟨_, by simpa using h.symm⟩

theorem find_periodic_key_error (given_period : Nat) (topic : List EnclaveDataInfo)
    (e : Exception) (h : find_periodic_key given_period topic = .error e) :
    ∃ w, e = .EnclaveException w := by
  induction topic with
  | nil => exact ⟨_, by simpa [find_periodic_key] using h.symm⟩
  | cons d rest ih =>
    cases d with
    | periodic_key k =>
      simp only [find_periodic_key, read_periodic_key] at h
      split at h
      · cases h
      · exact ih h
    | report_request q =>
      exact ⟨_, by simpa [find_periodic_key, read_periodic_key] using h.symm⟩
    | other n =>
      exact ⟨_, by simpa [find_periodic_key, read_periodic_key] using h.symm⟩

theorem deserialize_loop_error (range : List ReferenceArea) :
    ∀ (result : ReferenceAreas) (e : Exception), deserialize_loop result range = .error e →
      ∃ w, e = .EnclaveException w := by
  induction range with
  | nil => intro result e h; cases h
  | cons cur rest ih =>
    intro result e h
    simp only [deserialize_loop] at h
    split at h
    · exact ⟨_, by simpa using h.symm⟩
    · split at h
      · exact ih _ _ h
      · exact ih _ _ h

theorem find_periodic_key_missing (given_period : Nat) (topic : List EnclaveDataInfo)
    (h : ∀ d ∈ topic, ∃ k, d = .periodic_key k ∧ k.period ≠ given_period) :
    find_periodic_key given_period topic
      = .error (.EnclaveException
          ("Could not find pseudonymisation key for requested period <"
            ++ toString given_period ++ ">")) := by
  induction topic with
  | nil => rfl
  | cons d rest ih =>
    obtain ⟨k, hk, hne⟩ := h d (List.mem_cons_self _ _)
    subst hk
    simp only [find_periodic_key, read_periodic_key, hne, if_false]
    exact ih (fun d' hd' => h d' (List.mem_cons_of_mem _ hd'))

theorem missing_key_message_no_AE01 (n : Nat) (w : String) :
    "Could not find pseudonymisation key for requested period <" ++ toString n ++ ">"
      ≠ ":AE01: " ++ w := by
  intro h
  have := congrArg String.data h
  simp only [String.data_append] at this
  have h2 := congrArg List.head? this
  simp at h2

/-- After the range check and with a readable metadata file, an exception of
`process_h_file` is never an InvalidRequest. -/
theorem process_h_file_error_in_range (env : Env) (state : State) (inputs : TaskInputs)
    (outputs : TaskOutputs) (old_s_files_to_delete : List String) (application_log : String)
    (h_file : String) (given_period : Nat) (metadata : String)
    (hmeta : env.read_file (h_file ++ ".meta") = .ok metadata)
    (hrange : state.awaiting_new_h_files.next_expected_period ≤ given_period
      ∧ given_period ≤ state.awaiting_new_h_files.report_request.last_period)
    (e : Exception)
    (h : process_h_file env state inputs outputs old_s_files_to_delete application_log h_file
      given_period = .error e) :
    (∃ w, e = .EnclaveException w) ∨ (∃ w, e = .external w) := by
  have hr : ¬ (given_period < state.awaiting_new_h_files.next_expected_period
      ∨ given_period > state.awaiting_new_h_files.report_request.last_period) := by omega
  unfold process_h_file at h
  simp only [bind, Except.bind, pure, Except.pure, throw, throwThe, MonadExceptOf.throw,
    read_h_metadata_file, hmeta, external, hr, if_false] at h
  split at h
  · rename_i err herr
    simp only [Except.error.injEq] at h; subst h
    exact Or.inl (find_topic_error _ _ _ herr)
  · split at h
    · rename_i err herr
      simp only [Except.error.injEq] at h; subst h
      exact Or.inl (find_periodic_key_error _ _ _ herr)
    · split at h
      · rename_i err herr
        simp only [Except.error.injEq] at h; subst h
        exact Or.inr (external_error _ _ herr)
      · split at h
        · rename_i err herr
          simp only [Except.error.injEq] at h; subst h
          exact Or.inr (external_error _ _ herr)
        · split at h
          · rename_i err herr
            simp only [Except.error.injEq] at h; subst h
            exact Or.inr (external_error _ _ herr)
          · split at h
            · rename_i err herr
              simp only [Except.error.injEq] at h; subst h
              exact Or.inr (external_error _ _ herr)
            · split at h
              · rename_i err herr
                simp only [Except.error.injEq] at h; subst h
                exact Or.inl (deserialize_loop_error _ _ _ herr)
              · split at h
                · rename_i err herr
                  simp only [Except.error.injEq] at h; subst h
                  exact Or.inr (external_error _ _ herr)
                · cases h

theorem process_h_file_out_of_range (env : Env) (state : State) (inputs : TaskInputs)
    (outputs : TaskOutputs) (old_s_files_to_delete : List String) (application_log : String)
    (h_file : String) (given_period : Nat) (metadata : String)
    (hmeta : env.read_file (h_file ++ ".meta") = .ok metadata)
    (hrange : ¬ (state.awaiting_new_h_files.next_expected_period ≤ given_period
      ∧ given_period ≤ state.awaiting_new_h_files.report_request.last_period)) :
    process_h_file env state inputs outputs old_s_files_to_delete application_log h_file
        given_period
      = .error (.InvalidRequest
          ("The received period (" ++ toString given_period
            ++ ") is not within the range of expected periods ( ["
            ++ toString state.awaiting_new_h_files.next_expected_period ++ " - "
            ++ toString state.awaiting_new_h_files.report_request.last_period ++ "] )")) := by
  have hr : given_period < state.awaiting_new_h_files.next_expected_period
      ∨ given_period > state.awaiting_new_h_files.report_request.last_period := by omega
  unfold process_h_file
  simp only [bind, Except.bind, pure, Except.pure, throw, throwThe, MonadExceptOf.throw,
    read_h_metadata_file, hmeta, external, hr, if_true]

/-- C4. Let the metadata file of the H file be readable. Then `process_h_file`
raises an InvalidRequest exactly for the periods `n` outside
`next_expected_period <= n <= last_period`. For such a period the invocation
`run` with the arguments `file` and `period = n` ends with this InvalidRequest
and leaves the state file as it was: the exception leaves `process_state`
before `store_state` is reached. -/
theorem process_h_file_period_range (env : Env) (state : State) (inputs : TaskInputs)
    (outputs : TaskOutputs) (old_s_files_to_delete : List String) (application_log : String)
    (h_file : String) (n : Nat) (metadata : String)
    (hmeta : env.read_file (h_file ++ ".meta") = .ok metadata) :
    ((∃ what, process_h_file env state inputs outputs old_s_files_to_delete application_log
          h_file n = .error (.InvalidRequest what))
        ↔ ¬ (state.awaiting_new_h_files.next_expected_period ≤ n
              ∧ n ≤ state.awaiting_new_h_files.report_request.last_period))
      ∧ (∀ (state_file : Option State) (period_string : String),
          load_state state_file = state → state.state = .AWAITING_NEW_H_FILES →
          inputs.arguments = [("file", h_file), ("period", period_string)] →
          env.stoul period_string = .ok n → n ≤ Period_max →
          ¬ (state.awaiting_new_h_files.next_expected_period ≤ n
              ∧ n ≤ state.awaiting_new_h_files.report_request.last_period) →
          ∃ what, (run env state_file inputs).outcome = .error (.InvalidRequest what)
            ∧ (run env state_file inputs).state_file = state_file) := by
  constructor
  · constructor
    · rintro ⟨what, h⟩ hrange
      rcases process_h_file_error_in_range env state inputs outputs old_s_files_to_delete
        application_log h_file n metadata hmeta hrange _ h with ⟨w, hw⟩ | ⟨w, hw⟩ <;> cases hw
    · intro hrange
      exact ⟨_, process_h_file_out_of_range env state inputs outputs old_s_files_to_delete
        application_log h_file n metadata hmeta hrange⟩
  · intro state_file period_string hload hstate hargs hparse hmax hrange
    have hp := process_h_file_out_of_range env state inputs [] [] "" h_file n metadata hmeta
      hrange
    have hmax' : ¬ n > Period_max := by omega
    have hps : process_state env state inputs [] [] ""
        = process_h_file env state inputs [] [] "" h_file n := by
      simp [process_state, hstate, TaskInputs.argument, hargs, arguments.cancel,
        arguments.finish_report, arguments.file, arguments.period, List.lookup, hparse,
        external, hmax']
    have hrun : run env state_file inputs = ⟨state_file, .error (.InvalidRequest
        ("The received period (" ++ toString n
          ++ ") is not within the range of expected periods ( ["
          ++ toString state.awaiting_new_h_files.next_expected_period ++ " - "
          ++ toString state.awaiting_new_h_files.report_request.last_period ++ "] )"))⟩ := by
      simp only [run, hload, hps, hp]
    rw [hrun]
    exact ⟨_, rfl, rfl⟩

/-- Witness of C4: with request B (periods 1 to 5) and next expected period 2,
the period 9 is rejected and the state file is unchanged. -/
theorem process_h_file_period_range_witness :
    env_ok.read_file ("h" ++ ".meta") = .ok "meta"
      ∧ ((∃ what, process_h_file env_ok (state_B 2) (inputs_period "9") [] [] "" "h" 9
            = .error (.InvalidRequest what))
          ↔ ¬ ((state_B 2).awaiting_new_h_files.next_expected_period ≤ 9
                ∧ 9 ≤ (state_B 2).awaiting_new_h_files.report_request.last_period))
      ∧ (∃ what, (run env_ok (some (state_B 2)) (inputs_period "9")).outcome
            = .error (.InvalidRequest what)
          ∧ (run env_ok (some (state_B 2)) (inputs_period "9")).state_file
            = some (state_B 2)) :=
  ⟨rfl,
    (process_h_file_period_range env_ok (state_B 2) (inputs_period "9") [] [] "" "h" 9 "meta"
      rfl).1,
    (process_h_file_period_range env_ok (state_B 2) (inputs_period "9") [] [] "" "h" 9 "meta"
      rfl).2 (some (state_B 2)) "9" rfl rfl rfl rfl (by decide) (by decide)⟩

/-- C5. Let `process_h_file` succeed for the period `n` in a state that awaits
H files. Then the analysis ran, it was asked for OnlyStateUpdate iff
`n < last_period` and for FullAnalysis iff `n = last_period`. After the
FullAnalysis the state awaits a request with slot index 0; after the
OnlyStateUpdate the state still awaits H files for the same report request.
When the stored `next_expected_period` was `2 ^ 32 - 1`, so that
`n = last_period = 2 ^ 32 - 1`, the incremented field is 0 and the state awaits
a request. -/
theorem process_h_file_what_to_do (env : Env) (state : State) (inputs : TaskInputs)
    (outputs : TaskOutputs) (old_s_files_to_delete : List String) (application_log : String)
    (h_file : String) (n : Nat) (r : Result)
    (hstate : state.state = .AWAITING_NEW_H_FILES)
    (hlast : state.awaiting_new_h_files.report_request.last_period ≤ Period_max)
    (h : process_h_file env state inputs outputs old_s_files_to_delete application_log h_file n
      = .ok r) :
    (∃ arguments effect, env.full_analysis_run arguments = .ok effect
        ∧ (arguments.what_to_do = .OnlyStateUpdate
            ↔ n < state.awaiting_new_h_files.report_request.last_period)
        ∧ (arguments.what_to_do = .FullAnalysis
            ↔ n = state.awaiting_new_h_files.report_request.last_period))
      ∧ (n = state.awaiting_new_h_files.report_request.last_period →
          r.state.state = .AWAITING_NEW_NSI_REPORT_REQUESTS ∧ r.state.s_file_name_index = false)
      ∧ (n < state.awaiting_new_h_files.report_request.last_period →
          r.state.state = .AWAITING_NEW_H_FILES
            ∧ r.state.awaiting_new_h_files.report_request
              = state.awaiting_new_h_files.report_request)
      ∧ (state.awaiting_new_h_files.next_expected_period = 2 ^ 32 - 1 →
          n = 2 ^ 32 - 1 ∧ state.awaiting_new_h_files.report_request.last_period = 2 ^ 32 - 1
            ∧ r.state.awaiting_new_h_files.next_expected_period = 0
            ∧ r.state.state = .AWAITING_NEW_NSI_REPORT_REQUESTS) := by
  obtain ⟨topic, new_key, arguments, effect, _, hlo, hhi, _, _, _, hrun, hwhat, _, _, _, _, _,
    hr, _, _⟩ := process_h_file_ok env state inputs outputs old_s_files_to_delete
      application_log h_file n r h
  have hsel_lt : n < state.awaiting_new_h_files.report_request.last_period →
      select_what_to_do n state.awaiting_new_h_files.report_request.last_period
        = .OnlyStateUpdate := by
    intro hn; simp [select_what_to_do, hn]
  have hsel_eq : n = state.awaiting_new_h_files.report_request.last_period →
      select_what_to_do n state.awaiting_new_h_files.report_request.last_period
        = .FullAnalysis := by
    intro hn; simp [select_what_to_do, hn]
  refine ⟨⟨arguments, effect, hrun, ?_, ?_⟩, ?_, ?_, ?_⟩
  · rw [hwhat]
    constructor
    · intro hs
      by_contra hn
      rw [hsel_eq (by omega)] at hs
      cases hs
    · exact hsel_lt
  · rw [hwhat]
    constructor
    · intro hs
      by_contra hn
      rw [hsel_lt (by omega)] at hs
      cases hs
    · exact hsel_eq
  · intro hn
    rw [hr, hsel_eq hn]
    exact ⟨rfl, rfl⟩
  · intro hn
    rw [hr, hsel_lt hn]
    exact ⟨hstate, rfl⟩
  · intro hnext
    have hP : Period_max = 4294967295 := rfl
    have hn : n = state.awaiting_new_h_files.report_request.last_period := by omega
    rw [hr, hsel_eq hn]
    refine ⟨by omega, by omega, ?_, rfl⟩
    simp [State.go_into_request_await_state, hnext]

/-- Witness of C5: the single period `2 ^ 32 - 1` of a request is processed. -/
theorem process_h_file_what_to_do_witness :
    state_last.state = .AWAITING_NEW_H_FILES
      ∧ state_last.awaiting_new_h_files.report_request.last_period ≤ Period_max
      ∧ ∃ r, process_h_file env_ok state_last inputs_last [] [] "" "h" 4294967295 = .ok r
        ∧ r.state.awaiting_new_h_files.next_expected_period = 0
        ∧ r.state.state = .AWAITING_NEW_NSI_REPORT_REQUESTS
        ∧ r.state.s_file_name_index = false :=
  ⟨rfl, by decide, _, rfl,
    ((process_h_file_what_to_do env_ok state_last inputs_last [] [] "" "h" 4294967295 _ rfl
      (by decide) rfl).2.2.2 rfl).2.2.1,
    ((process_h_file_what_to_do env_ok state_last inputs_last [] [] "" "h" 4294967295 _ rfl
      (by decide) rfl).2.1 rfl).1,
    ((process_h_file_what_to_do env_ok state_last inputs_last [] [] "" "h" 4294967295 _ rfl
      (by decide) rfl).2.1 rfl).2⟩

theorem lookup_singleton_of_length_one (args : List (String × String)) (name v : String)
    (hlook : args.lookup name = some v) (hlen : args.length = 1) : args = [(name, v)] := by
  match args, hlen with
  | [(k, w)], _ =>
    simp only [List.lookup] at hlook
    split at hlook
    · rename_i hk
      simp only [Option.some.injEq] at hlook
      have : name = k := by simpa using hk
      rw [this, hlook]
    · cases hlook

theorem lookup_pair_of_length_two (args : List (String × String)) (f p : String)
    (hfile : args.lookup "file" = some f) (hperiod : args.lookup "period" = some p)
    (hlen : args.length = 2) :
    args = [("file", f), ("period", p)] ∨ args = [("period", p), ("file", f)] := by
  match args, hlen with
  | [(k1, v1), (k2, v2)], _ =>
    by_cases h1 : k1 = "file"
    · subst h1
      have hk : ("period" == "file") = false := by decide
      simp only [List.lookup, beq_self_eq_true, Option.some.injEq, hk] at hfile hperiod
      subst hfile
      split at hperiod
      · rename_i h2
        have h2' : "period" = k2 := by simpa using h2
        simp only [Option.some.injEq] at hperiod
        subst h2' hperiod
        exact Or.inl rfl
      · cases hperiod
    · have hk1 : ("file" == k1) = false := by simpa using fun e : "file" = k1 => h1 e.symm
      simp only [List.lookup, hk1] at hfile
      split at hfile
      · rename_i h2
        have h2' : "file" = k2 := by simpa using h2
        simp only [Option.some.injEq] at hfile
        subst h2' hfile
        have hk : ("period" == "file") = false := by decide
        simp only [List.lookup, hk] at hperiod
        split at hperiod
        · rename_i h3
          have h3' : "period" = k1 := by simpa using h3
          simp only [Option.some.injEq] at hperiod
          subst h3' hperiod
          exact Or.inr rfl
        · cases hperiod
      · cases hfile

theorem invalid_request_message {α : Type} (x : Except Exception α) (what : String)
    (h : x = .error (.InvalidRequest what)) :
    ∃ what, x = .error (.InvalidRequest what)
      ∧ (Exception.InvalidRequest what).message = ":AE01: " ++ what :=
  ⟨what, h, rfl⟩

/-- C9. Dispatch of `process_state`. While a request is awaited, every
non-empty argument list is rejected with an InvalidRequest. While H files are
awaited, `cancel` alone goes to `process_cancel`, `finish-report` alone to
`process_manually_finish_report`, and `file` with `period` and nothing else to
the conversion of the period and then to `process_h_file`; every other argument
list is rejected with an InvalidRequest. The message of an InvalidRequest starts
with ":AE01: ". -/
theorem process_state_dispatch (env : Env) (state : State) (inputs : TaskInputs)
    (outputs : TaskOutputs) (old_s_files_to_delete : List String) (application_log : String) :
    (state.state = .AWAITING_NEW_NSI_REPORT_REQUESTS → inputs.arguments ≠ [] →
        ∃ what, process_state env state inputs outputs old_s_files_to_delete application_log
            = .error (.InvalidRequest what)
          ∧ (Exception.InvalidRequest what).message = ":AE01: " ++ what)
      ∧ (state.state = .AWAITING_NEW_H_FILES →
          (∀ v, inputs.arguments = [("cancel", v)] →
            process_state env state inputs outputs old_s_files_to_delete application_log
              = .ok (process_cancel env state outputs old_s_files_to_delete application_log))
          ∧ (∀ v, inputs.arguments = [("finish-report", v)] →
            process_state env state inputs outputs old_s_files_to_delete application_log
              = process_manually_finish_report env state outputs old_s_files_to_delete
                  application_log)
          ∧ (∀ f p, (inputs.arguments = [("file", f), ("period", p)]
                ∨ inputs.arguments = [("period", p), ("file", f)]) →
            process_state env state inputs outputs old_s_files_to_delete application_log
              = match env.stoul p with
                | .error w => .error (.external w)
                | .ok period_ulong =>
                  if period_ulong > Period_max then
                    .error (.out_of_range "period number too large")
                  else
                    process_h_file env state inputs outputs old_s_files_to_delete
                      application_log f period_ulong)
          ∧ (¬ accepted_arguments inputs.arguments →
            ∃ what, process_state env state inputs outputs old_s_files_to_delete application_log
                = .error (.InvalidRequest what)
              ∧ (Exception.InvalidRequest what).message = ":AE01: " ++ what)) := by
  refine ⟨?_, fun hstate => ⟨?_, ?_, ?_, ?_⟩⟩
  · intro hstate hargs
    have he : inputs.arguments.isEmpty = false := by
      cases hl : inputs.arguments with
      | nil => exact absurd hl hargs
      | cons a as => rfl
    apply invalid_request_message
    simp only [process_state, hstate, he, Bool.false_eq_true, not_false_eq_true, if_true]
    rfl
  · intro v hargs
    simp [process_state, hstate, TaskInputs.argument, hargs, arguments.cancel, List.lookup]
  · intro v hargs
    have hk : ("cancel" == "finish-report") = false := by decide
    simp [process_state, hstate, TaskInputs.argument, hargs, arguments.cancel,
      arguments.finish_report, List.lookup, hk]
  · intro f p hargs
    have k1 : ("cancel" == "file") = false := by decide
    have k2 : ("cancel" == "period") = false := by decide
    have k3 : ("finish-report" == "file") = false := by decide
    have k4 : ("finish-report" == "period") = false := by decide
    have k5 : ("period" == "file") = false := by decide
    have k6 : ("file" == "period") = false := by decide
    rcases hargs with hargs | hargs
    · simp only [process_state, hstate, TaskInputs.argument, hargs, arguments.cancel,
        arguments.finish_report, arguments.file, arguments.period, List.lookup, k1, k2, k3, k4,
        k5, beq_self_eq_true, Option.isSome_none, Bool.false_eq_true, if_false,
        List.length_cons, List.length_nil, ne_eq, not_true_eq_false, external]
      cases env.stoul p <;> rfl
    · simp only [process_state, hstate, TaskInputs.argument, hargs, arguments.cancel,
        arguments.finish_report, arguments.file, arguments.period, List.lookup, k1, k2, k3, k4,
        k6, beq_self_eq_true, Option.isSome_none, Bool.false_eq_true, if_false,
        List.length_cons, List.length_nil, ne_eq, not_true_eq_false, external]
      cases env.stoul p <;> rfl
  · intro hacc
    simp only [process_state, hstate]
    cases hc : inputs.argument arguments.cancel with
    | some v =>
      have hlen : inputs.arguments.length ≠ 1 := fun hlen =>
        hacc (Or.inl ⟨v, lookup_singleton_of_length_one _ _ _ hc hlen⟩)
      apply invalid_request_message
      simp only [Option.isSome_some, if_true, hlen, ne_eq, not_false_eq_true]
      rfl
    | none =>
      cases hf : inputs.argument arguments.finish_report with
      | some v =>
        have hlen : inputs.arguments.length ≠ 1 := fun hlen =>
          hacc (Or.inr (Or.inl ⟨v, lookup_singleton_of_length_one _ _ _ hf hlen⟩))
        apply invalid_request_message
        simp only [Option.isSome_none, Bool.false_eq_true, if_false, Option.isSome_some,
          if_true, hlen, ne_eq, not_false_eq_true]
        rfl
      | none =>
        cases hfile : inputs.argument arguments.file with
        | none =>
          apply invalid_request_message
          simp only [Option.isSome_none, Bool.false_eq_true, if_false]
          rfl
        | some f =>
          cases hperiod : inputs.argument arguments.period with
          | none =>
            apply invalid_request_message
            simp only [Option.isSome_none, Bool.false_eq_true, if_false]
            rfl
          | some p =>
            have hlen : inputs.arguments.length ≠ 2 := fun hlen =>
              hacc (Or.inr (Or.inr ⟨f, p, lookup_pair_of_length_two _ _ _ hfile hperiod hlen⟩))
            apply invalid_request_message
            simp only [Option.isSome_none, Bool.false_eq_true, if_false, hlen, ne_eq,
              not_false_eq_true, if_true]
            rfl

/-- Witness of C9: while H files are awaited, `cancel` together with `file` is
rejected with an InvalidRequest. -/
theorem process_state_dispatch_witness :
    (state_B 2).state = .AWAITING_NEW_H_FILES
      ∧ ¬ accepted_arguments [("cancel", "x"), ("file", "h")]
      ∧ ∃ what, process_state env_ok (state_B 2) ⟨[], [("cancel", "x"), ("file", "h")]⟩ [] [] ""
            = .error (.InvalidRequest what)
          ∧ (Exception.InvalidRequest what).message = ":AE01: " ++ what :=
  ⟨rfl, by simp [accepted_arguments],
    (process_state_dispatch env_ok (state_B 2) ⟨[], [("cancel", "x"), ("file", "h")]⟩ [] []
      "").2 rfl |>.2.2.2 (by simp [accepted_arguments])⟩

/-- C10, as the code has it. Let the metadata file be readable, the period `n`
be in the expected range, and the key topic hold keys of other periods only.
Then `process_h_file` fails with the EnclaveException "Could not find
pseudonymisation key for requested period <n>"; this is not an InvalidRequest,
and its message does not start with ":AE01: ". -/
theorem process_h_file_missing_key (env : Env) (state : State) (inputs : TaskInputs)
    (outputs : TaskOutputs) (old_s_files_to_delete : List String) (application_log : String)
    (h_file : String) (n : Nat) (metadata : String) (topic : List EnclaveDataInfo)
    (hmeta : env.read_file (h_file ++ ".meta") = .ok metadata)
    (hrange : state.awaiting_new_h_files.next_expected_period ≤ n
      ∧ n ≤ state.awaiting_new_h_files.report_request.last_period)
    (htopic : find_topic inputs input_names.periodic_pseudonymisation_key = .ok topic)
    (hmissing : ∀ d ∈ topic, ∃ k, d = .periodic_key k ∧ k.period ≠ n) :
    process_h_file env state inputs outputs old_s_files_to_delete application_log h_file n
        = .error (.EnclaveException
            ("Could not find pseudonymisation key for requested period <" ++ toString n ++ ">"))
      ∧ (∀ what, Exception.EnclaveException
            ("Could not find pseudonymisation key for requested period <" ++ toString n ++ ">")
          ≠ .InvalidRequest what)
      ∧ (∀ w, (Exception.EnclaveException
            ("Could not find pseudonymisation key for requested period <" ++ toString n
              ++ ">")).message ≠ ":AE01: " ++ w) := by
  have hr : ¬ (n < state.awaiting_new_h_files.next_expected_period
      ∨ n > state.awaiting_new_h_files.report_request.last_period) := by omega
  refine ⟨?_, fun what h => Exception.noConfusion h, fun w => missing_key_message_no_AE01 n w⟩
  unfold process_h_file
  simp only [bind, Except.bind, pure, Except.pure, throw, throwThe, MonadExceptOf.throw,
    read_h_metadata_file, hmeta, external, hr, if_false, htopic,
    find_periodic_key_missing n topic hmissing]

/-- Witness of C10 as the code has it: period 1 of request B with the keys of
the periods 2 and 3 only. -/
theorem process_h_file_missing_key_witness :
    env_ok.read_file ("h" ++ ".meta") = .ok "meta"
      ∧ ((state_B 1).awaiting_new_h_files.next_expected_period ≤ 1
          ∧ 1 ≤ (state_B 1).awaiting_new_h_files.report_request.last_period)
      ∧ process_h_file env_ok (state_B 1) inputs_no_key [] [] "" "h" 1
        = .error (.EnclaveException
            ("Could not find pseudonymisation key for requested period <" ++ toString 1 ++ ">")) :=
  ⟨rfl, by decide,
    (process_h_file_missing_key env_ok (state_B 1) inputs_no_key [] [] "" "h" 1 "meta"
      [.periodic_key ⟨2, List.replicate 16 2⟩, .periodic_key ⟨3, List.replicate 16 3⟩] rfl
      (by decide) rfl
      (fun d hd => by
        simp only [List.mem_cons, List.mem_singleton, List.not_mem_nil, or_false] at hd
        rcases hd with rfl | rfl
        · exact ⟨_, rfl, by decide⟩
        · exact ⟨_, rfl, by decide⟩)).1⟩

/-- C10 as stated fails: with no key for period 1 in the key topic,
`process_h_file` raises an exception that is not an InvalidRequest and whose
message does not carry the ":AE01: " mark. -/
theorem missing_key_is_not_invalid_request :
    ¬ (∃ what, process_h_file env_ok (state_B 1) inputs_no_key [] [] "" "h" 1
          = .error (.InvalidRequest what))
      ∧ ∃ e, process_h_file env_ok (state_B 1) inputs_no_key [] [] "" "h" 1 = .error e
          ∧ e.message = "Could not find pseudonymisation key for requested period <1>"
          ∧ ¬ ∃ w, e.message = ":AE01: " ++ w := by
  have h : process_h_file env_ok (state_B 1) inputs_no_key [] [] "" "h" 1
      = .error (.EnclaveException
          "Could not find pseudonymisation key for requested period <1>") := rfl
  refine ⟨?_, _, h, rfl, ?_⟩
  · rintro ⟨what, hw⟩
    rw [h] at hw
    cases hw
  · rintro ⟨w, hw⟩
    exact missing_key_message_no_AE01 1 w hw

theorem s_file_path_false (env : Env) :
    s_file_path env false = env.persistent_path ++ "s_file0" := by
  simp only [s_file_path, Bool.false_eq_true, if_false, String.append_assoc]
  rfl

theorem s_file_path_true (env : Env) :
    s_file_path env true = env.persistent_path ++ "s_file1" := by
  simp only [s_file_path, if_true, String.append_assoc]
  rfl

/-- C11. `process_cancel` appends the paths of both S-file slots, `s_file0` and
`s_file1`, to the files to delete, moves the state to AwaitRequest with slot
index 0, leaves `last_seen_nsi_inputs_topic_size` (and the other fields) as they
were and puts no output. An invocation of `run` with the single argument
`cancel` while H files are awaited stores that state, schedules the two slot
files and emits the application log only. -/
theorem process_cancel_effect (env : Env) (state : State) (outputs : TaskOutputs)
    (old_s_files_to_delete : List String) (application_log : String) :
    (process_cancel env state outputs old_s_files_to_delete application_log).old_s_files_to_delete
        = old_s_files_to_delete
          ++ [s_file_path env state.s_file_name_index, s_file_path env (!state.s_file_name_index)]
      ∧ env.persistent_path ++ "s_file0"
        ∈ (process_cancel env state outputs old_s_files_to_delete
            application_log).old_s_files_to_delete
      ∧ env.persistent_path ++ "s_file1"
        ∈ (process_cancel env state outputs old_s_files_to_delete
            application_log).old_s_files_to_delete
      ∧ (process_cancel env state outputs old_s_files_to_delete application_log).state
        = { state with state := .AWAITING_NEW_NSI_REPORT_REQUESTS, s_file_name_index := false }
      ∧ (process_cancel env state outputs old_s_files_to_delete
          application_log).state.last_seen_nsi_inputs_topic_size
        = state.last_seen_nsi_inputs_topic_size
      ∧ (process_cancel env state outputs old_s_files_to_delete application_log).outputs = outputs
      ∧ (∀ (state_file : Option State) (inputs : TaskInputs) (v : String),
          load_state state_file = state → state.state = .AWAITING_NEW_H_FILES →
          inputs.arguments = [("cancel", v)] →
          ∃ log, run env state_file inputs
            = ⟨some { state with
                  state := .AWAITING_NEW_NSI_REPORT_REQUESTS, s_file_name_index := false },
                .ok ([("application_log", log)],
                  [s_file_path env state.s_file_name_index,
                   s_file_path env (!state.s_file_name_index)])⟩) := by
  refine ⟨rfl, ?_, ?_, rfl, rfl, rfl, ?_⟩
  · rw [← s_file_path_false]
    cases h : state.s_file_name_index <;> simp [process_cancel, h]
  · rw [← s_file_path_true]
    cases h : state.s_file_name_index <;> simp [process_cancel, h]
  · intro state_file inputs v hload hstate hargs
    have hps : process_state env state inputs [] [] ""
        = .ok (process_cancel env state [] [] "") := by
      simp [process_state, hstate, TaskInputs.argument, hargs, arguments.cancel, List.lookup]
    refine ⟨(process_cancel env state [] [] "").application_log, ?_⟩
    simp only [run, hload, hps]
    rfl

/-- Witness of C11: the cancel invocation in a state that awaits H files for
request B. -/
theorem process_cancel_effect_witness :
    load_state (some (state_B 2)) = state_B 2
      ∧ (state_B 2).state = .AWAITING_NEW_H_FILES
      ∧ ∃ log, run env_ok (some (state_B 2)) ⟨[], [("cancel", "x")]⟩
          = ⟨some { state_B 2 with
                state := .AWAITING_NEW_NSI_REPORT_REQUESTS, s_file_name_index := false },
              .ok ([("application_log", log)],
                [s_file_path env_ok (state_B 2).s_file_name_index,
                 s_file_path env_ok (!(state_B 2).s_file_name_index)])⟩ :=
  ⟨rfl, rfl,
    (process_cancel_effect env_ok (state_B 2) [] [] "").2.2.2.2.2.2 (some (state_B 2))
      ⟨[], [("cancel", "x")]⟩ "x" rfl rfl rfl⟩

/-- C12. In AwaitRequest and without arguments, when the NSI topic is absent or
has no entry beyond `last_seen_nsi_inputs_topic_size`, `process_state` returns
the input state unchanged in every field, puts no output and schedules no file;
only the application log grows. The invocation `run` stores the same state. -/
theorem process_state_no_new_request (env : Env) (state : State) (inputs : TaskInputs)
    (outputs : TaskOutputs) (old_s_files_to_delete : List String) (application_log : String)
    (hstate : state.state = .AWAITING_NEW_NSI_REPORT_REQUESTS)
    (hargs : inputs.arguments = [])
    (htopic : (∃ e, find_topic inputs input_names.nsi_input = .error e)
      ∨ (∃ entries, find_topic inputs input_names.nsi_input = .ok entries
          ∧ entries.length ≤ state.last_seen_nsi_inputs_topic_size)) :
    process_state env state inputs outputs old_s_files_to_delete application_log
        = .ok ⟨state, outputs, old_s_files_to_delete,
            application_log
              ++ "Waited for new NSI request, nothing came, going back to sleep.\n"⟩
      ∧ (∀ state_file, load_state state_file = state →
          (run env state_file inputs).state_file = some state) := by
  have hd : ∀ log, process_nsi_report_request_digestion state inputs log
      = (state, log ++ "Waited for new NSI request, nothing came, going back to sleep.\n") := by
    intro log
    rcases htopic with ⟨e, he⟩ | ⟨entries, he, hlen⟩
    · simp only [process_nsi_report_request_digestion, he]
    · have hlt : ¬ state.last_seen_nsi_inputs_topic_size < entries.length := by omega
      simp only [process_nsi_report_request_digestion, he, hlt, not_false_eq_true, if_true]
  have hps : ∀ outputs old log, process_state env state inputs outputs old log
      = .ok ⟨state, outputs, old,
          log ++ "Waited for new NSI request, nothing came, going back to sleep.\n"⟩ := by
    intro outputs old log
    simp only [process_state, hstate, hargs, List.isEmpty_nil, not_true_eq_false, if_false, hd]
  refine ⟨hps _ _ _, ?_⟩
  intro state_file hload
  simp only [run, hload, hps]

/-- Witness of C12: the zero state, no arguments and no NSI topic. -/
theorem process_state_no_new_request_witness :
    State.zero.state = .AWAITING_NEW_NSI_REPORT_REQUESTS
      ∧ (⟨[], []⟩ : TaskInputs).arguments = []
      ∧ (∃ e, find_topic ⟨[], []⟩ input_names.nsi_input = .error e)
      ∧ process_state env_ok State.zero ⟨[], []⟩ [] [] ""
        = .ok ⟨State.zero, [], [],
            "" ++ "Waited for new NSI request, nothing came, going back to sleep.\n"⟩
      ∧ (run env_ok none ⟨[], []⟩).state_file = some State.zero :=
  ⟨rfl, rfl, ⟨_, rfl⟩,
    (process_state_no_new_request env_ok State.zero ⟨[], []⟩ [] [] "" rfl rfl
      (Or.inl ⟨_, rfl⟩)).1,
    (process_state_no_new_request env_ok State.zero ⟨[], []⟩ [] [] "" rfl rfl
      (Or.inl ⟨_, rfl⟩)).2 none rfl⟩

theorem digestion_loop_found_mem (entries : List EnclaveDataInfo) :
    ∀ (id : Nat) (log : String) (rr : ReportRequest) (id' : Nat) (log' : String),
      digestion_loop id entries log = (some rr, id', log') →
      EnclaveDataInfo.report_request rr ∈ entries ∧ valid_report_request rr := by
  induction entries with
  | nil => intro id log rr id' log' h; simp [digestion_loop] at h
  | cons e rest ih =>
    intro id log rr id' log' h
    simp only [digestion_loop] at h
    split at h
    · rename_i q hq
      simp only [Prod.mk.injEq, Option.some.injEq] at h
      obtain ⟨rfl, hv⟩ := (look_at_report_request_ok_iff e q).mp hq
      rw [← h.1]
      exact ⟨List.mem_cons_self _ _, hv⟩
    · obtain ⟨hm, hv⟩ := ih _ _ _ _ _ h
      exact ⟨List.mem_cons_of_mem _ hm, hv⟩

theorem find_topic_ok_mem (inputs : TaskInputs) (name : String) (entries : List EnclaveDataInfo)
    (h : find_topic inputs name = .ok entries) :
    ∃ topic ∈ inputs.inputs, topic.data = entries := by
  unfold find_topic at h
  split at h
  · rename_i topic ht
    simp only [Except.ok.injEq] at h
    exact ⟨topic, List.mem_of_find?_eq_some ht, h⟩
  · cases h

/-- The state after the digestion: the state machine and the request are as
before, or a valid request of the inputs was committed. -/
theorem digestion_state_cases (state : State) (inputs : TaskInputs) (log : String) :
    ((process_nsi_report_request_digestion state inputs log).1.state = state.state
        ∧ (process_nsi_report_request_digestion state inputs log).1.awaiting_new_h_files
          = state.awaiting_new_h_files)
      ∨ (∃ rr, valid_report_request rr
          ∧ (∃ topic ∈ inputs.inputs, EnclaveDataInfo.report_request rr ∈ topic.data)
          ∧ (process_nsi_report_request_digestion state inputs log).1.awaiting_new_h_files
            = ⟨rr, rr.first_period⟩) := by
  unfold process_nsi_report_request_digestion
  split
  · exact Or.inl ⟨rfl, rfl⟩
  · rename_i entries htopic
    split
    · exact Or.inl ⟨rfl, rfl⟩
    · split
      · exact Or.inl ⟨rfl, rfl⟩
      · rename_i rr id' log' hl
        obtain ⟨hm, hv⟩ := digestion_loop_found_mem _ _ _ _ _ _ hl
        obtain ⟨topic, ht, hd⟩ := find_topic_ok_mem _ _ _ htopic
        refine Or.inr ⟨rr, hv, ⟨topic, ht, ?_⟩, rfl⟩
        rw [hd]
        exact List.mem_of_mem_drop hm

theorem process_manually_finish_report_ok_state (env : Env) (state : State)
    (outputs : TaskOutputs) (old_s_files_to_delete : List String) (application_log : String)
    (r : Result)
    (h : process_manually_finish_report env state outputs old_s_files_to_delete application_log
      = .ok r) :
    r.state.state = .AWAITING_NEW_NSI_REPORT_REQUESTS ∧ r.state.s_file_name_index = false := by
  unfold process_manually_finish_report at h
  simp only [bind, Except.bind, pure, Except.pure, throw, throwThe, MonadExceptOf.throw] at h
  repeat' split at h
  all_goals (cases h; try exact ⟨rfl, rfl⟩)

/-- The handler behind a successful `process_state`. -/
theorem process_state_ok_cases (env : Env) (state : State) (inputs : TaskInputs)
    (outputs : TaskOutputs) (old_s_files_to_delete : List String) (application_log : String)
    (r : Result)
    (h : process_state env state inputs outputs old_s_files_to_delete application_log = .ok r) :
    (state.state = .AWAITING_NEW_NSI_REPORT_REQUESTS
        ∧ r.state = (process_nsi_report_request_digestion state inputs application_log).1)
      ∨ (state.state = .AWAITING_NEW_H_FILES
        ∧ (r = process_cancel env state outputs old_s_files_to_delete application_log
          ∨ process_manually_finish_report env state outputs old_s_files_to_delete
              application_log = .ok r
          ∨ ∃ h_file n, process_h_file env state inputs outputs old_s_files_to_delete
              application_log h_file n = .ok r)) := by
  unfold process_state at h
  split at h
  · rename_i hstate
    split at h
    · cases h
    · simp only [Except.ok.injEq] at h
      subst h
      exact Or.inl ⟨hstate, rfl⟩
  · rename_i hstate
    refine Or.inr ⟨hstate, ?_⟩
    split at h
    · split at h
      · cases h
      · simp only [Except.ok.injEq] at h
        exact Or.inl h.symm
    · split at h
      · split at h
        · cases h
        · exact Or.inr (Or.inl h)
      · split at h
        · cases h
        · cases h
        · rename_i h_file period_string _ _
          split at h
          · cases h
          · split at h
            · cases h
            · rename_i n _
              split at h
              · cases h
              · exact Or.inr (Or.inr ⟨h_file, n, h⟩)

/-- The invariant that the invocations preserve: while H files are awaited,
`first_period <= next_expected_period <= last_period <= 2 ^ 32 - 1`. -/
theorem process_state_preserves (env : Env) (state : State) (inputs : TaskInputs)
    (outputs : TaskOutputs) (old_s_files_to_delete : List String) (application_log : String)
    (r : Result) (hin : inputs.periods_in_range)
    (hinv : state.state = .AWAITING_NEW_H_FILES →
      state.awaiting_new_h_files.report_request.first_period
          ≤ state.awaiting_new_h_files.next_expected_period
        ∧ state.awaiting_new_h_files.next_expected_period
          ≤ state.awaiting_new_h_files.report_request.last_period
        ∧ state.awaiting_new_h_files.report_request.last_period ≤ Period_max)
    (h : process_state env state inputs outputs old_s_files_to_delete application_log = .ok r) :
    r.state.state = .AWAITING_NEW_H_FILES →
      r.state.awaiting_new_h_files.report_request.first_period
          ≤ r.state.awaiting_new_h_files.next_expected_period
        ∧ r.state.awaiting_new_h_files.next_expected_period
          ≤ r.state.awaiting_new_h_files.report_request.last_period
        ∧ r.state.awaiting_new_h_files.report_request.last_period ≤ Period_max := by
  intro hr
  rcases process_state_ok_cases env state inputs outputs old_s_files_to_delete application_log r h
    with ⟨hstate, hrs⟩ | ⟨hstate, hc | hf | ⟨h_file, n, hp⟩⟩
  · rw [hrs] at hr ⊢
    rcases digestion_state_cases state inputs application_log with ⟨hs, _⟩ | ⟨rr, hv, ⟨topic, ht, hm⟩, ha⟩
    · rw [hs, hstate] at hr
      cases hr
    · rw [ha]
      exact ⟨Nat.le_refl _, hv.1, (hin topic ht rr hm).2⟩
  · rw [hc] at hr
    cases hr
  · rw [(process_manually_finish_report_ok_state _ _ _ _ _ _ hf).1] at hr
    cases hr
  · obtain ⟨_, new_key, _, _, _, hlo, hhi, _, _, _, _, _, _, _, _, _, _, hrs, _, _⟩ :=
      process_h_file_ok env state inputs outputs old_s_files_to_delete application_log h_file n
        r hp
    obtain ⟨h1, h2, h3⟩ := hinv hstate
    have hP : Period_max = 4294967295 := rfl
    rw [hrs] at hr ⊢
    split at hr
    · cases hr
    · rename_i hsel
      rw [if_neg hsel]
      have hlt : n < state.awaiting_new_h_files.report_request.last_period := by
        by_contra hge
        exact hsel (by simp [select_what_to_do, hge])
      have hmod : (state.awaiting_new_h_files.next_expected_period + 1) % 2 ^ 32
          = state.awaiting_new_h_files.next_expected_period + 1 :=
        Nat.mod_eq_of_lt (by omega)
      simp only [hmod]
      exact ⟨by omega, by omega, h3⟩

/-- C13. Every state that successful invocations of `run` can reach from the
zero-initialised state satisfies I-State1: if it awaits H files, then
`first_period <= last_period` and
`first_period <= next_expected_period <= last_period + 1`, as natural numbers.
The periods of the report requests in the inputs are 32-bit values. -/
theorem reachable_state_invariant (state_file : Option State)
    (h : ReachableStateFile state_file) : state_invariant (load_state state_file) := by
  have key : (load_state state_file).state = .AWAITING_NEW_H_FILES →
      (load_state state_file).awaiting_new_h_files.report_request.first_period
          ≤ (load_state state_file).awaiting_new_h_files.next_expected_period
        ∧ (load_state state_file).awaiting_new_h_files.next_expected_period
          ≤ (load_state state_file).awaiting_new_h_files.report_request.last_period
        ∧ (load_state state_file).awaiting_new_h_files.report_request.last_period
          ≤ Period_max := by
    induction h with
    | initial => intro hs; cases hs
    | invoke env sf inputs out _ hin hout ih =>
      unfold run at hout ⊢
      cases hp : process_state env (load_state sf) inputs [] [] "" with
      | error e => rw [hp] at hout; cases hout
      | ok r =>
        simp only [hp, load_state]
        exact process_state_preserves env (load_state sf) inputs [] [] "" r hin ih hp
  intro hs
  obtain ⟨h1, h2, h3⟩ := key hs
  exact ⟨by omega, h1, by omega⟩

/-- Witness of C13: the state file after the digestion of scenario 6. -/
theorem reachable_state_invariant_witness :
    ReachableStateFile (run env_ok none inputs_AB).state_file
      ∧ state_invariant (load_state (run env_ok none inputs_AB).state_file) :=
  ⟨ReachableStateFile.invoke env_ok none inputs_AB _ ReachableStateFile.initial
      (by
        intro topic ht r hr
        simp only [inputs_AB, List.mem_singleton] at ht
        subst ht
        simp only [List.mem_cons, EnclaveDataInfo.report_request.injEq, List.mem_singleton,
          List.not_mem_nil, or_false] at hr
        rcases hr with rfl | rfl <;> decide)
      rfl,
    reachable_state_invariant _
      (ReachableStateFile.invoke env_ok none inputs_AB _ ReachableStateFile.initial
        (by
          intro topic ht r hr
          simp only [inputs_AB, List.mem_singleton] at ht
          subst ht
          simp only [List.mem_cons, EnclaveDataInfo.report_request.injEq, List.mem_singleton,
            List.not_mem_nil, or_false] at hr
          rcases hr with rfl | rfl <;> decide)
        rfl)⟩

theorem filter_loop_iff {F : Type} [FloatOps F] (vals : List F) :
    ∀ positive_found : Bool,
      filter_loop vals positive_found = true ↔
        (∀ v ∈ vals, FloatOps.isfinite v = true ∧ FloatOps.lt v FloatOps.zero = false)
          ∧ (positive_found = true ∨ ∃ v ∈ vals, FloatOps.lt FloatOps.zero v = true) := by
  induction vals with
  | nil => intro pf; simp [filter_loop]
  | cons value rest ih =>
    intro pf
    simp only [filter_loop]
    cases hfin : FloatOps.isfinite value with
    | false => simp [hfin]
    | true =>
      cases hneg : FloatOps.lt value (FloatOps.zero : F) with
      | true => simp [hfin, hneg]
      | false =>
        cases hpos : FloatOps.lt (FloatOps.zero : F) value with
        | true => simp [hfin, hneg, hpos, ih]
        | false => simp [hfin, hneg, hpos, ih]

/-- C14. The cleaning filter keeps an H record iff all four values are finite,
all are `>= 0` and at least one is `> 0`, where on finite values `>= 0` is the
negation of `< 0` and `0 < 0` is false. In particular a record of four zeros, a
record with a negative value and a record with a non-finite value are
dropped. -/
theorem h_filter_keeps_iff {F : Type} [FloatArith F]
    (hge : ∀ v : F, FloatOps.isfinite v = true →
      FloatArith.ge v FloatOps.zero = !FloatOps.lt v FloatOps.zero)
    (hzero : FloatOps.lt (FloatOps.zero : F) FloatOps.zero = false)
    (e : UserFootprintUpdates F) :
    (h_filter e = true ↔
        (∀ v ∈ e.i_column.toList, FloatOps.isfinite v = true)
          ∧ (∀ v ∈ e.i_column.toList, FloatArith.ge v FloatOps.zero = true)
          ∧ (∃ v ∈ e.i_column.toList, FloatOps.lt FloatOps.zero v = true))
      ∧ (e.i_column = IColumn.zero → h_filter e = false)
      ∧ ((∃ v ∈ e.i_column.toList, FloatOps.lt v FloatOps.zero = true) → h_filter e = false)
      ∧ ((∃ v ∈ e.i_column.toList, FloatOps.isfinite v = false) → h_filter e = false) := by
  have hiff := filter_loop_iff e.i_column.toList false
  simp only [Bool.false_eq_true, false_or] at hiff
  have main : h_filter e = true ↔
      (∀ v ∈ e.i_column.toList, FloatOps.isfinite v = true)
        ∧ (∀ v ∈ e.i_column.toList, FloatArith.ge v FloatOps.zero = true)
        ∧ (∃ v ∈ e.i_column.toList, FloatOps.lt FloatOps.zero v = true) := by
    unfold h_filter
    rw [hiff]
    constructor
    · rintro ⟨hall, hex⟩
      exact ⟨fun v hv => (hall v hv).1,
        fun v hv => by rw [hge v (hall v hv).1, (hall v hv).2]; rfl, hex⟩
    · rintro ⟨hfin, hnn, hex⟩
      refine ⟨fun v hv => ⟨hfin v hv, ?_⟩, hex⟩
      have := hnn v hv
      rw [hge v (hfin v hv)] at this
      simpa using this
  refine ⟨main, ?_, ?_, ?_⟩
  · intro h0
    rw [← Bool.not_eq_true, main]
    rintro ⟨_, _, v, hv, hpos⟩
    rw [h0] at hv
    simp only [IColumn.toList, IColumn.zero, List.mem_cons, List.mem_singleton,
      List.not_mem_nil, or_false, or_self] at hv
    rw [hv, hzero] at hpos
    cases hpos
  · rintro ⟨v, hv, hneg⟩
    rw [← Bool.not_eq_true]
    unfold h_filter
    rw [hiff]
    rintro ⟨hall, _⟩
    rw [(hall v hv).2] at hneg
    cases hneg
  · rintro ⟨v, hv, hnf⟩
    rw [← Bool.not_eq_true]
    unfold h_filter
    rw [hiff]
    rintro ⟨hall, _⟩
    rw [(hall v hv).1] at hnf
    cases hnf

/-- Witness of C14: over the rationals the record [0, 1/2, 0, 3] is kept. -/
theorem h_filter_keeps_iff_witness :
    (∀ v : ℚ, FloatOps.isfinite v = true →
        FloatArith.ge v FloatOps.zero = !FloatOps.lt v FloatOps.zero)
      ∧ FloatOps.lt (FloatOps.zero : ℚ) FloatOps.zero = false
      ∧ (h_filter (⟨⟨user_id 1, ⟨10, 10⟩⟩, ⟨0, 1 / 2, 0, 3⟩⟩ : UserFootprintUpdates ℚ) = true ↔
          (∀ v ∈ (⟨0, 1 / 2, 0, 3⟩ : IColumn ℚ).toList, FloatOps.isfinite v = true)
            ∧ (∀ v ∈ (⟨0, 1 / 2, 0, 3⟩ : IColumn ℚ).toList,
                FloatArith.ge v FloatOps.zero = true)
            ∧ (∃ v ∈ (⟨0, 1 / 2, 0, 3⟩ : IColumn ℚ).toList,
                FloatOps.lt FloatOps.zero v = true))
      ∧ h_filter (⟨⟨user_id 1, ⟨10, 10⟩⟩, ⟨0, 1 / 2, 0, 3⟩⟩ : UserFootprintUpdates ℚ) = true :=
  ⟨fun v _ => by
      show decide ((0 : ℚ) ≤ v) = !decide (v < (0 : ℚ))
      by_cases h : v < 0 <;> simp [h, not_le.mpr, le_of_not_lt],
    by decide,
    (h_filter_keeps_iff (F := ℚ)
      (fun v _ => by
        show decide ((0 : ℚ) ≤ v) = !decide (v < (0 : ℚ))
        by_cases h : v < 0 <;> simp [h, not_le.mpr, le_of_not_lt])
      (by decide) _).1,
    by with_unfolding_all decide⟩

theorem foldl_fmax_max {F : Type} [FloatOps F]
    (hirr : ∀ a : F, FloatOps.lt a a = false)
    (htrans : ∀ a b c : F, FloatOps.lt a b = true → FloatOps.lt b c = true →
      FloatOps.lt a c = true)
    (l : List F) : ∀ init : F,
      (l.foldl fmax init = init ∨ FloatOps.lt init (l.foldl fmax init) = true)
        ∧ (l.foldl fmax init = init ∨ l.foldl fmax init ∈ l)
        ∧ ∀ e ∈ l, FloatOps.lt (l.foldl fmax init) e = false := by
  induction l with
  | nil => intro init; simp
  | cons a l ih =>
    intro init
    simp only [List.foldl_cons]
    obtain ⟨hle, hmem, hub⟩ := ih (fmax init a)
    cases hia : FloatOps.lt init a with
    | true =>
      have hf : fmax init a = a := by simp [fmax, hia]
      rw [hf] at hle hmem hub ⊢
      have hinit : FloatOps.lt init (l.foldl fmax a) = true := by
        rcases hle with h | h
        · rw [h]; exact hia
        · exact htrans _ _ _ hia h
      refine ⟨Or.inr hinit, ?_, ?_⟩
      · rcases hmem with h | h
        · exact Or.inr (by rw [h]; exact List.mem_cons_self _ _)
        · exact Or.inr (List.mem_cons_of_mem _ h)
      · intro e he
        rcases List.mem_cons.mp he with h | h
        · subst h
          rcases hle with h | h
          · rw [h]; exact hirr _
          · cases hr : FloatOps.lt (l.foldl fmax e) e with
            | false => rfl
            | true => have := htrans _ _ _ h hr; rw [hirr] at this; cases this
        · exact hub e h
    | false =>
      have hf : fmax init a = init := by simp [fmax, hia]
      rw [hf] at hle hmem hub ⊢
      refine ⟨hle, ?_, ?_⟩
      · rcases hmem with h | h
        · exact Or.inl h
        · exact Or.inr (List.mem_cons_of_mem _ h)
      · intro e he
        rcases List.mem_cons.mp he with h | h
        · subst h
          rcases hle with h | h
          · rw [h]; exact hia
          · cases hr : FloatOps.lt (l.foldl fmax init) e with
            | false => rfl
            | true => have := htrans _ _ _ h hr; rw [hia] at this; cases this
        · exact hub e h

theorem dedup_foldl_get {F : Type} [FloatOps F] (i : Fin 4)
    (g : List (UserFootprintUpdates F)) : ∀ front : UserFootprintUpdates F,
    (g.foldl (fun result e =>
      { result with i_column := IColumn.zipWith fmax result.i_column e.i_column })
        front).i_column.get i
      = (g.map (fun e => e.i_column.get i)).foldl fmax (front.i_column.get i) := by
  induction g with
  | nil => intro front; rfl
  | cons a as ih =>
    intro front
    simp only [List.foldl_cons, List.map_cons]
    rw [ih]
    congr 1
    fin_cases i <;> rfl

theorem dedup_foldl_is_run_maximum {F : Type} [FloatOps F]
    (hirr : ∀ a : F, FloatOps.lt a a = false)
    (htrans : ∀ a b c : F, FloatOps.lt a b = true → FloatOps.lt b c = true →
      FloatOps.lt a c = true)
    (front : UserFootprintUpdates F) (rest : List (UserFootprintUpdates F))
    (hkey : ∀ e ∈ front :: rest, front.key = e.key) :
    is_run_maximum (front :: rest)
      ((front :: rest).foldl (fun result e =>
        { result with i_column := IColumn.zipWith fmax result.i_column e.i_column }) front) := by
  refine ⟨fun e he => by rw [dedup_foldl_key]; exact hkey e he, fun i => ?_⟩
  rw [dedup_foldl_get]
  obtain ⟨_, hmem, hub⟩ := foldl_fmax_max hirr htrans
    ((front :: rest).map (fun e => e.i_column.get i)) (front.i_column.get i)
  constructor
  · rcases hmem with h | h
    · exact ⟨front, List.mem_cons_self _ _, h⟩
    · obtain ⟨e, he, hee⟩ := List.mem_map.mp h
      exact ⟨e, he, hee.symm⟩
  · intro e he
    exact hub _ (List.mem_map.mpr ⟨e, he, rfl⟩)

theorem dedup_flatMap_indicators_fst {F : Type} [FloatOps F]
    (v : List (UserFootprintUpdates F)) (indicators : Indicators) :
    (dedup_flatMap_indicators v indicators).map Prod.fst = dedup_flatMap v := by
  cases v with
  | nil => rfl
  | cons a as =>
    cases as with
    | nil => rfl
    | cons b bs => simp [dedup_flatMap_indicators, dedup_flatMap]

theorem groupBy_runs {F : Type} (xs : List (UserFootprintUpdates F)) :
    (groupBy (fun left right : UserFootprintUpdates F => left.key == right.key) xs).flatten = xs
      ∧ (∀ g ∈ groupBy (fun left right : UserFootprintUpdates F => left.key == right.key) xs,
          g ≠ [] ∧ ∀ a ∈ g, ∀ b ∈ g, a.key = b.key)
      ∧ List.Chain' (fun g1 g2 : List (UserFootprintUpdates F) =>
          ∀ a ∈ g1, ∀ b ∈ g2, a.key ≠ b.key)
          (groupBy (fun left right : UserFootprintUpdates F => left.key == right.key) xs) := by
  induction xs with
  | nil => simp [groupBy]
  | cons a as ih =>
    obtain ⟨hj, hg, hc⟩ := ih
    cases hgs : groupBy (fun left right : UserFootprintUpdates F => left.key == right.key) as with
    | nil =>
      rw [hgs] at hj
      simp only [List.flatten_nil] at hj
      subst hj
      simp [groupBy]
    | cons g0 gs =>
      rw [hgs] at hj hg hc
      cases g0 with
      | nil => exact absurd rfl (hg [] (List.mem_cons_self _ _)).1
      | cons b g =>
        rw [groupBy_cons_of_eq _ a b as g gs hgs]
        have hb := (hg (b :: g) (List.mem_cons_self _ _)).2
        by_cases hk : a.key = b.key
        · simp only [hk, beq_self_eq_true, if_true]
          refine ⟨by rw [← hj]; simp, ?_, ?_⟩
          · intro g1 hg1
            rcases List.mem_cons.mp hg1 with h | h
            · subst h
              refine ⟨by simp, ?_⟩
              have hall : ∀ x ∈ a :: b :: g, x.key = b.key := by
                intro x hx
                rcases List.mem_cons.mp hx with h | h
                · rw [h, hk]
                · exact hb x h b (List.mem_cons_self _ _)
              intro x hx y hy
              rw [hall x hx, hall y hy]
            · exact hg g1 (List.mem_cons_of_mem _ h)
          · cases gs with
            | nil => exact List.chain'_singleton _
            | cons g2 gs2 =>
              obtain ⟨h12, hrest⟩ := List.chain'_cons.mp hc
              refine List.chain'_cons.mpr ⟨?_, hrest⟩
              intro x hx y hy
              rcases List.mem_cons.mp hx with h | h
              · rw [h, hk]; exact h12 b (List.mem_cons_self _ _) y hy
              · exact h12 x h y hy
        · have hk' : (a.key == b.key) = false := by simpa using hk
          simp only [hk', Bool.false_eq_true, if_false]
          refine ⟨by rw [← hj]; simp, ?_, ?_⟩
          · intro g1 hg1
            rcases List.mem_cons.mp hg1 with h | h
            · subst h
              refine ⟨by simp, ?_⟩
              intro x hx y hy
              rw [List.mem_singleton.mp hx, List.mem_singleton.mp hy]
            · exact hg g1 h
          · refine List.chain'_cons.mpr ⟨?_, hc⟩
            intro x hx y hy
            rw [List.mem_singleton.mp hx, ← hb b (List.mem_cons_self _ _) y hy]
            exact hk

theorem dedup_flatMap_indicators_run {F : Type} [FloatOps F]
    (hirr : ∀ a : F, FloatOps.lt a a = false)
    (htrans : ∀ a b c : F, FloatOps.lt a b = true → FloatOps.lt b c = true →
      FloatOps.lt a c = true)
    (g : List (UserFootprintUpdates F)) (indicators : Indicators)
    (hne : g ≠ []) (hkey : ∀ a ∈ g, ∀ b ∈ g, a.key = b.key)
    (hind : indicators.m_number_of_duplicate_H_records + g.length < 2 ^ 64) :
    ∃ r, dedup_flatMap_indicators g indicators
        = some ([r], ⟨indicators.m_number_of_duplicate_H_records + (g.length - 1)⟩)
      ∧ is_run_maximum g r ∧ (g.length = 1 → g = [r]) := by
  cases g with
  | nil => exact absurd rfl hne
  | cons front rest =>
    cases rest with
    | nil =>
      refine ⟨front, rfl, ⟨?_, fun i => ⟨⟨front, List.mem_cons_self _ _, rfl⟩, ?_⟩⟩, fun _ => rfl⟩
      · intro e he; rw [List.mem_singleton.mp he]
      · intro e he; rw [List.mem_singleton.mp he]; exact hirr _
    | cons b bs =>
      refine ⟨_, ?_, dedup_foldl_is_run_maximum hirr htrans front (b :: bs)
        (fun e he => hkey front (List.mem_cons_self _ _) e he), fun h => by simp at h⟩
      simp only [List.length_cons] at hind
      simp only [dedup_flatMap_indicators, List.length_cons, Nat.add_eq_right,
        Indicators.report_additional_H_duplicates]
      have h1 : (bs.length + 1 + 1 - 1) % 2 ^ 64 = bs.length + 1 := by
        rw [Nat.add_sub_cancel]; exact Nat.mod_eq_of_lt (by omega)
      simp only [Nat.add_sub_cancel] at h1 ⊢
      rw [if_neg (by omega), h1, Nat.mod_eq_of_lt (by omega)]

theorem flatMap_st_dedup {F : Type} [FloatOps F]
    (hirr : ∀ a : F, FloatOps.lt a a = false)
    (htrans : ∀ a b c : F, FloatOps.lt a b = true → FloatOps.lt b c = true →
      FloatOps.lt a c = true)
    (gs : List (List (UserFootprintUpdates F))) :
    ∀ indicators : Indicators,
      (∀ g ∈ gs, g ≠ [] ∧ ∀ a ∈ g, ∀ b ∈ g, a.key = b.key) →
      indicators.m_number_of_duplicate_H_records + gs.flatten.length < 2 ^ 64 →
      ∃ out, flatMap_st dedup_flatMap_indicators gs indicators
          = some (out, ⟨indicators.m_number_of_duplicate_H_records
              + (gs.map (fun g => g.length - 1)).sum⟩)
        ∧ List.Forall₂ is_run_maximum gs out := by
  induction gs with
  | nil => intro indicators _ _; exact ⟨[], rfl, List.Forall₂.nil⟩
  | cons g gs ih =>
    intro indicators hg hind
    simp only [List.flatten_cons, List.length_append] at hind
    obtain ⟨hne, hkey⟩ := hg g (List.mem_cons_self _ _)
    obtain ⟨r, hr, hmax, _⟩ := dedup_flatMap_indicators_run hirr htrans g indicators hne hkey
      (by omega)
    have hlen : 0 < g.length := List.length_pos.mpr hne
    obtain ⟨out, hout, hall⟩ := ih ⟨indicators.m_number_of_duplicate_H_records + (g.length - 1)⟩
      (fun g1 hg1 => hg g1 (List.mem_cons_of_mem _ hg1)) (by simp only; omega)
    refine ⟨r :: out, ?_, List.Forall₂.cons hmax hall⟩
    simp only [flatMap_st, hr, hout, List.map_cons, List.sum_cons, List.singleton_append,
      Nat.add_assoc]

theorem flatMap_st_dedup_fst {F : Type} [FloatOps F]
    (gs : List (List (UserFootprintUpdates F))) :
    ∀ (indicators after : Indicators) (out : List (UserFootprintUpdates F)),
      flatMap_st dedup_flatMap_indicators gs indicators = some (out, after) →
      flatMap dedup_flatMap gs = some out := by
  induction gs with
  | nil =>
    intro indicators after out h
    simp only [flatMap_st, Option.some.injEq, Prod.mk.injEq] at h
    rw [← h.1]; rfl
  | cons g gs ih =>
    intro indicators after out h
    have hfst := dedup_flatMap_indicators_fst g indicators
    simp only [flatMap_st] at h
    cases hg : dedup_flatMap_indicators g indicators with
    | none => rw [hg] at h; cases h
    | some p =>
      obtain ⟨bs, s1⟩ := p
      rw [hg] at h hfst
      simp only at h
      cases hrest : flatMap_st dedup_flatMap_indicators gs s1 with
      | none => rw [hrest] at h; cases h
      | some q =>
        obtain ⟨rest, s2⟩ := q
        rw [hrest] at h
        simp only [Option.some.injEq, Prod.mk.injEq] at h
        simp only [Option.map_some'] at hfst
        simp only [flatMap, ← hfst, ih s1 s2 rest hrest, h.1]

/-- C15. Deduplication of the H stream: `groupBy` cuts the stream into its
maximal runs of records with equal (U-ID, tile) key, and the deduplication
`flatMap` replaces every run by one record with that key whose four values are
the component-wise maximum over the run, while the duplicate indicator grows
by (run length - 1) for every run; a run of length 1 is passed through
unchanged and adds 0. The hypotheses are that `<` on the values is irreflexive
and transitive and that the 64-bit indicator does not overflow. -/
theorem dedup_maximal_runs {F : Type} [FloatOps F]
    (hirr : ∀ a : F, FloatOps.lt a a = false)
    (htrans : ∀ a b c : F, FloatOps.lt a b = true → FloatOps.lt b c = true →
      FloatOps.lt a c = true)
    (xs : List (UserFootprintUpdates F)) (indicators : Indicators)
    (hind : indicators.m_number_of_duplicate_H_records + xs.length < 2 ^ 64) :
    -- the groups are the maximal runs of equal keys
    ((groupBy (fun left right : UserFootprintUpdates F => left.key == right.key) xs).flatten = xs
      ∧ (∀ g ∈ groupBy (fun left right : UserFootprintUpdates F => left.key == right.key) xs,
          g ≠ [] ∧ ∀ a ∈ g, ∀ b ∈ g, a.key = b.key)
      ∧ List.Chain' (fun g1 g2 : List (UserFootprintUpdates F) =>
          ∀ a ∈ g1, ∀ b ∈ g2, a.key ≠ b.key)
          (groupBy (fun left right : UserFootprintUpdates F => left.key == right.key) xs))
    -- one output record per run, and the indicator after the whole stream
    ∧ (∃ out, flatMap_st dedup_flatMap_indicators
          (groupBy (fun left right : UserFootprintUpdates F => left.key == right.key) xs)
          indicators
          = some (out, ⟨indicators.m_number_of_duplicate_H_records
              + ((groupBy (fun left right : UserFootprintUpdates F => left.key == right.key)
                    xs).map (fun g => g.length - 1)).sum⟩)
        ∧ List.Forall₂ is_run_maximum
            (groupBy (fun left right : UserFootprintUpdates F => left.key == right.key) xs) out
        ∧ flatMap dedup_flatMap
            (groupBy (fun left right : UserFootprintUpdates F => left.key == right.key) xs)
            = some out)
    -- what the lambda does with one run, whatever the indicator was before
    ∧ (∀ g ∈ groupBy (fun left right : UserFootprintUpdates F => left.key == right.key) xs,
        ∀ before : Indicators, before.m_number_of_duplicate_H_records + g.length < 2 ^ 64 →
          ∃ r, dedup_flatMap_indicators g before
              = some ([r], ⟨before.m_number_of_duplicate_H_records + (g.length - 1)⟩)
            ∧ is_run_maximum g r
            ∧ (g.length = 1 →
                dedup_flatMap_indicators g before = some (g, before))) := by
  obtain ⟨hj, hg, hc⟩ := groupBy_runs xs
  refine ⟨⟨hj, hg, hc⟩, ?_, ?_⟩
  · obtain ⟨out, hout, hall⟩ := flatMap_st_dedup hirr htrans _ indicators hg (by rw [hj]; exact hind)
    exact ⟨out, hout, hall, flatMap_st_dedup_fst _ _ _ _ hout⟩
  · intro g hgm before hb
    obtain ⟨r, hr, hmax, hone⟩ :=
      dedup_flatMap_indicators_run hirr htrans g before (hg g hgm).1 (hg g hgm).2 hb
    refine ⟨r, hr, hmax, fun h1 => ?_⟩
    rw [hr, ← hone h1, h1]
    rfl

/-- Witness of C15: a run of two records of one key followed by a single record
of another key; the output has the two maxima and the indicator goes from 0
to 1. -/
theorem dedup_maximal_runs_witness :
    (⟨0⟩ : Indicators).m_number_of_duplicate_H_records
        + [h_record 1 1 0 1 2 3 4, h_record 1 1 0 4 3 2 1, h_record 2 1 0 5 5 5 5].length < 2 ^ 64
      ∧ (∃ out, flatMap_st dedup_flatMap_indicators
            (groupBy (fun left right : UserFootprintUpdates Int => left.key == right.key)
              [h_record 1 1 0 1 2 3 4, h_record 1 1 0 4 3 2 1, h_record 2 1 0 5 5 5 5])
            ⟨0⟩
            = some (out, ⟨(⟨0⟩ : Indicators).m_number_of_duplicate_H_records
                + ((groupBy (fun left right : UserFootprintUpdates Int => left.key == right.key)
                    [h_record 1 1 0 1 2 3 4, h_record 1 1 0 4 3 2 1,
                      h_record 2 1 0 5 5 5 5]).map (fun g => g.length - 1)).sum⟩)
          ∧ List.Forall₂ is_run_maximum
              (groupBy (fun left right : UserFootprintUpdates Int => left.key == right.key)
                [h_record 1 1 0 1 2 3 4, h_record 1 1 0 4 3 2 1, h_record 2 1 0 5 5 5 5]) out
          ∧ flatMap dedup_flatMap
              (groupBy (fun left right : UserFootprintUpdates Int => left.key == right.key)
                [h_record 1 1 0 1 2 3 4, h_record 1 1 0 4 3 2 1, h_record 2 1 0 5 5 5 5])
              = some out)
      ∧ flatMap_st dedup_flatMap_indicators
          (groupBy (fun left right : UserFootprintUpdates Int => left.key == right.key)
            [h_record 1 1 0 1 2 3 4, h_record 1 1 0 4 3 2 1, h_record 2 1 0 5 5 5 5])
          ⟨0⟩
          = some ([h_record 1 1 0 4 3 3 4, h_record 2 1 0 5 5 5 5], ⟨1⟩) :=
  ⟨by decide,
    (dedup_maximal_runs (F := Int) (fun a => decide_eq_false (lt_irrefl a))
      (fun a b c hab hbc =>
        decide_eq_true (lt_trans (of_decide_eq_true hab) (of_decide_eq_true hbc)))
      [h_record 1 1 0 1 2 3 4, h_record 1 1 0 4 3 2 1, h_record 2 1 0 5 5 5 5] ⟨0⟩
      (by decide)).2.1,
    by decide⟩

theorem array_lt_irrefl : ∀ x : List (Fin 256), array_lt x x = false
  | [] => rfl
  | a :: as => by simp [array_lt, array_lt_irrefl as]

theorem array_lt_tri : ∀ x y : List (Fin 256), x.length = y.length →
    array_lt x y = false → array_lt y x = false → x = y
  | [], [], _, _, _ => rfl
  | [], _ :: _, h, _, _ => by simp at h
  | _ :: _, [], h, _, _ => by simp at h
  | a :: as, b :: bs, h, h1, h2 => by
    simp only [array_lt, Fin.lt_def] at h1 h2
    simp only [List.length_cons, Nat.succ.injEq] at h
    split_ifs at h1 h2
    have hab : a = b := Fin.ext (by omega)
    rw [hab, array_lt_tri as bs h h1 h2]

theorem std_sort_perm {α : Type} (comp : α → α → Bool) (xs : List α) :
    List.Perm (std_sort comp xs) xs :=
  List.perm_insertionSort _ xs

theorem randomise_map {F : Type} (l : List (AccumulatedUserFootprint F)) :
    ∀ m_rng : Xoshiro256Plus,
      (SingleHumanAnalysis.randomise l m_rng).1.map (fun e => (e.key.tile, e.i_column))
        = l.map (fun e => (e.key.tile, e.i_column)) := by
  induction l with
  | nil => intro m_rng; rfl
  | cons a as ih =>
    intro m_rng
    simp only [SingleHumanAnalysis.randomise, List.map_cons, ih]

theorem quantise_loop_map {F D : Type} [FloatArith F] [Zero D] (id_backup : UserIdentifier)
    (l : List (AccumulatedUserFootprint F)) : ∀ i : Nat,
      (SingleHumanAnalysis.quantise_loop id_backup i l : List (QuantisedFootprint D)).map
          (fun q => (q.key.tile, q.values))
        = l.map (fun e => (e.key.tile, bitmap e.i_column)) := by
  induction l with
  | nil => intro i; rfl
  | cons a as ih =>
    intro i
    simp only [SingleHumanAnalysis.quantise_loop, List.map_cons, ih]
    rfl

theorem quantise_loop_rank {F D : Type} [FloatArith F] [Zero D] (id_backup : UserIdentifier)
    (l : List (AccumulatedUserFootprint F)) : ∀ i : Nat, i + l.length ≤ 2 ^ 32 →
      (SingleHumanAnalysis.quantise_loop id_backup i l : List (QuantisedFootprint D)).map
          (fun q => q.rank)
        = List.range' i l.length := by
  induction l with
  | nil => intro i _; rfl
  | cons a as ih =>
    intro i hi
    simp only [List.length_cons] at hi
    simp only [SingleHumanAnalysis.quantise_loop, List.map_cons, List.length_cons, List.range'_succ]
    rw [ih (i + 1) (by omega)]
    congr 1
    simp only [SingleHumanAnalysis.quantise, QuantisedFootprint.FirstRank, Nat.add_zero]
    exact Nat.mod_eq_of_lt (by omega)

theorem quantise_loop_mem_id {F D : Type} [FloatArith F] [Zero D] (id_backup : UserIdentifier)
    (l : List (AccumulatedUserFootprint F)) : ∀ i : Nat,
      ∀ q ∈ (SingleHumanAnalysis.quantise_loop id_backup i l : List (QuantisedFootprint D)),
        q.key.id = id_backup ∧ q.values.v0 = true := by
  induction l with
  | nil => intro i q hq; simp [SingleHumanAnalysis.quantise_loop] at hq
  | cons a as ih =>
    intro i q hq
    simp only [SingleHumanAnalysis.quantise_loop, List.mem_cons] at hq
    rcases hq with h | h
    · rw [h]; exact ⟨rfl, rfl⟩
    · exact ih (i + 1) q h

theorem randomise_length {F : Type} (l : List (AccumulatedUserFootprint F))
    (m_rng : Xoshiro256Plus) : (SingleHumanAnalysis.randomise l m_rng).1.length = l.length := by
  have := congrArg List.length (randomise_map l m_rng)
  simpa using this

theorem std_sort_length {α : Type} (comp : α → α → Bool) (xs : List α) :
    (std_sort comp xs).length = xs.length :=
  (std_sort_perm comp xs).length_eq

theorem operator_call_nil {F D : Type} [FloatArith F] [Zero D] (self : SingleHumanAnalysis D)
    (footprints : List (AccumulatedUserFootprint F))
    (h : footprints.filter
      (fun e => !FloatOps.lt e.i_column.v0 FloatArith.day_quantisation_threshold) = []) :
    self.operator_call footprints
      = ([], { self with
            m_statistics := { self.m_statistics with
              highly_nomadic_users :=
                (self.m_statistics.highly_nomadic_users + 1) % 2 ^ 32 } }) := by
  unfold SingleHumanAnalysis.operator_call
  rw [h]

theorem operator_call_cons {F D : Type} [FloatArith F] [Zero D] (self : SingleHumanAnalysis D)
    (footprints : List (AccumulatedUserFootprint F)) (front : AccumulatedUserFootprint F)
    (rest : List (AccumulatedUserFootprint F))
    (h : footprints.filter
      (fun e => !FloatOps.lt e.i_column.v0 FloatArith.day_quantisation_threshold)
        = front :: rest) :
    self.operator_call footprints
      = (SingleHumanAnalysis.quantise_loop front.key.id 0
            (std_sort rank_cmp (SingleHumanAnalysis.randomise (front :: rest) self.m_rng).1),
          { self with m_rng := (SingleHumanAnalysis.randomise (front :: rest) self.m_rng).2 }) := by
  unfold SingleHumanAnalysis.operator_call
  rw [h]

/-- C16. Per-user quantisation by SingleHumanAnalysis, for the footprints of
one user (all with the identifier `id`): the records with
`values[0] < day_quantisation_threshold` are dropped. If none remains, nothing
is emitted and `highly_nomadic_users` grows by exactly 1. Otherwise the
statistics are unchanged and the emitted records are, up to their order, one
per remaining record with that record's tile and the bitmap `bitmap[0] = true`,
`bitmap[j] = (values[j] / values[0] >= threshold)`; every emitted record has
the identifier `id`; the ranks are 0, 1, ..., n-1 in output order, so the first
emitted record is the only one of rank 0. The hypotheses exclude the overflow
of the two `uint32_t` fields. -/
theorem single_human_analysis_quantises {F D : Type} [FloatArith F] [Zero D]
    (self : SingleHumanAnalysis D) (footprints : List (AccumulatedUserFootprint F))
    (id : UserIdentifier) (hid : ∀ e ∈ footprints, e.key.id = id)
    (hnomadic : self.m_statistics.highly_nomadic_users + 1 < 2 ^ 32)
    (hlen : footprints.length ≤ 2 ^ 32) :
    (footprints.filter
        (fun e => !FloatOps.lt e.i_column.v0 FloatArith.day_quantisation_threshold) = [] →
      (self.operator_call footprints).1 = []
        ∧ (self.operator_call footprints).2.m_statistics
            = { self.m_statistics with
                highly_nomadic_users := self.m_statistics.highly_nomadic_users + 1 })
    ∧ (footprints.filter
        (fun e => !FloatOps.lt e.i_column.v0 FloatArith.day_quantisation_threshold) ≠ [] →
      (self.operator_call footprints).2.m_statistics = self.m_statistics
        ∧ List.Perm
            ((self.operator_call footprints).1.map (fun q => (q.key.tile, q.values)))
            ((footprints.filter
                (fun e => !FloatOps.lt e.i_column.v0 FloatArith.day_quantisation_threshold)).map
              (fun e => (e.key.tile, bitmap e.i_column)))
        ∧ (∀ q ∈ (self.operator_call footprints).1, q.key.id = id ∧ q.values.v0 = true)
        ∧ (self.operator_call footprints).1.map (fun q => q.rank)
            = List.range (footprints.filter
                (fun e => !FloatOps.lt e.i_column.v0
                  FloatArith.day_quantisation_threshold)).length
        ∧ ∃ first rest, (self.operator_call footprints).1 = first :: rest
            ∧ first.rank = 0 ∧ ∀ q ∈ rest, q.rank ≠ 0) := by
  constructor
  · intro h
    rw [operator_call_nil self footprints h]
    refine ⟨rfl, ?_⟩
    simp only [Nat.mod_eq_of_lt hnomadic]
  · intro h
    obtain ⟨front, rest, hk⟩ := List.exists_cons_of_ne_nil h
    have hfront : front.key.id = id :=
      hid front (List.mem_of_mem_filter (by rw [hk]; exact List.mem_cons_self _ _))
    have hklen : (front :: rest).length ≤ footprints.length := by
      rw [← hk]; exact List.length_filter_le _ _
    have hslen : (std_sort rank_cmp
        (SingleHumanAnalysis.randomise (front :: rest) self.m_rng).1).length
        = (front :: rest).length := by
      rw [std_sort_length, randomise_length]
    have hrank : (SingleHumanAnalysis.quantise_loop front.key.id 0
          (std_sort rank_cmp (SingleHumanAnalysis.randomise (front :: rest) self.m_rng).1)
            : List (QuantisedFootprint D)).map (fun q => q.rank)
        = List.range (front :: rest).length := by
      rw [quantise_loop_rank _ _ 0 (by rw [hslen]; omega), hslen, List.range_eq_range']
    rw [operator_call_cons self footprints front rest hk, hk]
    refine ⟨rfl, ?_, ?_, hrank, ?_⟩
    · rw [quantise_loop_map]
      refine List.Perm.trans (List.Perm.map _ (std_sort_perm _ _)) ?_
      have := congrArg (List.map (fun p : TileIndex × IColumn F => (p.1, bitmap p.2)))
        (randomise_map (front :: rest) self.m_rng)
      simp only [List.map_map, Function.comp_def] at this
      rw [this]
    · intro q hq
      rw [← hfront]
      exact quantise_loop_mem_id _ _ 0 q hq
    · generalize (SingleHumanAnalysis.quantise_loop front.key.id 0
          (std_sort rank_cmp (SingleHumanAnalysis.randomise (front :: rest) self.m_rng).1)
            : List (QuantisedFootprint D)) = out at hrank
      cases out with
      | nil => simp at hrank
      | cons first others =>
        refine ⟨first, others, rfl, ?_, ?_⟩
        · simp only [List.length_cons, List.range_succ_eq_map, List.map_cons,
            List.cons.injEq] at hrank
          exact hrank.1
        · intro q hq hq0
          simp only [List.length_cons, List.range_succ_eq_map, List.map_cons,
            List.cons.injEq] at hrank
          have hmem : q.rank ∈ others.map (fun q => q.rank) := List.mem_map.mpr ⟨q, hq, rfl⟩
          rw [hrank.2, hq0] at hmem
          simp at hmem

/-- Witness of C16: three footprints of user 1, of which two pass the day
threshold; the record with `values[0] = 30` gets rank 0. -/
theorem single_human_analysis_quantises_witness :
    (∀ e ∈ user_1_footprints, e.key.id = user_id 1)
      ∧ single_human_analysis_1234.m_statistics.highly_nomadic_users + 1 < 2 ^ 32
      ∧ user_1_footprints.length ≤ 2 ^ 32
      ∧ (single_human_analysis_1234.operator_call user_1_footprints).1.map (fun q => q.rank)
          = List.range (user_1_footprints.filter
              (fun e => !FloatOps.lt e.i_column.v0
                FloatArith.day_quantisation_threshold)).length
      ∧ (single_human_analysis_1234.operator_call user_1_footprints).1
          = [⟨⟨user_id 1, ⟨12, 10⟩⟩, ⟨true, true, false, false⟩, 0, 0, 0⟩,
             ⟨⟨user_id 1, ⟨10, 10⟩⟩, ⟨true, true, false, false⟩, 1, 0, 0⟩] :=
  ⟨by decide, by decide, by decide,
    ((single_human_analysis_quantises single_human_analysis_1234 user_1_footprints (user_id 1)
      (by decide) (by decide) (by decide)).2 (by with_unfolding_all decide)).2.2.2.1,
    by with_unfolding_all decide⟩

theorem operator_call_perm {F D : Type} [FloatArith F] [Zero D] (self : SingleHumanAnalysis D)
    (footprints : List (AccumulatedUserFootprint F)) :
    List.Perm
      ((self.operator_call footprints).1.map (fun q => (q.key.tile, q.values)))
      ((footprints.filter
          (fun e => !FloatOps.lt e.i_column.v0 FloatArith.day_quantisation_threshold)).map
        (fun e => (e.key.tile, bitmap e.i_column))) := by
  cases hk : footprints.filter
      (fun e => !FloatOps.lt e.i_column.v0 FloatArith.day_quantisation_threshold) with
  | nil => rw [operator_call_nil self footprints hk]; exact List.Perm.refl _
  | cons front rest =>
    rw [operator_call_cons self footprints front rest hk, quantise_loop_map]
    refine List.Perm.trans (List.Perm.map _ (std_sort_perm _ _)) ?_
    have := congrArg (List.map (fun p : TileIndex × IColumn F => (p.1, bitmap p.2)))
      (randomise_map (front :: rest) self.m_rng)
    simp only [List.map_map, Function.comp_def] at this
    rw [this]

theorem operator_call_tiles {F D : Type} [FloatArith F] [Zero D] (self : SingleHumanAnalysis D)
    (footprints : List (AccumulatedUserFootprint F)) (t : TileIndex) :
    (∃ q ∈ (self.operator_call footprints).1, q.key.tile = t)
      ↔ ∃ e ∈ footprints,
          FloatOps.lt e.i_column.v0 FloatArith.day_quantisation_threshold = false
            ∧ e.key.tile = t := by
  have hp := (operator_call_perm self footprints).map Prod.fst
  simp only [List.map_map, Function.comp_def] at hp
  have hm := hp.mem_iff (a := t)
  simp only [List.mem_map, List.mem_filter, Bool.not_eq_true'] at hm
  constructor
  · rintro ⟨q, hq, hqt⟩
    obtain ⟨e, ⟨he, hlt⟩, het⟩ := hm.mp ⟨q, hq, hqt⟩
    exact ⟨e, he, hlt, het⟩
  · rintro ⟨e, he, hlt, het⟩
    exact hm.mpr ⟨e, ⟨he, hlt⟩, het⟩

theorem testBit_bitset_set (bits pos k : Nat) :
    (bits ||| (1 <<< pos)).testBit k = true ↔ bits.testBit k = true ∨ k = pos := by
  rw [Nat.testBit_or, Nat.one_shiftLeft, Nat.testBit_two_pow]
  simp only [Bool.or_eq_true, decide_eq_true_eq]
  exact ⟨fun h => h.imp id Eq.symm, fun h => h.imp id Eq.symm⟩

theorem add_reference_areas_loop_bits {D : Type} (result : List (QuantisedFootprint D))
    (reference_areas : List (List TileIndex)) :
    ∀ (i group_ra_indices bits : Nat),
      add_reference_areas_loop result reference_areas i group_ra_indices = .ok bits →
      ∀ k, bits.testBit k = true ↔
        group_ra_indices.testBit k = true
          ∨ (i ≤ k ∧ k < i + reference_areas.length
              ∧ ∃ q ∈ result, q.key.tile ∈ reference_areas.getD (k - i) []) := by
  induction reference_areas with
  | nil =>
    intro i g bits h k
    simp only [add_reference_areas_loop, Except.ok.injEq] at h
    subst h
    simp only [List.length_nil, Nat.add_zero]
    constructor
    · exact Or.inl
    · rintro (h | ⟨h1, h2, _⟩)
      · exact h
      · omega
  | cons ra rest ih =>
    intro i g bits h k
    simp only [add_reference_areas_loop] at h
    have hany : (result.any (fun q => is_inside q.key.tile ra) = true)
        ↔ ∃ q ∈ result, q.key.tile ∈ ra := by
      simp [is_inside, List.any_eq_true]
    have hget0 : ∀ k, k = i → (ra :: rest).getD (k - i) [] = ra := by
      intro k hk; subst hk; simp
    have hgetS : ∀ k, i + 1 ≤ k → (ra :: rest).getD (k - i) [] = rest.getD (k - (i + 1)) [] := by
      intro k hk
      have : k - i = (k - (i + 1)) + 1 := by omega
      rw [this, List.getD_cons_succ]
    simp only [List.length_cons]
    split at h
    · rename_i hin
      by_cases hi : i < MAX_REFERENCE_AREAS
      · simp only [bitset_set, hi, if_true] at h
        have := ih (i + 1) _ bits h k
        rw [this, testBit_bitset_set]
        constructor
        · rintro ((hg | hk) | ⟨h1, h2, h3⟩)
          · exact Or.inl hg
          · exact Or.inr ⟨by omega, by omega, by rw [hget0 k hk]; exact hany.mp hin⟩
          · exact Or.inr ⟨by omega, by omega, by rw [hgetS k h1]; exact h3⟩
        · rintro (hg | ⟨h1, h2, h3⟩)
          · exact Or.inl (Or.inl hg)
          · by_cases hk : k = i
            · exact Or.inl (Or.inr hk)
            · exact Or.inr ⟨by omega, by omega, by rw [← hgetS k (by omega)]; exact h3⟩
      · simp only [bitset_set, hi, if_false] at h
        cases h
    · rename_i hin
      have := ih (i + 1) _ bits h k
      rw [this]
      constructor
      · rintro (hg | ⟨h1, h2, h3⟩)
        · exact Or.inl hg
        · exact Or.inr ⟨by omega, by omega, by rw [hgetS k h1]; exact h3⟩
      · rintro (hg | ⟨h1, h2, h3⟩)
        · exact Or.inl hg
        · by_cases hk : k = i
          · rw [hget0 k hk] at h3
            exact absurd (hany.mpr h3) hin
          · exact Or.inr ⟨by omega, by omega, by rw [← hgetS k (by omega)]; exact h3⟩

theorem add_reference_areas_loop_total {D : Type} (result : List (QuantisedFootprint D))
    (reference_areas : List (List TileIndex)) :
    ∀ (i group_ra_indices : Nat), i + reference_areas.length ≤ MAX_REFERENCE_AREAS →
      ∃ bits, add_reference_areas_loop result reference_areas i group_ra_indices = .ok bits := by
  induction reference_areas with
  | nil => intro i g _; exact ⟨g, rfl⟩
  | cons ra rest ih =>
    intro i g h
    simp only [List.length_cons] at h
    simp only [add_reference_areas_loop]
    split
    · have hi : i < MAX_REFERENCE_AREAS := by omega
      simp only [bitset_set, hi, if_true]
      exact ih (i + 1) _ (by omega)
    · exact ih (i + 1) _ (by omega)

/-- C18. Reference-area attribution for one user group, with at most
`MAX_REFERENCE_AREAS` reference areas: the Module C/D lambda succeeds, its
records are those of SingleHumanAnalysis with only the bitset replaced, bit
`k` (for `k` below the number of reference areas) is set in every record of
the group iff some record of the group has its tile in `R[k]`, which is the
case iff some footprint of the user that passes the day threshold has its tile
in `R[k]`, and all records of the group carry the same bitset. -/
theorem reference_area_attribution {F D : Type} [FloatArith F] [Zero D]
    (reference_areas : ReferenceAreas) (single_human_analysis : SingleHumanAnalysis D)
    (footprints : List (AccumulatedUserFootprint F))
    (hmax : reference_areas.length ≤ MAX_REFERENCE_AREAS) :
    ∃ out after,
      module_c_d_flatMap reference_areas single_human_analysis footprints = .ok (out, after)
        ∧ after = (single_human_analysis.operator_call footprints).2
        ∧ out.map (fun q => (q.key, q.values, q.rank, q.calibration_weight))
            = (single_human_analysis.operator_call footprints).1.map
                (fun q => (q.key, q.values, q.rank, q.calibration_weight))
        ∧ (∀ q ∈ out, ∀ (k : Nat) (hk : k < reference_areas.length),
            (q.reference_area_indices.testBit k = true
                ↔ ∃ other ∈ out, other.key.tile ∈ reference_areas[k])
              ∧ (q.reference_area_indices.testBit k = true
                ↔ ∃ e ∈ footprints,
                    FloatOps.lt e.i_column.v0 FloatArith.day_quantisation_threshold = false
                      ∧ e.key.tile ∈ reference_areas[k]))
        ∧ (∀ q ∈ out, ∀ other ∈ out,
            q.reference_area_indices = other.reference_area_indices) := by
  obtain ⟨bits, hbits⟩ := add_reference_areas_loop_total
    (single_human_analysis.operator_call footprints).1 reference_areas 0 0
    (by rw [Nat.zero_add]; exact hmax)
  have hchar := add_reference_areas_loop_bits _ _ 0 0 bits hbits
  refine ⟨(single_human_analysis.operator_call footprints).1.map
      (fun q => { q with reference_area_indices := bits }),
    (single_human_analysis.operator_call footprints).2,
    by simp only [module_c_d_flatMap, hbits], rfl, ?_, ?_, ?_⟩
  · simp only [List.map_map, Function.comp_def]
  · intro q hq k hk
    obtain ⟨q0, _, hq0⟩ := List.mem_map.mp hq
    have hqb : q.reference_area_indices = bits := by rw [← hq0]
    have h1 : bits.testBit k = true
        ↔ ∃ c ∈ (single_human_analysis.operator_call footprints).1,
            c.key.tile ∈ reference_areas[k] := by
      rw [hchar k]
      simp only [Nat.zero_testBit, Bool.false_eq_true, false_or, Nat.zero_le, Nat.zero_add,
        Nat.sub_zero, true_and, hk, List.getD_eq_getElem _ _ hk]
    rw [hqb, h1]
    constructor
    · constructor
      · rintro ⟨c, hc, hct⟩
        exact ⟨_, List.mem_map.mpr ⟨c, hc, rfl⟩, hct⟩
      · rintro ⟨o, ho, hot⟩
        obtain ⟨c, hc, hco⟩ := List.mem_map.mp ho
        exact ⟨c, hc, by rw [← hco] at hot; exact hot⟩
    · constructor
      · rintro ⟨c, hc, hct⟩
        obtain ⟨e, he, hlt, het⟩ :=
          (operator_call_tiles single_human_analysis footprints c.key.tile).mp ⟨c, hc, rfl⟩
        exact ⟨e, he, hlt, by rw [het]; exact hct⟩
      · rintro ⟨e, he, hlt, het⟩
        obtain ⟨c, hc, hct⟩ :=
          (operator_call_tiles (D := D) single_human_analysis footprints e.key.tile).mpr
            ⟨e, he, hlt, rfl⟩
        exact ⟨c, hc, by rw [hct]; exact het⟩
  · intro q hq o ho
    obtain ⟨q0, _, hq0⟩ := List.mem_map.mp hq
    obtain ⟨o0, _, ho0⟩ := List.mem_map.mp ho
    rw [← hq0, ← ho0]

/-- Witness of C18: two reference areas, the first of which holds the tile
(10, 10) of user 1; both records of the user get the bitset with only bit 0. -/
theorem reference_area_attribution_witness :
    ([[⟨10, 10⟩], [⟨50, 50⟩]] : ReferenceAreas).length ≤ MAX_REFERENCE_AREAS
      ∧ (∃ out after,
          module_c_d_flatMap [[⟨10, 10⟩], [⟨50, 50⟩]] single_human_analysis_1234
              user_1_footprints = .ok (out, after)
            ∧ ∀ q ∈ out, ∀ other ∈ out,
                q.reference_area_indices = other.reference_area_indices)
      ∧ (module_c_d_flatMap [[⟨10, 10⟩], [⟨50, 50⟩]] single_human_analysis_1234
            user_1_footprints).toOption.map
          (fun r => r.1.map (fun q => q.reference_area_indices)) = some [1, 1] :=
  ⟨by decide,
    (reference_area_attribution [[⟨10, 10⟩], [⟨50, 50⟩]] single_human_analysis_1234
      user_1_footprints (by decide)).imp
        (fun _ h => h.imp (fun _ h2 => ⟨h2.1, h2.2.2.2.2⟩)),
    by with_unfolding_all decide⟩

theorem calibration_weight_eq_spec {D : Type} [LinearOrderedField D] (a r : D) :
    calibration_weight r a = calibration_weight_spec a r := by
  unfold calibration_weight calibration_weight_spec
  have hmax : (if r < a then a else r) = max a r := by
    split
    · rename_i h; exact (max_eq_left (le_of_lt h)).symm
    · rename_i h; exact (max_eq_right (not_lt.mp h)).symm
  simp only [hmax]
  by_cases h : max a r < 10
  · simp only [h, if_true]
  · have h10 : max a r ≥ 10 := not_lt.mp h
    simp only [h, if_false, h10, true_and]

theorem calibration_weight_spec_bounds {D : Type} [LinearOrderedField D] (a r : D) :
    0.2 ≤ calibration_weight_spec a r ∧ calibration_weight_spec a r ≤ 10 := by
  unfold calibration_weight_spec
  split
  · constructor <;> norm_num
  · split
    · constructor <;> norm_num
    · split
      · constructor <;> norm_num
      · rename_i h1 h2
        exact ⟨le_of_lt (not_le.mp h1), le_of_lt (not_le.mp h2)⟩

theorem unordered_map_find_insert {K V : Type} [DecidableEq K] (m : List (K × V)) (k t : K)
    (v : V) :
    unordered_map_find (unordered_map_insert m (k, v)) t
      = (unordered_map_find m t).or (if t = k then some v else none) := by
  unfold unordered_map_insert
  split
  · rename_i h
    by_cases htk : t = k
    · subst htk
      obtain ⟨x, hx⟩ := Option.isSome_iff_exists.mp h
      simp [hx]
    · simp [htk]
  · simp only [unordered_map_find, List.lookup_append]
    by_cases htk : t = k
    · simp [htk, List.lookup]
    · have : (t == k) = false := by simpa using htk
      simp [htk, List.lookup, this]

theorem build_calibration_weights_loop_find {D : Type} [LinearOrderedField D]
    (residents : List (TileIndex × D)) (top_anchor_dist : List (TileIndex × Nat)) :
    ∀ acc : List (TileIndex × D) × Statistics D, (∀ kv ∈ top_anchor_dist, 1 ≤ kv.2) →
      ∃ out, build_calibration_weights_loop residents top_anchor_dist acc = some out
        ∧ ∀ t, unordered_map_find out.1 t
            = (unordered_map_find acc.1 t).or
                ((unordered_map_find top_anchor_dist t).map (fun count : Nat =>
                  calibration_weight ((unordered_map_find residents t).getD 0) (count : D))) := by
  induction top_anchor_dist with
  | nil =>
    intro acc _
    refine ⟨acc, rfl, fun t => ?_⟩
    simp [unordered_map_find]
  | cons kv rest ih =>
    intro acc hpos
    have hkv : (0 : D) < (kv.2 : D) :=
      Nat.cast_pos.mpr (hpos kv (List.mem_cons_self _ _))
    obtain ⟨out, hout, hfind⟩ := ih
      (unordered_map_insert acc.1
          (kv.1, calibration_weight ((unordered_map_find residents kv.1).getD 0) (kv.2 : D)),
        { acc.2 with
          observed_total_users := (acc.2.observed_total_users + kv.2) % 2 ^ 32
          adjusted_total_users := acc.2.adjusted_total_users
            + calibration_weight ((unordered_map_find residents kv.1).getD 0) (kv.2 : D)
              * (kv.2 : D) })
      (fun x hx => hpos x (List.mem_cons_of_mem _ hx))
    have hres : (match unordered_map_find residents kv.1 with
        | none => (0 : D)
        | some value => value) = (unordered_map_find residents kv.1).getD 0 := by
      cases unordered_map_find residents kv.1 <;> rfl
    refine ⟨out, ?_, fun t => ?_⟩
    · simp only [build_calibration_weights_loop, hres, gt_iff_lt, hkv, if_true]
      exact hout
    · rw [hfind t, unordered_map_find_insert]
      by_cases htk : t = kv.1
      · subst htk
        simp only [if_true]
        have : unordered_map_find (kv :: rest) kv.1 = some kv.2 := by
          simp [unordered_map_find, List.lookup]
        rw [this]
        cases unordered_map_find acc.1 kv.1 <;> simp
      · have hb : (t == kv.1) = false := by simpa using htk
        have : unordered_map_find (kv :: rest) t = unordered_map_find rest t := by
          simp [unordered_map_find, List.lookup, hb]
        rw [this]
        simp only [htk, if_false]
        cases unordered_map_find acc.1 t <;> simp

/-- C19. Calibration weight per tile, with `with_calibration = true` and every
anchor count at least 1: `build_calibration_weights_map` returns a map that
holds, for every tile of `top_anchor_dist` and no other, the weight that the
specification states for its anchor count `a` and its resident count `r` (0
without a census entry): 1 if `max(a, r) < 10`, else 0.2 if `r/a <= 0.2`, else
10 if `r/a >= 10`, else `r/a`. The weight function of the code equals this
formula for all `a` and `r`, and its value lies in [0.2, 10]. -/
theorem build_calibration_weights_map_weight {D : Type} [LinearOrderedField D]
    (statistics : Statistics D) (residents : List (TileIndex × D))
    (top_anchor_dist : List (TileIndex × Nat))
    (hpos : ∀ kv ∈ top_anchor_dist, 1 ≤ kv.2) :
    (∃ weights after,
        build_calibration_weights_map statistics residents top_anchor_dist true
          = some (weights, after)
        ∧ ∀ t, unordered_map_find weights t
            = (unordered_map_find top_anchor_dist t).map (fun count : Nat =>
                calibration_weight_spec (count : D) ((unordered_map_find residents t).getD 0)))
      ∧ (∀ a r : D, calibration_weight r a = calibration_weight_spec a r)
      ∧ (∀ a r : D, 1 ≤ a →
          0.2 ≤ calibration_weight r a ∧ calibration_weight r a ≤ 10) := by
  refine ⟨?_, calibration_weight_eq_spec, fun a r _ => ?_⟩
  · obtain ⟨out, hout, hfind⟩ :=
      build_calibration_weights_loop_find residents top_anchor_dist ([], statistics) hpos
    refine ⟨out.1, out.2, ?_, fun t => ?_⟩
    · simp only [build_calibration_weights_map, Bool.not_true, Bool.false_eq_true, if_false]
      exact hout
    · rw [hfind t]
      simp only [unordered_map_find, List.lookup_nil, Option.none_or]
      congr 1
      funext count
      exact calibration_weight_eq_spec _ _
  · rw [calibration_weight_eq_spec]
    exact calibration_weight_spec_bounds a r

/-- Witness of C19: two anchor tiles, 20 anchors against 50 residents (weight
5/2) and 3 anchors without census entry (weight 1). -/
theorem build_calibration_weights_map_weight_witness :
    (∀ kv ∈ ([(⟨10, 10⟩, 20), (⟨11, 10⟩, 3)] : List (TileIndex × Nat)), 1 ≤ kv.2)
      ∧ (∃ weights after,
          build_calibration_weights_map (⟨0, 0, 0⟩ : Statistics ℚ) [(⟨10, 10⟩, 50)]
              [(⟨10, 10⟩, 20), (⟨11, 10⟩, 3)] true = some (weights, after)
            ∧ ∀ t, unordered_map_find weights t
                = (unordered_map_find [(⟨10, 10⟩, 20), (⟨11, 10⟩, 3)] t).map (fun count : Nat =>
                    calibration_weight_spec (count : ℚ)
                      ((unordered_map_find [(⟨10, 10⟩, (50 : ℚ))] t).getD 0)))
      ∧ build_calibration_weights_map (⟨0, 0, 0⟩ : Statistics ℚ) [(⟨10, 10⟩, 50)]
          [(⟨10, 10⟩, 20), (⟨11, 10⟩, 3)] true
          = some ([(⟨10, 10⟩, 5 / 2), (⟨11, 10⟩, 1)], ⟨0, 23, 53⟩) :=
  ⟨by decide,
    (build_calibration_weights_map_weight (⟨0, 0, 0⟩ : Statistics ℚ) [(⟨10, 10⟩, 50)]
      [(⟨10, 10⟩, 20), (⟨11, 10⟩, 3)] (by decide)).1,
    by with_unfolding_all decide⟩

theorem smap_st_add_calibration_weights_rest {D : Type} [Zero D] [One D]
    (weights : List (TileIndex × D)) (rest : List (QuantisedFootprint D))
    (hrest : ∀ q ∈ rest, q.rank ≠ QuantisedFootprint.FirstRank)
    (tail : List (QuantisedFootprint D)) (w : D) :
    smap_st (add_calibration_weights weights true) (rest ++ tail) w
      = (rest.map (fun q => { q with calibration_weight := w })
          ++ (smap_st (add_calibration_weights weights true) tail w).1,
        (smap_st (add_calibration_weights weights true) tail w).2) := by
  induction rest with
  | nil => rfl
  | cons q qs ih =>
    have hq : q.rank ≠ QuantisedFootprint.FirstRank := hrest q (List.mem_cons_self _ _)
    have hstep : add_calibration_weights weights true w q
        = ({ q with calibration_weight := w }, w) := by
      simp [add_calibration_weights, hq]
    rw [List.cons_append, smap_st, hstep, ih (fun x hx => hrest x (List.mem_cons_of_mem _ hx))]
    rfl

theorem smap_st_add_calibration_weights_groups {D : Type} [Zero D] [One D]
    (weights : List (TileIndex × D)) (groups : List (List (QuantisedFootprint D)))
    (hgroups : ∀ g ∈ groups, ∃ first rest, g = first :: rest
      ∧ first.rank = QuantisedFootprint.FirstRank
      ∧ ∀ q ∈ rest, q.rank ≠ QuantisedFootprint.FirstRank) :
    ∀ init : D,
      (smap_st (add_calibration_weights weights true) groups.flatten init).1
        = (groups.map (fun g =>
            g.map (fun q => { q with calibration_weight := group_weight weights g }))).flatten := by
  induction groups with
  | nil => intro init; rfl
  | cons g gs ih =>
    intro init
    obtain ⟨first, rest, hg, hfirst, hrest⟩ := hgroups g (List.mem_cons_self _ _)
    subst hg
    have hstep : add_calibration_weights weights true init first
        = ({ first with calibration_weight := group_weight weights (first :: rest) },
            group_weight weights (first :: rest)) := by
      simp only [add_calibration_weights, hfirst, group_weight, List.head?_cons]
      cases unordered_map_find weights first.key.tile <;> rfl
    rw [List.flatten_cons, List.cons_append, smap_st, hstep,
      smap_st_add_calibration_weights_rest weights rest hrest,
      ih (fun x hx => hgroups x (List.mem_cons_of_mem _ hx))]
    rfl

theorem smap_st_add_calibration_weights_disabled {D : Type} [Zero D] [One D]
    (weights : List (TileIndex × D)) (stream : List (QuantisedFootprint D)) :
    ∀ init : D,
      (smap_st (add_calibration_weights weights false) stream init).1
        = stream.map (fun q => { q with calibration_weight := 1 }) := by
  induction stream with
  | nil => intro init; rfl
  | cons q qs ih =>
    intro init
    simp only [smap_st, List.map_cons, ih]
    rfl

/-- C20. Calibration-weight assignment: when the Y stream is the concatenation
of user groups, each starting with its record of rank 0 and holding no other
record of rank 0, the calibration `smap` (captured variable initially 0) gives
every record of a group the same weight, the entry of the weights map for the
tile of the group's rank-0 record, or 0 if the map has no such entry, and
changes nothing else; with calibration disabled every record of any stream
gets the weight 1. -/
theorem calibration_weight_assignment {D : Type} [Zero D] [One D]
    (weights : List (TileIndex × D)) (groups : List (List (QuantisedFootprint D)))
    (hgroups : ∀ g ∈ groups, ∃ first rest, g = first :: rest
      ∧ first.rank = QuantisedFootprint.FirstRank
      ∧ ∀ q ∈ rest, q.rank ≠ QuantisedFootprint.FirstRank) :
    (smap_st (add_calibration_weights weights true) groups.flatten 0).1
        = (groups.map (fun g =>
            g.map (fun q => { q with calibration_weight := group_weight weights g }))).flatten
      ∧ (∀ g ∈ groups, ∀ first ∈ g.head?,
          group_weight weights g
            = match unordered_map_find weights first.key.tile with
              | some second => second
              | none => 0)
      ∧ ∀ stream : List (QuantisedFootprint D),
          (smap_st (add_calibration_weights weights false) stream 0).1
            = stream.map (fun q => { q with calibration_weight := 1 }) := by
  refine ⟨smap_st_add_calibration_weights_groups weights groups hgroups 0, ?_,
    fun stream => smap_st_add_calibration_weights_disabled weights stream 0⟩
  intro g _ first hfirst
  simp only [Option.mem_def] at hfirst
  simp only [group_weight, hfirst]
  cases unordered_map_find weights first.key.tile <;> rfl

/-- Witness of C20: user 1 with two records and anchor tile (10, 10) of weight
5/2, user 2 with one record whose tile has no entry in the map. -/
theorem calibration_weight_assignment_witness :
    (∀ g ∈ [[y_record 1 10 10 0, y_record 1 12 10 1], [y_record 2 11 10 0]],
        ∃ first rest, g = first :: rest
          ∧ first.rank = QuantisedFootprint.FirstRank
          ∧ ∀ q ∈ rest, q.rank ≠ QuantisedFootprint.FirstRank)
      ∧ (smap_st (add_calibration_weights [(⟨10, 10⟩, (5 / 2 : ℚ))] true)
            [[y_record 1 10 10 0, y_record 1 12 10 1], [y_record 2 11 10 0]].flatten 0).1
          = ([[y_record 1 10 10 0, y_record 1 12 10 1], [y_record 2 11 10 0]].map (fun g =>
              g.map (fun q => { q with
                calibration_weight := group_weight [(⟨10, 10⟩, (5 / 2 : ℚ))] g }))).flatten
      ∧ ((smap_st (add_calibration_weights [(⟨10, 10⟩, (5 / 2 : ℚ))] true)
            [[y_record 1 10 10 0, y_record 1 12 10 1], [y_record 2 11 10 0]].flatten 0).1.map
          (fun q => q.calibration_weight)) = [5 / 2, 5 / 2, 0] :=
  ⟨by
      intro g hg
      simp only [List.mem_cons, List.mem_singleton, List.not_mem_nil, or_false] at hg
      rcases hg with h | h
      · exact ⟨_, _, h, rfl, by decide⟩
      · exact ⟨_, _, h, rfl, by decide⟩,
    (calibration_weight_assignment [(⟨10, 10⟩, (5 / 2 : ℚ))]
      [[y_record 1 10 10 0, y_record 1 12 10 1], [y_record 2 11 10 0]]
      (by
        intro g hg
        simp only [List.mem_cons, List.mem_singleton, List.not_mem_nil, or_false] at hg
        rcases hg with h | h
        · exact ⟨_, _, h, rfl, by decide⟩
        · exact ⟨_, _, h, rfl, by decide⟩)).1,
    by with_unfolding_all decide⟩

theorem fingerprint_report_singleton {D : Type} [LinearOrderedField D]
    (q : QuantisedFootprint D) :
    fingerprint_report [q]
      = [total_footprint_report (total_footprint_squash (total_footprint_init q) q)] := rfl

theorem operator_call_singleton {F D : Type} [FloatArith F] [Zero D]
    (self : SingleHumanAnalysis D) (e : AccumulatedUserFootprint F)
    (h : FloatOps.lt e.i_column.v0 FloatArith.day_quantisation_threshold = false) :
    self.operator_call [e]
      = ([⟨⟨e.key.id, e.key.tile⟩, bitmap e.i_column, 0, 0, 0⟩],
          { self with m_rng := (SingleHumanAnalysis.randomise [e] self.m_rng).2 }) := by
  have hf : [e].filter
      (fun e => !FloatOps.lt e.i_column.v0 FloatArith.day_quantisation_threshold) = [e] := by
    simp [h]
  rw [operator_call_cons self [e] e [] hf]
  rfl

theorem scenario_1_materialized_y (id : UserIdentifier) (m_rng : Xoshiro256Plus) :
    flatMap_ex (fun single_human_analysis footprints =>
        module_c_d_flatMap [[⟨10, 10⟩]] single_human_analysis footprints)
        (groupBy (fun left right : AccumulatedUserFootprint ℚ => left.key.id == right.key.id)
          [⟨⟨id, ⟨10, 10⟩⟩, ⟨20, 10, 5, 5⟩⟩])
        (⟨⟨0, 0, 0⟩, m_rng⟩ : SingleHumanAnalysis ℚ)
      = .ok ([⟨⟨id, ⟨10, 10⟩⟩, ⟨true, true, false, false⟩, 0, 1, 0⟩],
          ⟨⟨0, 0, 0⟩, (SingleHumanAnalysis.randomise
            [(⟨⟨id, ⟨10, 10⟩⟩, ⟨20, 10, 5, 5⟩⟩ : AccumulatedUserFootprint ℚ)] m_rng).2⟩) := by
  have hk : FloatOps.lt (20 : ℚ) FloatArith.day_quantisation_threshold = false := by
    with_unfolding_all decide
  have hb : bitmap (⟨20, 10, 5, 5⟩ : IColumn ℚ) = ⟨true, true, false, false⟩ := by
    with_unfolding_all decide
  have hc := operator_call_singleton (⟨⟨0, 0, 0⟩, m_rng⟩ : SingleHumanAnalysis ℚ)
    (⟨⟨id, ⟨10, 10⟩⟩, ⟨20, 10, 5, 5⟩⟩ : AccumulatedUserFootprint ℚ) hk
  rw [hb] at hc
  simp only [groupBy, flatMap_ex, module_c_d_flatMap, hc]
  rfl

theorem scenario_1_outputs (id : UserIdentifier) (m_rng : Xoshiro256Plus) :
    scenario_1 id m_rng
      = some (.ok
          { fingerprint_report := [⟨⟨10, 10⟩, ⟨1, 1, 0, 0⟩⟩]
            functional_urban_fingerprint_report := none
            top_anchor_distribution_report := [⟨⟨10, 10⟩, 1⟩]
            statistics := ⟨0, 0, 0⟩ }) := by
  have hs : updated_s [(⟨⟨id, ⟨10, 10⟩⟩, ⟨20, 10, 5, 5⟩⟩ : UserFootprintUpdates ℚ)] []
      = some [⟨⟨id, ⟨10, 10⟩⟩, ⟨20, 10, 5, 5⟩⟩] := by with_unfolding_all rfl
  have ht : ([(⟨⟨id, ⟨10, 10⟩⟩, ⟨true, true, false, false⟩, 0, 1, 0⟩ :
        QuantisedFootprint ℚ)].foldl top_anchor_inspect [])
      = [(⟨10, 10⟩, 1)] := rfl
  have hw : (smap_st (add_calibration_weights ([] : List (TileIndex × ℚ)) false)
        [(⟨⟨id, ⟨10, 10⟩⟩, ⟨true, true, false, false⟩, 0, 1, 0⟩ : QuantisedFootprint ℚ)] 0).1
      = [⟨⟨id, ⟨10, 10⟩⟩, ⟨true, true, false, false⟩, 0, 1, 1⟩] := rfl
  have hc : ConnectionStrengths.inspect (⟨[[⟨10, 10⟩]], []⟩ : ConnectionStrengths ℚ)
        [⟨⟨id, ⟨10, 10⟩⟩, ⟨true, true, false, false⟩, 0, 1, 1⟩]
      = some (.ok ⟨[[⟨10, 10⟩]], []⟩) := rfl
  have hf : fingerprint_report
        [(⟨⟨id, ⟨10, 10⟩⟩, ⟨true, true, false, false⟩, 0, 1, 1⟩ : QuantisedFootprint ℚ)]
      = [⟨⟨10, 10⟩, ⟨1, 1, 0, 0⟩⟩] := by
    rw [fingerprint_report_singleton]
    simp only [total_footprint_report, total_footprint_squash, total_footprint_init]
    norm_num [sdc_value, sdc_threshold, bool_to_double]
  have ha : top_anchor_distribution_report (D := ℚ) [(⟨10, 10⟩, 1)] = [⟨⟨10, 10⟩, 1⟩] := by
    with_unfolding_all decide
  simp only [scenario_1, run_full_analysis, hs, scenario_1_materialized_y id m_rng,
    build_calibration_weights_map, Bool.not_false, if_true, ht, hw, hc, hf, ha]
  rfl

/-- C21. Statistics of a full analysis without calibration:
`build_calibration_weights_map` returns before its loop when
`with_calibration` is false, so it leaves the statistics as they were, and in
scenario 1 (one user, one H record on tile (10, 10) with values
[20, 10, 5, 5], calibration disabled) the full analysis puts the statistics
{0, 0, 0}, where the claim expects {0, 1, 1}. -/
theorem scenario_1_statistics :
    (∀ (id : UserIdentifier) (m_rng : Xoshiro256Plus),
        ∃ o, scenario_1 id m_rng = some (.ok o) ∧ o.statistics = ⟨0, 0, 0⟩)
      ∧ (∀ (statistics : Statistics ℚ) (residents : List (TileIndex × ℚ))
          (top_anchor_dist : List (TileIndex × Nat)),
          build_calibration_weights_map statistics residents top_anchor_dist false
            = some ([], statistics)) :=
  ⟨fun id m_rng => ⟨_, scenario_1_outputs id m_rng, rfl⟩, fun _ _ _ => rfl⟩

/-- Counterexample of C22: in scenario 1 no state of the random number
generator makes the full analysis emit the fingerprint report
[{(10, 10), [20, 10, 5, 5]}]. -/
theorem scenario_1_fingerprint_is_not_the_h_values :
    ¬ ∃ (m_rng : Xoshiro256Plus) (o : AnalysisOutputs ℚ),
        scenario_1 (user_id 1) m_rng = some (.ok o)
          ∧ o.fingerprint_report = [⟨⟨10, 10⟩, ⟨20, 10, 5, 5⟩⟩] := by
  rintro ⟨m_rng, o, h, hf⟩
  rw [scenario_1_outputs] at h
  simp only [Option.some.injEq, Except.ok.injEq] at h
  rw [← h] at hf
  exact absurd hf (by with_unfolding_all decide)

/-- C22, amended. End-to-end result of scenario 1: a request with
`first_period = last_period = 5` makes period 5 a full analysis, and with
calibration disabled and the one H record {(10, 10), [20, 10, 5, 5]} the full
analysis succeeds and emits `fingerprint_report = [{(10, 10), [1, 1, 0, 0]}]`
(the user counts once in the subperiods 0 and 1, whose bitmap bits are set)
and `top_anchor_distribution_report = [{(10, 10), 1}]`, whatever the user
identifier and the state of the random number generator. -/
theorem scenario_1_reports (id : UserIdentifier) (m_rng : Xoshiro256Plus) :
    select_what_to_do 5 5 = .FullAnalysis
      ∧ ∃ o, scenario_1 id m_rng = some (.ok o)
          ∧ o.fingerprint_report = [⟨⟨10, 10⟩, ⟨1, 1, 0, 0⟩⟩]
          ∧ o.top_anchor_distribution_report = [⟨⟨10, 10⟩, 1⟩] :=
  ⟨rfl, _, scenario_1_outputs id m_rng, rfl, rfl⟩

theorem tile_lt_strictTotal : StrictTotalLt TileIndex.lt where
  irrefl a := by simp [TileIndex.lt]
  trans a b c h1 h2 := by
    simp only [TileIndex.lt, Bool.or_eq_true, Bool.and_eq_true, decide_eq_true_eq,
      Bool.not_eq_true', decide_eq_false_iff_not, Fin.lt_def, not_lt] at h1 h2 ⊢
    omega
  tri a b h1 h2 := by
    obtain ⟨ae, an⟩ := a
    obtain ⟨be, bn⟩ := b
    simp only [TileIndex.lt, Bool.or_eq_false_iff, Bool.and_eq_false_imp, decide_eq_true_eq,
      Bool.not_eq_true', decide_eq_false_iff_not, Fin.lt_def, not_lt] at h1 h2
    have he : ae = be := Fin.ext (by omega)
    subst he
    have hn : an = bn := Fin.ext (by omega)
    subst hn
    rfl

theorem sort_perm {α : Type} (cmp : α → α → Bool) (xs : List α) :
    List.Perm (sort cmp xs) xs :=
  List.perm_insertionSort _ xs

theorem squash_finalize_foldl_out {In Mid : Type} (eq : In → In → Bool) (init : In → Mid)
    (sq : Mid → In → Mid) (xs : List In) :
    ∀ (state : Option (In × Mid)) (out : List Mid),
      squash_finalize (xs.foldl (squash_sink eq init sq) (state, out))
        = out ++ squash_finalize (xs.foldl (squash_sink eq init sq) (state, [])) := by
  induction xs with
  | nil =>
    intro state out
    cases state with
    | none => simp [squash_finalize]
    | some p => obtain ⟨a, b⟩ := p; simp [squash_finalize]
  | cons x xs ih =>
    intro state out
    simp only [List.foldl_cons]
    cases state with
    | none =>
      simp only [squash_sink]
      rw [ih _ out]
    | some p =>
      obtain ⟨m_in, m_mid⟩ := p
      simp only [squash_sink]
      split
      · rw [ih _ (out ++ [m_mid]), ih _ ([] ++ [m_mid])]
        simp
      · rw [ih _ out]

theorem squash_state {In Mid : Type} (eq : In → In → Bool) (init : In → Mid)
    (sq : Mid → In → Mid) (xs : List In) :
    ∀ (m_in : In) (m_mid : Mid),
      squash_finalize (xs.foldl (squash_sink eq init sq) (some (m_in, m_mid), []))
        = (xs.takeWhile (fun a => eq m_in a)).foldl sq m_mid
            :: squash eq init sq (xs.dropWhile (fun a => eq m_in a)) := by
  induction xs with
  | nil => intro m_in m_mid; rfl
  | cons x xs ih =>
    intro m_in m_mid
    simp only [List.foldl_cons]
    cases h : eq m_in x with
    | true =>
      simp only [squash_sink, h, Bool.not_true, Bool.false_eq_true, if_false,
        List.takeWhile_cons, List.dropWhile_cons, if_true, List.foldl_cons]
      exact ih m_in (sq m_mid x)
    | false =>
      simp only [squash_sink, h, Bool.not_false, if_true, List.takeWhile_cons,
        List.dropWhile_cons, Bool.false_eq_true, if_false, List.foldl_nil]
      rw [squash_finalize_foldl_out]
      rfl

theorem squash_cons {In Mid : Type} (eq : In → In → Bool) (init : In → Mid)
    (sq : Mid → In → Mid) (x : In) (xs : List In) :
    squash eq init sq (x :: xs)
      = (xs.takeWhile (fun a => eq x a)).foldl sq (sq (init x) x)
          :: squash eq init sq (xs.dropWhile (fun a => eq x a)) :=
  squash_state eq init sq xs x (sq (init x) x)

theorem sorted_takeWhile_filter {α K : Type} [DecidableEq K] {lt : K → K → Bool}
    (hlt : StrictTotalLt lt) (key : α → K) (k : K) (xs : List α)
    (hs : List.Pairwise (fun a b => lt (key b) (key a) = false) xs)
    (hk : ∀ x ∈ xs, lt (key x) k = false) :
    xs.takeWhile (fun a => k == key a) = xs.filter (fun a => k == key a)
      ∧ xs.dropWhile (fun a => k == key a) = xs.filter (fun a => !(k == key a)) := by
  induction xs with
  | nil => exact ⟨rfl, rfl⟩
  | cons a as ih =>
    obtain ⟨ha, has⟩ := List.pairwise_cons.mp hs
    by_cases hak : k = key a
    · obtain ⟨h1, h2⟩ := ih has (fun x hx => hk x (List.mem_cons_of_mem _ hx))
      have hb : (k == key a) = true := by simpa using hak
      simp only [List.takeWhile_cons, List.dropWhile_cons, List.filter_cons, hb, if_true, h1, h2,
        Bool.not_true, Bool.false_eq_true, if_false]
      simp
    · have hb : (k == key a) = false := by simpa using hak
      have hka : lt k (key a) = true :=
        hlt.lt_of_le_of_ne (hk a (List.mem_cons_self _ _)) hak
      have hne : ∀ b ∈ as, (k == key b) = false := by
        intro b hb'
        have h1 := ha b hb'
        by_cases hkb : k = key b
        · rw [← hkb, hka] at h1; cases h1
        · simpa using hkb
      have hf1 : as.filter (fun a => k == key a) = [] :=
        List.filter_eq_nil_iff.mpr (fun b hb' => by simp [hne b hb'])
      have hf2 : as.filter (fun a => !(k == key a)) = as :=
        List.filter_eq_self.mpr (fun b hb' => by simp [hne b hb'])
      simp only [List.takeWhile_cons, List.dropWhile_cons, List.filter_cons, hb,
        Bool.false_eq_true, if_false, Bool.not_false, if_true, hf1, hf2]
      simp

theorem total_footprint_squash_get {D : Type} [LinearOrderedField D] (m : TotalFootprint D)
    (e : QuantisedFootprint D) (j : Fin 4) :
    (total_footprint_squash m e).values.get j = m.values.get j + contribution j e := by
  fin_cases j <;> rfl

theorem foldl_total_footprint_squash {D : Type} [LinearOrderedField D]
    (run : List (QuantisedFootprint D)) :
    ∀ m : TotalFootprint D,
      (run.foldl total_footprint_squash m).tile_index = m.tile_index
        ∧ ∀ j, (run.foldl total_footprint_squash m).values.get j
            = m.values.get j + (run.map (contribution j)).sum := by
  induction run with
  | nil => intro m; exact ⟨rfl, fun j => by simp⟩
  | cons a as ih =>
    intro m
    obtain ⟨h1, h2⟩ := ih (total_footprint_squash m a)
    simp only [List.foldl_cons, List.map_cons, List.sum_cons]
    refine ⟨h1, fun j => ?_⟩
    rw [h2 j, total_footprint_squash_get, add_assoc]

theorem total_footprint_init_get {D : Type} [LinearOrderedField D] (e : QuantisedFootprint D)
    (j : Fin 4) : (total_footprint_init e).values.get j = 0 := by
  fin_cases j <;> rfl

theorem tile_sum_perm {D : Type} [LinearOrderedField D] {y z : List (QuantisedFootprint D)}
    (h : List.Perm y z) (t : TileIndex) (j : Fin 4) : tile_sum y t j = tile_sum z t j :=
  ((h.filter _).map _).sum_eq

theorem tile_sum_filter_eq {D : Type} [LinearOrderedField D] (xs : List (QuantisedFootprint D))
    (t : TileIndex) (j : Fin 4) :
    ((xs.filter (fun a => t == a.key.tile)).map (contribution j)).sum = tile_sum xs t j := by
  unfold tile_sum
  congr 2
  apply List.filter_congr
  intro a _
  by_cases h : t = a.key.tile
  · subst h; simp
  · have h2 : ¬ a.key.tile = t := fun h' => h h'.symm
    simp [h, h2]

theorem tile_sum_filter_ne {D : Type} [LinearOrderedField D] (xs : List (QuantisedFootprint D))
    (t t' : TileIndex) (hne : t' ≠ t) (j : Fin 4) :
    tile_sum (xs.filter (fun a => !(t == a.key.tile))) t' j = tile_sum xs t' j := by
  unfold tile_sum
  rw [List.filter_filter]
  congr 2
  apply List.filter_congr
  intro a _
  by_cases h1 : a.key.tile = t'
  · have h2 : ¬ t = t' := fun h => hne h.symm
    subst h1
    simp [h2]
  · simp [h1]

theorem tile_sum_cons {D : Type} [LinearOrderedField D] (x : QuantisedFootprint D)
    (xs : List (QuantisedFootprint D)) (t : TileIndex) (j : Fin 4) :
    tile_sum (x :: xs) t j
      = (if x.key.tile = t then contribution j x else 0) + tile_sum xs t j := by
  unfold tile_sum
  by_cases h : x.key.tile = t
  · simp [List.filter_cons, h]
  · simp [List.filter_cons, h]

theorem squash_sorted {D : Type} [LinearOrderedField D] :
    ∀ (n : Nat) (L : List (QuantisedFootprint D)), L.length ≤ n →
      List.Pairwise (fun a b => TileIndex.lt b.key.tile a.key.tile = false) L →
      (∀ r ∈ squash (fun left right : QuantisedFootprint D => left.key.tile == right.key.tile)
            total_footprint_init total_footprint_squash L,
          r.tile_index ∈ L.map (fun e => e.key.tile)
            ∧ ∀ j, r.values.get j = tile_sum L r.tile_index j)
        ∧ List.Pairwise (fun a b => TileIndex.lt a b = true)
            ((squash (fun left right : QuantisedFootprint D => left.key.tile == right.key.tile)
              total_footprint_init total_footprint_squash L).map (fun r => r.tile_index))
        ∧ ∀ x ∈ L, x.key.tile ∈
            (squash (fun left right : QuantisedFootprint D => left.key.tile == right.key.tile)
              total_footprint_init total_footprint_squash L).map (fun r => r.tile_index) := by
  intro n
  induction n with
  | zero =>
    intro L hL _
    have : L = [] := List.length_eq_zero.mp (Nat.le_zero.mp hL)
    subst this
    exact ⟨fun r hr => by simp [squash, squash_finalize] at hr, List.Pairwise.nil,
      fun x hx => by simp at hx⟩
  | succ n ih =>
    intro L hL hs
    cases L with
    | nil =>
      exact ⟨fun r hr => by simp [squash, squash_finalize] at hr, List.Pairwise.nil,
        fun x hx => by simp at hx⟩
    | cons x xs =>
      obtain ⟨hx, hxs⟩ := List.pairwise_cons.mp hs
      obtain ⟨htw, hdw⟩ := sorted_takeWhile_filter tile_lt_strictTotal
        (fun e : QuantisedFootprint D => e.key.tile) x.key.tile xs hxs hx
      rw [squash_cons, htw, hdw]
      have hlen : (xs.filter (fun a => !(x.key.tile == a.key.tile))).length ≤ n := by
        have := List.length_filter_le (fun a : QuantisedFootprint D =>
          !(x.key.tile == a.key.tile)) xs
        simp only [List.length_cons] at hL
        omega
      obtain ⟨ih1, ih2, ih3⟩ := ih _ hlen (hxs.sublist (List.filter_sublist _))
      obtain ⟨hf0, hf2⟩ := foldl_total_footprint_squash
        (xs.filter (fun a => x.key.tile == a.key.tile))
        (total_footprint_squash (total_footprint_init x) x)
      have hf1 : ((xs.filter (fun a => x.key.tile == a.key.tile)).foldl total_footprint_squash
          (total_footprint_squash (total_footprint_init x) x)).tile_index = x.key.tile := hf0
      have hrest : ∀ r ∈ squash
          (fun left right : QuantisedFootprint D => left.key.tile == right.key.tile)
          total_footprint_init total_footprint_squash
          (xs.filter (fun a => !(x.key.tile == a.key.tile))),
          r.tile_index ≠ x.key.tile ∧ r.tile_index ∈ xs.map (fun e => e.key.tile)
            ∧ TileIndex.lt x.key.tile r.tile_index = true := by
        intro r hr
        obtain ⟨a, ha, hat⟩ := List.mem_map.mp (ih1 r hr).1
        obtain ⟨hax, hane⟩ := List.mem_filter.mp ha
        have hne : x.key.tile ≠ a.key.tile := by simpa using hane
        rw [← hat]
        exact ⟨fun h => hne h.symm, List.mem_map.mpr ⟨a, hax, rfl⟩,
          tile_lt_strictTotal.lt_of_le_of_ne (hx a hax) hne⟩
      refine ⟨?_, ?_, ?_⟩
      · intro r hr
        rcases List.mem_cons.mp hr with h | h
        · subst h
          refine ⟨by rw [hf1]; exact List.mem_cons_self _ _, fun j => ?_⟩
          rw [hf1, hf2 j, total_footprint_squash_get, total_footprint_init_get, zero_add]
          rw [tile_sum_cons, if_pos rfl, tile_sum_filter_eq]
        · obtain ⟨hne, hmem, _⟩ := hrest r h
          refine ⟨List.mem_cons_of_mem _ hmem, fun j => ?_⟩
          rw [(ih1 r h).2 j, tile_sum_filter_ne xs x.key.tile r.tile_index hne j, tile_sum_cons,
            if_neg (fun h' => hne h'.symm), zero_add]
      · rw [List.map_cons]
        refine List.pairwise_cons.mpr ⟨?_, ih2⟩
        intro t ht
        obtain ⟨r, hr, hrt⟩ := List.mem_map.mp ht
        rw [← hrt, hf1]
        exact (hrest r hr).2.2
      · intro a ha
        rw [List.map_cons]
        rcases List.mem_cons.mp ha with h | h
        · rw [h, hf1]; exact List.mem_cons_self _ _
        · by_cases hat : x.key.tile = a.key.tile
          · rw [← hat, hf1]; exact List.mem_cons_self _ _
          · exact List.mem_cons_of_mem _
              (ih3 a (List.mem_filter.mpr ⟨h, by simpa using hat⟩))

theorem total_footprint_report_get {D : Type} [LinearOrderedField D] (r : TotalFootprint D)
    (j : Fin 4) : (total_footprint_report r).values.get j = sdc_value (r.values.get j) := by
  fin_cases j <;> rfl

/-- C23. Fingerprint aggregation: for every Y stream with its calibration
weights, the fingerprint report has exactly one record per distinct tile of
the stream (no tile twice, and the tiles of the report are the tiles of the
stream), and `values[j]` of the record of a tile is the sum over the Y records
with that tile of `calibration_weight * (bitmap[j] ? 1 : 0)`, replaced by 0
when that sum is below 1. -/
theorem fingerprint_report_aggregates {D : Type} [LinearOrderedField D]
    (y : List (QuantisedFootprint D)) :
    ((fingerprint_report y).map (fun r => r.tile_index)).Nodup
      ∧ (∀ t, t ∈ (fingerprint_report y).map (fun r => r.tile_index)
          ↔ t ∈ y.map (fun e => e.key.tile))
      ∧ ∀ r ∈ fingerprint_report y, ∀ j : Fin 4,
          r.values.get j
            = if tile_sum y r.tile_index j < 1 then 0 else tile_sum y r.tile_index j := by
  have hperm := sort_perm
    (fun left right : QuantisedFootprint D => TileIndex.lt left.key.tile right.key.tile) y
  obtain ⟨h1, h2, h3⟩ := squash_sorted _ _ (le_refl _)
    (sort_pairwise tile_lt_strictTotal (fun e : QuantisedFootprint D => e.key.tile) y)
  have hmap : (fingerprint_report y).map (fun r => r.tile_index)
      = (squash (fun left right : QuantisedFootprint D => left.key.tile == right.key.tile)
          total_footprint_init total_footprint_squash
          (sort (fun left right : QuantisedFootprint D =>
            TileIndex.lt left.key.tile right.key.tile) y)).map (fun r => r.tile_index) := by
    unfold fingerprint_report
    rw [List.map_map]
    rfl
  refine ⟨?_, ?_, ?_⟩
  · rw [hmap]
    refine List.Pairwise.imp ?_ h2
    intro a b hab heq
    rw [heq, tile_lt_strictTotal.irrefl] at hab
    cases hab
  · intro t
    rw [hmap]
    constructor
    · intro ht
      obtain ⟨r, hr, hrt⟩ := List.mem_map.mp ht
      obtain ⟨e, he, het⟩ := List.mem_map.mp (h1 r hr).1
      exact List.mem_map.mpr ⟨e, hperm.mem_iff.mp he, by rw [het, hrt]⟩
    · intro ht
      obtain ⟨e, he, het⟩ := List.mem_map.mp ht
      rw [← het]
      exact h3 e (hperm.mem_iff.mpr he)
  · intro r hr j
    unfold fingerprint_report at hr
    obtain ⟨m, hm, hmr⟩ := List.mem_map.mp hr
    rw [← hmr, total_footprint_report_get, (h1 m hm).2 j, tile_sum_perm hperm]
    rfl

theorem unordered_map_find_cons {K V : Type} [DecidableEq K] (a : K) (b : V)
    (m : List (K × V)) (k : K) :
    unordered_map_find ((a, b) :: m) k = if k = a then some b else unordered_map_find m k := by
  by_cases h : k = a
  · subst h; simp [unordered_map_find]
  · have hb : (k == a) = false := by simpa using h
    simp [unordered_map_find, List.lookup, hb, h]

theorem unordered_map_find_map {K V : Type} [DecidableEq K] (m : List (K × V)) (k k' : K)
    (f : V → V) :
    unordered_map_find (m.map (fun kv => if kv.1 = k then (kv.1, f kv.2) else kv)) k'
      = (unordered_map_find m k').map (fun v => if k' = k then f v else v) := by
  induction m with
  | nil => rfl
  | cons a m ih =>
    obtain ⟨ak, av⟩ := a
    rw [List.map_cons, unordered_map_find_cons ak av m k']
    by_cases h1 : ak = k
    · rw [if_pos h1, unordered_map_find_cons, ih]
      by_cases h2 : k' = ak
      · simp [h2, h1]
      · simp [h2]
    · rw [if_neg h1, unordered_map_find_cons, ih]
      by_cases h2 : k' = ak
      · simp [h2, h1]
      · simp [h2]

theorem unordered_map_find_update {K V : Type} [DecidableEq K] (m : List (K × V)) (k k' : K)
    (init : V) (f : V → V) :
    unordered_map_find (unordered_map_update m k init f) k'
      = if k' = k then some (f ((unordered_map_find m k).getD init))
        else unordered_map_find m k' := by
  unfold unordered_map_update
  split
  · rename_i h
    rw [unordered_map_find_map]
    by_cases hk : k' = k
    · subst hk
      obtain ⟨v, hv⟩ := Option.isSome_iff_exists.mp h
      simp [hv]
    · simp [hk]
  · rename_i h
    have hnone : unordered_map_find m k = none := by
      cases hm : unordered_map_find m k with
      | none => rfl
      | some v => rw [hm] at h; simp at h
    have happ : unordered_map_find (m ++ [(k, f init)]) k'
        = (unordered_map_find m k').or (unordered_map_find [(k, f init)] k') := by
      simp only [unordered_map_find, List.lookup_append]
    rw [happ, unordered_map_find_cons]
    by_cases hk : k' = k
    · subst hk
      simp [hnone]
    · simp [hk, unordered_map_find]

theorem unordered_map_find_none_iff {K V : Type} [DecidableEq K] (m : List (K × V)) (k : K) :
    unordered_map_find m k = none ↔ k ∉ m.map Prod.fst := by
  induction m with
  | nil => simp [unordered_map_find]
  | cons a m ih =>
    obtain ⟨ak, av⟩ := a
    rw [unordered_map_find_cons]
    by_cases h : k = ak
    · simp [h]
    · simp [h, ih]

theorem unordered_map_update_keys {K V : Type} [DecidableEq K] (m : List (K × V)) (k : K)
    (init : V) (f : V → V) (h : (m.map Prod.fst).Nodup) :
    ((unordered_map_update m k init f).map Prod.fst).Nodup := by
  unfold unordered_map_update
  split
  · have : (m.map (fun kv : K × V => if kv.1 = k then (kv.1, f kv.2) else kv)).map Prod.fst
        = m.map Prod.fst := by
      rw [List.map_map]
      apply List.map_congr_left
      intro a _
      simp only [Function.comp]
      split <;> rfl
    rw [this]; exact h
  · rename_i hs
    have hnone : unordered_map_find m k = none := by
      cases hm : unordered_map_find m k with
      | none => rfl
      | some v => rw [hm] at hs; simp at hs
    rw [List.map_append, List.map_singleton]
    exact List.Nodup.append h (List.nodup_singleton _)
      (by
        intro a ha hb
        rw [List.mem_singleton.mp hb] at ha
        exact (unordered_map_find_none_iff m k).mp hnone ha)

theorem unordered_map_mem_iff_find {K V : Type} [DecidableEq K] (m : List (K × V))
    (h : (m.map Prod.fst).Nodup) (k : K) (v : V) :
    (k, v) ∈ m ↔ unordered_map_find m k = some v := by
  induction m with
  | nil => simp [unordered_map_find]
  | cons a m ih =>
    obtain ⟨ak, av⟩ := a
    simp only [List.map_cons, List.nodup_cons] at h
    rw [unordered_map_find_cons]
    by_cases hk : k = ak
    · subst hk
      simp only [List.mem_cons, Prod.mk.injEq, true_and, if_true, Option.some.injEq]
      constructor
      · rintro (h1 | h1)
        · exact h1.symm
        · exact absurd (List.mem_map.mpr ⟨(k, v), h1, rfl⟩) h.1
      · intro h1; exact Or.inl h1.symm
    · simp only [List.mem_cons, Prod.mk.injEq, hk, false_and, false_or, if_false]
      exact ih h.2

theorem connection_strengths_loop {D : Type} [LinearOrderedField D] (e : QuantisedFootprint D)
    (ras : List (List TileIndex)) :
    ∀ (i : Nat) (ops : List (ConnectionStrengthKey × ConnectionOperand D)),
      i + ras.length ≤ MAX_REFERENCE_AREAS → (ops.map Prod.fst).Nodup →
      ∃ ops', ConnectionStrengths.loop e ras i ops = .ok ops'
        ∧ (ops'.map Prod.fst).Nodup
        ∧ ∀ k t, unordered_map_find ops' ⟨k, t⟩
            = if t = e.key.tile ∧ i ≤ k ∧ k < i + ras.length
                  ∧ e.key.tile ∉ ras.getD (k - i) [] then
                some ⟨((unordered_map_find ops ⟨k, t⟩).getD ⟨0, 0⟩).numerator
                        + (if e.reference_area_indices.testBit k then 1 else 0)
                          * e.calibration_weight,
                      ((unordered_map_find ops ⟨k, t⟩).getD ⟨0, 0⟩).denominator
                        + e.calibration_weight⟩
              else unordered_map_find ops ⟨k, t⟩ := by
  induction ras with
  | nil =>
    intro i ops _ hn
    refine ⟨ops, rfl, hn, fun k t => ?_⟩
    rw [if_neg]
    rintro ⟨_, h1, h2, _⟩
    simp only [List.length_nil, Nat.add_zero] at h2
    omega
  | cons ra rest ih =>
    intro i ops hi hn
    simp only [List.length_cons] at hi
    have hget0 : (ra :: rest).getD (i - i) [] = ra := by simp
    have hgetS : ∀ k, i + 1 ≤ k →
        (ra :: rest).getD (k - i) [] = rest.getD (k - (i + 1)) [] := by
      intro k hk
      have : k - i = (k - (i + 1)) + 1 := by omega
      rw [this, List.getD_cons_succ]
    simp only [ConnectionStrengths.loop, List.length_cons]
    by_cases hin : is_inside e.key.tile ra = true
    · have hmem : e.key.tile ∈ ra := by simpa [is_inside] using hin
      simp only [hin, if_true]
      obtain ⟨ops', hops', hn', hfind⟩ := ih (i + 1) ops (by omega) hn
      refine ⟨ops', hops', hn', fun k t => ?_⟩
      rw [hfind k t]
      by_cases hk : k = i
      · subst hk
        rw [if_neg (by rintro ⟨_, h, _⟩; omega), if_neg]
        rintro ⟨_, _, _, h⟩
        rw [hget0] at h
        exact h hmem
      · by_cases hc : t = e.key.tile ∧ i + 1 ≤ k ∧ k < i + 1 + rest.length
            ∧ e.key.tile ∉ rest.getD (k - (i + 1)) []
        · have hc' : t = e.key.tile ∧ i ≤ k ∧ k < i + (rest.length + 1)
              ∧ e.key.tile ∉ (ra :: rest).getD (k - i) [] :=
            ⟨hc.1, by omega, by omega, by rw [hgetS k hc.2.1]; exact hc.2.2.2⟩
          rw [if_pos hc, if_pos hc']
        · rw [if_neg hc, if_neg]
          rintro ⟨h1, h2, h3, h4⟩
          exact hc ⟨h1, by omega, by omega, by rw [← hgetS k (by omega)]; exact h4⟩
    · have hmem : e.key.tile ∉ ra := by simpa [is_inside] using hin
      have hlt : i < MAX_REFERENCE_AREAS := by omega
      simp only [hin, Bool.false_eq_true, if_false, bitset_test, hlt, if_true]
      obtain ⟨ops', hops', hn', hfind⟩ := ih (i + 1)
        (unordered_map_update ops ⟨i, e.key.tile⟩ ⟨0, 0⟩
          (fun connection_operand =>
            ⟨connection_operand.numerator
              + (if e.reference_area_indices.testBit i then 1 else 0) * e.calibration_weight,
             connection_operand.denominator + e.calibration_weight⟩))
        (by omega) (unordered_map_update_keys _ _ _ _ hn)
      refine ⟨ops', hops', hn', fun k t => ?_⟩
      rw [hfind k t, unordered_map_find_update]
      by_cases hk : k = i
      · subst hk
        rw [if_neg (by rintro ⟨_, h, _⟩; omega)]
        by_cases ht : t = e.key.tile
        · subst ht
          have hc' : e.key.tile = e.key.tile ∧ k ≤ k ∧ k < k + (rest.length + 1)
              ∧ e.key.tile ∉ (ra :: rest).getD (k - k) [] :=
            ⟨rfl, le_refl _, by omega, by rw [hget0]; exact hmem⟩
          rw [if_pos rfl, if_pos hc']
        · rw [if_neg (by intro h; exact ht (congrArg ConnectionStrengthKey.tile_index h)),
            if_neg (by rintro ⟨h, _⟩; exact ht h)]
      · have hkey : (⟨k, t⟩ : ConnectionStrengthKey) ≠ ⟨i, e.key.tile⟩ := by
          intro h; exact hk (congrArg ConnectionStrengthKey.reference_area_index h)
        rw [if_neg hkey]
        by_cases hc : t = e.key.tile ∧ i + 1 ≤ k ∧ k < i + 1 + rest.length
            ∧ e.key.tile ∉ rest.getD (k - (i + 1)) []
        · have hc' : t = e.key.tile ∧ i ≤ k ∧ k < i + (rest.length + 1)
              ∧ e.key.tile ∉ (ra :: rest).getD (k - i) [] :=
            ⟨hc.1, by omega, by omega, by rw [hgetS k hc.2.1]; exact hc.2.2.2⟩
          rw [if_pos hc, if_pos hc']
        · rw [if_neg hc, if_neg]
          rintro ⟨h1, h2, h3, h4⟩
          exact hc ⟨h1, by omega, by omega, by rw [← hgetS k (by omega)]; exact h4⟩

theorem numerator_spec_append {D : Type} [LinearOrderedField D]
    (done : List (QuantisedFootprint D)) (e : QuantisedFootprint D) (k : Nat) (t : TileIndex) :
    numerator_spec (done ++ [e]) k t
      = numerator_spec done k t
        + (if e.key.tile = t ∧ e.reference_area_indices.testBit k = true then
            e.calibration_weight else 0) := by
  unfold numerator_spec
  rw [List.filter_append, List.map_append, List.sum_append]
  congr 1
  by_cases h : e.key.tile = t ∧ e.reference_area_indices.testBit k = true
  · simp [List.filter_cons, h]
  · simp [List.filter_cons, h]

theorem denominator_spec_append {D : Type} [LinearOrderedField D]
    (done : List (QuantisedFootprint D)) (e : QuantisedFootprint D) (t : TileIndex) :
    denominator_spec (done ++ [e]) t
      = denominator_spec done t + (if e.key.tile = t then e.calibration_weight else 0) := by
  unfold denominator_spec
  rw [List.filter_append, List.map_append, List.sum_append]
  congr 1
  by_cases h : e.key.tile = t
  · simp [List.filter_cons, h]
  · simp [List.filter_cons, h]

theorem numerator_spec_absent {D : Type} [LinearOrderedField D]
    (done : List (QuantisedFootprint D)) (k : Nat) (t : TileIndex)
    (h : ¬ ∃ e ∈ done, e.key.tile = t) : numerator_spec done k t = 0 := by
  unfold numerator_spec
  rw [List.filter_eq_nil_iff.mpr]
  · rfl
  · intro a ha hc
    simp only [decide_eq_true_eq] at hc
    exact h ⟨a, ha, hc.1⟩

theorem denominator_spec_absent {D : Type} [LinearOrderedField D]
    (done : List (QuantisedFootprint D)) (t : TileIndex)
    (h : ¬ ∃ e ∈ done, e.key.tile = t) : denominator_spec done t = 0 := by
  unfold denominator_spec
  rw [List.filter_eq_nil_iff.mpr]
  · rfl
  · intro a ha hc
    simp only [decide_eq_true_eq] at hc
    exact h ⟨a, ha, hc⟩

theorem connection_strengths_loop_zero {D : Type} [LinearOrderedField D]
    (e : QuantisedFootprint D) (ras : List (List TileIndex))
    (ops : List (ConnectionStrengthKey × ConnectionOperand D))
    (hmax : ras.length ≤ MAX_REFERENCE_AREAS) (hn : (ops.map Prod.fst).Nodup) :
    ∃ ops', ConnectionStrengths.loop e ras 0 ops = .ok ops'
      ∧ (ops'.map Prod.fst).Nodup
      ∧ ∀ k t, unordered_map_find ops' ⟨k, t⟩
          = if t = e.key.tile ∧ k < ras.length ∧ e.key.tile ∉ ras.getD k [] then
              some ⟨((unordered_map_find ops ⟨k, t⟩).getD ⟨0, 0⟩).numerator
                      + (if e.reference_area_indices.testBit k then 1 else 0)
                        * e.calibration_weight,
                    ((unordered_map_find ops ⟨k, t⟩).getD ⟨0, 0⟩).denominator
                      + e.calibration_weight⟩
            else unordered_map_find ops ⟨k, t⟩ := by
  obtain ⟨ops', h1, h2, h3⟩ := connection_strengths_loop e ras 0 ops
    (by rw [Nat.zero_add]; exact hmax) hn
  refine ⟨ops', h1, h2, fun k t => ?_⟩
  rw [h3 k t]
  simp only [Nat.zero_le, true_and, Nat.zero_add, Nat.sub_zero]

theorem connection_strengths_inspect {D : Type} [LinearOrderedField D]
    (ras : ReferenceAreas) (hmax : ras.length ≤ MAX_REFERENCE_AREAS)
    (y : List (QuantisedFootprint D)) :
    ∀ (done : List (QuantisedFootprint D))
      (ops : List (ConnectionStrengthKey × ConnectionOperand D)),
      (ops.map Prod.fst).Nodup →
      (∀ k t, unordered_map_find ops ⟨k, t⟩
          = if k < ras.length ∧ t ∉ ras.getD k [] ∧ (∃ e ∈ done, e.key.tile = t) then
              some ⟨numerator_spec done k t, denominator_spec done t⟩
            else none) →
      ∃ ops', ConnectionStrengths.inspect ⟨ras, ops⟩ y = some (.ok ⟨ras, ops'⟩)
        ∧ (ops'.map Prod.fst).Nodup
        ∧ ∀ k t, unordered_map_find ops' ⟨k, t⟩
            = if k < ras.length ∧ t ∉ ras.getD k [] ∧ (∃ e ∈ done ++ y, e.key.tile = t) then
                some ⟨numerator_spec (done ++ y) k t, denominator_spec (done ++ y) t⟩
              else none := by
  induction y with
  | nil =>
    intro done ops hn hinv
    refine ⟨ops, rfl, hn, ?_⟩
    simpa using hinv
  | cons e rest ih =>
    intro done ops hn hinv
    have hlen : ras.length < 256 := by
      have : MAX_REFERENCE_AREAS = 128 := rfl
      omega
    obtain ⟨ops1, hops1, hn1, hfind1⟩ := connection_strengths_loop_zero e ras ops hmax hn
    have hcall : ConnectionStrengths.operator_call ⟨ras, ops⟩ e = some (.ok ⟨ras, ops1⟩) := by
      simp only [ConnectionStrengths.operator_call,
        List.take_of_length_le (le_of_lt hlen), hops1, hlen, if_true]
    have hinv1 : ∀ k t, unordered_map_find ops1 ⟨k, t⟩
        = if k < ras.length ∧ t ∉ ras.getD k []
              ∧ (∃ x ∈ done ++ [e], x.key.tile = t) then
            some ⟨numerator_spec (done ++ [e]) k t, denominator_spec (done ++ [e]) t⟩
          else none := by
      intro k t
      rw [hfind1 k t, hinv k t, numerator_spec_append, denominator_spec_append]
      by_cases ht : t = e.key.tile
      · subst ht
        by_cases hc : k < ras.length ∧ e.key.tile ∉ ras.getD k []
        · have hex : ∃ x ∈ done ++ [e], x.key.tile = e.key.tile :=
            ⟨e, by simp, rfl⟩
          have c1 : e.key.tile = e.key.tile ∧ k < ras.length ∧ e.key.tile ∉ ras.getD k [] :=
            ⟨rfl, hc.1, hc.2⟩
          have c3 : k < ras.length ∧ e.key.tile ∉ ras.getD k []
              ∧ ∃ x ∈ done ++ [e], x.key.tile = e.key.tile := ⟨hc.1, hc.2, hex⟩
          rw [if_pos c1, if_pos c3]
          by_cases hd : ∃ x ∈ done, x.key.tile = e.key.tile
          · have c2 : k < ras.length ∧ e.key.tile ∉ ras.getD k []
                ∧ ∃ x ∈ done, x.key.tile = e.key.tile := ⟨hc.1, hc.2, hd⟩
            rw [if_pos c2]
            by_cases hb : e.reference_area_indices.testBit k = true
            · simp [hb]
            · simp [hb]
          · have c2 : ¬ (k < ras.length ∧ e.key.tile ∉ ras.getD k []
                ∧ ∃ x ∈ done, x.key.tile = e.key.tile) := fun h => hd h.2.2
            rw [if_neg c2, numerator_spec_absent done k _ hd,
              denominator_spec_absent done _ hd]
            by_cases hb : e.reference_area_indices.testBit k = true
            · simp [hb]
            · simp [hb]
        · have c1 : ¬ (e.key.tile = e.key.tile ∧ k < ras.length
              ∧ e.key.tile ∉ ras.getD k []) := fun h => hc ⟨h.2.1, h.2.2⟩
          have c2 : ¬ (k < ras.length ∧ e.key.tile ∉ ras.getD k []
              ∧ ∃ x ∈ done, x.key.tile = e.key.tile) := fun h => hc ⟨h.1, h.2.1⟩
          have c3 : ¬ (k < ras.length ∧ e.key.tile ∉ ras.getD k []
              ∧ ∃ x ∈ done ++ [e], x.key.tile = e.key.tile) := fun h => hc ⟨h.1, h.2.1⟩
          rw [if_neg c1, if_neg c2, if_neg c3]
      · have hte : ¬ e.key.tile = t := fun h => ht h.symm
        have c1 : ¬ (t = e.key.tile ∧ k < ras.length ∧ e.key.tile ∉ ras.getD k []) :=
          fun h => ht h.1
        rw [if_neg c1]
        have hiff : (∃ x ∈ done ++ [e], x.key.tile = t) ↔ ∃ x ∈ done, x.key.tile = t := by
          constructor
          · rintro ⟨x, hx, hxt⟩
            rcases List.mem_append.mp hx with h | h
            · exact ⟨x, h, hxt⟩
            · rw [List.mem_singleton.mp h] at hxt; exact absurd hxt hte
          · rintro ⟨x, hx, hxt⟩
            exact ⟨x, List.mem_append_left _ hx, hxt⟩
        simp only [hiff, hte, false_and, if_false, add_zero]
    obtain ⟨ops', hops', hn', hfind'⟩ := ih (done ++ [e]) ops1 hn1 hinv1
    refine ⟨ops', ?_, hn', ?_⟩
    · simp only [ConnectionStrengths.inspect, hcall]
      exact hops'
    · intro k t
      rw [hfind' k t]
      simp only [List.append_assoc, List.singleton_append]

theorem connection_strengths_destructor_mem {D : Type} [LinearOrderedField D]
    (cs : ConnectionStrengths D) (r : FunctionalUrbanFingerprintReport D) :
    r ∈ cs.destructor.getD []
      ↔ ∃ op, (r.key, op) ∈ cs.connection_operands ∧ op.numerator ≥ 1
          ∧ op.numerator / op.denominator > 1e-20
          ∧ r.strength = op.numerator / op.denominator := by
  have hd : cs.destructor.getD []
      = cs.connection_operands.filterMap (fun kv =>
          if kv.2.numerator ≥ sdc_threshold ∧ kv.2.numerator / kv.2.denominator > 1e-20 then
            some ⟨kv.1, kv.2.numerator / kv.2.denominator⟩
          else none) := by
    unfold ConnectionStrengths.destructor
    split
    · rename_i h
      rw [List.isEmpty_iff.mp h]
      rfl
    · rfl
  rw [hd, List.mem_filterMap]
  constructor
  · rintro ⟨⟨key, op⟩, hmem, hsome⟩
    simp only at hsome
    split at hsome
    · rename_i hc
      simp only [Option.some.injEq] at hsome
      subst hsome
      exact ⟨op, hmem, hc.1, hc.2, rfl⟩
    · cases hsome
  · rintro ⟨op, hmem, h1, h2, h3⟩
    refine ⟨(r.key, op), hmem, ?_⟩
    have hc : op.numerator ≥ sdc_threshold ∧ op.numerator / op.denominator > 1e-20 := ⟨h1, h2⟩
    show (if op.numerator ≥ sdc_threshold ∧ op.numerator / op.denominator > 1e-20 then
        some (⟨r.key, op.numerator / op.denominator⟩ : FunctionalUrbanFingerprintReport D)
      else none) = some r
    rw [if_pos hc, ← h3]

/-- C25. Connection strengths, with at most `MAX_REFERENCE_AREAS` reference
areas: ConnectionStrengths accepts every Y stream, and for every reference
area index `k` and every tile `t` outside `R[k]` that occurs in the stream the
operand of `(k, t)` has as numerator the sum of `calibration_weight` over the
Y records with tile `t` whose bit `k` is set and as denominator the sum of
`calibration_weight` over all Y records with tile `t`; for every tile `t`
outside `R[k]` a record `(k, t, strength)` is emitted iff this numerator is at
least 1, numerator / denominator exceeds 1e-20 and `strength` is that
quotient; every emitted record has its tile outside its reference area. -/
theorem connection_strengths_records {D : Type} [LinearOrderedField D]
    (reference_areas : ReferenceAreas) (y : List (QuantisedFootprint D))
    (hmax : reference_areas.length ≤ MAX_REFERENCE_AREAS) :
    ∃ cs, ConnectionStrengths.inspect ⟨reference_areas, []⟩ y = some (.ok cs)
      ∧ (∀ (k : Nat) (hk : k < reference_areas.length) (t : TileIndex),
          t ∉ reference_areas[k] → (∃ e ∈ y, e.key.tile = t) →
          unordered_map_find cs.connection_operands ⟨k, t⟩
            = some ⟨numerator_spec y k t, denominator_spec y t⟩)
      ∧ (∀ (k : Nat) (hk : k < reference_areas.length) (t : TileIndex) (strength : D),
          t ∉ reference_areas[k] →
          ((⟨⟨k, t⟩, strength⟩ : FunctionalUrbanFingerprintReport D) ∈ cs.destructor.getD []
            ↔ numerator_spec y k t ≥ 1
              ∧ numerator_spec y k t / denominator_spec y t > 1e-20
              ∧ strength = numerator_spec y k t / denominator_spec y t))
      ∧ (∀ r ∈ cs.destructor.getD [],
          ∃ hk : r.key.reference_area_index < reference_areas.length,
            r.key.tile_index ∉ reference_areas[r.key.reference_area_index]) := by
  obtain ⟨ops, hops, hn, hfind⟩ := connection_strengths_inspect reference_areas hmax y []
    [] List.nodup_nil (fun k t => by
      rw [if_neg]
      · rfl
      · rintro ⟨_, _, e, he, _⟩
        cases he)
  simp only [List.nil_append] at hfind
  refine ⟨⟨reference_areas, ops⟩, hops, ?_, ?_, ?_⟩
  · intro k hk t ht hex
    have c : k < reference_areas.length ∧ t ∉ reference_areas.getD k []
        ∧ ∃ e ∈ y, e.key.tile = t := ⟨hk, by rw [List.getD_eq_getElem _ _ hk]; exact ht, hex⟩
    rw [hfind k t, if_pos c]
  · intro k hk t strength ht
    rw [connection_strengths_destructor_mem]
    constructor
    · rintro ⟨op, hmem, h1, h2, h3⟩
      have hf := (unordered_map_mem_iff_find ops hn _ _).mp hmem
      rw [hfind k t] at hf
      split at hf
      · simp only [Option.some.injEq] at hf
        subst hf
        exact ⟨h1, h2, h3⟩
      · cases hf
    · rintro ⟨h1, h2, h3⟩
      have hex : ∃ e ∈ y, e.key.tile = t := by
        by_contra hne
        rw [numerator_spec_absent y k t hne] at h1
        exact absurd h1 (by norm_num)
      have c : k < reference_areas.length ∧ t ∉ reference_areas.getD k []
          ∧ ∃ e ∈ y, e.key.tile = t := ⟨hk, by rw [List.getD_eq_getElem _ _ hk]; exact ht, hex⟩
      refine ⟨⟨numerator_spec y k t, denominator_spec y t⟩, ?_, h1, h2, h3⟩
      refine (unordered_map_mem_iff_find ops hn _ _).mpr ?_
      rw [hfind k t, if_pos c]
  · intro r hr
    obtain ⟨op, hmem, _, _, _⟩ := (connection_strengths_destructor_mem _ r).mp hr
    have hf := (unordered_map_mem_iff_find ops hn _ _).mp hmem
    rw [hfind r.key.reference_area_index r.key.tile_index] at hf
    split at hf
    · rename_i c
      exact ⟨c.1, by rw [← List.getD_eq_getElem _ [] c.1]; exact c.2.1⟩
    · cases hf

/-- Witness of C25: one reference area {(10, 10)} and the stream
`y_two_users`; the only record is (0, (11, 10)) with strength 1/2. -/
theorem connection_strengths_records_witness :
    ([[⟨10, 10⟩]] : ReferenceAreas).length ≤ MAX_REFERENCE_AREAS
      ∧ (∃ cs, ConnectionStrengths.inspect ⟨[[⟨10, 10⟩]], []⟩ y_two_users = some (.ok cs)
          ∧ ∀ r ∈ cs.destructor.getD [],
              ∃ hk : r.key.reference_area_index < ([[⟨10, 10⟩]] : ReferenceAreas).length,
                r.key.tile_index
                  ∉ ([[⟨10, 10⟩]] : ReferenceAreas)[r.key.reference_area_index])
      ∧ (ConnectionStrengths.inspect ⟨[[⟨10, 10⟩]], []⟩ y_two_users).map
          (fun r => r.toOption.map (fun cs => cs.destructor))
          = some (some (some [⟨⟨0, ⟨11, 10⟩⟩, 1 / 2⟩])) :=
  ⟨by decide,
    (connection_strengths_records [[⟨10, 10⟩]] y_two_users (by decide)).imp
      (fun _ h => ⟨h.1, h.2.2.2⟩),
    by with_unfolding_all decide⟩

theorem sdc_value_cases {D : Type} [LinearOrderedField D] (v : D) :
    sdc_value v = 0 ∨ sdc_value v ≥ 1 := by
  unfold sdc_value sdc_threshold
  split
  · exact Or.inl rfl
  · rename_i h; exact Or.inr (not_lt.mp h)

/-- Counterexample of C24: the fingerprint report of the stream `y_two_users`
holds values below `sdc_threshold`, namely the zeros of the subperiods 2 and
3. -/
theorem fingerprint_report_emits_values_below_threshold :
    ¬ ∀ r ∈ fingerprint_report y_two_users, ∀ j : Fin 4,
        ¬ r.values.get j < (sdc_threshold : ℚ) := by
  intro h
  have hmem : (⟨⟨10, 10⟩, ⟨1, 1, 0, 0⟩⟩ : FingerprintReport ℚ) ∈ fingerprint_report y_two_users := by
    with_unfolding_all decide
  exact h _ hmem 2 (by with_unfolding_all decide)

/-- C24, amended. Disclosure control on the outputs: every value emitted in
the fingerprint report is either 0 (a suppressed value is emitted as 0) or
not below `sdc_threshold` = 1; every count emitted in the top-anchor
distribution report is at least 1; and every emitted connection strength
comes from an operand with numerator at least 1 and exceeds 1e-20. -/
theorem sdc_on_outputs {D : Type} [LinearOrderedField D] :
    (∀ (y : List (QuantisedFootprint D)), ∀ r ∈ fingerprint_report y, ∀ j : Fin 4,
        r.values.get j = 0 ∨ r.values.get j ≥ sdc_threshold)
      ∧ (∀ (top_anchor_dist : List (TileIndex × Nat)),
          ∀ r ∈ top_anchor_distribution_report (D := D) top_anchor_dist,
            1 ≤ r.count ∧ (r.tile_index, r.count) ∈ top_anchor_dist)
      ∧ (∀ (cs : ConnectionStrengths D), ∀ r ∈ cs.destructor.getD [],
          ∃ op, (r.key, op) ∈ cs.connection_operands ∧ op.numerator ≥ sdc_threshold
            ∧ r.strength = op.numerator / op.denominator ∧ r.strength > 1e-20) := by
  refine ⟨?_, ?_, ?_⟩
  · intro y r hr j
    unfold fingerprint_report at hr
    obtain ⟨m, _, hmr⟩ := List.mem_map.mp hr
    rw [← hmr, total_footprint_report_get]
    exact sdc_value_cases _
  · intro top r hr
    unfold top_anchor_distribution_report at hr
    obtain ⟨p, hp, hpr⟩ := List.mem_map.mp hr
    obtain ⟨hmem, hc⟩ := List.mem_filter.mp hp
    simp only [decide_eq_true_eq, sdc_threshold, ge_iff_le, Nat.one_le_cast] at hc
    rw [← hpr]
    exact ⟨hc, hmem⟩
  · intro cs r hr
    obtain ⟨op, hmem, h1, h2, h3⟩ := (connection_strengths_destructor_mem cs r).mp hr
    exact ⟨op, hmem, h1, h3, by rw [h3]; exact h2⟩

/-! ## Indicators: k-anonymised printing -/

theorem digitChar_ne_N (d : Nat) (hd : d < 10) : Nat.digitChar d ≠ 'N' := by
  interval_cases d <;> decide

theorem toDigitsCore_no_N (f : Nat) : ∀ (n : Nat) (ds : List Char), 'N' ∉ ds →
    'N' ∉ Nat.toDigitsCore 10 f n ds := by
  induction f with
  | zero => intro n ds h; simpa [Nat.toDigitsCore] using h
  | succ f ih =>
    intro n ds h
    have hd : 'N' ∉ Nat.digitChar (n % 10) :: ds := by
      intro hm
      rcases List.mem_cons.mp hm with h1 | h1
      · exact digitChar_ne_N (n % 10) (Nat.mod_lt _ (by decide)) h1.symm
      · exact h h1
    unfold Nat.toDigitsCore
    by_cases h0 : n / 10 = 0
    · simpa [h0] using hd
    · simp only [h0, if_false]
      exact ih _ _ hd

theorem toString_nat_ne_NA (n : Nat) : toString n ≠ "NA" := by
  intro h
  have h1 : (toString n).data = ['N', 'A'] := by rw [h]
  have h2 : 'N' ∉ (toString n).data := by
    show 'N' ∉ (Nat.toDigits 10 n)
    exact toDigitsCore_no_N _ _ _ (by simp)
  rw [h1] at h2
  simp at h2

theorem string_append_cancel_left (a b c : String) (h : a ++ b = a ++ c) : b = c := by
  have h1 := congrArg String.data h
  rw [String.data_append, String.data_append] at h1
  exact String.ext (List.append_cancel_left h1)

theorem render_foldl (items : List LogItem) : ∀ acc : String,
    items.foldl (fun output item => output ++ item.render) acc = acc ++ render items := by
  induction items with
  | nil => intro acc; simp [render]
  | cons x xs ih =>
    intro acc
    simp only [render, List.foldl_cons]
    rw [ih, ih ("" ++ x.render), String.empty_append, String.append_assoc]

theorem render_append (a b : List LogItem) : render (a ++ b) = render a ++ render b := by
  simp only [render, List.foldl_append]
  exact render_foldl b _

theorem render_singleton (x : LogItem) : render [x] = x.render := by
  simp [render]

theorem render_nil : render [] = "" := rfl

/-- C28. The function `k_anonymize(value, output)` appends the literal "NA" if
and only if `value < k`, and otherwise the decimal representation of `value`;
`k_anonymize_percentage` appends "NA %" under the same condition `value < k`
on the count, and otherwise the formatted percentage. -/
theorem k_anonymize_appends {D : Type} (k value : Nat) (output : List LogItem)
    (snprintf : D → String) (percentage : D) :
    render (k_anonymize k value output)
        = render output ++ (if value < k then "NA" else toString value)
      ∧ (render (k_anonymize k value output) = render output ++ "NA" ↔ value < k)
      ∧ render (k_anonymize_percentage k snprintf value percentage output)
        = render output ++ (if value < k then "NA %" else snprintf percentage) := by
  have h1 : render (k_anonymize k value output)
      = render output ++ (if value < k then "NA" else toString value) := by
    unfold k_anonymize
    by_cases h : value < k
    · rw [if_pos h, if_pos h, render_append, render_singleton]; rfl
    · rw [if_neg h, if_neg h, render_append, render_singleton]; rfl
  refine ⟨h1, ?_, ?_⟩
  · rw [h1]
    constructor
    · intro h
      by_contra hlt
      rw [if_neg hlt] at h
      exact toString_nat_ne_NA value (string_append_cancel_left _ _ _ h)
    · intro h; rw [if_pos h]
  · unfold k_anonymize_percentage
    by_cases h : value < k
    · rw [if_pos h, if_pos h, render_append, render_append, render_singleton, render_singleton,
        String.append_assoc]
      rfl
    · rw [if_neg h, if_neg h, render_append, render_singleton]; rfl

/-! ## Indicators: Log2Histogram -/

theorem is_power_of_2_spec : ∀ n : Nat, is_power_of_2 n = true → ∃ a, n = 2 ^ a := by
  intro n
  induction n using Nat.strong_induction_on with
  | _ n ih =>
    intro h
    simp only [is_power_of_2, Bool.and_eq_true, bne_iff_ne, ne_eq, beq_iff_eq] at h
    obtain ⟨h0, h1⟩ := h
    by_cases hn1 : n = 1
    · exact ⟨0, by simp [hn1]⟩
    have hdiv := congrArg (fun z => z / 2) h1
    simp only [Nat.and_div_two, Nat.zero_div] at hdiv
    rcases Nat.mod_two_eq_zero_or_one n with he | ho
    · have hm : (n - 1) / 2 = n / 2 - 1 := by omega
      rw [hm] at hdiv
      have hp : is_power_of_2 (n / 2) = true := by
        simp only [is_power_of_2, Bool.and_eq_true, bne_iff_ne, ne_eq, beq_iff_eq]
        exact ⟨by omega, hdiv⟩
      obtain ⟨a, ha⟩ := ih (n / 2) (by omega) hp
      exact ⟨a + 1, by rw [pow_succ, ← ha]; omega⟩
    · have hm : (n - 1) / 2 = n / 2 := by omega
      rw [hm, Nat.and_self] at hdiv
      omega

theorem is_power_of_2_two_pow (a : Nat) : is_power_of_2 (2 ^ a) = true := by
  simp only [is_power_of_2, Bool.and_eq_true, bne_iff_ne, ne_eq, beq_iff_eq]
  refine ⟨by positivity, ?_⟩
  rw [Nat.and_pow_two_sub_one_eq_mod]
  exact Nat.mod_self _

theorem well_formed_pos (h : Log2Histogram) (hw : h.well_formed) : 1 ≤ h.num ∧ 1 ≤ h.den := by
  rcases hw.1 with ⟨h1, h2⟩ | ⟨h1, h2⟩
  · obtain ⟨a, ha⟩ := is_power_of_2_spec _ h2
    exact ⟨by omega, by rw [ha]; exact Nat.one_le_two_pow⟩
  · obtain ⟨a, ha⟩ := is_power_of_2_spec _ h1
    exact ⟨by rw [ha]; exact Nat.one_le_two_pow, by omega⟩

theorem constexpr_ldexp_eq {D : Type} [LinearOrderedField D] (num : D) (e : Nat) :
    constexpr_ldexp num e = 2 ^ e * num := by
  induction e with
  | zero => simp [constexpr_ldexp]
  | succ e ih => rw [constexpr_ldexp, ih, pow_succ]; ring

theorem lowest_bin_value_pos {D : Type} [LinearOrderedField D] (h : Log2Histogram)
    (hw : h.well_formed) : (0 : D) < h.lowest_bin_value := by
  obtain ⟨h1, h2⟩ := well_formed_pos h hw
  unfold Log2Histogram.lowest_bin_value
  have a : (0 : D) < (h.num : D) := by exact_mod_cast h1
  have b : (0 : D) < (h.den : D) := by exact_mod_cast h2
  exact div_pos a b

theorem increment_getD (h : Log2Histogram) (bin i : Nat) (hb : bin < h.m_data.length) :
    (h.increment bin).m_data.getD i 0
      = if i = bin then (h.m_data.getD i 0 + 1) % 2 ^ 64 else h.m_data.getD i 0 := by
  simp only [Log2Histogram.increment, List.getD_eq_getElem?_getD, List.getElem?_set]
  by_cases hi : i = bin
  · subst hi; simp [hb]
  · have hi2 : ¬ bin = i := fun e => hi e.symm
    simp [hi, hi2]

theorem increment_length (h : Log2Histogram) (bin : Nat) :
    (h.increment bin).m_data.length = h.m_data.length := by
  simp [Log2Histogram.increment]

theorem operator_call_bin {D : Type} [LinearOrderedField D] [FloorRing D]
    (h : Log2Histogram) (x : D) (hw : h.well_formed) (hN : h.Bins ≤ 65) :
    bin_spec h.Bins h.lowest_bin_value x < h.Bins
      ∧ h.operator_call (.finite x)
        = some (h.increment (bin_spec h.Bins h.lowest_bin_value x)) := by
  have hv : (0 : D) < h.lowest_bin_value := lowest_bin_value_pos h hw
  obtain ⟨_, hB, hlen⟩ := hw
  have hH : (h.normalized_highest_bin_value : D) = 2 ^ (h.Bins - 2) := by
    unfold Log2Histogram.normalized_highest_bin_value
    rw [constexpr_ldexp_eq, mul_one, Nat.mod_eq_of_lt (by omega)]
  unfold Log2Histogram.operator_call bin_spec
  by_cases hx : x < h.lowest_bin_value
  · simp only [hx, if_true]
    exact ⟨by omega, trivial⟩
  · simp only [hx, if_false]
    have hxv : h.lowest_bin_value ≤ x := not_lt.mp hx
    have hr : (1 : D) ≤ x / h.lowest_bin_value := (one_le_div hv).mpr hxv
    have hpc : ((2 : D) ^ (h.Bins - 2)) = (((2 ^ (h.Bins - 2) : ℕ) : ℤ) : D) := by push_cast; rfl
    have hpn : ((2 : D) ^ (h.Bins - 2)) = ((2 ^ (h.Bins - 2) : ℕ) : D) := by push_cast; rfl
    by_cases hc : x ≥ h.lowest_bin_value * 2 ^ (h.Bins - 2)
    · have hr2 : (2 : D) ^ (h.Bins - 2) ≤ x / h.lowest_bin_value := by
        rw [le_div_iff₀ hv, mul_comm]; exact hc
      have hf : (2 : D) ^ (h.Bins - 2) ≤ ((Int.floor (x / h.lowest_bin_value) : ℤ) : D) := by
        rw [hpc]
        exact_mod_cast Int.le_floor.mpr (by rw [← hpc]; exact hr2)
      have hnum : Nat.floor (min ((Int.floor (x / h.lowest_bin_value) : ℤ) : D)
          h.normalized_highest_bin_value) = 2 ^ (h.Bins - 2) := by
        rw [hH, min_eq_right hf, hpn, Nat.floor_natCast]
      simp only [hnum, hc, if_true]
      have hlog : Nat.log 2 (2 ^ (h.Bins - 2)) = h.Bins - 2 := Nat.log_pow (by decide) _
      have hpos : 2 ^ (h.Bins - 2) > 0 := by positivity
      have hbin : 64 - builtin_clzl (2 ^ (h.Bins - 2)) = h.Bins - 1 := by
        unfold builtin_clzl; rw [hlog]; omega
      rw [if_pos hpos, hbin, if_pos (by omega)]
      exact ⟨by omega, rfl⟩
    · simp only [hc, if_false]
      have hr2 : x / h.lowest_bin_value < (2 : D) ^ (h.Bins - 2) := by
        rw [div_lt_iff₀ hv, mul_comm]; exact not_le.mp hc
      have hf : ((Int.floor (x / h.lowest_bin_value) : ℤ) : D) ≤ (2 : D) ^ (h.Bins - 2) :=
        le_trans (Int.floor_le _) hr2.le
      have hr0 : (0 : D) ≤ x / h.lowest_bin_value := le_trans zero_le_one hr
      have hnum : Nat.floor (min ((Int.floor (x / h.lowest_bin_value) : ℤ) : D)
          h.normalized_highest_bin_value) = Nat.floor (x / h.lowest_bin_value) := by
        rw [hH, min_eq_left hf, ← Int.floor_toNat, Int.floor_intCast, Int.floor_toNat]
      have hn1 : 1 ≤ Nat.floor (x / h.lowest_bin_value) := Nat.le_floor (by exact_mod_cast hr)
      have hn2 : Nat.floor (x / h.lowest_bin_value) < 2 ^ (h.Bins - 2) := by
        rw [Nat.floor_lt hr0, ← hpn]; exact hr2
      have hlog : Nat.log 2 (Nat.floor (x / h.lowest_bin_value)) < h.Bins - 2 :=
        Nat.log_lt_of_lt_pow (by omega) hn2
      have hil : (Int.log 2 (x / h.lowest_bin_value)).toNat
          = Nat.log 2 (Nat.floor (x / h.lowest_bin_value)) := by
        rw [Int.log_of_one_le_right 2 hr, Int.toNat_natCast]
      have hbin : 64 - builtin_clzl (Nat.floor (x / h.lowest_bin_value))
          = 1 + Nat.log 2 (Nat.floor (x / h.lowest_bin_value)) := by
        unfold builtin_clzl; omega
      rw [hnum, hil]
      show _ ∧ (if Nat.floor (x / h.lowest_bin_value) > 0 then
        (if 64 - builtin_clzl (Nat.floor (x / h.lowest_bin_value)) < h.m_data.length then
          some (h.increment (64 - builtin_clzl (Nat.floor (x / h.lowest_bin_value))))
        else none) else none) = _
      have hn0 : Nat.floor (x / h.lowest_bin_value) > 0 := hn1
      rw [if_pos hn0, hbin, if_pos (by omega)]
      exact ⟨by omega, rfl⟩

/-- C26. For every finite `x`, Log2Histogram::operator() of `Log2Histogram<N, v>`
returns and increments exactly one bin: bin 0 if `x < v`, bin `N - 1` if
`x >= v * 2^(N-2)`, and bin `1 + floor(log2(x / v))` otherwise; that bin index
is below `N`, every other counter is unchanged. Inserting 0..34 into
`Log2Histogram<5>` gives the bin counts 1, 1, 2, 4, 27. -/
theorem log2histogram_operator_call {D : Type} [LinearOrderedField D] [FloorRing D]
    (h : Log2Histogram) (x : D) (hw : h.well_formed) (hN : h.Bins ≤ 65) :
    bin_spec h.Bins h.lowest_bin_value x < h.Bins
      ∧ (∃ next : Log2Histogram, h.operator_call (.finite x) = some next
        ∧ next.Bins = h.Bins ∧ next.num = h.num ∧ next.den = h.den
        ∧ next.m_data.length = h.Bins
        ∧ ∀ i, next.m_data.getD i 0
          = if i = bin_spec h.Bins h.lowest_bin_value x then (h.m_data.getD i 0 + 1) % 2 ^ 64
            else h.m_data.getD i 0)
      ∧ Log2Histogram.insert_all (Log2Histogram.empty 5 1 1)
          ((List.range 35).map (fun n : Nat => (n : ℚ))) = some ⟨5, 1, 1, [1, 1, 2, 4, 27]⟩ := by
  obtain ⟨h1, h2⟩ := operator_call_bin h x hw hN
  refine ⟨h1, ⟨_, h2, rfl, rfl, rfl, ?_, ?_⟩, ?_⟩
  · rw [increment_length]; exact hw.2.2
  · intro i
    exact increment_getD h _ i (by rw [hw.2.2]; exact h1)
  · with_unfolding_all decide

theorem log2histogram_operator_call_witness :
    bin_spec 17 (Log2Histogram.lowest_bin_value (Log2Histogram.empty 17 1 256)) (1 : ℚ) = 9
      ∧ (Log2Histogram.empty 17 1 256).operator_call (.finite (1 : ℚ))
        = some ⟨17, 1, 256, [0, 0, 0, 0, 0, 0, 0, 0, 0, 1, 0, 0, 0, 0, 0, 0, 0]⟩
      ∧ bin_spec 17 (Log2Histogram.lowest_bin_value (Log2Histogram.empty 17 1 256)) (1 : ℚ) < 17 :=
  ⟨by with_unfolding_all decide, by with_unfolding_all decide,
    (log2histogram_operator_call (Log2Histogram.empty 17 1 256) (1 : ℚ)
      ⟨Or.inl ⟨rfl, by decide⟩, by decide, by decide⟩ (by decide)).1⟩

/-! ## Indicators: Log2Histogram::iterate with the standard formatter -/

theorem take_succ_sum (l : List Nat) (i : Nat) (hi : i < l.length) :
    (l.take (i + 1)).sum = (l.take i).sum + l.getD i 0 := by
  induction l generalizing i with
  | nil => simp at hi
  | cons x xs ih =>
    cases i with
    | zero => simp
    | succ i =>
      have hi2 : i < xs.length := by simpa using hi
      simp only [List.take_succ_cons, List.sum_cons, List.getD_cons_succ]
      rw [ih i hi2]; omega

theorem take_sum_le (l : List Nat) (i : Nat) : (l.take i).sum ≤ l.sum := by
  induction l generalizing i with
  | nil => simp
  | cons x xs ih =>
    cases i with
    | zero => simp
    | succ i =>
      simp only [List.take_succ_cons, List.sum_cons]
      have := ih i
      omega

theorem foldl_total (l : List Nat) : ∀ acc : Nat,
    l.foldl (fun total d => (total + d) % 2 ^ 64) acc = (acc % 2 ^ 64 + l.sum) % 2 ^ 64
      ∨ l = [] := by
  induction l with
  | nil => intro acc; right; rfl
  | cons x xs ih =>
    intro acc
    left
    rw [List.foldl_cons, List.sum_cons]
    rcases ih ((acc + x) % 2 ^ 64) with h1 | h1
    · rw [h1, Nat.mod_mod]
      omega
    · subst h1
      simp only [List.foldl_nil, List.sum_nil, Nat.add_zero]
      omega

theorem foldl_total_eq (l : List Nat) (hs : l.sum < 2 ^ 64) :
    l.foldl (fun total d => (total + d) % 2 ^ 64) 0 = l.sum := by
  rcases foldl_total l 0 with h | h
  · rw [h, Nat.zero_mod, Nat.zero_add, Nat.mod_eq_of_lt hs]
  · subst h; rfl

theorem label_den_gt_one (a i : Nat) : label_den a i > 1 ↔ i < a := by
  unfold label_den
  constructor
  · intro h
    by_contra hc
    have : a - i = 0 := by omega
    rw [this] at h
    simp at h
  · intro h
    exact Nat.one_lt_two_pow (by omega)

theorem iterate_loop_spec {D σ : Type} [LinearOrderedField D] (h : Log2Histogram) (a total : Nat)
    (callback : IterateArg D → σ → σ) (hB : 1 < h.Bins) (hlen : h.m_data.length = h.Bins)
    (hnum1 : 1 ≤ h.num) (hnum : h.num * 2 ^ h.Bins < 2 ^ 64) (hsum : h.m_data.sum < 2 ^ 64) :
    ∀ (left bin previous_num previous_den : Nat) (s : σ), bin + left = h.Bins →
      (1 ≤ bin → previous_num = label_num h.num a (bin - 1)
        ∧ previous_den = label_den a (bin - 1)) →
      h.iterate_loop total callback left bin (label_num h.num a bin) (label_den a bin)
          previous_num previous_den (h.m_data.take bin).sum s
        = some ((List.range' bin left).foldl
            (fun s i => callback (iterate_arg h a total i) s) s) := by
  intro left
  induction left with
  | zero => intro bin pn pd s _ _; rfl
  | succ left ih =>
    intro bin pn pd s hbl hprev
    have hbin : bin < h.Bins := by omega
    have hrs : ((h.m_data.take bin).sum + h.m_data.getD bin 0) % 2 ^ 64
        = (h.m_data.take (bin + 1)).sum := by
      rw [← take_succ_sum _ _ (by omega)]
      exact Nat.mod_eq_of_lt (lt_of_le_of_lt (take_sum_le _ _) hsum)
    have harg : (if bin < h.Bins - 1 then
          callback ⟨label_num h.num a bin, label_den a bin, h.m_data.getD bin 0,
            (((h.m_data.take (bin + 1)).sum : ℕ) : D) / (total : D) * 100, .RegularBin⟩ s
        else callback ⟨pn, pd, h.m_data.getD bin 0,
            (((h.m_data.take (bin + 1)).sum : ℕ) : D) / (total : D) * 100, .LastCatchAllBin⟩ s)
        = callback (iterate_arg h a total bin) s := by
      unfold iterate_arg
      by_cases hb : bin < h.Bins - 1
      · rw [if_pos hb, if_pos hb, Nat.min_eq_left (by omega)]
      · rw [if_neg hb, if_neg hb]
        obtain ⟨h1, h2⟩ := hprev (by omega)
        have hm : min bin (h.Bins - 2) = bin - 1 := by omega
        rw [hm, h1, h2]
    rw [Log2Histogram.iterate_loop]
    simp only [hrs, harg, List.range', List.foldl_cons]
    by_cases hd : label_den a bin > 1
    · rw [if_pos hd]
      have hlt : bin < a := (label_den_gt_one a bin).mp hd
      have e1 : label_num h.num a bin = label_num h.num a (bin + 1) := by
        unfold label_num
        rw [show bin - a = 0 by omega, show bin + 1 - a = 0 by omega]
      have e2 : label_den a bin / 2 = label_den a (bin + 1) := by
        unfold label_den
        rw [show a - bin = (a - (bin + 1)) + 1 by omega, pow_succ]
        omega
      have hp := ih (bin + 1) (label_num h.num a bin) (label_den a bin)
        (callback (iterate_arg h a total bin) s) (by omega)
        (fun _ => by simp)
      rw [e2]
      nth_rewrite 1 [e1]
      exact hp
    · rw [if_neg hd]
      have hge : a ≤ bin := by
        by_contra hc
        exact hd ((label_den_gt_one a bin).mpr (by omega))
      have hd1 : label_den a bin = 1 := by
        unfold label_den; rw [show a - bin = 0 by omega]; rfl
      have hn1 : label_num h.num a bin ≥ 1 := by
        unfold label_num
        exact Nat.mul_pos hnum1 (by positivity)
      have c : label_den a bin = 1 ∧ label_num h.num a bin ≥ 1 := ⟨hd1, hn1⟩
      rw [if_pos c]
      have e0 : label_num h.num a bin * 2 = label_num h.num a (bin + 1) := by
        unfold label_num
        rw [show bin + 1 - a = (bin - a) + 1 by omega]
        ring
      have hk : label_num h.num a (bin + 1) < 2 ^ 64 := by
        unfold label_num
        have hle : 2 ^ (bin + 1 - a) ≤ 2 ^ h.Bins :=
          Nat.pow_le_pow_right (by decide) (by omega)
        exact lt_of_le_of_lt (Nat.mul_le_mul_left _ hle) hnum
      have e1 : label_num h.num a bin * 2 % 2 ^ 64 = label_num h.num a (bin + 1) := by
        rw [e0]; exact Nat.mod_eq_of_lt hk
      have e2 : label_den a bin = label_den a (bin + 1) := by
        unfold label_den
        rw [show a - bin = 0 by omega, show a - (bin + 1) = 0 by omega]
      have hp := ih (bin + 1) (label_num h.num a bin) (label_den a bin)
        (callback (iterate_arg h a total bin) s) (by omega)
        (fun _ => by simp)
      rw [e1]
      nth_rewrite 1 [e2]
      exact hp

theorem well_formed_den (h : Log2Histogram) (hw : h.well_formed) :
    ∃ a, h.den = 2 ^ a ∧ (a = 0 ∨ h.num = 1) ∧ 1 ≤ h.num := by
  have hp := (well_formed_pos h hw).1
  rcases hw.1 with ⟨h1, h2⟩ | ⟨_, h2⟩
  · obtain ⟨a, ha⟩ := is_power_of_2_spec _ h2
    exact ⟨a, ha, Or.inr h1, hp⟩
  · exact ⟨0, by simpa using h2, Or.inl rfl, hp⟩

theorem iterate_spec {D σ : Type} [LinearOrderedField D] (h : Log2Histogram) (a : Nat)
    (callback : IterateArg D → σ → σ) (s : σ) (hB : 1 < h.Bins)
    (hlen : h.m_data.length = h.Bins) (ha : h.den = 2 ^ a) (hnum1 : 1 ≤ h.num)
    (hnum : h.num * 2 ^ h.Bins < 2 ^ 64) (hsum : h.m_data.sum < 2 ^ 64) :
    h.iterate callback s
      = some ((List.range h.Bins).foldl (fun s i => callback
          (iterate_arg h a (if h.m_data.sum = 0 then 1 else h.m_data.sum) i) s) s) := by
  have hl := iterate_loop_spec h a (if h.m_data.sum = 0 then 1 else h.m_data.sum) callback hB hlen
    hnum1 hnum hsum h.Bins 0 0 0 s (by omega) (fun hc => absurd hc (by decide))
  have e1 : label_num h.num a 0 = h.num := by simp [label_num]
  have e2 : label_den a 0 = h.den := by simp [label_den, ha]
  rw [e1, e2] at hl
  simp only [List.take_zero, List.sum_nil] at hl
  unfold Log2Histogram.iterate
  simp only [foldl_total_eq _ hsum]
  rw [hl, List.range_eq_range']

theorem formatter_operator_call {D : Type} (k : Nat) (snprintf : D → String) (pre : String)
    (arg : IterateArg D) (m_output : List LogItem) :
    Log2HistogramStandardFormatter.operator_call k snprintf pre arg m_output
      = m_output ++ format_line k snprintf pre arg := by
  unfold Log2HistogramStandardFormatter.operator_call format_line k_anonymize
    k_anonymize_percentage indicators_k_anonymity_replacement
  cases hb : arg.bin_type <;> by_cases hd : arg.denominator > 1 <;>
    by_cases hc : arg.count < k <;> simp [hd, hc]

theorem foldl_format {D : Type} (k : Nat) (snprintf : D → String) (pre : String)
    (f : Nat → IterateArg D) (l : List Nat) : ∀ output : List LogItem,
    l.foldl (fun s i => Log2HistogramStandardFormatter.operator_call k snprintf pre (f i) s)
        output
      = output ++ l.flatMap (fun i => format_line k snprintf pre (f i)) := by
  induction l with
  | nil => intro output; simp
  | cons x xs ih =>
    intro output
    rw [List.foldl_cons, ih, formatter_operator_call, List.flatMap_cons, List.append_assoc]

theorem bin_bound_label (num a j : Nat) (hc : a = 0 ∨ num = 1) :
    ((num : ℚ) / ((2 ^ a : ℕ) : ℚ) * 2 ^ j).num.toNat = label_num num a j
      ∧ ((num : ℚ) / ((2 ^ a : ℕ) : ℚ) * 2 ^ j).den = label_den a j := by
  have hq : (num : ℚ) / ((2 ^ a : ℕ) : ℚ) * 2 ^ j
      = (((label_num num a j : ℕ) : ℤ) : ℚ) / (((label_den a j : ℕ) : ℤ) : ℚ) := by
    unfold label_num label_den
    push_cast
    by_cases hj : a ≤ j
    · obtain ⟨c, rfl⟩ := Nat.exists_eq_add_of_le hj
      rw [show a + c - a = c by omega, show a - (a + c) = 0 by omega, pow_add]
      field_simp
      ring
    · obtain ⟨c, rfl⟩ := Nat.exists_eq_add_of_le (Nat.le_of_lt (not_le.mp hj))
      rw [show j - (j + c) = 0 by omega, show j + c - j = c by omega, pow_add]
      field_simp
      ring
  have hpos : (0 : ℤ) < ((label_den a j : ℕ) : ℤ) := by
    unfold label_den; positivity
  have hcop : Nat.Coprime ((label_num num a j : ℕ) : ℤ).natAbs
      ((label_den a j : ℕ) : ℤ).natAbs := by
    rw [Int.natAbs_ofNat, Int.natAbs_ofNat]
    by_cases hj : a ≤ j
    · have : label_den a j = 1 := by unfold label_den; rw [show a - j = 0 by omega]; rfl
      rw [this]; exact Nat.coprime_one_right _
    · have hn : num = 1 := by
        rcases hc with h | h
        · omega
        · exact h
      have : label_num num a j = 1 := by
        unfold label_num; rw [show j - a = 0 by omega, hn]; rfl
      rw [this]; exact Nat.coprime_one_left _
  rw [hq]
  constructor
  · rw [Rat.num_div_eq_of_coprime hpos hcop]; rfl
  · have := Rat.den_div_eq_of_coprime hpos hcop
    exact_mod_cast this

theorem percentage_eq {D : Type} [LinearOrderedField D] (l : List Nat) (i : Nat) :
    (((l.take (i + 1)).sum : ℕ) : D) / (((if l.sum = 0 then 1 else l.sum : ℕ)) : D) * 100
      = 100 * (((l.take (i + 1)).sum : ℕ) : D) / ((l.sum : ℕ) : D) := by
  by_cases h0 : l.sum = 0
  · have h1 : (l.take (i + 1)).sum = 0 := by
      have := take_sum_le l (i + 1)
      omega
    rw [if_pos h0, h0, h1]
    simp
  · rw [if_neg h0]
    ring

theorem format_line_iterate_arg {D : Type} [LinearOrderedField D] (k : Nat)
    (snprintf : D → String) (h : Log2Histogram) (pre : String) (a i : Nat)
    (ha : h.den = 2 ^ a) (hc : a = 0 ∨ h.num = 1) :
    format_line k snprintf pre
        (iterate_arg h a (if h.m_data.sum = 0 then 1 else h.m_data.sum) i)
      = histogram_line_spec k snprintf h pre i := by
  have hm : min i (h.Bins - 2) = if i < h.Bins - 1 then i else h.Bins - 2 := by
    by_cases hi : i < h.Bins - 1
    · rw [if_pos hi]; omega
    · rw [if_neg hi]; omega
  obtain ⟨hl1, hl2⟩ := bin_bound_label h.num a (min i (h.Bins - 2)) hc
  have hden : ((h.den : ℕ) : ℚ) = ((2 ^ a : ℕ) : ℚ) := by rw [ha]
  unfold format_line iterate_arg histogram_line_spec bin_bound_spec
  simp only [percentage_eq, ← hm, hden, hl1, hl2]
  by_cases hi : i < h.Bins - 1 <;> simp [hi]

/-- C27, amended. Log2Histogram::iterate with the standard formatter returns and
appends exactly `N` lines in bin order; line `i < N - 1` is labelled " < " followed by
`v * 2^i` (the numerator, and "/" and the denominator when the denominator is
larger than 1) and the last line ">= " followed by `v * 2^(N-2)`; a line whose
count is below `k` shows "NA" and "NA %", any other line shows the count and
the cumulative percentage `100 * (sum of bins 0..i) / total`, so the last line
of a non-empty histogram shows the percentage 100 when the count of the last
bin is at least `k`; an empty histogram shows "NA" for every count and
percentage when `k >= 1`. -/
theorem iterate_standard_formatter {D : Type} [LinearOrderedField D] (k : Nat)
    (snprintf : D → String) (h : Log2Histogram) (pre : String) (output : List LogItem)
    (hw : h.well_formed) (hnum : h.num * 2 ^ h.Bins < 2 ^ 64) (hsum : h.m_data.sum < 2 ^ 64) :
    h.iterate_format k snprintf pre output
        = some (output ++ (List.range h.Bins).flatMap (histogram_line_spec k snprintf h pre))
      ∧ (h.m_data.sum ≠ 0 → k ≤ h.m_data.getD (h.Bins - 1) 0 →
          histogram_line_spec k snprintf h pre (h.Bins - 1)
            = [.text pre, .text ">= "]
              ++ bin_bound_spec ((h.num : ℚ) / (h.den : ℚ)) (h.Bins - 2)
              ++ [.text ": ", .number (h.m_data.getD (h.Bins - 1) 0), .text " (",
                  .text (snprintf 100), .text ")", .text "\n"])
      ∧ (h.m_data.sum = 0 → 1 ≤ k → ∀ i,
          histogram_line_spec k snprintf h pre i
            = [.text pre, .text (if i < h.Bins - 1 then " < " else ">= ")]
              ++ bin_bound_spec ((h.num : ℚ) / (h.den : ℚ))
                (if i < h.Bins - 1 then i else h.Bins - 2)
              ++ [.text ": ", .text "NA", .text " (", .text "NA", .text " %", .text ")",
                  .text "\n"]) := by
  obtain ⟨a, ha, hc, hn1⟩ := well_formed_den h hw
  refine ⟨?_, ?_, ?_⟩
  · unfold Log2Histogram.iterate_format
    rw [iterate_spec h a _ output hw.2.1 hw.2.2 ha hn1 hnum hsum, foldl_format]
    simp only [format_line_iterate_arg k snprintf h pre a _ ha hc]
  · intro h0 hk
    have hlt : ¬ h.m_data.getD (h.Bins - 1) 0 < k := by omega
    have hB := hw.2.1
    have hi : ¬ h.Bins - 1 < h.Bins - 1 := by omega
    have htake : h.m_data.take (h.Bins - 1 + 1) = h.m_data := by
      apply List.take_of_length_le
      rw [hw.2.2]; omega
    have hs0 : ((h.m_data.sum : ℕ) : D) ≠ 0 := by exact_mod_cast h0
    have hp : 100 * ((h.m_data.sum : ℕ) : D) / ((h.m_data.sum : ℕ) : D) = 100 := by
      rw [mul_div_assoc, div_self hs0, mul_one]
    unfold histogram_line_spec
    simp only [hlt, hi, if_false, htake, hp, List.append_assoc, List.cons_append,
      List.nil_append]
  · intro h0 hk i
    have hle : h.m_data.getD i 0 ≤ h.m_data.sum := by
      rw [List.getD_eq_getElem?_getD]
      by_cases hi : i < h.m_data.length
      · rw [List.getElem?_eq_getElem hi]
        exact List.single_le_sum (fun _ _ => Nat.zero_le _) _ (List.getElem_mem hi)
      · rw [List.getElem?_eq_none (by omega)]; simp
    have hlt : h.m_data.getD i 0 < k := by omega
    unfold histogram_line_spec
    simp only [hlt, if_true, List.append_assoc, List.cons_append, List.nil_append]

theorem iterate_standard_formatter_witness :
    (⟨5, 1, 4, [12, 12, 24, 48, 191]⟩ : Log2Histogram).well_formed
      ∧ (⟨5, 1, 4, [12, 12, 24, 48, 191]⟩ : Log2Histogram).iterate_format 1 snprintf_rat
          "\t\t" []
        = some ([] ++ (List.range 5).flatMap
            (histogram_line_spec 1 snprintf_rat ⟨5, 1, 4, [12, 12, 24, 48, 191]⟩ "\t\t")) :=
  ⟨by decide,
    (iterate_standard_formatter 1 snprintf_rat ⟨5, 1, 4, [12, 12, 24, 48, 191]⟩ "\t\t" []
      (by decide) (by decide) (by decide)).1⟩

theorem unit_test_hist1_data : unit_test_hist1 = some ⟨5, 1, 1, [1, 1, 2, 4, 27]⟩ := by
  with_unfolding_all decide

set_option maxRecDepth 100000 in
theorem unit_test_hist3_data : unit_test_hist3 = some ⟨5, 8, 1, [45, 48, 96, 5, 0]⟩ := by
  with_unfolding_all decide

theorem unit_test_expected_output :
    ((Log2Histogram.empty 5 1 1).iterate_format 1 snprintf_rat "\t\t" []).map render
        = some ("\t\t < 1: NA (NA %)\n\t\t < 2: NA (NA %)\n\t\t < 4: NA (NA %)\n"
          ++ "\t\t < 8: NA (NA %)\n\t\t>= 8: NA (NA %)\n")
      ∧ ((⟨5, 1, 1, [1, 1, 2, 4, 27]⟩ : Log2Histogram).iterate_format 1 snprintf_rat "\t\t"
          []).map render
        = some ("\t\t < 1: 1 (2.9 %)\n\t\t < 2: 1 (5.7 %)\n\t\t < 4: 2 (11.4 %)\n"
          ++ "\t\t < 8: 4 (22.9 %)\n\t\t>= 8: 27 (100.0 %)\n")
      ∧ ((⟨5, 1, 4, [12, 12, 24, 48, 191]⟩ : Log2Histogram).iterate_format 1 snprintf_rat
          "\t\t" []).map render
        = some ("\t\t < 1/4: 12 (4.2 %)\n\t\t < 1/2: 12 (8.4 %)\n\t\t < 1: 24 (16.7 %)\n"
          ++ "\t\t < 2: 48 (33.4 %)\n\t\t>= 2: 191 (100.0 %)\n") := by
  refine ⟨?_, ?_, ?_⟩ <;> with_unfolding_all decide

/-- C27, counterexample. Histogram `hist3` of the unit test is not empty (194
values), and with `k = 1` its last line is ">= 64: NA (NA %)", not a line with
100.0 %. -/
theorem last_line_of_hist3_is_not_100_percent :
    unit_test_hist3 = some ⟨5, 8, 1, [45, 48, 96, 5, 0]⟩
      ∧ (⟨5, 8, 1, [45, 48, 96, 5, 0]⟩ : Log2Histogram).m_data.sum = 194
      ∧ ((⟨5, 8, 1, [45, 48, 96, 5, 0]⟩ : Log2Histogram).iterate_format 1 snprintf_rat "\t\t"
          []).map render
        = some ("\t\t < 8: 45 (23.2 %)\n\t\t < 16: 48 (47.9 %)\n\t\t < 32: 96 (97.4 %)\n"
          ++ "\t\t < 64: 5 (100.0 %)\n\t\t>= 64: NA (NA %)\n")
      ∧ ((⟨5, 8, 1, [45, 48, 96, 5, 0]⟩ : Log2Histogram).iterate_format 1 snprintf_rat "\t\t"
          []).map (fun output => output.drop 36)
        = some [.text "\t\t", .text ">= ", .text "64", .text ": ", .text "NA", .text " (",
            .text "NA", .text " %", .text ")", .text "\n"] := by
  refine ⟨unit_test_hist3_data, by decide, ?_, ?_⟩ <;> with_unfolding_all decide

/-! ## Indicators: the destructor -/

theorem appends_refl (k : Nat) (log : List LogItem) : appends_anonymized k log log :=
  ⟨[], by simp, by simp⟩

theorem appends_trans {k : Nat} {a b c : List LogItem} (h1 : appends_anonymized k a b)
    (h2 : appends_anonymized k b c) : appends_anonymized k a c := by
  obtain ⟨t1, e1, n1⟩ := h1
  obtain ⟨t2, e2, n2⟩ := h2
  refine ⟨t1 ++ t2, by rw [e2, e1, List.append_assoc], ?_⟩
  intro n hn
  rcases List.mem_append.mp hn with h | h
  · exact n1 n h
  · exact n2 n h

theorem appends_items (k : Nat) (log t : List LogItem) (ht : ∀ n, LogItem.number n ∈ t → k ≤ n) :
    appends_anonymized k log (log ++ t) :=
  ⟨t, rfl, ht⟩

theorem appends_text (k : Nat) (log : List LogItem) (s : String) :
    appends_anonymized k log (log ++ [.text s]) :=
  appends_items k log _ (by simp)

theorem format_line_numbers {D : Type} (k : Nat) (snprintf : D → String) (pre : String)
    (arg : IterateArg D) : ∀ n, LogItem.number n ∈ format_line k snprintf pre arg → k ≤ n := by
  intro n hn
  unfold format_line at hn
  by_cases hc : arg.count < k
  · simp [hc] at hn
  · simp [hc] at hn
    omega

theorem formatter_appends {D : Type} (k : Nat) (snprintf : D → String) (pre : String)
    (arg : IterateArg D) (log : List LogItem) :
    appends_anonymized k log
      (Log2HistogramStandardFormatter.operator_call k snprintf pre arg log) := by
  rw [formatter_operator_call]
  exact appends_items k log _ (format_line_numbers k snprintf pre arg)

theorem iterate_loop_appends {D : Type} [LinearOrderedField D] (k : Nat) (snprintf : D → String)
    (pre : String) (h : Log2Histogram) (total : Nat) :
    ∀ (left bin num den previous_num previous_den rolling_sum : Nat) (s out : List LogItem),
      h.iterate_loop total (Log2HistogramStandardFormatter.operator_call k snprintf pre) left bin
          num den previous_num previous_den rolling_sum s = some out →
      appends_anonymized k s out := by
  intro left
  induction left with
  | zero =>
    intro bin num den pn pd rs s out ho
    simp only [Log2Histogram.iterate_loop, Option.some.injEq] at ho
    rw [← ho]; exact appends_refl k s
  | succ left ih =>
    intro bin num den pn pd rs s out ho
    rw [Log2Histogram.iterate_loop] at ho
    have hs : ∀ a1 a2 : IterateArg D, appends_anonymized k s
        (if bin < h.Bins - 1 then
          Log2HistogramStandardFormatter.operator_call k snprintf pre a1 s
        else Log2HistogramStandardFormatter.operator_call k snprintf pre a2 s) := by
      intro a1 a2
      by_cases hb : bin < h.Bins - 1
      · rw [if_pos hb]; exact formatter_appends k snprintf pre a1 s
      · rw [if_neg hb]; exact formatter_appends k snprintf pre a2 s
    by_cases hd : den > 1
    · rw [if_pos hd] at ho
      exact appends_trans (hs _ _) (ih _ _ _ _ _ _ _ _ ho)
    · rw [if_neg hd] at ho
      by_cases hc : den = 1 ∧ num ≥ 1
      · rw [if_pos hc] at ho
        exact appends_trans (hs _ _) (ih _ _ _ _ _ _ _ _ ho)
      · rw [if_neg hc] at ho
        exact absurd ho (by simp)

theorem iterate_format_appends {D : Type} [LinearOrderedField D] (k : Nat)
    (snprintf : D → String) (h : Log2Histogram) (pre : String) (log out : List LogItem)
    (ho : h.iterate_format k snprintf pre log = some out) : appends_anonymized k log out := by
  unfold Log2Histogram.iterate_format Log2Histogram.iterate at ho
  exact iterate_loop_appends k snprintf pre h _ _ _ _ _ _ _ _ _ _ ho

theorem log_histograms_appends {D : Type} [LinearOrderedField D] (k : Nat)
    (snprintf : D → String) (heading : List LogItem) (r : Fin 4 → Log2Histogram)
    (hh : ∀ n, LogItem.number n ∉ heading) :
    ∀ (l : List (Fin 4)) (log out : List LogItem),
      Indicators.log_histograms k snprintf heading r l log = some out →
      appends_anonymized k log out := by
  intro l
  induction l with
  | nil =>
    intro log out ho
    simp only [Indicators.log_histograms, Option.some.injEq] at ho
    rw [← ho]; exact appends_refl k log
  | cons x xs ih =>
    intro log out ho
    rw [Indicators.log_histograms] at ho
    have h1 : appends_anonymized k log
        (log ++ heading ++ [.text (toString x.val)] ++ [.text ":\n"]) :=
      appends_trans (appends_trans (appends_items k log heading (fun n hn => absurd hn (hh n)))
        (appends_text k _ _)) (appends_text k _ _)
    cases hi : (r x).iterate_format k snprintf "\t"
        (log ++ heading ++ [.text (toString x.val)] ++ [.text ":\n"]) with
    | none => rw [hi] at ho; exact absurd ho (by simp)
    | some mid =>
      rw [hi] at ho
      exact appends_trans h1 (appends_trans (iterate_format_appends k snprintf _ _ _ _ hi)
        (ih _ _ ho))

theorem anonymize_appends_anonymized (k value : Nat) (log : List LogItem) :
    appends_anonymized k log (k_anonymize k value log) := by
  unfold k_anonymize
  by_cases h : value < k
  · rw [if_pos h]; exact appends_text k _ _
  · rw [if_neg h]
    refine appends_items k log _ ?_
    intro n hn
    have : n = value := by simpa using hn
    omega

theorem log_patterns_appends (k : Nat) (r : Fin 16 → Nat) :
    ∀ (l : List (Fin 16)) (log : List LogItem),
      appends_anonymized k log (Indicators.log_patterns k r l log) := by
  intro l
  induction l with
  | nil => intro log; exact appends_refl k log
  | cons x xs ih =>
    intro log
    rw [Indicators.log_patterns]
    exact appends_trans (appends_trans (appends_trans (appends_trans (appends_trans
      (appends_text k _ _) (appends_text k _ _)) (appends_text k _ _))
      (anonymize_appends_anonymized k _ _)) (appends_text k _ _)) (ih _)

theorem log_weight_values_appends {D : Type} [LinearOrderedField D] (k : Nat)
    (snprintf : D → String) :
    ∀ (l : List (String × (Fin 4 → Log2Histogram))) (log out : List LogItem),
      Indicators.log_weight_values k snprintf l log = some out →
      appends_anonymized k log out := by
  intro l
  induction l with
  | nil =>
    intro log out ho
    simp only [Indicators.log_weight_values, Option.some.injEq] at ho
    rw [← ho]; exact appends_refl k log
  | cons x xs ih =>
    intro log out ho
    obtain ⟨what, r⟩ := x
    rw [Indicators.log_weight_values] at ho
    cases hi : Indicators.log_histograms k snprintf
        [.text what, .text " histogram of weight values in subperiod "] r (List.finRange 4)
        log with
    | none => rw [hi] at ho; exact absurd ho (by simp)
    | some mid =>
      rw [hi] at ho
      exact appends_trans (log_histograms_appends k snprintf _ r (by simp) _ _ _ hi) (ih _ _ ho)

theorem log_bounding_boxes_appends {D : Type} [LinearOrderedField D] (k : Nat)
    (snprintf : D → String) :
    ∀ (l : List (String × (Fin 4 → Log2Histogram))) (log out : List LogItem),
      Indicators.log_bounding_boxes k snprintf l log = some out →
      appends_anonymized k log out := by
  intro l
  induction l with
  | nil =>
    intro log out ho
    simp only [Indicators.log_bounding_boxes, Option.some.injEq] at ho
    rw [← ho]; exact appends_refl k log
  | cons x xs ih =>
    intro log out ho
    obtain ⟨what, r⟩ := x
    rw [Indicators.log_bounding_boxes] at ho
    cases hi : Indicators.log_histograms k snprintf [.text what, .text " in subperiod "] r
        (List.finRange 4) (log ++ [.text "\n"]) with
    | none => rw [hi] at ho; exact absurd ho (by simp)
    | some mid =>
      rw [hi] at ho
      exact appends_trans (appends_text k _ _)
        (appends_trans (log_histograms_appends k snprintf _ r (by simp) _ _ _ hi) (ih _ _ ho))

theorem increment_well_formed (h : Log2Histogram) (bin : Nat) (hw : h.well_formed) :
    (h.increment bin).well_formed ∧ (h.increment bin).Bins = h.Bins := by
  refine ⟨⟨hw.1, hw.2.1, ?_⟩, rfl⟩
  rw [increment_length]; exact hw.2.2

theorem count_finish_group (c : Count) (hg : 0 < c.m_group_size)
    (hw : c.m_data.histogram_records_per_user.well_formed)
    (hB : c.m_data.histogram_records_per_user.Bins ≤ 65) :
    ∃ hist : Log2Histogram, c.finish_group
        = some { c with m_data := { c.m_data with histogram_records_per_user := hist } }
      ∧ hist.well_formed ∧ hist.Bins ≤ 65 := by
  obtain ⟨_, h2⟩ := operator_call_bin c.m_data.histogram_records_per_user
    (c.m_group_size : ℚ) hw hB
  obtain ⟨h3, h4⟩ := increment_well_formed c.m_data.histogram_records_per_user
    (bin_spec c.m_data.histogram_records_per_user.Bins
      c.m_data.histogram_records_per_user.lowest_bin_value (c.m_group_size : ℚ)) hw
  refine ⟨_, ?_, h3, by rw [h4]; exact hB⟩
  unfold Count.finish_group
  rw [if_pos hg, h2]

theorem count_operator_call_invariant (c : Count) (id : UserIdentifier) (n : Nat)
    (hn : n + 1 < 2 ^ 64) (hi : c.invariant n) :
    ∃ next : Count, c.operator_call id = some next ∧ next.invariant (n + 1) := by
  obtain ⟨hr, hu, hg, hp, hw, hB⟩ := hi
  unfold Count.operator_call
  simp only []
  by_cases h0 : c.m_group_size = 0
  · rw [if_pos h0]
    refine ⟨_, rfl, ?_⟩
    refine ⟨?_, ?_, ?_, ?_, hw, hB⟩
    · show (c.m_data.num_records + 1) % 2 ^ 64 = n + 1
      rw [hr]; exact Nat.mod_eq_of_lt hn
    · show (c.m_data.num_unique_users + 1) % 2 ^ 64 ≤ n + 1
      exact le_trans (Nat.mod_le _ _) (by omega)
    · show 1 ≤ n + 1
      omega
    · intro _; show 0 < 1; decide
  · rw [if_neg h0]
    by_cases he : id = c.m_group_representative
    · rw [if_pos he]
      refine ⟨_, rfl, ?_⟩
      have hm : (c.m_group_size + 1) % 2 ^ 64 = c.m_group_size + 1 :=
        Nat.mod_eq_of_lt (by omega)
      refine ⟨?_, ?_, ?_, ?_, hw, hB⟩
      · show (c.m_data.num_records + 1) % 2 ^ 64 = n + 1
        rw [hr]; exact Nat.mod_eq_of_lt hn
      · show c.m_data.num_unique_users ≤ n + 1
        omega
      · show (c.m_group_size + 1) % 2 ^ 64 ≤ n + 1
        rw [hm]; omega
      · intro _
        show 0 < (c.m_group_size + 1) % 2 ^ 64
        rw [hm]; omega
    · rw [if_neg he]
      obtain ⟨hist, hf, hw2, hB2⟩ := count_finish_group
        { c with m_data := { c.m_data with
            num_records := (c.m_data.num_records + 1) % 2 ^ 64 } }
        (Nat.pos_of_ne_zero h0) hw hB
      rw [hf]
      refine ⟨_, rfl, ?_⟩
      refine ⟨?_, ?_, ?_, ?_, hw2, hB2⟩
      · show (c.m_data.num_records + 1) % 2 ^ 64 = n + 1
        rw [hr]; exact Nat.mod_eq_of_lt hn
      · show (c.m_data.num_unique_users + 1) % 2 ^ 64 ≤ n + 1
        exact le_trans (Nat.mod_le _ _) (by omega)
      · show 1 ≤ n + 1
        omega
      · intro _; show 0 < 1; decide

theorem count_finish_invariant (c : Count) (n : Nat) (hi : c.invariant n) :
    ∃ d : CountData, c.finish = some d ∧ d.num_records = n ∧ d.num_unique_users ≤ n := by
  obtain ⟨hr, hu, _, _, hw, hB⟩ := hi
  unfold Count.finish
  by_cases hg : c.m_group_size > 0
  · rw [if_pos hg]
    obtain ⟨hist, hf, _, _⟩ := count_finish_group c hg hw hB
    rw [hf]
    exact ⟨_, rfl, hr, hu⟩
  · rw [if_neg hg]
    exact ⟨_, rfl, hr, hu⟩

theorem count_run_invariant : ∀ (ids : List UserIdentifier) (c : Count) (n : Nat),
    n + ids.length < 2 ^ 64 → c.invariant n →
    ∃ d : CountData, Count.run c ids = some d ∧ d.num_records = n + ids.length
      ∧ d.num_unique_users ≤ d.num_records := by
  intro ids
  induction ids with
  | nil =>
    intro c n _ hi
    obtain ⟨d, h1, h2, h3⟩ := count_finish_invariant c n hi
    exact ⟨d, h1, by simpa using h2, by omega⟩
  | cons id rest ih =>
    intro c n hn hi
    simp only [List.length_cons] at hn
    obtain ⟨next, h1, h2⟩ := count_operator_call_invariant c id n (by omega) hi
    obtain ⟨d, h3, h4, h5⟩ := ih next (n + 1) (by omega) h2
    refine ⟨d, ?_, ?_, h5⟩
    · rw [Count.run, h1]; exact h3
    · rw [h4, List.length_cons]; omega

theorem count_init_invariant : Count.init.invariant 0 := by
  refine ⟨rfl, Nat.le_refl _, Nat.le_refl _, fun h => absurd h (by decide), ?_, by decide⟩
  exact ⟨Or.inl ⟨rfl, by decide⟩, by decide, by decide⟩

theorem count_run_records (ids : List UserIdentifier) (d : CountData)
    (hl : ids.length < 2 ^ 64) (hd : Count.run Count.init ids = some d) :
    d.num_records = ids.length ∧ d.num_unique_users ≤ d.num_records := by
  obtain ⟨d2, h1, h2, h3⟩ := count_run_invariant ids Count.init 0 (by omega) count_init_invariant
  rw [hd] at h1
  cases h1
  exact ⟨by omega, h3⟩

theorem histogram_with_insert_one (m : Nat) :
    (histogram_with 10 1 1 1 m).operator_call (.finite (1 : ℚ))
      = some (histogram_with 10 1 1 1 ((m + 1) % 2 ^ 64)) := by
  have hw : (histogram_with 10 1 1 1 m).well_formed :=
    ⟨Or.inl ⟨rfl, (by decide : is_power_of_2 1 = true)⟩, (by decide : 1 < 10), rfl⟩
  obtain ⟨_, h2⟩ := operator_call_bin (histogram_with 10 1 1 1 m) (1 : ℚ) hw
    (by decide : 10 ≤ 65)
  have hl : ((histogram_with 10 1 1 1 m).lowest_bin_value : ℚ) = ((1 : ℕ) : ℚ) / ((1 : ℕ) : ℚ) :=
    rfl
  have hb : bin_spec 10 (((1 : ℕ) : ℚ) / ((1 : ℕ) : ℚ)) (1 : ℚ) = 1 := by
    with_unfolding_all decide
  have hB : (histogram_with 10 1 1 1 m).Bins = 10 := rfl
  rw [hl, hB, hb] at h2
  rw [h2]
  rfl

theorem count_run_cons (c next : Count) (id : UserIdentifier) (rest : List UserIdentifier)
    (h : c.operator_call id = some next) : Count.run c (id :: rest) = Count.run next rest := by
  simp only [Count.run, h]

theorem count_run_distinct : ∀ (ids : List UserIdentifier) (x : UserIdentifier) (m : Nat),
    List.Chain (fun a b => a ≠ b) x ids → m + 1 + ids.length < 2 ^ 64 →
    Count.run ⟨⟨m + 1, m + 1, histogram_with 10 1 1 1 m⟩, x, 1⟩ ids
      = some ⟨m + 1 + ids.length, m + 1 + ids.length,
          histogram_with 10 1 1 1 (m + 1 + ids.length)⟩ := by
  intro ids
  induction ids with
  | nil =>
    intro x m _ hm
    simp only [List.length_nil, Nat.add_zero] at hm
    have hmod : (m + 1) % 2 ^ 64 = m + 1 := Nat.mod_eq_of_lt hm
    simp only [Count.run, Count.finish, Count.finish_group, gt_iff_lt, Nat.lt_one_iff,
      Nat.one_pos, if_true, Nat.cast_one, histogram_with_insert_one, Option.map_some', hmod,
      List.length_nil, Nat.add_zero]
  | cons y ys ih =>
    intro x m hc hm
    simp only [List.length_cons] at hm
    obtain ⟨hxy, hc2⟩ := List.chain_cons.mp hc
    have hyx : ¬ y = x := fun e => hxy e.symm
    have hmod : (m + 1) % 2 ^ 64 = m + 1 := Nat.mod_eq_of_lt (by omega)
    have hmod2 : (m + 1 + 1) % 2 ^ 64 = m + 1 + 1 := Nat.mod_eq_of_lt (by omega)
    have hstep : Count.operator_call ⟨⟨m + 1, m + 1, histogram_with 10 1 1 1 m⟩, x, 1⟩ y
        = some ⟨⟨m + 1 + 1, m + 1 + 1, histogram_with 10 1 1 1 (m + 1)⟩, y, 1⟩ := by
      simp only [Count.operator_call, Count.finish_group, Count.start_group, gt_iff_lt,
        Nat.one_pos, if_true, Nat.cast_one, histogram_with_insert_one, hmod, hmod2, hyx,
        if_false, Nat.one_ne_zero]
    rw [count_run_cons _ _ _ _ hstep, ih y (m + 1) hc2 (by omega), List.length_cons]
    have e : m + 1 + 1 + ys.length = m + 1 + (ys.length + 1) := by omega
    rw [e]

theorem user_of_nat_succ_ne (m : Nat) : user_of_nat m ≠ user_of_nat (m + 1) := by
  intro h
  have h1 := congrArg (fun u : UserIdentifier => (u.val.getD 11 0).val) h
  simp only [user_of_nat, List.getD_cons_succ, List.getD_cons_zero, Fin.ofNat] at h1
  omega

theorem count_run_range (n : Nat) (hn : n + 1 < 2 ^ 64) :
    Count.run Count.init ((List.range (n + 1)).map user_of_nat)
      = some ⟨n + 1, n + 1, histogram_with 10 1 1 1 (n + 1)⟩ := by
  have hc : List.Chain' (fun a b => a ≠ b) ((List.range (n + 1)).map user_of_nat) := by
    rw [List.chain'_map, List.chain'_range_succ]
    intro m _
    exact user_of_nat_succ_ne m
  have hr : (List.range (n + 1)).map user_of_nat
      = user_of_nat 0 :: (List.map Nat.succ (List.range n)).map user_of_nat := by
    rw [List.range_succ_eq_map n, List.map_cons]
  have hl : ((List.map Nat.succ (List.range n)).map user_of_nat).length = n := by
    simp
  rw [hr] at hc
  have hstep : Count.operator_call Count.init (user_of_nat 0)
      = some ⟨⟨0 + 1, 0 + 1, histogram_with 10 1 1 1 0⟩, user_of_nat 0, 1⟩ := rfl
  rw [hr, count_run_cons _ _ _ _ hstep, count_run_distinct _ _ 0 hc (by omega), hl]
  have e : 0 + 1 + n = n + 1 := by omega
  rw [e]

theorem one_record_per_user_count :
    Count.run Count.init one_record_per_user
      = some ⟨20000, 20000, histogram_with 10 1 1 1 20000⟩ :=
  count_run_range 19999 (by norm_num)

theorem log_counts_cons {D : Type} [LinearOrderedField D] (k : Nat) (snprintf : D → String)
    (what : String) (r : CountData) (rest : List (String × CountData))
    (log out : List LogItem)
    (ho : Indicators.log_counts k snprintf ((what, r) :: rest) log = some out) :
    ∃ t, (∀ n, LogItem.number n ∈ t → k ≤ n)
      ∧ Indicators.log_counts k snprintf rest (log ++ count_heading what r ++ t) = some out := by
  rw [Indicators.log_counts] at ho
  have e : log ++ [.text what] ++ [.text ":"] ++ [.text "\n\tNumber of unique users in file: "]
      ++ [.number r.num_unique_users] ++ [.text "\n\tNumber of records in file: "]
      ++ [.number r.num_records] ++ [.text "\n\tHistogram of Number of records per user:\n"]
      = log ++ count_heading what r := by
    simp [count_heading]
  simp only [e] at ho
  cases hi : r.histogram_records_per_user.iterate_format k snprintf "\t\t"
      (log ++ count_heading what r) with
  | none => rw [hi] at ho; exact absurd ho (by simp)
  | some mid =>
    rw [hi] at ho
    obtain ⟨t, ht, hn⟩ := iterate_format_appends k snprintf _ _ _ _ hi
    exact ⟨t, hn, by rw [← ht]; exact ho⟩

theorem destructor_guard {D : Type} [LinearOrderedField D] (k : Nat) (snprintf : D → String)
    (r : IndicatorResults) (log : List LogItem)
    (hg : min r.h_count.num_unique_users r.s_new_count.num_unique_users < k * 1000) :
    Indicators.destructor k snprintf r log
      = some (log ++ [.text "\n", .text indicators_omitted]) := by
  unfold Indicators.destructor
  simp only [hg, if_true, List.append_assoc, List.singleton_append]

theorem destructor_shape {D : Type} [LinearOrderedField D] (k : Nat) (snprintf : D → String)
    (r : IndicatorResults) (log out : List LogItem)
    (hg : ¬ min r.h_count.num_unique_users r.s_new_count.num_unique_users < k * 1000)
    (ho : Indicators.destructor k snprintf r log = some out) :
    ∃ hl ol nl rest : List LogItem,
      out = log ++ [.text "\n", .text "Number of duplicate records in the H file: ",
              .number r.m_number_of_duplicate_H_records, .text "\n", .text "\n"]
          ++ count_heading "H" r.h_count ++ hl
          ++ count_heading "Old S" r.s_old_count ++ ol
          ++ count_heading "New S" r.s_new_count ++ nl ++ rest
        ∧ ∀ n, LogItem.number n ∈ hl ++ ol ++ nl ++ rest → k ≤ n := by
  unfold Indicators.destructor at ho
  simp only [hg, if_false] at ho
  obtain ⟨l1, h1, ho⟩ := Option.bind_eq_some.mp ho
  obtain ⟨l2, h2, ho⟩ := Option.bind_eq_some.mp ho
  obtain ⟨l3, h3, ho⟩ := Option.bind_eq_some.mp ho
  obtain ⟨l4, h4, ho⟩ := Option.bind_eq_some.mp ho
  obtain ⟨hl, hln, h1⟩ := log_counts_cons k snprintf _ _ _ _ _ h1
  obtain ⟨ol, oln, h1⟩ := log_counts_cons k snprintf _ _ _ _ _ h1
  obtain ⟨nl, nln, h1⟩ := log_counts_cons k snprintf _ _ _ _ _ h1
  simp only [Indicators.log_counts, Option.some.injEq] at h1
  have a2 := log_histograms_appends k snprintf _ _ (by simp) _ _ _ h2
  have a3 := log_weight_values_appends k snprintf _ _ _ h3
  have a4 := log_histograms_appends k snprintf _ _ (by simp) _ _ _ h4
  have a5 := log_bounding_boxes_appends k snprintf _ _ _ ho
  have a12 : appends_anonymized k l1 l2 :=
    appends_trans (appends_trans (appends_trans (appends_trans (appends_text k _ _)
      (appends_text k _ _)) (log_patterns_appends k _ _ _)) (appends_text k _ _)) a2
  have a15 : appends_anonymized k l1 out :=
    appends_trans a12 (appends_trans (appends_trans (appends_text k _ _) a3)
      (appends_trans (appends_trans (appends_text k _ _) a4) a5))
  obtain ⟨rest, hrest, hn⟩ := a15
  refine ⟨hl, ol, nl, rest, ?_, ?_⟩
  · rw [hrest, ← h1]
    simp only [List.append_assoc, List.cons_append, List.nil_append]
  · intro n hm
    simp only [List.mem_append] at hm
    rcases hm with ((hm | hm) | hm) | hm
    · exact hln n hm
    · exact oln n hm
    · exact nln n hm
    · exact hn n hm

theorem iterate_format_returns {D : Type} [LinearOrderedField D] (k : Nat)
    (snprintf : D → String) (h : Log2Histogram) (pre : String) (log : List LogItem)
    (hp : h.printable) : ∃ out, h.iterate_format k snprintf pre log = some out := by
  obtain ⟨hw, hnum, hsum⟩ := hp
  obtain ⟨a, ha, _, hn1⟩ := well_formed_den h hw
  unfold Log2Histogram.iterate_format
  rw [iterate_spec h a _ log hw.2.1 hw.2.2 ha hn1 hnum hsum]
  exact ⟨_, rfl⟩

theorem log_histograms_returns {D : Type} [LinearOrderedField D] (k : Nat)
    (snprintf : D → String) (heading : List LogItem) (r : Fin 4 → Log2Histogram)
    (hp : ∀ subperiod, (r subperiod).printable) :
    ∀ (l : List (Fin 4)) (log : List LogItem),
      ∃ out, Indicators.log_histograms k snprintf heading r l log = some out := by
  intro l
  induction l with
  | nil => intro log; exact ⟨log, rfl⟩
  | cons x xs ih =>
    intro log
    obtain ⟨mid, hm⟩ := iterate_format_returns k snprintf (r x) "\t"
      (log ++ heading ++ [.text (toString x.val)] ++ [.text ":\n"]) (hp x)
    obtain ⟨out, ho⟩ := ih mid
    exact ⟨out, by rw [Indicators.log_histograms]; simp only [hm]; exact ho⟩

theorem log_counts_returns {D : Type} [LinearOrderedField D] (k : Nat)
    (snprintf : D → String) :
    ∀ (l : List (String × CountData)) (log : List LogItem),
      (∀ p ∈ l, p.2.histogram_records_per_user.printable) →
      ∃ out, Indicators.log_counts k snprintf l log = some out := by
  intro l
  induction l with
  | nil => intro log _; exact ⟨log, rfl⟩
  | cons x xs ih =>
    intro log hp
    obtain ⟨what, r⟩ := x
    obtain ⟨mid, hm⟩ := iterate_format_returns k snprintf r.histogram_records_per_user "\t\t"
      (log ++ [.text what] ++ [.text ":"] ++ [.text "\n\tNumber of unique users in file: "]
        ++ [.number r.num_unique_users] ++ [.text "\n\tNumber of records in file: "]
        ++ [.number r.num_records] ++ [.text "\n\tHistogram of Number of records per user:\n"])
      (hp (what, r) (List.mem_cons_self _ _))
    obtain ⟨out, ho⟩ := ih mid (fun p hm2 => hp p (List.mem_cons_of_mem _ hm2))
    exact ⟨out, by rw [Indicators.log_counts]; simp only [hm]; exact ho⟩

theorem log_weight_values_returns {D : Type} [LinearOrderedField D] (k : Nat)
    (snprintf : D → String) :
    ∀ (l : List (String × (Fin 4 → Log2Histogram))) (log : List LogItem),
      (∀ p ∈ l, ∀ subperiod, (p.2 subperiod).printable) →
      ∃ out, Indicators.log_weight_values k snprintf l log = some out := by
  intro l
  induction l with
  | nil => intro log _; exact ⟨log, rfl⟩
  | cons x xs ih =>
    intro log hp
    obtain ⟨what, r⟩ := x
    obtain ⟨mid, hm⟩ := log_histograms_returns k snprintf
      [.text what, .text " histogram of weight values in subperiod "] r
      (hp (what, r) (List.mem_cons_self _ _)) (List.finRange 4) log
    obtain ⟨out, ho⟩ := ih mid (fun p hm2 => hp p (List.mem_cons_of_mem _ hm2))
    exact ⟨out, by rw [Indicators.log_weight_values]; simp only [hm]; exact ho⟩

theorem log_bounding_boxes_returns {D : Type} [LinearOrderedField D] (k : Nat)
    (snprintf : D → String) :
    ∀ (l : List (String × (Fin 4 → Log2Histogram))) (log : List LogItem),
      (∀ p ∈ l, ∀ subperiod, (p.2 subperiod).printable) →
      ∃ out, Indicators.log_bounding_boxes k snprintf l log = some out := by
  intro l
  induction l with
  | nil => intro log _; exact ⟨log, rfl⟩
  | cons x xs ih =>
    intro log hp
    obtain ⟨what, r⟩ := x
    obtain ⟨mid, hm⟩ := log_histograms_returns k snprintf
      [.text what, .text " in subperiod "] r
      (hp (what, r) (List.mem_cons_self _ _)) (List.finRange 4) (log ++ [.text "\n"])
    obtain ⟨out, ho⟩ := ih mid (fun p hm2 => hp p (List.mem_cons_of_mem _ hm2))
    exact ⟨out, by rw [Indicators.log_bounding_boxes]; simp only [hm]; exact ho⟩

theorem bind_returns {α β : Type} (x : Option α) (f : α → Option β)
    (hx : ∃ a, x = some a) (hf : ∀ a, ∃ b, f a = some b) : ∃ b, x.bind f = some b := by
  obtain ⟨a, ha⟩ := hx
  rw [ha, Option.some_bind]
  exact hf a

theorem destructor_returns {D : Type} [LinearOrderedField D] (k : Nat) (snprintf : D → String)
    (r : IndicatorResults) (log : List LogItem) (hw : r.well_formed) :
    ∃ out, Indicators.destructor k snprintf r log = some out := by
  obtain ⟨w1, w2, w3, w4, w5, w6, w7, w8, w9, w10⟩ := hw
  unfold Indicators.destructor
  by_cases hg : min r.h_count.num_unique_users r.s_new_count.num_unique_users < k * 1000
  · simp only [hg, if_true]; exact ⟨_, rfl⟩
  · simp only [hg, if_false]
    refine bind_returns _ _ (log_counts_returns k snprintf _ _ ?_) (fun l1 => ?_)
    · intro p hp
      simp only [List.mem_cons, List.mem_singleton, List.not_mem_nil, or_false] at hp
      rcases hp with rfl | rfl | rfl
      · exact w1
      · exact w2
      · exact w3
    refine bind_returns _ _ (log_histograms_returns k snprintf _ _ w4 _ _) (fun l2 => ?_)
    refine bind_returns _ _ (log_weight_values_returns k snprintf _ _ ?_) (fun l3 => ?_)
    · intro p hp
      simp only [List.mem_cons, List.mem_singleton, List.not_mem_nil, or_false] at hp
      rcases hp with rfl | rfl
      · exact w5
      · exact w6
    refine bind_returns _ _ (log_histograms_returns k snprintf _ _ w7 _ _) (fun l4 => ?_)
    refine log_bounding_boxes_returns k snprintf _ _ ?_
    intro p hp
    simp only [List.mem_cons, List.mem_singleton, List.not_mem_nil, or_false] at hp
    rcases hp with rfl | rfl | rfl
    · exact w8
    · exact w9
    · exact w10

/-- C29, counterexample. A first period with one H record for each of 20000
users and no duplicate record, with `k = 20`. The guard does not hold, and the
destructor writes the duplicate-record count 0 and, for old S, the unique-user
count 0 and the record count 0 as numbers, all below `k`. -/
theorem duplicate_and_old_s_counts_are_printed_below_k :
    Count.run Count.init one_record_per_user = some first_period_results.h_count
      ∧ Count.run Count.init [] = some first_period_results.s_old_count
      ∧ Count.run Count.init one_record_per_user = some first_period_results.s_new_count
      ∧ (0 : Nat) < 20
      ∧ ∃ out hl ol nl rest : List LogItem,
        Indicators.destructor 20 snprintf_rat first_period_results [] = some out
        ∧ out = [.text "\n", .text "Number of duplicate records in the H file: ", .number 0,
              .text "\n", .text "\n"]
            ++ count_heading "H" ⟨20000, 20000, histogram_with 10 1 1 1 20000⟩ ++ hl
            ++ [.text "Old S", .text ":", .text "\n\tNumber of unique users in file: ",
              .number 0, .text "\n\tNumber of records in file: ", .number 0,
              .text "\n\tHistogram of Number of records per user:\n"] ++ ol
            ++ count_heading "New S" ⟨20000, 20000, histogram_with 10 1 1 1 20000⟩ ++ nl
            ++ rest := by
  refine ⟨one_record_per_user_count, rfl, one_record_per_user_count, by decide, ?_⟩
  obtain ⟨out, ho⟩ := destructor_returns 20 snprintf_rat first_period_results []
    (by with_unfolding_all decide)
  obtain ⟨hl, ol, nl, rest, h1, _⟩ := destructor_shape 20 snprintf_rat first_period_results []
    out (by decide) ho
  exact ⟨out, hl, ol, nl, rest, ho, by rw [h1]; rfl⟩

/-- C29, amended. For every `k`, when the guard does not hold, the destructor
of Indicators writes the record and unique-user counts of H and of new S, which
are at least `k` (in fact at least `1000 k`), and every pattern counter and
histogram bin count that it writes as a number is at least `k`; the
duplicate-record count and the record and unique-user counts of old S are
written as they are. When the guard holds it writes the notice only. -/
theorem indicator_counts_k_anonymous {D : Type} [LinearOrderedField D] (k : Nat)
    (snprintf : D → String) (r : IndicatorResults) (h_ids s_new_ids : List UserIdentifier)
    (log : List LogItem) (hw : r.well_formed)
    (hh : Count.run Count.init h_ids = some r.h_count) (hhl : h_ids.length < 2 ^ 64)
    (hs : Count.run Count.init s_new_ids = some r.s_new_count)
    (hsl : s_new_ids.length < 2 ^ 64) :
    ∃ out, Indicators.destructor k snprintf r log = some out
      ∧ (min r.h_count.num_unique_users r.s_new_count.num_unique_users < k * 1000 →
          out = log ++ [.text "\n", .text indicators_omitted])
      ∧ (¬ min r.h_count.num_unique_users r.s_new_count.num_unique_users < k * 1000 →
          k ≤ r.h_count.num_unique_users ∧ k ≤ r.h_count.num_records
          ∧ k ≤ r.s_new_count.num_unique_users ∧ k ≤ r.s_new_count.num_records
          ∧ ∃ hl ol nl rest : List LogItem,
            out = log ++ [.text "\n", .text "Number of duplicate records in the H file: ",
                    .number r.m_number_of_duplicate_H_records, .text "\n", .text "\n"]
                ++ count_heading "H" r.h_count ++ hl
                ++ count_heading "Old S" r.s_old_count ++ ol
                ++ count_heading "New S" r.s_new_count ++ nl ++ rest
              ∧ ∀ n, LogItem.number n ∈ hl ++ ol ++ nl ++ rest → k ≤ n) := by
  obtain ⟨out, ho⟩ := destructor_returns k snprintf r log hw
  refine ⟨out, ho, ?_, ?_⟩
  · intro hg
    rw [destructor_guard k snprintf r log hg] at ho
    exact (Option.some.inj ho).symm
  · intro hg
    obtain ⟨_, h2⟩ := count_run_records h_ids r.h_count hhl hh
    obtain ⟨_, s2⟩ := count_run_records s_new_ids r.s_new_count hsl hs
    have hm : k * 1000 ≤ min r.h_count.num_unique_users r.s_new_count.num_unique_users :=
      not_lt.mp hg
    have hm1 := le_trans hm (min_le_left _ _)
    have hm2 := le_trans hm (min_le_right _ _)
    exact ⟨by omega, by omega, by omega, by omega, destructor_shape k snprintf r log out hg ho⟩

theorem indicator_counts_k_anonymous_witness :
    first_period_results.well_formed
      ∧ ¬ min first_period_results.h_count.num_unique_users
          first_period_results.s_new_count.num_unique_users < 20 * 1000
      ∧ ∃ out, Indicators.destructor 20 snprintf_rat first_period_results [] = some out
        ∧ (min first_period_results.h_count.num_unique_users
              first_period_results.s_new_count.num_unique_users < 20 * 1000 →
            out = [] ++ [.text "\n", .text indicators_omitted])
        ∧ (¬ min first_period_results.h_count.num_unique_users
              first_period_results.s_new_count.num_unique_users < 20 * 1000 →
            20 ≤ first_period_results.h_count.num_unique_users
            ∧ 20 ≤ first_period_results.h_count.num_records
            ∧ 20 ≤ first_period_results.s_new_count.num_unique_users
            ∧ 20 ≤ first_period_results.s_new_count.num_records
            ∧ ∃ hl ol nl rest : List LogItem,
              out = [] ++ [.text "\n", .text "Number of duplicate records in the H file: ",
                      .number first_period_results.m_number_of_duplicate_H_records, .text "\n",
                      .text "\n"]
                  ++ count_heading "H" first_period_results.h_count ++ hl
                  ++ count_heading "Old S" first_period_results.s_old_count ++ ol
                  ++ count_heading "New S" first_period_results.s_new_count ++ nl ++ rest
                ∧ ∀ n, LogItem.number n ∈ hl ++ ol ++ nl ++ rest → 20 ≤ n) :=
  ⟨by with_unfolding_all decide, by decide,
    indicator_counts_k_anonymous 20 snprintf_rat first_period_results one_record_per_user
      one_record_per_user [] (by with_unfolding_all decide) one_record_per_user_count
      (by simp [one_record_per_user]) one_record_per_user_count
      (by simp [one_record_per_user])⟩

/-- C30. The destructor of Indicators writes the omission notice and nothing
else if and only if `min(unique users in H, unique users in new S) < k * 1000`;
otherwise it writes, for well-formed histograms, the indicators, beginning with
the duplicate-record count. -/
theorem indicator_guard_omits_all {D : Type} [LinearOrderedField D] (k : Nat)
    (snprintf : D → String) (r : IndicatorResults) (log : List LogItem) :
    (Indicators.destructor k snprintf r log
          = some (log ++ [.text "\n", .text indicators_omitted])
        ↔ min r.h_count.num_unique_users r.s_new_count.num_unique_users < k * 1000)
      ∧ (r.well_formed →
          ¬ min r.h_count.num_unique_users r.s_new_count.num_unique_users < k * 1000 →
          ∃ rest, Indicators.destructor k snprintf r log
            = some (log ++ [.text "\n", .text "Number of duplicate records in the H file: ",
                .number r.m_number_of_duplicate_H_records] ++ rest)) := by
  constructor
  · constructor
    · intro ho
      by_contra hg
      obtain ⟨hl, ol, nl, rest, h1, _⟩ := destructor_shape k snprintf r log _ hg ho
      simp only [List.append_assoc] at h1
      have h2 := List.append_cancel_left h1
      simp only [List.cons_append, List.nil_append, List.cons.injEq, true_and] at h2
      have h3 : indicators_omitted = "Number of duplicate records in the H file: " := by
        have := h2.1
        injection this
      exact absurd h3 (by decide)
    · exact destructor_guard k snprintf r log
  · intro hw hg
    obtain ⟨out, ho⟩ := destructor_returns k snprintf r log hw
    obtain ⟨hl, ol, nl, rest, h1, _⟩ := destructor_shape k snprintf r log out hg ho
    refine ⟨[.text "\n", .text "\n"] ++ count_heading "H" r.h_count ++ hl
      ++ count_heading "Old S" r.s_old_count ++ ol
      ++ count_heading "New S" r.s_new_count ++ nl ++ rest, ?_⟩
    rw [ho, h1]
    simp only [List.append_assoc, List.cons_append, List.nil_append]

theorem indicator_guard_omits_all_witness :
    first_period_results.well_formed
      ∧ ¬ min first_period_results.h_count.num_unique_users
          first_period_results.s_new_count.num_unique_users < 20 * 1000
      ∧ ∃ rest, Indicators.destructor 20 snprintf_rat first_period_results []
        = some ([] ++ [.text "\n", .text "Number of duplicate records in the H file: ",
            .number first_period_results.m_number_of_duplicate_H_records] ++ rest) :=
  ⟨by with_unfolding_all decide, by decide,
    (indicator_guard_omits_all 20 snprintf_rat first_period_results []).2
      (by with_unfolding_all decide) (by decide)⟩

/-! ## The order of FootprintKey -/

theorem memcmp_append : ∀ (x y u v : List Nat), x.length = y.length →
    memcmp (x ++ u) (y ++ v) = if memcmp x y = 0 then memcmp u v else memcmp x y
  | [], [], u, v, _ => by simp [memcmp]
  | [], _ :: _, _, _, h => by simp at h
  | _ :: _, [], _, _, h => by simp at h
  | a :: as, b :: bs, u, v, h => by
    simp only [List.length_cons, Nat.succ.injEq] at h
    simp only [List.cons_append, memcmp]
    split_ifs <;> first | rfl | omega | simp_all [memcmp_append as bs u v h]

theorem memcmp_map_val : ∀ (x y : List (Fin 256)), x.length = y.length →
    (memcmp (x.map Fin.val) (y.map Fin.val) < 0 ↔ array_lt x y = true)
      ∧ (memcmp (x.map Fin.val) (y.map Fin.val) = 0 ↔ x = y)
  | [], [], _ => by simp [memcmp, array_lt]
  | [], _ :: _, h => by simp at h
  | _ :: _, [], h => by simp at h
  | a :: as, b :: bs, h => by
    simp only [List.length_cons, Nat.succ.injEq] at h
    obtain ⟨h1, h2⟩ := memcmp_map_val as bs h
    simp only [List.map_cons, memcmp, array_lt, Fin.lt_def, List.cons.injEq]
    by_cases hab : a.val < b.val
    · have hne : a ≠ b := fun e => by rw [e] at hab; exact Nat.lt_irrefl _ hab
      simp [hab, hne]
    · by_cases hba : b.val < a.val
      · have hne : a ≠ b := fun e => by rw [e] at hba; exact Nat.lt_irrefl _ hba
        simp [hab, hba, hne]
      · have he : a = b := Fin.ext (by omega)
        simp [hab, hba, he, h1, h2]

/-- C31, counterexample. Two keys of the same user with the tiles (256, 0) and
(1, 0): the operator `<` of FootprintKey puts the first before the second (the
low byte of 256 is 0), the lexicographic order on `(id, tile)` with the order
of TileIndex does not (256 > 1). -/
theorem memcmp_order_differs_from_tile_order :
    FootprintKey.lt ⟨user_id 0, ⟨256, 0⟩⟩ ⟨user_id 0, ⟨1, 0⟩⟩ = true
      ∧ FootprintKey.lt_spec ⟨user_id 0, ⟨256, 0⟩⟩ ⟨user_id 0, ⟨1, 0⟩⟩ = false
      ∧ TileIndex.lt ⟨256, 0⟩ ⟨1, 0⟩ = false := by
  refine ⟨?_, ?_, ?_⟩ <;> decide

/-- C31, amended. The operator `<` of FootprintKey is the lexicographic order on
`(id, tile)` in which the identifiers are compared as byte arrays and the tiles
by their four bytes in memory (low and high byte of the easting, then low and
high byte of the northing). It agrees with the order of the specification
whenever the identifiers differ, and whenever the coordinates of both tiles are
below 256. -/
theorem footprint_key_lt_bytes (a b : FootprintKey) :
    FootprintKey.lt a b
        = tuple_lt (fun x y : UserIdentifier => array_lt x.val y.val) TileIndex.bytes_lt
            (a.id, a.tile) (b.id, b.tile)
      ∧ (a.id ≠ b.id → FootprintKey.lt a b = FootprintKey.lt_spec a b)
      ∧ (a.tile.easting.val < 256 → a.tile.northing.val < 256 → b.tile.easting.val < 256 →
          b.tile.northing.val < 256 → FootprintKey.lt a b = FootprintKey.lt_spec a b) := by
  have hl : (a.id.val.map Fin.val).length = (b.id.val.map Fin.val).length := by
    simp [a.id.property, b.id.property]
  obtain ⟨h1, h2⟩ := memcmp_map_val a.id.val b.id.val (by rw [a.id.property, b.id.property])
  obtain ⟨h3, h4⟩ := memcmp_map_val b.id.val a.id.val (by rw [a.id.property, b.id.property])
  have hm := memcmp_append (a.id.val.map Fin.val) (b.id.val.map Fin.val) a.tile.bytes b.tile.bytes hl
  have key : FootprintKey.lt a b
      = tuple_lt (fun x y : UserIdentifier => array_lt x.val y.val) TileIndex.bytes_lt
          (a.id, a.tile) (b.id, b.tile) := by
    show decide (memcmp (a.id.val.map Fin.val ++ a.tile.bytes)
        (b.id.val.map Fin.val ++ b.tile.bytes) < 0)
      = (array_lt a.id.val b.id.val
          || (!array_lt b.id.val a.id.val && decide (memcmp a.tile.bytes b.tile.bytes < 0)))
    simp only [hm]
    by_cases he : a.id.val = b.id.val
    · have h0 : memcmp (a.id.val.map Fin.val) (b.id.val.map Fin.val) = 0 := h2.mpr he
      simp only [h0, if_true]
      rw [he, array_lt_irrefl]
      simp
    · have h0 : ¬ memcmp (a.id.val.map Fin.val) (b.id.val.map Fin.val) = 0 :=
        fun e => he (h2.mp e)
      simp only [h0, if_false]
      by_cases hlt : array_lt a.id.val b.id.val = true
      · rw [hlt]
        simp [h1.mpr hlt]
      · have hlt2 : array_lt a.id.val b.id.val = false := by simpa using hlt
        have hgt : array_lt b.id.val a.id.val = true := by
          by_contra hc
          have hc2 : array_lt b.id.val a.id.val = false := by simpa using hc
          exact he (array_lt_tri _ _ (by rw [a.id.property, b.id.property]) hlt2 hc2)
        have hn : ¬ memcmp (a.id.val.map Fin.val) (b.id.val.map Fin.val) < 0 :=
          fun e => hlt (h1.mp e)
        rw [hlt2, hgt]
        simp [hn]
  refine ⟨key, ?_, ?_⟩
  · intro hne
    have he : ¬ a.id.val = b.id.val := fun e => hne (Subtype.ext e)
    rw [key]
    simp only [FootprintKey.lt_spec, tuple_lt]
    by_cases hlt : array_lt a.id.val b.id.val = true
    · simp [hlt]
    · have hlt2 : array_lt a.id.val b.id.val = false := by simpa using hlt
      have hgt : array_lt b.id.val a.id.val = true := by
        by_contra hc
        have hc2 : array_lt b.id.val a.id.val = false := by simpa using hc
        exact he (array_lt_tri _ _ (by rw [a.id.property, b.id.property]) hlt2 hc2)
      simp [hlt2, hgt]
  · intro e1 n1 e2 n2
    rw [key]
    have ht : TileIndex.bytes_lt a.tile b.tile = TileIndex.lt a.tile b.tile := by
      simp only [TileIndex.bytes_lt, TileIndex.bytes, uint16_bytes, TileIndex.lt, List.cons_append,
        List.nil_append, memcmp, Fin.lt_def]
      rw [Nat.mod_eq_of_lt e1, Nat.mod_eq_of_lt e2, Nat.mod_eq_of_lt n1, Nat.mod_eq_of_lt n2,
        Nat.div_eq_of_lt e1, Nat.div_eq_of_lt e2, Nat.div_eq_of_lt n1, Nat.div_eq_of_lt n2]
      by_cases c1 : a.tile.easting.val < b.tile.easting.val
      · simp [c1]
      · by_cases c2 : b.tile.easting.val < a.tile.easting.val
        · simp [c1, c2]
        · by_cases c3 : a.tile.northing.val < b.tile.northing.val
          · simp [c1, c2, c3]
          · by_cases c4 : b.tile.northing.val < a.tile.northing.val
            · simp [c1, c2, c3, c4]
            · simp [c1, c2, c3, c4]
    simp only [FootprintKey.lt_spec, tuple_lt, ht]

theorem footprint_key_lt_bytes_witness :
    (user_id 1 ≠ user_id 2)
      ∧ FootprintKey.lt ⟨user_id 1, ⟨256, 0⟩⟩ ⟨user_id 2, ⟨1, 0⟩⟩
        = FootprintKey.lt_spec ⟨user_id 1, ⟨256, 0⟩⟩ ⟨user_id 2, ⟨1, 0⟩⟩ :=
  ⟨by decide,
    (footprint_key_lt_bytes ⟨user_id 1, ⟨256, 0⟩⟩ ⟨user_id 2, ⟨1, 0⟩⟩).2.1 (by decide)⟩

/-! ## StreamAdditions.h: squash and the runs of its input -/

theorem maximal_runs_aux_fuel {α : Type} (eq : α → α → Bool) :
    ∀ (n m : Nat) (xs : List α), xs.length ≤ n → xs.length ≤ m →
      maximal_runs_aux eq n xs = maximal_runs_aux eq m xs := by
  intro n
  induction n with
  | zero =>
    intro m xs hn _
    have : xs = [] := List.length_eq_zero.mp (by omega)
    subst this
    cases m <;> rfl
  | succ n ih =>
    intro m xs hn hm
    cases xs with
    | nil => cases m <;> rfl
    | cons x xs =>
      cases m with
      | zero => simp at hm
      | succ m =>
        simp only [List.length_cons] at hn hm
        have hd := (List.dropWhile_sublist (fun a => eq x a) (l := xs)).length_le
        simp only [maximal_runs_aux]
        rw [ih m _ (by omega) (by omega)]

theorem maximal_runs_cons {α : Type} (eq : α → α → Bool) (x : α) (xs : List α) :
    maximal_runs eq (x :: xs)
      = (x, xs.takeWhile (fun a => eq x a))
          :: maximal_runs eq (xs.dropWhile (fun a => eq x a)) := by
  have hd := (List.dropWhile_sublist (fun a => eq x a) (l := xs)).length_le
  simp only [maximal_runs, List.length_cons, maximal_runs_aux]
  rw [maximal_runs_aux_fuel eq xs.length _ _ hd (Nat.le_refl _)]

theorem squash_eq_runs {In Mid : Type} (eq : In → In → Bool) (init : In → Mid)
    (sq : Mid → In → Mid) :
    ∀ (n : Nat) (xs : List In), xs.length ≤ n →
      squash eq init sq xs = (maximal_runs eq xs).map (fold_run init sq) := by
  intro n
  induction n with
  | zero =>
    intro xs hn
    have : xs = [] := List.length_eq_zero.mp (by omega)
    subst this
    rfl
  | succ n ih =>
    intro xs hn
    cases xs with
    | nil => rfl
    | cons x xs =>
      simp only [List.length_cons] at hn
      have hd := (List.dropWhile_sublist (fun a => eq x a) (l := xs)).length_le
      rw [squash_cons, maximal_runs_cons, List.map_cons, ih _ (by omega)]
      rfl

theorem maximal_runs_join {α : Type} (eq : α → α → Bool) :
    ∀ (n : Nat) (xs : List α), xs.length ≤ n →
      (maximal_runs eq xs).flatMap (fun run => run.1 :: run.2) = xs := by
  intro n
  induction n with
  | zero =>
    intro xs hn
    have : xs = [] := List.length_eq_zero.mp (by omega)
    subst this
    rfl
  | succ n ih =>
    intro xs hn
    cases xs with
    | nil => rfl
    | cons x xs =>
      simp only [List.length_cons] at hn
      have hd := (List.dropWhile_sublist (fun a => eq x a) (l := xs)).length_le
      rw [maximal_runs_cons, List.flatMap_cons, ih _ (by omega)]
      simp only [List.cons_append, List.takeWhile_append_dropWhile]

theorem maximal_runs_related {α : Type} (eq : α → α → Bool) :
    ∀ (n : Nat) (xs : List α), xs.length ≤ n →
      ∀ run ∈ maximal_runs eq xs, ∀ a ∈ run.2, eq run.1 a = true := by
  intro n
  induction n with
  | zero =>
    intro xs hn
    have : xs = [] := List.length_eq_zero.mp (by omega)
    subst this
    intro run hr
    cases hr
  | succ n ih =>
    intro xs hn
    cases xs with
    | nil => intro run hr; cases hr
    | cons x xs =>
      simp only [List.length_cons] at hn
      have hd := (List.dropWhile_sublist (fun a => eq x a) (l := xs)).length_le
      rw [maximal_runs_cons]
      intro run hr a ha
      rcases List.mem_cons.mp hr with h | h
      · subst h
        exact List.mem_takeWhile_imp ha
      · exact ih _ (by omega) run h a ha

theorem maximal_runs_head {α : Type} (eq : α → α → Bool) (xs : List α) :
    (maximal_runs eq xs).head? = none ∧ xs = []
      ∨ ∃ x rest, xs = x :: rest ∧ ((maximal_runs eq xs).head?.map (fun run => run.1)) = some x := by
  cases xs with
  | nil => exact Or.inl ⟨rfl, rfl⟩
  | cons x xs => exact Or.inr ⟨x, xs, rfl, by rw [maximal_runs_cons]; rfl⟩

theorem maximal_runs_maximal {α : Type} (eq : α → α → Bool) :
    ∀ (n : Nat) (xs : List α), xs.length ≤ n →
      List.Chain' (fun run next => eq run.1 next.1 = false) (maximal_runs eq xs) := by
  intro n
  induction n with
  | zero =>
    intro xs hn
    have : xs = [] := List.length_eq_zero.mp (by omega)
    subst this
    exact List.chain'_nil
  | succ n ih =>
    intro xs hn
    cases xs with
    | nil => exact List.chain'_nil
    | cons x xs =>
      simp only [List.length_cons] at hn
      have hd := (List.dropWhile_sublist (fun a => eq x a) (l := xs)).length_le
      rw [maximal_runs_cons]
      refine List.Chain'.cons' (ih _ (by omega)) ?_
      intro next hnext
      rcases maximal_runs_head eq (xs.dropWhile (fun a => eq x a)) with ⟨h1, _⟩ | ⟨y, rest, h1, h2⟩
      · rw [h1] at hnext; cases hnext
      · have hy : next.1 = y := by
          rw [Option.mem_def] at hnext
          rw [hnext] at h2
          simpa using h2
        have hh : (xs.dropWhile (fun a => eq x a)).head? = some y := by rw [h1]; rfl
        have := List.head?_dropWhile_not (fun a => eq x a) xs
        rw [hh] at this
        rw [hy]
        simpa using this

theorem groupBy_cons_run {α : Type} (eq : α → α → Bool)
    (hsymm : ∀ a b, eq a b = true → eq b a = true)
    (htrans : ∀ a b c, eq a b = true → eq b c = true → eq a c = true) :
    ∀ (xs : List α) (x : α),
      groupBy eq (x :: xs)
        = (x :: xs.takeWhile (fun a => eq x a)) :: groupBy eq (xs.dropWhile (fun a => eq x a)) := by
  intro xs
  induction xs with
  | nil => intro x; rfl
  | cons y ys ih =>
    intro x
    rw [groupBy_cons_of_eq eq x y (y :: ys) _ _ (ih y)]
    by_cases h : eq x y = true
    · have hf : eq x = eq y := by
        funext a
        cases hxa : eq x a with
        | true => exact (htrans y x a (hsymm x y h) hxa).symm
        | false =>
          cases hya : eq y a with
          | true => rw [htrans x y a h hya] at hxa; cases hxa
          | false => rfl
      rw [if_pos h, List.takeWhile_cons_of_pos h, List.dropWhile_cons_of_pos h, hf]
    · rw [if_neg h, List.takeWhile_cons_of_neg h, List.dropWhile_cons_of_neg h, ih y]

theorem groupBy_eq_runs {α : Type} (eq : α → α → Bool)
    (hsymm : ∀ a b, eq a b = true → eq b a = true)
    (htrans : ∀ a b c, eq a b = true → eq b c = true → eq a c = true) :
    ∀ (n : Nat) (xs : List α), xs.length ≤ n →
      groupBy eq xs = (maximal_runs eq xs).map (fun run => run.1 :: run.2) := by
  intro n
  induction n with
  | zero =>
    intro xs hn
    have : xs = [] := List.length_eq_zero.mp (by omega)
    subst this
    rfl
  | succ n ih =>
    intro xs hn
    cases xs with
    | nil => rfl
    | cons x xs =>
      simp only [List.length_cons] at hn
      have hd := (List.dropWhile_sublist (fun a => eq x a) (l := xs)).length_le
      rw [groupBy_cons_run eq hsymm htrans, maximal_runs_cons, List.map_cons, ih _ (by omega)]

/-- C37. The pipe `squash(eq, init, fold)` emits, for every input, exactly one
output per maximal run of consecutive elements that are related by `eq` to the
first element of the run: the fold of all elements of the run, the first
included, into `init(first)`, in the order of the runs; the runs make up the
input, and a run ends where the next element is not related to its first
element; for the empty input nothing is emitted. When `eq` is symmetric and
transitive, the runs are the groups of `groupBy(eq)`. -/
theorem squash_is_group_fold {In Mid : Type} (eq : In → In → Bool) (init : In → Mid)
    (fold : Mid → In → Mid) (stream : List In) :
    squash eq init fold stream = (maximal_runs eq stream).map (fold_run init fold)
      ∧ (maximal_runs eq stream).flatMap (fun run => run.1 :: run.2) = stream
      ∧ (∀ run ∈ maximal_runs eq stream, ∀ a ∈ run.2, eq run.1 a = true)
      ∧ List.Chain' (fun run next => eq run.1 next.1 = false) (maximal_runs eq stream)
      ∧ squash eq init fold [] = []
      ∧ ((∀ a b, eq a b = true → eq b a = true) →
          (∀ a b c, eq a b = true → eq b c = true → eq a c = true) →
          groupBy eq stream = (maximal_runs eq stream).map (fun run => run.1 :: run.2)) :=
  ⟨squash_eq_runs eq init fold stream.length stream (Nat.le_refl _),
    maximal_runs_join eq stream.length stream (Nat.le_refl _),
    maximal_runs_related eq stream.length stream (Nat.le_refl _),
    maximal_runs_maximal eq stream.length stream (Nat.le_refl _),
    rfl,
    fun hsymm htrans => groupBy_eq_runs eq hsymm htrans stream.length stream (Nat.le_refl _)⟩

theorem squash_is_group_fold_witness :
    squash (fun a b : Nat => a / 10 == b / 10) (fun _ => 0) (fun sum a => sum + a)
        [11, 12, 25, 13, 14]
      = [23, 25, 27]
      ∧ groupBy (fun a b : Nat => a / 10 == b / 10) [11, 12, 25, 13, 14]
        = (maximal_runs (fun a b : Nat => a / 10 == b / 10) [11, 12, 25, 13, 14]).map
            (fun run => run.1 :: run.2) :=
  ⟨by decide,
    (squash_is_group_fold (fun a b : Nat => a / 10 == b / 10) (fun _ => 0)
      (fun sum a => sum + a) [11, 12, 25, 13, 14]).2.2.2.2.2
      (fun a b h => by
        simp only [beq_iff_eq] at h ⊢
        omega)
      (fun a b c h1 h2 => by
        simp only [beq_iff_eq] at h1 h2 ⊢
        omega)⟩

/-! ## Pseudonymisation -/

theorem fin_xor_cancel (a k : Fin 256) : (a ^^^ k) ^^^ k = a := by
  apply Fin.ext
  have h1 : a.val ^^^ k.val < 256 := Nat.xor_lt_two_pow (n := 8) a.isLt k.isLt
  show ((a.val ^^^ k.val) % 256 ^^^ k.val) % 256 = a.val
  rw [Nat.mod_eq_of_lt h1, Nat.xor_assoc, Nat.xor_self, Nat.xor_zero]
  exact Nat.mod_eq_of_lt a.isLt

theorem zipWith_xor_cancel : ∀ (data key_stream : List (Fin 256)),
    data.length = key_stream.length →
    List.zipWith (fun a b => a ^^^ b) (List.zipWith (fun a b => a ^^^ b) data key_stream)
      key_stream = data
  | [], [], _ => rfl
  | [], _ :: _, h => by simp at h
  | _ :: _, [], h => by simp at h
  | a :: as, k :: ks, h => by
    simp only [List.length_cons, Nat.succ.injEq] at h
    simp only [List.zipWith_cons_cons, fin_xor_cancel, zipWith_xor_cancel as ks h]

theorem aes_ctr_cancel (key_stream data : PseudonymisedUserIdentifier) :
    aes_ctr key_stream (aes_ctr key_stream data) = data :=
  Subtype.ext (zipWith_xor_cancel data.val key_stream.val
    (by rw [data.property, key_stream.property]))

theorem pseudonym_and_mac_take (u : UserIdentifier)
    (mac : { l : List (Fin 256) // l.length = sha256_size }) :
    (pseudonym_and_mac u mac).val.take hash_bytes = u.val := by
  show (u.val ++ mac.val.take hmac_bytes).take hash_bytes = u.val
  exact List.take_left' u.property

theorem pseudonym_and_mac_drop (u : UserIdentifier)
    (mac : { l : List (Fin 256) // l.length = sha256_size }) :
    (pseudonym_and_mac u mac).val.drop hash_bytes = mac.val.take hmac_bytes := by
  show (u.val ++ mac.val.take hmac_bytes).drop hash_bytes = mac.val.take hmac_bytes
  exact List.drop_left' u.property

theorem decrypt_pseudonym_ok (sgx : SgxCrypto) (K : List Nat)
    (input : PseudonymisedUserIdentifier)
    (decrypted : { l : List (Fin 256) // l.length = aes_block_size })
    (calculated : { l : List (Fin 256) // l.length = sha256_size })
    (id : UserIdentifier) (hid : id.val = decrypted.val.take hash_bytes)
    (h1 : sgx.sgx_aes_ctr_decrypt K input = .ok decrypted)
    (h2 : sgx.sgx_hmac_sha256_msg id K = .ok calculated) :
    decrypt_pseudonym sgx K input =
      if decrypted.val.drop hash_bytes ≠ calculated.val.take hmac_bytes then
        .error (.EnclaveException "HMAC check failed when reversing pseudonymisation")
      else .ok id := by
  have e : id = ⟨decrypted.val.take hash_bytes,
      by rw [List.length_take, decrypted.property]; rfl⟩ := Subtype.ext hid
  subst e
  simp only [decrypt_pseudonym, h1, h2, external]

/-- C32: pseudonym round trip. For every periodic key `K` whose counter-mode
key stream block is `key_stream` (so that `sgx_aes_ctr_decrypt` XORs its input
with it), and every user identifier `u` with HMAC `mac` under `K`:
`decrypt_pseudonym` of the counter-mode encryption of `u` followed by the first
four bytes of `mac` returns `u`. And for every input on which both library
calls succeed, `decrypt_pseudonym` throws the EnclaveException "HMAC check
failed when reversing pseudonymisation" whenever the four decrypted tag bytes
differ from the first four bytes of the recomputed HMAC. -/
theorem pseudonym_round_trip (sgx : SgxCrypto) (K : List Nat) :
    (∀ (key_stream : PseudonymisedUserIdentifier) (u : UserIdentifier)
        (mac : { l : List (Fin 256) // l.length = sha256_size }),
        (∀ data, sgx.sgx_aes_ctr_decrypt K data = .ok (aes_ctr key_stream data)) →
        sgx.sgx_hmac_sha256_msg u K = .ok mac →
        decrypt_pseudonym sgx K (aes_ctr key_stream (pseudonym_and_mac u mac)) = .ok u) ∧
    (∀ (input : PseudonymisedUserIdentifier)
        (decrypted : { l : List (Fin 256) // l.length = aes_block_size })
        (calculated : { l : List (Fin 256) // l.length = sha256_size })
        (id : UserIdentifier), id.val = decrypted.val.take hash_bytes →
        sgx.sgx_aes_ctr_decrypt K input = .ok decrypted →
        sgx.sgx_hmac_sha256_msg id K = .ok calculated →
        decrypted.val.drop hash_bytes ≠ calculated.val.take hmac_bytes →
        decrypt_pseudonym sgx K input =
          .error (.EnclaveException "HMAC check failed when reversing pseudonymisation")) := by
  refine ⟨?_, ?_⟩
  · intro key_stream u mac hctr hmac
    have h1 := hctr (aes_ctr key_stream (pseudonym_and_mac u mac))
    rw [aes_ctr_cancel] at h1
    rw [decrypt_pseudonym_ok sgx K _ (pseudonym_and_mac u mac) mac u
      (pseudonym_and_mac_take u mac).symm h1 hmac, pseudonym_and_mac_drop]
    simp
  · intro input decrypted calculated id hid h1 h2 hne
    rw [decrypt_pseudonym_ok sgx K input decrypted calculated id hid h1 h2, if_pos hne]

theorem pseudonym_round_trip_witness :
    decrypt_pseudonym sgx_example [1, 2, 3]
        (aes_ctr ⟨List.replicate 16 90, rfl⟩
          (pseudonym_and_mac (user_of_nat 7) ⟨List.replicate 32 0, rfl⟩)) = .ok (user_of_nat 7) ∧
      decrypt_pseudonym sgx_example [1, 2, 3]
        (aes_ctr ⟨List.replicate 16 90, rfl⟩
          (pseudonym_and_mac (user_of_nat 7) ⟨List.replicate 32 1, rfl⟩)) =
        .error (.EnclaveException "HMAC check failed when reversing pseudonymisation") :=
  ⟨(pseudonym_round_trip sgx_example [1, 2, 3]).1 ⟨List.replicate 16 90, rfl⟩ (user_of_nat 7)
      ⟨List.replicate 32 0, rfl⟩ (fun _ => rfl) rfl,
    (pseudonym_round_trip sgx_example [1, 2, 3]).2
      (aes_ctr ⟨List.replicate 16 90, rfl⟩
        (pseudonym_and_mac (user_of_nat 7) ⟨List.replicate 32 1, rfl⟩))
      (aes_ctr ⟨List.replicate 16 90, rfl⟩ (aes_ctr ⟨List.replicate 16 90, rfl⟩
        (pseudonym_and_mac (user_of_nat 7) ⟨List.replicate 32 1, rfl⟩)))
      ⟨List.replicate 32 0, rfl⟩ (user_of_nat 7) (by decide) rfl rfl (by decide)⟩

/-! ## Module B: the cache of the pseudonym seen last -/

theorem smap_depseudonymise (F : Type) (sgx : SgxCrypto) (K : List Nat) :
    ∀ (h_file : List (PseudonymisedUserFootprintUpdates F)) (last_seen : LastSeen),
      decrypt_pseudonym sgx K last_seen.pseud_id = .ok last_seen.id →
      (match smap_ex (depseudonymise sgx K) h_file last_seen with
        | .error ex => .error ex
        | .ok (h, _) => .ok h) = decrypt_every_record sgx K h_file
  | [], _, _ => rfl
  | e :: rest, last_seen, hinv => by
    by_cases hc : e.id = last_seen.pseud_id
    · have ih := smap_depseudonymise F sgx K rest last_seen hinv
      have hd : decrypt_pseudonym sgx K e.id = .ok last_seen.id := by rw [hc]; exact hinv
      have hf : depseudonymise sgx K last_seen e =
          .ok (⟨⟨last_seen.id, e.tile⟩, e.i_column⟩, last_seen) := by
        simp [depseudonymise, hc]
      simp only [smap_ex, hf, decrypt_every_record, hd, ← ih]
      cases smap_ex (depseudonymise sgx K) rest last_seen with
      | error ex => rfl
      | ok p => rfl
    · cases hd : decrypt_pseudonym sgx K e.id with
      | error ex =>
        have hf : depseudonymise sgx K last_seen e = .error ex := by
          simp [depseudonymise, hc, hd]
        simp only [smap_ex, hf, decrypt_every_record, hd]
      | ok id =>
        have ih := smap_depseudonymise F sgx K rest ⟨e.id, id⟩ hd
        have hf : depseudonymise sgx K last_seen e =
            .ok (⟨⟨id, e.tile⟩, e.i_column⟩, ⟨e.id, id⟩) := by
          simp [depseudonymise, hc, hd]
        simp only [smap_ex, hf, decrypt_every_record, hd, ← ih]
        cases smap_ex (depseudonymise sgx K) rest ⟨e.id, id⟩ with
        | error ex => rfl
        | ok p => rfl

/-- C36: the cache of the pseudonym seen last in Module B is transparent. For
every SGX library (a function of key and input), every key, every H file in
any order and every content of the uninitialised members of `last_seen`: the
construction of `last_seen` followed by the `smap` with the cached decryption
yields the same records, or throws the same exception, as calling
`decrypt_pseudonym` on every record in stream order. -/
theorem last_seen_cache_transparent (F : Type) (sgx : SgxCrypto) (pseudonymisation_key : List Nat)
    (h_file : List (PseudonymisedUserFootprintUpdates F)) (uninitialized : LastSeen) :
    module_b_smap sgx pseudonymisation_key h_file uninitialized =
      decrypt_every_record sgx pseudonymisation_key h_file := by
  cases h_file with
  | nil => rfl
  | cons first rest =>
    cases hd : decrypt_pseudonym sgx pseudonymisation_key first.id with
    | error ex =>
      simp only [module_b_smap, LastSeen.init, hd, decrypt_every_record]
    | ok id =>
      have h := smap_depseudonymise F sgx pseudonymisation_key (first :: rest) ⟨first.id, id⟩ hd
      rw [← h]
      simp only [module_b_smap, LastSeen.init, hd]

/-! ## Module D: the range of the connection strengths -/

theorem unordered_map_update_forall {K V : Type} [DecidableEq K] (P : V → Prop)
    (m : List (K × V)) (k : K) (init : V) (f : V → V)
    (hm : ∀ kv ∈ m, P kv.2) (hinit : P (f init)) (hf : ∀ v, P v → P (f v)) :
    ∀ kv ∈ unordered_map_update m k init f, P kv.2 := by
  intro kv hkv
  unfold unordered_map_update at hkv
  split at hkv
  · obtain ⟨kv0, h0, h1⟩ := List.mem_map.mp hkv
    split at h1
    · subst h1
      exact hf _ (hm kv0 h0)
    · subst h1
      exact hm kv0 h0
  · rcases List.mem_append.mp hkv with h | h
    · exact hm kv h
    · rw [List.mem_singleton] at h
      subst h
      exact hinit

theorem connection_strengths_loop_operands {D : Type} [LinearOrderedField D]
    (e : QuantisedFootprint D) (hw : 0 ≤ e.calibration_weight) :
    ∀ (ras : List (List TileIndex)) (i : Nat)
      (ops ops' : List (ConnectionStrengthKey × ConnectionOperand D)),
      (∀ kv ∈ ops, 0 ≤ kv.2.numerator ∧ kv.2.numerator ≤ kv.2.denominator) →
      ConnectionStrengths.loop e ras i ops = .ok ops' →
      ∀ kv ∈ ops', 0 ≤ kv.2.numerator ∧ kv.2.numerator ≤ kv.2.denominator
  | [], _, ops, ops', hinv, h => by
    simp only [ConnectionStrengths.loop, Except.ok.injEq] at h
    subst h
    exact hinv
  | ra :: rest, i, ops, ops', hinv, h => by
    simp only [ConnectionStrengths.loop] at h
    split at h
    · exact connection_strengths_loop_operands e hw rest (i + 1) ops ops' hinv h
    · split at h
      · cases h
      · rename_i bit _
        refine connection_strengths_loop_operands e hw rest (i + 1) _ ops' ?_ h
        have hb : (0 : D) ≤ (if bit then 1 else 0) * e.calibration_weight
            ∧ (if bit then 1 else 0) * e.calibration_weight ≤ e.calibration_weight := by
          cases bit
          · simp [hw]
          · simp [hw]
        refine unordered_map_update_forall
          (fun op : ConnectionOperand D => 0 ≤ op.numerator ∧ op.numerator ≤ op.denominator)
          ops _ _ _ hinv ?_ ?_
        · show (0 : D) ≤ 0 + _ ∧ (0 : D) + _ ≤ 0 + e.calibration_weight
          rw [zero_add, zero_add]
          exact hb
        · intro v hv
          exact ⟨add_nonneg hv.1 hb.1, add_le_add hv.2 hb.2⟩

theorem connection_strengths_inspect_operands {D : Type} [LinearOrderedField D] :
    ∀ (y : List (QuantisedFootprint D)) (self cs : ConnectionStrengths D),
      (∀ e ∈ y, 0 ≤ e.calibration_weight) →
      (∀ kv ∈ self.connection_operands, 0 ≤ kv.2.numerator ∧ kv.2.numerator ≤ kv.2.denominator) →
      ConnectionStrengths.inspect self y = some (.ok cs) →
      ∀ kv ∈ cs.connection_operands, 0 ≤ kv.2.numerator ∧ kv.2.numerator ≤ kv.2.denominator
  | [], self, cs, _, hinv, h => by
    simp only [ConnectionStrengths.inspect, Option.some.injEq, Except.ok.injEq] at h
    subst h
    exact hinv
  | e :: rest, self, cs, hw, hinv, h => by
    simp only [ConnectionStrengths.inspect] at h
    split at h
    · rename_i next hcall
      refine connection_strengths_inspect_operands rest next cs
        (fun e1 he1 => hw e1 (List.mem_cons_of_mem _ he1)) ?_ h
      unfold ConnectionStrengths.operator_call at hcall
      split at hcall
      · cases hcall
      · rename_i ops1 hloop
        split at hcall
        · simp only [Option.some.injEq, Except.ok.injEq] at hcall
          subst hcall
          exact connection_strengths_loop_operands e (hw e (List.mem_cons_self _ _)) _ 0 _ ops1
            hinv hloop
        · cases hcall
    · cases h
    · cases h

/-- C39: every emitted connection strength lies in (0, 1]. With at most
`MAX_REFERENCE_AREAS` reference areas ConnectionStrengths accepts every Y
stream; and whenever all calibration weights of a Y stream are non-negative
and ConnectionStrengths has consumed it, every operand `(k, t)` of the map has
0 <= numerator <= denominator, so an operand with numerator >= 1 has
denominator >= 1 (the division is not by zero), and every record that the
destructor emits has 0 < strength <= 1. -/
theorem connection_strength_in_unit_interval {D : Type} [LinearOrderedField D]
    (reference_areas : ReferenceAreas) (y : List (QuantisedFootprint D))
    (hw : ∀ e ∈ y, 0 ≤ e.calibration_weight) :
    (reference_areas.length ≤ MAX_REFERENCE_AREAS →
        ∃ cs, ConnectionStrengths.inspect ⟨reference_areas, []⟩ y = some (.ok cs))
      ∧ ∀ cs, ConnectionStrengths.inspect ⟨reference_areas, []⟩ y = some (.ok cs) →
          (∀ kv ∈ cs.connection_operands,
              0 ≤ kv.2.numerator ∧ kv.2.numerator ≤ kv.2.denominator
                ∧ (kv.2.numerator ≥ 1 → kv.2.denominator ≥ 1))
            ∧ ∀ r ∈ cs.destructor.getD [], 0 < r.strength ∧ r.strength ≤ 1 := by
  refine ⟨fun hmax => ?_, fun cs hrun => ?_⟩
  · obtain ⟨cs, h, _⟩ := connection_strengths_records reference_areas y hmax
    exact ⟨cs, h⟩
  · have hinv := connection_strengths_inspect_operands y ⟨reference_areas, []⟩ cs hw
      (fun kv hkv => by cases hkv) hrun
    refine ⟨fun kv hkv => ⟨(hinv kv hkv).1, (hinv kv hkv).2, fun h1 => le_trans h1 (hinv kv hkv).2⟩,
      fun r hr => ?_⟩
    obtain ⟨op, hmem, h1, _, h3⟩ := (connection_strengths_destructor_mem cs r).mp hr
    have h2 := (hinv _ hmem).2
    have hn : (0 : D) < op.numerator := lt_of_lt_of_le one_pos h1
    have hd : (0 : D) < op.denominator := lt_of_lt_of_le hn h2
    rw [h3]
    exact ⟨div_pos hn hd, (div_le_one hd).mpr h2⟩

theorem connection_strength_in_unit_interval_witness :
    (∀ e ∈ y_two_users, 0 ≤ e.calibration_weight)
      ∧ (∃ cs, ConnectionStrengths.inspect ⟨[[⟨10, 10⟩]], []⟩ y_two_users = some (.ok cs))
      ∧ ∀ cs, ConnectionStrengths.inspect ⟨[[⟨10, 10⟩]], []⟩ y_two_users = some (.ok cs) →
          ∀ r ∈ cs.destructor.getD [], 0 < r.strength ∧ r.strength ≤ 1 :=
  ⟨by with_unfolding_all decide,
    (connection_strength_in_unit_interval [[⟨10, 10⟩]] y_two_users
      (by with_unfolding_all decide)).1 (by decide),
    fun cs h => ((connection_strength_in_unit_interval [[⟨10, 10⟩]] y_two_users
      (by with_unfolding_all decide)).2 cs h).2⟩

/-! ## Top anchor distribution and highly nomadic users -/

theorem groupBy_length_le {α : Type} (eq : α → α → Bool) :
    ∀ xs : List α, (groupBy eq xs).length ≤ xs.length
      ∧ ∀ g ∈ groupBy eq xs, g.length ≤ xs.length
  | [] => ⟨Nat.le_refl _, fun g hg => by cases hg⟩
  | a :: as => by
    obtain ⟨ih1, ih2⟩ := groupBy_length_le eq as
    cases h : groupBy eq as with
    | nil =>
      have e : groupBy eq (a :: as) = [[a]] := by rw [groupBy, h]
      rw [e]
      refine ⟨by simp, fun g hg => ?_⟩
      rw [List.mem_singleton] at hg
      subst hg
      simp
    | cons g0 gs =>
      rw [h] at ih1 ih2
      simp only [List.length_cons] at ih1
      cases g0 with
      | nil =>
        have e : groupBy eq (a :: as) = [[a]] := by rw [groupBy, h]
        rw [e]
        refine ⟨by simp, fun g hg => ?_⟩
        rw [List.mem_singleton] at hg
        subst hg
        simp
      | cons b g =>
        rw [groupBy_cons_of_eq eq a b as g gs h]
        have hbg := ih2 (b :: g) (List.mem_cons_self _ _)
        simp only [List.length_cons] at hbg
        split
        · refine ⟨by simp only [List.length_cons]; omega, fun g1 hg1 => ?_⟩
          rcases List.mem_cons.mp hg1 with h1 | h1
          · subst h1
            simp only [List.length_cons]
            omega
          · have := ih2 g1 (List.mem_cons_of_mem _ h1)
            simp only [List.length_cons]
            omega
        · refine ⟨by simp only [List.length_cons]; omega, fun g1 hg1 => ?_⟩
          rcases List.mem_cons.mp hg1 with h1 | h1
          · subst h1
            simp only [List.length_cons, List.length_nil]
            omega
          · have := ih2 g1 h1
            simp only [List.length_cons]
            omega

theorem module_c_d_flatMap_shape {F D : Type} [FloatArith F] [Zero D]
    (reference_areas : ReferenceAreas) (self next : SingleHumanAnalysis D)
    (footprints : List (AccumulatedUserFootprint F)) (y : List (QuantisedFootprint D))
    (hlen : footprints.length ≤ 2 ^ 32)
    (h : module_c_d_flatMap reference_areas self footprints = .ok (y, next)) :
    (y = [] ∧ next.m_statistics.highly_nomadic_users
        = (self.m_statistics.highly_nomadic_users + 1) % 2 ^ 32)
      ∨ (∃ first rest, y = first :: rest ∧ first.rank = QuantisedFootprint.FirstRank
          ∧ (∀ q ∈ rest, q.rank ≠ QuantisedFootprint.FirstRank)
          ∧ next.m_statistics = self.m_statistics) := by
  unfold module_c_d_flatMap at h
  simp only at h
  split at h
  · rename_i bits _
    simp only [Except.ok.injEq, Prod.mk.injEq] at h
    obtain ⟨hy, hnext⟩ := h
    cases hk : footprints.filter
        (fun e => !FloatOps.lt e.i_column.v0 FloatArith.day_quantisation_threshold) with
    | nil =>
      rw [operator_call_nil self footprints hk] at hy hnext
      left
      subst hnext
      exact ⟨hy.symm, rfl⟩
    | cons front rest =>
      rw [operator_call_cons self footprints front rest hk] at hy hnext
      right
      have hn : (std_sort rank_cmp
          (SingleHumanAnalysis.randomise (front :: rest) self.m_rng).1).length
            = rest.length + 1 := by
        rw [std_sort_length, randomise_length, List.length_cons]
      have hle : rest.length + 1 ≤ 2 ^ 32 := by
        have h1 := List.length_filter_le
          (fun e : AccumulatedUserFootprint F =>
            !FloatOps.lt e.i_column.v0 FloatArith.day_quantisation_threshold) footprints
        rw [hk, List.length_cons] at h1
        omega
      have hr : y.map (fun q => q.rank) = 0 :: List.range' 1 rest.length := by
        rw [← hy, List.map_map]
        have := @quantise_loop_rank F D _ _ front.key.id
          (std_sort rank_cmp (SingleHumanAnalysis.randomise (front :: rest) self.m_rng).1) 0
          (by rw [hn]; omega)
        rw [hn, List.range'_succ] at this
        exact this
      cases y with
      | nil => simp at hr
      | cons first others =>
        simp only [List.map_cons, List.cons.injEq] at hr
        refine ⟨first, others, rfl, hr.1, fun q hq hq0 => ?_, ?_⟩
        · have hm : q.rank ∈ List.range' 1 rest.length := by
            rw [← hr.2]
            exact List.mem_map.mpr ⟨q, hq, rfl⟩
          rw [List.mem_range'_1] at hm
          rw [hq0] at hm
          exact absurd hm.1 (by decide)
        · subst hnext
          rfl
  · cases h

theorem flatMap_ex_groups {F D : Type} [FloatArith F] [Zero D]
    (reference_areas : ReferenceAreas) :
    ∀ (groups : List (List (AccumulatedUserFootprint F))) (self next : SingleHumanAnalysis D)
      (materialized_y : List (QuantisedFootprint D)),
      (∀ g ∈ groups, g.length ≤ 2 ^ 32) →
      self.m_statistics.highly_nomadic_users + groups.length < 2 ^ 32 →
      flatMap_ex (fun single_human_analysis footprints =>
          module_c_d_flatMap reference_areas single_human_analysis footprints) groups self
        = .ok (materialized_y, next) →
      ∃ ys : List (List (QuantisedFootprint D)),
        List.Forall₂ (fun g y => ∃ a b, module_c_d_flatMap reference_areas a g = .ok (y, b))
            groups ys
          ∧ ys.flatten = materialized_y
          ∧ (∀ y ∈ ys, y = [] ∨ ∃ first rest, y = first :: rest
              ∧ first.rank = QuantisedFootprint.FirstRank
              ∧ ∀ q ∈ rest, q.rank ≠ QuantisedFootprint.FirstRank)
          ∧ next.m_statistics.highly_nomadic_users
              = self.m_statistics.highly_nomadic_users + ys.countP (fun y => y.isEmpty)
  | [], self, next, materialized_y, _, _, h => by
    simp only [flatMap_ex, Except.ok.injEq, Prod.mk.injEq] at h
    obtain ⟨h1, h2⟩ := h
    subst h1 h2
    exact ⟨[], List.Forall₂.nil, rfl, fun y hy => (by cases hy), rfl⟩
  | g :: gs, self, next, materialized_y, hlen, hno, h => by
    simp only [flatMap_ex] at h
    simp only [List.length_cons] at hno
    split at h
    · cases h
    · rename_i bs s1 hg
      split at h
      · cases h
      · rename_i rest s2 hrest
        simp only [Except.ok.injEq, Prod.mk.injEq] at h
        obtain ⟨h1, h2⟩ := h
        subst h1 h2
        have hshape := module_c_d_flatMap_shape reference_areas self s1 g bs
          (hlen g (List.mem_cons_self _ _)) hg
        have hs1 : s1.m_statistics.highly_nomadic_users + gs.length < 2 ^ 32
            ∧ s1.m_statistics.highly_nomadic_users
              = self.m_statistics.highly_nomadic_users + (if bs.isEmpty then 1 else 0) := by
          rcases hshape with ⟨hb, hn⟩ | ⟨first, others, hb, _, _, hn⟩
          · rw [Nat.mod_eq_of_lt (by omega)] at hn
            subst hb
            simp only [List.isEmpty_nil, if_true]
            omega
          · subst hb
            rw [hn]
            simp only [List.isEmpty_cons, Bool.false_eq_true, if_false]
            omega
        obtain ⟨ys, hf, hj, hsh, hcount⟩ := flatMap_ex_groups reference_areas gs s1 s2 rest
          (fun g1 hg1 => hlen g1 (List.mem_cons_of_mem _ hg1)) hs1.1 hrest
        refine ⟨bs :: ys, List.Forall₂.cons ⟨self, s1, hg⟩ hf, ?_, ?_, ?_⟩
        · rw [List.flatten_cons, hj]
        · intro y hy
          rcases List.mem_cons.mp hy with hy1 | hy1
          · subst hy1
            rcases hshape with ⟨hb, _⟩ | ⟨first, others, hb, h0, hr, _⟩
            · exact Or.inl hb
            · exact Or.inr ⟨first, others, hb, h0, hr⟩
          · exact hsh y hy1
        · rw [hcount, hs1.2, List.countP_cons]
          omega

theorem map_update_sum {K : Type} [DecidableEq K] (k : K) (f : Nat → Nat) (v : Nat) :
    ∀ m : List (K × Nat), (m.map Prod.fst).Nodup → unordered_map_find m k = some v →
      ((m.map (fun kv => if kv.1 = k then (kv.1, f kv.2) else kv)).map Prod.snd).sum + v
        = (m.map Prod.snd).sum + f v
  | [], _, h => by simp [unordered_map_find] at h
  | (a, b) :: m, hn, h => by
    simp only [List.map_cons, List.nodup_cons] at hn
    rw [unordered_map_find_cons] at h
    by_cases hk : k = a
    · subst hk
      simp only [if_true, Option.some.injEq] at h
      subst h
      have hid : m.map (fun kv : K × Nat => if kv.1 = k then (kv.1, f kv.2) else kv) = m := by
        conv_rhs => rw [← List.map_id m]
        apply List.map_congr_left
        intro kv hkv
        have : kv.1 ≠ k := fun e => hn.1 (e ▸ List.mem_map.mpr ⟨kv, hkv, rfl⟩)
        simp only [this, if_false, id]
      simp only [List.map_cons, if_true, List.sum_cons, hid]
      omega
    · rw [if_neg hk] at h
      have ih := map_update_sum k f v m hn.2 h
      have hak : ¬ a = k := fun e => hk e.symm
      simp only [List.map_cons, hak, if_false, List.sum_cons]
      omega

theorem unordered_map_update_sum {K : Type} [DecidableEq K] (m : List (K × Nat)) (k : K)
    (f : Nat → Nat) (hn : (m.map Prod.fst).Nodup) :
    ((unordered_map_update m k 0 f).map Prod.snd).sum + (unordered_map_find m k).getD 0
      = (m.map Prod.snd).sum + f ((unordered_map_find m k).getD 0) := by
  unfold unordered_map_update
  cases hf : unordered_map_find m k with
  | none =>
    simp only [Option.isSome_none, Bool.false_eq_true, if_false, Option.getD_none,
      List.map_append, List.map_cons, List.map_nil, List.sum_append, List.sum_cons, List.sum_nil]
    omega
  | some v =>
    simp only [Option.isSome_some, if_true, Option.getD_some]
    exact map_update_sum k f v m hn hf

theorem top_anchor_fold {D : Type} :
    ∀ (y done : List (QuantisedFootprint D)) (m : List (TileIndex × Nat)),
      (done ++ y).countP (fun q => decide (q.rank = QuantisedFootprint.FirstRank)) < 2 ^ 32 →
      (m.map Prod.fst).Nodup →
      (∀ t, unordered_map_find m t
          = if done.countP (fun q => decide (q.rank = QuantisedFootprint.FirstRank
                ∧ q.key.tile = t)) = 0 then none
            else some (done.countP (fun q => decide (q.rank = QuantisedFootprint.FirstRank
                ∧ q.key.tile = t)))) →
      (m.map Prod.snd).sum
        = done.countP (fun q => decide (q.rank = QuantisedFootprint.FirstRank)) →
      ((y.foldl top_anchor_inspect m).map Prod.fst).Nodup
        ∧ (∀ t, unordered_map_find (y.foldl top_anchor_inspect m) t
            = if (done ++ y).countP (fun q => decide (q.rank = QuantisedFootprint.FirstRank
                  ∧ q.key.tile = t)) = 0 then none
              else some ((done ++ y).countP (fun q =>
                  decide (q.rank = QuantisedFootprint.FirstRank ∧ q.key.tile = t))))
        ∧ ((y.foldl top_anchor_inspect m).map Prod.snd).sum
            = (done ++ y).countP (fun q => decide (q.rank = QuantisedFootprint.FirstRank))
  | [], done, m, _, hn, hfind, hsum => by
    simp only [List.foldl_nil, List.append_nil]
    exact ⟨hn, hfind, hsum⟩
  | e :: rest, done, m, hbound, hn, hfind, hsum => by
    have happ : done ++ e :: rest = (done ++ [e]) ++ rest := by simp
    rw [List.foldl_cons, happ]
    rw [happ] at hbound
    have hb1 : (done ++ [e]).countP (fun q => decide (q.rank = QuantisedFootprint.FirstRank))
        < 2 ^ 32 := by
      rw [List.countP_append] at hbound
      omega
    refine top_anchor_fold rest (done ++ [e]) (top_anchor_inspect m e) hbound ?_ ?_ ?_
    · unfold top_anchor_inspect
      split
      · exact unordered_map_update_keys _ _ _ _ hn
      · exact hn
    · intro t
      have hle : done.countP (fun q => decide (q.rank = QuantisedFootprint.FirstRank
            ∧ q.key.tile = t))
          ≤ done.countP (fun q => decide (q.rank = QuantisedFootprint.FirstRank)) := by
        apply List.countP_mono_left
        intro q _ hq
        simp only [decide_eq_true_eq] at hq ⊢
        exact hq.1
      rw [List.countP_append, List.countP_cons, List.countP_nil] at hb1 ⊢
      unfold top_anchor_inspect
      by_cases hr : e.rank = QuantisedFootprint.FirstRank
      · rw [if_pos hr, unordered_map_find_update]
        simp only [hr, decide_True, if_true] at hb1
        by_cases ht : t = e.key.tile
        · subst ht
          have hget : (unordered_map_find m e.key.tile).getD 0
              = done.countP (fun q => decide (q.rank = QuantisedFootprint.FirstRank
                  ∧ q.key.tile = e.key.tile)) := by
            rw [hfind e.key.tile]
            split
            · rename_i h0
              rw [h0]
              rfl
            · rfl
          simp only [hget, hr, and_self, decide_True, if_true, Nat.zero_add]
          rw [Nat.mod_eq_of_lt (by omega), if_neg (by omega)]
        · have hne : ¬ e.key.tile = t := fun h => ht h.symm
          simp only [ht, hne, and_false, decide_False, Bool.false_eq_true, if_false,
            Nat.add_zero]
          exact hfind t
      · rw [if_neg hr]
        simp only [hr, false_and, decide_False, Bool.false_eq_true, if_false, Nat.add_zero]
        exact hfind t
    · rw [List.countP_append, List.countP_cons, List.countP_nil] at hb1 ⊢
      unfold top_anchor_inspect
      by_cases hr : e.rank = QuantisedFootprint.FirstRank
      · rw [if_pos hr]
        simp only [hr, decide_True, if_true, Nat.zero_add] at hb1 ⊢
        have hs := unordered_map_update_sum m e.key.tile (fun count => (count + 1) % 2 ^ 32) hn
        have hget : (unordered_map_find m e.key.tile).getD 0
            ≤ done.countP (fun q => decide (q.rank = QuantisedFootprint.FirstRank)) := by
          rw [hfind e.key.tile]
          have hle : done.countP (fun q => decide (q.rank = QuantisedFootprint.FirstRank
                ∧ q.key.tile = e.key.tile))
              ≤ done.countP (fun q => decide (q.rank = QuantisedFootprint.FirstRank)) := by
            apply List.countP_mono_left
            intro q _ hq
            simp only [decide_eq_true_eq] at hq ⊢
            exact hq.1
          split
          · exact Nat.zero_le _
          · exact hle
        simp only at hs
        rw [Nat.mod_eq_of_lt (by omega)] at hs
        omega
      · rw [if_neg hr]
        simp only [hr, decide_False, Bool.false_eq_true, if_false, Nat.add_zero]
        exact hsum

theorem group_countP {D : Type} (P : QuantisedFootprint D → Bool)
    (hP : ∀ q, P q = true → q.rank = QuantisedFootprint.FirstRank)
    (y : List (QuantisedFootprint D))
    (hshape : y = [] ∨ ∃ first rest, y = first :: rest
      ∧ first.rank = QuantisedFootprint.FirstRank
      ∧ ∀ q ∈ rest, q.rank ≠ QuantisedFootprint.FirstRank) :
    y.countP P = if y.any P then 1 else 0 := by
  rcases hshape with hy | ⟨first, rest, hy, _, hrest⟩
  · subst hy
    rfl
  · subst hy
    have h0 : rest.countP P = 0 :=
      List.countP_eq_zero.mpr (fun q hq hp => hrest q hq (hP q hp))
    have ha : rest.any P = false := by
      rw [List.any_eq_false]
      intro q hq hp
      exact hrest q hq (hP q hp)
    rw [List.countP_cons, h0, List.any_cons, ha, Bool.or_false, Nat.zero_add]

theorem groups_countP {D : Type} (P : QuantisedFootprint D → Bool)
    (hP : ∀ q, P q = true → q.rank = QuantisedFootprint.FirstRank) :
    ∀ ys : List (List (QuantisedFootprint D)),
      (∀ y ∈ ys, y = [] ∨ ∃ first rest, y = first :: rest
        ∧ first.rank = QuantisedFootprint.FirstRank
        ∧ ∀ q ∈ rest, q.rank ≠ QuantisedFootprint.FirstRank) →
      ys.flatten.countP P = ys.countP (fun y => y.any P)
  | [], _ => rfl
  | y :: ys, hsh => by
    rw [List.flatten_cons, List.countP_append, List.countP_cons,
      groups_countP P hP ys (fun y1 hy1 => hsh y1 (List.mem_cons_of_mem _ hy1)),
      group_countP P hP y (hsh y (List.mem_cons_self _ _))]
    omega

theorem groups_count_first {D : Type} :
    ∀ ys : List (List (QuantisedFootprint D)),
      (∀ y ∈ ys, y = [] ∨ ∃ first rest, y = first :: rest
        ∧ first.rank = QuantisedFootprint.FirstRank
        ∧ ∀ q ∈ rest, q.rank ≠ QuantisedFootprint.FirstRank) →
      ys.flatten.countP (fun q => decide (q.rank = QuantisedFootprint.FirstRank))
          + ys.countP (fun y => y.isEmpty)
        = ys.length
  | [], _ => rfl
  | y :: ys, hsh => by
    have ih := groups_count_first ys (fun y1 hy1 => hsh y1 (List.mem_cons_of_mem _ hy1))
    rw [List.flatten_cons, List.countP_append, List.countP_cons, List.length_cons]
    rcases hsh y (List.mem_cons_self _ _) with hy | ⟨first, rest, hy, h0, hrest⟩
    · subst hy
      simp only [List.countP_nil, List.isEmpty_nil, if_true]
      omega
    · subst hy
      have hr : rest.countP (fun q => decide (q.rank = QuantisedFootprint.FirstRank)) = 0 :=
        List.countP_eq_zero.mpr (fun q hq hp => hrest q hq (of_decide_eq_true hp))
      simp only [List.countP_cons, hr, h0, decide_True, if_true, List.isEmpty_cons,
        Bool.false_eq_true, if_false]
      omega

theorem flatMap_ex_total {F D : Type} [FloatArith F] [Zero D]
    (reference_areas : ReferenceAreas) (hmax : reference_areas.length ≤ MAX_REFERENCE_AREAS) :
    ∀ (groups : List (List (AccumulatedUserFootprint F))) (self : SingleHumanAnalysis D),
      ∃ materialized_y next,
        flatMap_ex (fun single_human_analysis footprints =>
            module_c_d_flatMap reference_areas single_human_analysis footprints) groups self
          = .ok (materialized_y, next)
  | [], self => ⟨[], self, rfl⟩
  | g :: gs, self => by
    obtain ⟨bits, hbits⟩ := add_reference_areas_loop_total (self.operator_call g).1
      reference_areas 0 0 (by rw [Nat.zero_add]; exact hmax)
    obtain ⟨rest, next, hrest⟩ := flatMap_ex_total reference_areas hmax gs (self.operator_call g).2
    refine ⟨(self.operator_call g).1.map
      (fun q => { q with reference_area_indices := bits }) ++ rest, next, ?_⟩
    have hg : module_c_d_flatMap reference_areas self g
        = .ok ((self.operator_call g).1.map
            (fun q => { q with reference_area_indices := bits }), (self.operator_call g).2) := by
      simp only [module_c_d_flatMap, hbits]
    simp only [flatMap_ex, hg, hrest]

/-- C38: top-anchor and nomadic accounting, for an S stream of fewer than
`2 ^ 32` records (so that no `uint32_t` counter or rank wraps around). With at
most `MAX_REFERENCE_AREAS` reference areas the Y stream is materialised; and
whenever it is, with `ys` the outputs of the Module C/D lambda for the
successive user groups (the Y stream is their concatenation, and the output of
a group is empty or starts with its only record of rank `FirstRank`):
`top_anchor_dist[t]` is the number of user groups whose record of rank
`FirstRank` has tile `t`, every stored count is at least 1, and the number of
user groups equals `highly_nomadic_users` plus the sum of all counts of
`top_anchor_dist`. -/
theorem top_anchor_and_nomadic_accounting {F D : Type} [FloatArith F] [Zero D]
    (reference_areas : ReferenceAreas) (s : List (AccumulatedUserFootprint F))
    (m_rng : Xoshiro256Plus) (hlen : s.length < 2 ^ 32) :
    (reference_areas.length ≤ MAX_REFERENCE_AREAS →
        ∃ materialized_y single_human_analysis,
          flatMap_ex (fun single_human_analysis footprints =>
              module_c_d_flatMap reference_areas single_human_analysis footprints)
            (groupBy (fun left right : AccumulatedUserFootprint F =>
              left.key.id == right.key.id) s)
            (⟨⟨0, 0, 0⟩, m_rng⟩ : SingleHumanAnalysis D)
          = .ok (materialized_y, single_human_analysis))
      ∧ ∀ (materialized_y : List (QuantisedFootprint D))
          (single_human_analysis : SingleHumanAnalysis D),
          flatMap_ex (fun single_human_analysis footprints =>
              module_c_d_flatMap reference_areas single_human_analysis footprints)
            (groupBy (fun left right : AccumulatedUserFootprint F =>
              left.key.id == right.key.id) s)
            (⟨⟨0, 0, 0⟩, m_rng⟩ : SingleHumanAnalysis D)
          = .ok (materialized_y, single_human_analysis) →
          ∃ ys : List (List (QuantisedFootprint D)),
            List.Forall₂
                (fun g y => ∃ a b, module_c_d_flatMap reference_areas a g = .ok (y, b))
                (groupBy (fun left right : AccumulatedUserFootprint F =>
                  left.key.id == right.key.id) s) ys
              ∧ ys.flatten = materialized_y
              ∧ (∀ y ∈ ys, y = [] ∨ ∃ first rest, y = first :: rest
                  ∧ first.rank = QuantisedFootprint.FirstRank
                  ∧ ∀ q ∈ rest, q.rank ≠ QuantisedFootprint.FirstRank)
              ∧ (∀ t, (unordered_map_find (materialized_y.foldl top_anchor_inspect []) t).getD 0
                  = ys.countP (fun y => y.any (fun q =>
                      decide (q.rank = QuantisedFootprint.FirstRank ∧ q.key.tile = t))))
              ∧ (∀ kv ∈ materialized_y.foldl top_anchor_inspect [], 1 ≤ kv.2)
              ∧ (groupBy (fun left right : AccumulatedUserFootprint F =>
                    left.key.id == right.key.id) s).length
                  = single_human_analysis.m_statistics.highly_nomadic_users
                    + ((materialized_y.foldl top_anchor_inspect []).map Prod.snd).sum := by
  refine ⟨fun hmax => flatMap_ex_total reference_areas hmax _ _, ?_⟩
  intro materialized_y single_human_analysis hrun
  obtain ⟨hgl, hgg⟩ := groupBy_length_le
    (fun left right : AccumulatedUserFootprint F => left.key.id == right.key.id) s
  obtain ⟨ys, hf, hj, hsh, hcount⟩ := flatMap_ex_groups reference_areas _ _ _ _
    (fun g hg => by have := hgg g hg; omega)
    (by show 0 + _ < 2 ^ 32; omega) hrun
  have hys := hf.length_eq
  have hfirst := groups_count_first ys hsh
  rw [hj] at hfirst
  obtain ⟨hn, hfind, hsum⟩ := top_anchor_fold materialized_y [] []
    (by rw [List.nil_append]; omega) List.nodup_nil (fun t => rfl) rfl
  simp only [List.nil_append] at hfind hsum
  have hp : ∀ t, materialized_y.countP (fun q =>
        decide (q.rank = QuantisedFootprint.FirstRank ∧ q.key.tile = t))
      = ys.countP (fun y => y.any (fun q =>
          decide (q.rank = QuantisedFootprint.FirstRank ∧ q.key.tile = t))) := by
    intro t
    rw [← hj]
    exact groups_countP _ (fun q hq => (of_decide_eq_true hq).1) ys hsh
  refine ⟨ys, hf, hj, hsh, fun t => ?_, fun kv hkv => ?_, ?_⟩
  · rw [hfind t, hp t]
    split
    · rename_i h0
      rw [h0]
      rfl
    · rfl
  · have h1 := (unordered_map_mem_iff_find _ hn kv.1 kv.2).mp hkv
    rw [hfind kv.1] at h1
    split at h1
    · cases h1
    · simp only [Option.some.injEq] at h1
      omega
  · rw [hsum, hcount]
    show _ = 0 + _ + _
    omega

theorem top_anchor_and_nomadic_accounting_witness :
    s_two_users.length < 2 ^ 32
      ∧ (∃ materialized_y single_human_analysis,
          flatMap_ex (fun single_human_analysis footprints =>
              module_c_d_flatMap [[⟨10, 10⟩]] single_human_analysis footprints)
            (groupBy (fun left right : AccumulatedUserFootprint ℚ =>
              left.key.id == right.key.id) s_two_users)
            single_human_analysis_1234
          = .ok (materialized_y, single_human_analysis))
      ∧ (∀ (materialized_y : List (QuantisedFootprint ℚ))
          (single_human_analysis : SingleHumanAnalysis ℚ),
          flatMap_ex (fun single_human_analysis footprints =>
              module_c_d_flatMap [[⟨10, 10⟩]] single_human_analysis footprints)
            (groupBy (fun left right : AccumulatedUserFootprint ℚ =>
              left.key.id == right.key.id) s_two_users)
            single_human_analysis_1234
          = .ok (materialized_y, single_human_analysis) →
          (groupBy (fun left right : AccumulatedUserFootprint ℚ =>
              left.key.id == right.key.id) s_two_users).length
            = single_human_analysis.m_statistics.highly_nomadic_users
              + ((materialized_y.foldl top_anchor_inspect []).map Prod.snd).sum)
      ∧ (flatMap_ex (fun single_human_analysis footprints =>
              module_c_d_flatMap [[⟨10, 10⟩]] single_human_analysis footprints)
            (groupBy (fun left right : AccumulatedUserFootprint ℚ =>
              left.key.id == right.key.id) s_two_users)
            single_human_analysis_1234).toOption.map
          (fun r => (r.2.m_statistics.highly_nomadic_users,
            r.1.foldl top_anchor_inspect []))
        = some (1, [(⟨12, 10⟩, 1)]) :=
  ⟨by decide,
    (top_anchor_and_nomadic_accounting [[⟨10, 10⟩]] s_two_users ⟨1, 2, 3, 4⟩
      (by decide)).1 (by decide),
    fun materialized_y single_human_analysis h =>
      ((top_anchor_and_nomadic_accounting [[⟨10, 10⟩]] s_two_users ⟨1, 2, 3, 4⟩
        (by decide)).2 materialized_y single_human_analysis h).elim
        (fun _ hys => hys.2.2.2.2.2),
    by with_unfolding_all decide⟩

/-! ## The state machine: S file slots, skipped periods, manual finish -/

/-- What a successful call of `process_manually_finish_report` has done. -/
theorem process_manually_finish_report_ok (env : Env) (state : State)
    (outputs : TaskOutputs) (old_s_files_to_delete : List String) (application_log : String)
    (r : Result)
    (h : process_manually_finish_report env state outputs old_s_files_to_delete application_log
      = .ok r) :
    ∃ (new_s_file_key : SgxFileKey) (s_records : Nat) (reference_areas : ReferenceAreas)
        (effect : RunEffect),
      env.create_dummy_h_file (env.persistent_path ++ "dummy_h_file") = .ok ()
        ∧ env.sgx_read_rand = .ok new_s_file_key
        ∧ env.h_file_source (env.persistent_path ++ "dummy_h_file") = .ok 0
        ∧ env.s_file_source (s_file_path env state.s_file_name_index) state.s_file_key
            = .ok s_records
        ∧ s_records ≠ 0
        ∧ deserialize (PRANGE state.awaiting_new_h_files.report_request.reference_areas
            state.awaiting_new_h_files.report_request.num_of_reference_areas ⟨0, ⟨0, 0⟩⟩)
            = .ok reference_areas
        ∧ env.full_analysis_run
            { h_file := env.persistent_path ++ "dummy_h_file"
              s_file_in := s_file_path env state.s_file_name_index
              s_file_in_key := state.s_file_key
              s_file_out := s_file_path env (!state.s_file_name_index)
              s_file_out_key := new_s_file_key
              pseudonymisation_key := List.replicate 16 0
              what_to_do := .FullAnalysis
              reference_areas := reference_areas
              residents := deserialize_census []
                (PRANGE state.awaiting_new_h_files.report_request.census_residents
                  state.awaiting_new_h_files.report_request.num_of_census_residents
                  ⟨⟨0, 0⟩, 0⟩)
              with_calibration := state.awaiting_new_h_files.report_request.with_calibration ≠ 0 }
            = .ok effect
        ∧ r = ⟨State.go_into_request_await_state
                { state with s_file_name_index := !state.s_file_name_index },
              outputs ++ effect.outputs,
              old_s_files_to_delete ++ [s_file_path env state.s_file_name_index],
              log_runtime env.start_time env.end_time
                (log_skipped_periods state.awaiting_new_h_files.next_expected_period
                  (state.awaiting_new_h_files.report_request.last_period + 1)
                  (log_request_arguments state.awaiting_new_h_files.report_request
                    (application_log ++ "The report generation process was started manually.")
                    ++ "Expected next period: "
                    ++ toString state.awaiting_new_h_files.next_expected_period ++ "\n")
                  ++ effect.application_log)⟩ := by
  unfold process_manually_finish_report at h
  simp only [bind, Except.bind, pure, Except.pure, throw, throwThe, MonadExceptOf.throw] at h
  split at h
  · cases h
  · rename_i hdummy
    split at h
    · cases h
    · split at h
      · cases h
      · rename_i new_key hrand
        split at h
        · cases h
        · rename_i h_records hh
          split at h
          · cases h
          · rename_i s_records hs
            split at h
            · cases h
            · rename_i hh0
              split at h
              · cases h
              · rename_i hs0
                split at h
                · cases h
                · rename_i reference_areas hde
                  split at h
                  · cases h
                  · rename_i effect hrun
                    simp only [Except.ok.injEq] at h
                    have hh1 : h_records = 0 := not_not.mp hh0
                    subst hh1
                    exact ⟨new_key, s_records, reference_areas, effect, hdummy,
                      external_ok _ _ hrand, external_ok _ _ hh, external_ok _ _ hs, hs0, hde,
                      external_ok _ _ hrun, h.symm⟩

/-- When every collaborator succeeds, the dummy H file is empty and the current
S file holds a record, `process_manually_finish_report` returns. -/
theorem process_manually_finish_report_runs (env : Env) (state : State)
    (outputs : TaskOutputs) (old_s_files_to_delete : List String) (application_log : String)
    (new_s_file_key : SgxFileKey) (s_records : Nat) (reference_areas : ReferenceAreas)
    (effect : RunEffect)
    (hdummy : env.create_dummy_h_file (env.persistent_path ++ "dummy_h_file") = .ok ())
    (hcreate : env.create_empty_if_not_exists (s_file_path env state.s_file_name_index)
      state.s_file_key = .ok ())
    (hrand : env.sgx_read_rand = .ok new_s_file_key)
    (hh : env.h_file_source (env.persistent_path ++ "dummy_h_file") = .ok 0)
    (hs : env.s_file_source (s_file_path env state.s_file_name_index) state.s_file_key
      = .ok s_records)
    (hs0 : s_records ≠ 0)
    (hde : deserialize (PRANGE state.awaiting_new_h_files.report_request.reference_areas
      state.awaiting_new_h_files.report_request.num_of_reference_areas ⟨0, ⟨0, 0⟩⟩)
      = .ok reference_areas)
    (hrun : env.full_analysis_run
        { h_file := env.persistent_path ++ "dummy_h_file"
          s_file_in := s_file_path env state.s_file_name_index
          s_file_in_key := state.s_file_key
          s_file_out := s_file_path env (!state.s_file_name_index)
          s_file_out_key := new_s_file_key
          pseudonymisation_key := List.replicate 16 0
          what_to_do := .FullAnalysis
          reference_areas := reference_areas
          residents := deserialize_census []
            (PRANGE state.awaiting_new_h_files.report_request.census_residents
              state.awaiting_new_h_files.report_request.num_of_census_residents
              ⟨⟨0, 0⟩, 0⟩)
          with_calibration := state.awaiting_new_h_files.report_request.with_calibration ≠ 0 }
        = .ok effect) :
    ∃ r, process_manually_finish_report env state outputs old_s_files_to_delete application_log
      = .ok r := by
  unfold process_manually_finish_report
  simp only [bind, Except.bind, pure, Except.pure, throw, throwThe, MonadExceptOf.throw,
    hdummy, hcreate, hrand, hh, hs, hde, hrun, external, hs0, not_true_eq_false, if_false]
  exact ⟨_, rfl⟩

/-- An empty current S file makes `process_manually_finish_report` throw. -/
theorem process_manually_finish_report_empty_s (env : Env) (state : State)
    (outputs : TaskOutputs) (old_s_files_to_delete : List String) (application_log : String)
    (hs : env.s_file_source (s_file_path env state.s_file_name_index) state.s_file_key = .ok 0) :
    ∃ e, process_manually_finish_report env state outputs old_s_files_to_delete application_log
      = .error e := by
  cases hr : process_manually_finish_report env state outputs old_s_files_to_delete
      application_log with
  | error e => exact ⟨e, rfl⟩
  | ok r =>
    obtain ⟨_, s_records, _, _, _, _, _, hs1, hs0, _⟩ :=
      process_manually_finish_report_ok env state outputs old_s_files_to_delete
        application_log r hr
    rw [hs] at hs1
    simp only [Except.ok.injEq] at hs1
    exact absurd hs1.symm hs0

/-- The log that a successful call of `process_h_file` leaves behind. -/
theorem process_h_file_ok_log (env : Env) (state : State) (inputs : TaskInputs)
    (outputs : TaskOutputs) (old_s_files_to_delete : List String) (application_log : String)
    (h_file : String) (given_period : Nat) (r : Result)
    (h : process_h_file env state inputs outputs old_s_files_to_delete application_log h_file
      given_period = .ok r) :
    ∃ (metadata : String) (arguments : RunArguments) (effect : RunEffect),
      env.read_file (h_file ++ ".meta") = .ok metadata
        ∧ env.full_analysis_run arguments = .ok effect
        ∧ r.application_log
          = log_runtime env.start_time env.end_time
              (log_skipped_periods state.awaiting_new_h_files.next_expected_period given_period
                (log_request_arguments state.awaiting_new_h_files.report_request
                  (application_log ++ "\nH metadata:\n" ++ metadata ++ "\n")
                  ++ "Expected next period: "
                  ++ toString state.awaiting_new_h_files.next_expected_period ++ "\n")
                ++ effect.application_log) := by
  unfold process_h_file at h
  simp only [bind, Except.bind, pure, Except.pure, throw, throwThe, MonadExceptOf.throw] at h
  split at h
  · cases h
  · rename_i log1 hmeta
    have hlog : ∃ metadata, env.read_file (h_file ++ ".meta") = .ok metadata
        ∧ log1 = application_log ++ "\nH metadata:\n" ++ metadata ++ "\n" := by
      unfold read_h_metadata_file at hmeta
      split at hmeta
      · cases hmeta
      · rename_i metadata hread
        simp only [Except.ok.injEq] at hmeta
        exact ⟨metadata, external_ok _ _ hread, hmeta.symm⟩
    obtain ⟨metadata, hread, hl⟩ := hlog
    subst hl
    split at h
    · cases h
    · split at h
      · cases h
      · split at h
        · cases h
        · split at h
          · cases h
          · split at h
            · cases h
            · split at h
              · cases h
              · split at h
                · cases h
                · split at h
                  · cases h
                  · split at h
                    · cases h
                    · rename_i effect hrun
                      simp only [Except.ok.injEq] at h
                      subst h
                      exact ⟨metadata, _, effect, hread, external_ok _ _ hrun, rfl⟩

theorem string_foldl_append (l : List String) :
    ∀ s : String, l.foldl (fun r x => r ++ x) s = s ++ String.join l := by
  induction l with
  | nil => intro s; simp [String.join]
  | cons x xs ih =>
    intro s
    simp only [String.join, List.foldl_cons]
    rw [ih (s ++ x), ih ("" ++ x), String.empty_append, String.append_assoc]

theorem string_join_cons (x : String) (xs : List String) :
    String.join (x :: xs) = x ++ String.join xs := by
  simp only [String.join, List.foldl_cons]
  rw [string_foldl_append xs ("" ++ x), String.empty_append]
  rfl

theorem log_skipped_foldl (l : List Nat) :
    ∀ application_log : String,
      l.foldl (fun log skipped => log ++ "Skipped period " ++ toString skipped ++ "\n")
          application_log
        = application_log ++ String.join (l.map skipped_period_line) := by
  induction l with
  | nil => intro log; simp [String.join]
  | cons p ps ih =>
    intro log
    rw [List.foldl_cons, ih, List.map_cons, string_join_cons]
    simp only [skipped_period_line, String.append_assoc]

theorem log_skipped_periods_eq (first last_exclusive : Nat) (application_log : String) :
    log_skipped_periods first last_exclusive application_log
      = application_log
        ++ String.join ((skipped_periods first last_exclusive).map skipped_period_line) :=
  log_skipped_foldl _ application_log

theorem log_skipped_periods_loop_eq (last_exclusive : Nat) (hlast : last_exclusive < 2 ^ 64) :
    ∀ (fuel first : Nat) (application_log : String), last_exclusive - first < fuel →
      log_skipped_periods_loop fuel first last_exclusive application_log
        = some (log_skipped_periods first last_exclusive application_log)
  | 0, _, _, h => by omega
  | fuel + 1, first, application_log, h => by
    unfold log_skipped_periods_loop
    by_cases hc : first < last_exclusive
    · rw [if_pos hc, Nat.mod_eq_of_lt (by omega),
        log_skipped_periods_loop_eq last_exclusive hlast fuel (first + 1) _ (by omega)]
      have e : last_exclusive - first = (last_exclusive - (first + 1)) + 1 := by omega
      simp only [log_skipped_periods]
      rw [e, List.range'_succ, List.foldl_cons]
    · rw [if_neg hc]
      have e : last_exclusive - first = 0 := by omega
      simp only [log_skipped_periods, e, List.range'_zero, List.foldl_nil]

theorem process_state_finish_report (env : Env) (state : State) (inputs : TaskInputs)
    (outputs : TaskOutputs) (old_s_files_to_delete : List String) (application_log : String)
    (v : String) (hstate : state.state = .AWAITING_NEW_H_FILES)
    (hargs : inputs.arguments = [("finish-report", v)]) :
    process_state env state inputs outputs old_s_files_to_delete application_log
      = process_manually_finish_report env state outputs old_s_files_to_delete
          application_log := by
  have hk : ("cancel" == "finish-report") = false := by decide
  simp [process_state, hstate, TaskInputs.argument, hargs, arguments.cancel,
    arguments.finish_report, List.lookup, hk]

/-- C33: S-file double buffering. Every successful `process_h_file` and every
successful `process_manually_finish_report` hands to the analysis the slot
`s_file_name_index` as the S file to read and the other slot as the S file to
write, and appends exactly the path of the slot it read to the files to
delete. After a successful `process_h_file` with OnlyStateUpdate the stored
`s_file_name_index` is the negation of its previous value, so that it names
the slot that the analysis was given to write. -/
theorem s_file_double_buffering (env : Env) (state : State) (inputs : TaskInputs)
    (outputs : TaskOutputs) (old_s_files_to_delete : List String) (application_log : String)
    (h_file : String) (given_period : Nat) :
    (∀ r, process_h_file env state inputs outputs old_s_files_to_delete application_log h_file
          given_period = .ok r →
        ∃ arguments effect, env.full_analysis_run arguments = .ok effect
          ∧ arguments.s_file_in = s_file_path env state.s_file_name_index
          ∧ arguments.s_file_out = s_file_path env (!state.s_file_name_index)
          ∧ arguments.s_file_in ≠ arguments.s_file_out
          ∧ r.old_s_files_to_delete
              = old_s_files_to_delete ++ [s_file_path env state.s_file_name_index]
          ∧ (arguments.what_to_do = .OnlyStateUpdate →
              r.state.s_file_name_index = !state.s_file_name_index
                ∧ s_file_path env r.state.s_file_name_index = arguments.s_file_out))
      ∧ (∀ r, process_manually_finish_report env state outputs old_s_files_to_delete
            application_log = .ok r →
          ∃ arguments effect, env.full_analysis_run arguments = .ok effect
            ∧ (∃ s_records, env.s_file_source (s_file_path env state.s_file_name_index)
                state.s_file_key = .ok s_records)
            ∧ arguments.s_file_in = s_file_path env state.s_file_name_index
            ∧ arguments.s_file_out = s_file_path env (!state.s_file_name_index)
            ∧ arguments.s_file_in ≠ arguments.s_file_out
            ∧ r.old_s_files_to_delete
                = old_s_files_to_delete ++ [s_file_path env state.s_file_name_index]) := by
  have hne : ∀ b : Bool, s_file_path env b ≠ s_file_path env (!b) := by
    intro b hb
    have h0 : env.persistent_path ++ "s_file0" ≠ env.persistent_path ++ "s_file1" := by
      intro e
      have := congrArg String.data e
      simp only [String.data_append, List.append_cancel_left_eq] at this
      exact absurd this (by decide)
    cases b
    · rw [Bool.not_false, s_file_path_false, s_file_path_true] at hb
      exact h0 hb
    · rw [Bool.not_true, s_file_path_false, s_file_path_true] at hb
      exact h0 hb.symm
  refine ⟨fun r h => ?_, fun r h => ?_⟩
  · obtain ⟨_, _, arguments, effect, _, _, _, _, _, _, hrun, hwhat, _, hin, hout, _, _, hr, _,
      hold⟩ := process_h_file_ok env state inputs outputs old_s_files_to_delete
        application_log h_file given_period r h
    refine ⟨arguments, effect, hrun, hin, hout, ?_, hold, fun hw => ?_⟩
    · rw [hin, hout]
      exact hne _
    · rw [hwhat] at hw
      have hi : r.state.s_file_name_index = !state.s_file_name_index := by
        rw [hr, hw]
        rfl
      rw [hi, hout]
      exact ⟨rfl, rfl⟩
  · obtain ⟨_, s_records, _, effect, _, _, _, hs, _, _, hrun, hr⟩ :=
      process_manually_finish_report_ok env state outputs old_s_files_to_delete
        application_log r h
    refine ⟨_, effect, hrun, ⟨s_records, hs⟩, rfl, rfl, hne _, ?_⟩
    rw [hr]

theorem s_file_double_buffering_witness :
    (∃ r, process_h_file env_ok (state_B 1) (inputs_period "1") [] [] "" "h" 1 = .ok r
        ∧ r.old_s_files_to_delete = ["/data/s_file0"]
        ∧ ∃ arguments effect, env_ok.full_analysis_run arguments = .ok effect
          ∧ arguments.s_file_in = s_file_path env_ok (state_B 1).s_file_name_index
          ∧ arguments.s_file_out = s_file_path env_ok (!(state_B 1).s_file_name_index)
          ∧ arguments.s_file_in ≠ arguments.s_file_out
          ∧ r.old_s_files_to_delete
              = [] ++ [s_file_path env_ok (state_B 1).s_file_name_index]
          ∧ (arguments.what_to_do = .OnlyStateUpdate →
              r.state.s_file_name_index = !(state_B 1).s_file_name_index
                ∧ s_file_path env_ok r.state.s_file_name_index = arguments.s_file_out))
      ∧ (∃ r, process_manually_finish_report env_finish (state_B 2) [] [] "" = .ok r
        ∧ r.old_s_files_to_delete = ["/data/s_file0"]
        ∧ ∃ arguments effect, env_finish.full_analysis_run arguments = .ok effect
          ∧ (∃ s_records, env_finish.s_file_source
              (s_file_path env_finish (state_B 2).s_file_name_index) (state_B 2).s_file_key
              = .ok s_records)
          ∧ arguments.s_file_in = s_file_path env_finish (state_B 2).s_file_name_index
          ∧ arguments.s_file_out = s_file_path env_finish (!(state_B 2).s_file_name_index)
          ∧ arguments.s_file_in ≠ arguments.s_file_out
          ∧ r.old_s_files_to_delete
              = [] ++ [s_file_path env_finish (state_B 2).s_file_name_index]) :=
  ⟨⟨_, rfl, rfl,
      (s_file_double_buffering env_ok (state_B 1) (inputs_period "1") [] [] "" "h" 1).1 _ rfl⟩,
    ⟨_, rfl, rfl,
      (s_file_double_buffering env_finish (state_B 2) (inputs_period "1") [] [] "" "h" 1).2 _
        rfl⟩⟩

theorem skipped_periods_spec (first last_exclusive : Nat) :
    (∀ p, p ∈ skipped_periods first last_exclusive ↔ first ≤ p ∧ p < last_exclusive)
      ∧ (skipped_periods first last_exclusive).Pairwise (fun p q => p < q)
      ∧ (skipped_periods first last_exclusive).length = last_exclusive - first := by
  refine ⟨fun p => ?_, ?_, ?_⟩
  · unfold skipped_periods
    rw [List.mem_range'_1]
    omega
  · unfold skipped_periods
    exact List.pairwise_lt_range' _ _
  · unfold skipped_periods
    exact List.length_range' _ _ _

/-- C34: skipped-period logging. A successful `process_h_file` for the period
`n` leaves the log: the log so far, the metadata text, the request arguments,
the line "Expected next period", then one line "Skipped period p" for each
period `p` of `skipped_periods next_expected_period n`, then the log of the
analysis and the run time. A successful `process_manually_finish_report`
leaves the same with the periods of
`skipped_periods next_expected_period (last_period + 1)`. The list
`skipped_periods first last_exclusive` holds exactly the periods `p` with
`first <= p < last_exclusive`, in increasing order, each once. For
`next_expected_period <= last_period` the manual finish logs
`last_period - next_expected_period + 1` lines, and for every 32-bit
`last_period` (also `2 ^ 32 - 1`) the loop with its `uint64_t` variable ends
after that many passes with the text of `log_skipped_periods`. -/
theorem skipped_period_logging (env : Env) (state : State) (inputs : TaskInputs)
    (outputs : TaskOutputs) (old_s_files_to_delete : List String) (application_log : String)
    (h_file : String) (n : Nat) :
    (∀ r, process_h_file env state inputs outputs old_s_files_to_delete application_log h_file n
          = .ok r →
        ∃ (metadata : String) (arguments : RunArguments) (effect : RunEffect),
          env.read_file (h_file ++ ".meta") = .ok metadata
            ∧ env.full_analysis_run arguments = .ok effect
            ∧ r.application_log
              = log_runtime env.start_time env.end_time
                  (log_request_arguments state.awaiting_new_h_files.report_request
                      (application_log ++ "\nH metadata:\n" ++ metadata ++ "\n")
                    ++ "Expected next period: "
                    ++ toString state.awaiting_new_h_files.next_expected_period ++ "\n"
                    ++ String.join
                        ((skipped_periods state.awaiting_new_h_files.next_expected_period n).map
                          skipped_period_line)
                    ++ effect.application_log))
      ∧ (∀ r, process_manually_finish_report env state outputs old_s_files_to_delete
            application_log = .ok r →
          ∃ effect : RunEffect,
            r.application_log
              = log_runtime env.start_time env.end_time
                  (log_request_arguments state.awaiting_new_h_files.report_request
                      (application_log ++ "The report generation process was started manually.")
                    ++ "Expected next period: "
                    ++ toString state.awaiting_new_h_files.next_expected_period ++ "\n"
                    ++ String.join
                        ((skipped_periods state.awaiting_new_h_files.next_expected_period
                          (state.awaiting_new_h_files.report_request.last_period + 1)).map
                          skipped_period_line)
                    ++ effect.application_log))
      ∧ (∀ first last_exclusive,
          (∀ p, p ∈ skipped_periods first last_exclusive ↔ first ≤ p ∧ p < last_exclusive)
            ∧ (skipped_periods first last_exclusive).Pairwise (fun p q => p < q)
            ∧ (skipped_periods first last_exclusive).length = last_exclusive - first)
      ∧ (∀ p, p ∈ skipped_periods state.awaiting_new_h_files.next_expected_period
              (state.awaiting_new_h_files.report_request.last_period + 1)
            ↔ state.awaiting_new_h_files.next_expected_period ≤ p
              ∧ p ≤ state.awaiting_new_h_files.report_request.last_period)
      ∧ (state.awaiting_new_h_files.next_expected_period
            ≤ state.awaiting_new_h_files.report_request.last_period →
          (skipped_periods state.awaiting_new_h_files.next_expected_period
              (state.awaiting_new_h_files.report_request.last_period + 1)).length
            = state.awaiting_new_h_files.report_request.last_period
              - state.awaiting_new_h_files.next_expected_period + 1)
      ∧ (state.awaiting_new_h_files.report_request.last_period ≤ Period_max →
          ∀ log : String,
            log_skipped_periods_loop
                (state.awaiting_new_h_files.report_request.last_period
                  - state.awaiting_new_h_files.next_expected_period + 2)
                state.awaiting_new_h_files.next_expected_period
                (state.awaiting_new_h_files.report_request.last_period + 1) log
              = some (log_skipped_periods state.awaiting_new_h_files.next_expected_period
                  (state.awaiting_new_h_files.report_request.last_period + 1) log)) := by
  refine ⟨fun r h => ?_, fun r h => ?_, skipped_periods_spec, fun p => ?_, fun hn => ?_,
    fun hlast log => ?_⟩
  · obtain ⟨metadata, arguments, effect, hread, hrun, hlog⟩ :=
      process_h_file_ok_log env state inputs outputs old_s_files_to_delete application_log
        h_file n r h
    refine ⟨metadata, arguments, effect, hread, hrun, ?_⟩
    rw [hlog, log_skipped_periods_eq]
  · obtain ⟨_, _, _, effect, _, _, _, _, _, _, _, hr⟩ :=
      process_manually_finish_report_ok env state outputs old_s_files_to_delete
        application_log r h
    refine ⟨effect, ?_⟩
    rw [hr, log_skipped_periods_eq]
  · rw [(skipped_periods_spec _ _).1]
    omega
  · rw [(skipped_periods_spec _ _).2.2]
    omega
  · have hP : Period_max = 4294967295 := rfl
    exact log_skipped_periods_loop_eq _ (by omega) _ _ _ (by omega)

theorem skipped_period_logging_witness :
    (∃ r, process_h_file env_ok (state_B 1) (inputs_period "4") [] [] "" "h" 4 = .ok r
        ∧ r.application_log
          = "\nH metadata:\nmeta\nWith calibration: false\nFirst period: 1, last period: 5\n"
            ++ "Expected next period: 1\n"
            ++ "Skipped period 1\nSkipped period 2\nSkipped period 3\n"
            ++ "\nRuntime of enclave (not trustworthy): 0s\n"
        ∧ ∃ (metadata : String) (arguments : RunArguments) (effect : RunEffect),
          env_ok.read_file ("h" ++ ".meta") = .ok metadata
            ∧ env_ok.full_analysis_run arguments = .ok effect
            ∧ r.application_log
              = log_runtime env_ok.start_time env_ok.end_time
                  (log_request_arguments (state_B 1).awaiting_new_h_files.report_request
                      ("" ++ "\nH metadata:\n" ++ metadata ++ "\n")
                    ++ "Expected next period: "
                    ++ toString (state_B 1).awaiting_new_h_files.next_expected_period ++ "\n"
                    ++ String.join
                        ((skipped_periods (state_B 1).awaiting_new_h_files.next_expected_period
                          4).map skipped_period_line)
                    ++ effect.application_log))
      ∧ (∃ r, process_manually_finish_report env_finish state_last [] [] "" = .ok r
        ∧ r.application_log
          = "The report generation process was started manually."
            ++ "With calibration: false\nFirst period: 4294967295, last period: 4294967295\n"
            ++ "Expected next period: 4294967295\n"
            ++ "Skipped period 4294967295\n"
            ++ "\nRuntime of enclave (not trustworthy): 0s\n"
        ∧ ∃ effect : RunEffect,
          r.application_log
            = log_runtime env_finish.start_time env_finish.end_time
                (log_request_arguments state_last.awaiting_new_h_files.report_request
                    ("" ++ "The report generation process was started manually.")
                  ++ "Expected next period: "
                  ++ toString state_last.awaiting_new_h_files.next_expected_period ++ "\n"
                  ++ String.join
                      ((skipped_periods state_last.awaiting_new_h_files.next_expected_period
                        (state_last.awaiting_new_h_files.report_request.last_period + 1)).map
                        skipped_period_line)
                  ++ effect.application_log))
      ∧ state_last.awaiting_new_h_files.next_expected_period
          ≤ state_last.awaiting_new_h_files.report_request.last_period
      ∧ (skipped_periods state_last.awaiting_new_h_files.next_expected_period
            (state_last.awaiting_new_h_files.report_request.last_period + 1)).length
          = state_last.awaiting_new_h_files.report_request.last_period
            - state_last.awaiting_new_h_files.next_expected_period + 1
      ∧ state_last.awaiting_new_h_files.report_request.last_period ≤ Period_max
      ∧ log_skipped_periods_loop 2 4294967295 4294967296 ""
          = some (log_skipped_periods 4294967295 4294967296 "") :=
  ⟨⟨_, rfl, rfl,
      (skipped_period_logging env_ok (state_B 1) (inputs_period "4") [] [] "" "h" 4).1 _ rfl⟩,
    ⟨_, rfl, rfl,
      (skipped_period_logging env_finish state_last (inputs_period "4") [] [] "" "h" 4).2.1 _
        rfl⟩,
    by decide,
    (skipped_period_logging env_finish state_last (inputs_period "4") [] [] "" "h" 4).2.2.2.2.1
      (by decide),
    by decide,
    (skipped_period_logging env_finish state_last (inputs_period "4") [] [] "" "h" 4).2.2.2.2.2
      (by decide) ""⟩

/-- C35: `process_manually_finish_report` and the records of the current S
file. When the current S file holds no record the function throws; an
invocation of `run` with the single argument `finish-report` then leaves the
state file as it was; and when the other collaborators succeed and the dummy H
file is empty, the exception is the EnclaveException "No data was found in the
S file (if you want to cancel the processing, use the <cancel> argument)".
Whenever the function returns, the current S file held a record, the analysis
ran as FullAnalysis on the dummy H file, which holds no record, with the
pseudonymisation key of sixteen zero bytes, and the state awaits a request
with slot index 0. And the function does return when every collaborator
succeeds, the dummy H file is empty and the current S file holds a record. -/
theorem manual_finish_needs_s_records (env : Env) (state : State) (outputs : TaskOutputs)
    (old_s_files_to_delete : List String) (application_log : String) :
    (env.s_file_source (s_file_path env state.s_file_name_index) state.s_file_key = .ok 0 →
        (∃ e, process_manually_finish_report env state outputs old_s_files_to_delete
            application_log = .error e)
          ∧ (state.state = .AWAITING_NEW_H_FILES → ∀ (inputs : TaskInputs) (v : String),
              inputs.arguments = [("finish-report", v)] →
              (run env (some state) inputs).state_file = some state
                ∧ ∃ e, (run env (some state) inputs).outcome = .error e)
          ∧ (∀ new_s_file_key,
              env.create_dummy_h_file (env.persistent_path ++ "dummy_h_file") = .ok () →
              env.create_empty_if_not_exists (s_file_path env state.s_file_name_index)
                state.s_file_key = .ok () →
              env.sgx_read_rand = .ok new_s_file_key →
              env.h_file_source (env.persistent_path ++ "dummy_h_file") = .ok 0 →
              process_manually_finish_report env state outputs old_s_files_to_delete
                  application_log
                = .error (.EnclaveException
                    ("No data was found in the S file (if you want to cancel the "
                      ++ "processing, use the <cancel> argument)"))))
      ∧ (∀ r, process_manually_finish_report env state outputs old_s_files_to_delete
            application_log = .ok r →
          (∃ s_records, env.s_file_source (s_file_path env state.s_file_name_index)
              state.s_file_key = .ok s_records ∧ s_records ≠ 0)
            ∧ (∃ arguments effect, env.full_analysis_run arguments = .ok effect
                ∧ arguments.what_to_do = .FullAnalysis
                ∧ arguments.pseudonymisation_key = List.replicate 16 0
                ∧ env.h_file_source arguments.h_file = .ok 0
                ∧ arguments.s_file_in = s_file_path env state.s_file_name_index
                ∧ r.outputs = outputs ++ effect.outputs)
            ∧ r.state.state = .AWAITING_NEW_NSI_REPORT_REQUESTS
            ∧ r.state.s_file_name_index = false)
      ∧ (∀ (new_s_file_key : SgxFileKey) (s_records : Nat) (reference_areas : ReferenceAreas)
          (effect : RunEffect),
          env.create_dummy_h_file (env.persistent_path ++ "dummy_h_file") = .ok () →
          env.create_empty_if_not_exists (s_file_path env state.s_file_name_index)
            state.s_file_key = .ok () →
          env.sgx_read_rand = .ok new_s_file_key →
          env.h_file_source (env.persistent_path ++ "dummy_h_file") = .ok 0 →
          env.s_file_source (s_file_path env state.s_file_name_index) state.s_file_key
            = .ok s_records →
          s_records ≠ 0 →
          deserialize (PRANGE state.awaiting_new_h_files.report_request.reference_areas
            state.awaiting_new_h_files.report_request.num_of_reference_areas ⟨0, ⟨0, 0⟩⟩)
            = .ok reference_areas →
          env.full_analysis_run
              { h_file := env.persistent_path ++ "dummy_h_file"
                s_file_in := s_file_path env state.s_file_name_index
                s_file_in_key := state.s_file_key
                s_file_out := s_file_path env (!state.s_file_name_index)
                s_file_out_key := new_s_file_key
                pseudonymisation_key := List.replicate 16 0
                what_to_do := .FullAnalysis
                reference_areas := reference_areas
                residents := deserialize_census []
                  (PRANGE state.awaiting_new_h_files.report_request.census_residents
                    state.awaiting_new_h_files.report_request.num_of_census_residents
                    ⟨⟨0, 0⟩, 0⟩)
                with_calibration :=
                  state.awaiting_new_h_files.report_request.with_calibration ≠ 0 }
              = .ok effect →
          ∃ r, process_manually_finish_report env state outputs old_s_files_to_delete
            application_log = .ok r) := by
  refine ⟨fun hs => ⟨?_, ?_, ?_⟩, fun r h => ?_, ?_⟩
  · exact process_manually_finish_report_empty_s env state outputs old_s_files_to_delete
      application_log hs
  · intro hstate inputs v hargs
    obtain ⟨e, he⟩ := process_manually_finish_report_empty_s env state [] [] "" hs
    have hp : process_state env (load_state (some state)) inputs [] [] "" = .error e := by
      rw [← he]
      exact process_state_finish_report env state inputs [] [] "" v hstate hargs
    have hrun : run env (some state) inputs = ⟨some state, .error e⟩ := by
      simp only [run, hp]
    rw [hrun]
    exact ⟨rfl, e, rfl⟩
  · intro new_s_file_key hdummy hcreate hrand hh
    unfold process_manually_finish_report
    simp only [bind, Except.bind, pure, Except.pure, throw, throwThe, MonadExceptOf.throw,
      hdummy, hcreate, hrand, hh, hs, external, not_true_eq_false, if_false, if_true]
    rfl
  · obtain ⟨_, s_records, _, effect, _, _, hh, hs, hs0, _, hrun, hr⟩ :=
      process_manually_finish_report_ok env state outputs old_s_files_to_delete
        application_log r h
    refine ⟨⟨s_records, hs, hs0⟩, ⟨_, effect, hrun, rfl, rfl, hh, rfl, ?_⟩, ?_, ?_⟩
    · rw [hr]
    · rw [hr]
      rfl
    · rw [hr]
      rfl
  · intro new_s_file_key s_records reference_areas effect hdummy hcreate hrand hh hs hs0 hde hrun
    exact process_manually_finish_report_runs env state outputs old_s_files_to_delete
      application_log new_s_file_key s_records reference_areas effect hdummy hcreate hrand hh hs
      hs0 hde hrun

theorem manual_finish_needs_s_records_witness :
    env_empty_s.s_file_source (s_file_path env_empty_s (state_B 2).s_file_name_index)
        (state_B 2).s_file_key = .ok 0
      ∧ (run env_empty_s (some (state_B 2)) inputs_finish).state_file = some (state_B 2)
      ∧ (run env_empty_s (some (state_B 2)) inputs_finish).outcome
          = .error (.EnclaveException
              ("No data was found in the S file (if you want to cancel the "
                ++ "processing, use the <cancel> argument)"))
      ∧ process_manually_finish_report env_empty_s (state_B 2) [] [] ""
          = .error (.EnclaveException
              ("No data was found in the S file (if you want to cancel the "
                ++ "processing, use the <cancel> argument)"))
      ∧ (∃ r, process_manually_finish_report env_finish (state_B 2) [] [] "" = .ok r
          ∧ r.state.state = .AWAITING_NEW_NSI_REPORT_REQUESTS
          ∧ r.state.s_file_name_index = false
          ∧ ∃ arguments effect, env_finish.full_analysis_run arguments = .ok effect
              ∧ arguments.what_to_do = .FullAnalysis
              ∧ arguments.pseudonymisation_key = List.replicate 16 0
              ∧ env_finish.h_file_source arguments.h_file = .ok 0
              ∧ arguments.s_file_in = s_file_path env_finish (state_B 2).s_file_name_index
              ∧ r.outputs = [] ++ effect.outputs)
      ∧ ∃ r, process_manually_finish_report env_finish (state_B 2) [] [] "" = .ok r :=
  ⟨rfl,
    (((manual_finish_needs_s_records env_empty_s (state_B 2) [] [] "").1 rfl).2.1 rfl
      inputs_finish "" rfl).1,
    rfl,
    ((manual_finish_needs_s_records env_empty_s (state_B 2) [] [] "").1 rfl).2.2
      (List.replicate 16 7) rfl rfl rfl rfl,
    ⟨_, rfl,
      ((manual_finish_needs_s_records env_finish (state_B 2) [] [] "").2.1 _ rfl).2.2.1,
      ((manual_finish_needs_s_records env_finish (state_B 2) [] [] "").2.1 _ rfl).2.2.2,
      ((manual_finish_needs_s_records env_finish (state_B 2) [] [] "").2.1 _ rfl).2.1⟩,
    (manual_finish_needs_s_records env_finish (state_B 2) [] [] "").2.2 (List.replicate 16 7) 3
      [[⟨10, 10⟩]] ⟨"", []⟩ rfl rfl rfl rfl rfl (by decide) rfl rfl⟩

/-- C40, evaluated on scenario 3 continued. After the request for the periods
1 to 5 is digested and the periods 1 and 4 are processed, the state awaits H
files with `next_expected_period = 3`, so the processed period 4 is not below
it; and the next invocation for period 4 succeeds again, under the same
request, and leaves `next_expected_period = 4`. -/
theorem processed_period_is_accepted_again :
    scenario_gap.outcome.toOption.isSome = true
      ∧ scenario_gap.state_file.map
          (fun s => (s.state, s.awaiting_new_h_files.report_request,
            s.awaiting_new_h_files.next_expected_period))
        = some (.AWAITING_NEW_H_FILES, request_B, 3)
      ∧ ¬ (4 < 3)
      ∧ scenario_repeat.outcome.toOption.isSome = true
      ∧ scenario_repeat.state_file.map
          (fun s => (s.state, s.awaiting_new_h_files.report_request,
            s.awaiting_new_h_files.next_expected_period))
        = some (.AWAITING_NEW_H_FILES, request_B, 4) :=
  ⟨rfl, rfl, by decide, rfl, rfl⟩

/-! ## The period range check and the metadata file -/

/-- C4, evaluated on an H file whose metadata file cannot be opened. With
request B (periods 1 to 5) and next expected period 2, the period 9 is outside
the range of expected periods, yet `process_h_file` and the invocation `run`
end with the exception of the file access, which is not an InvalidRequest:
`read_h_metadata_file` is called before the range check. The state file is
left as it was. -/
theorem out_of_range_period_without_metadata :
    ¬ ((state_B 2).awaiting_new_h_files.next_expected_period ≤ 9
        ∧ 9 ≤ (state_B 2).awaiting_new_h_files.report_request.last_period)
      ∧ process_h_file env_no_meta (state_B 2) (inputs_period "9") [] [] "" "h" 9
          = .error (.external "No such file or directory")
      ∧ (¬ ∃ what, process_h_file env_no_meta (state_B 2) (inputs_period "9") [] [] "" "h" 9
          = .error (.InvalidRequest what))
      ∧ (run env_no_meta (some (state_B 2)) (inputs_period "9")).outcome
          = .error (.external "No such file or directory")
      ∧ (¬ ∃ what, (run env_no_meta (some (state_B 2)) (inputs_period "9")).outcome
          = .error (.InvalidRequest what))
      ∧ (run env_no_meta (some (state_B 2)) (inputs_period "9")).state_file
          = some (state_B 2) := by
  have h : process_h_file env_no_meta (state_B 2) (inputs_period "9") [] [] "" "h" 9
      = .error (.external "No such file or directory") := rfl
  have hrun : (run env_no_meta (some (state_B 2)) (inputs_period "9")).outcome
      = .error (.external "No such file or directory") := rfl
  refine ⟨by decide, h, ?_, hrun, ?_, rfl⟩
  · rintro ⟨what, hw⟩
    rw [h] at hw
    cases hw
  · rintro ⟨what, hw⟩
    rw [hrun] at hw
    cases hw

end Eurostat
